import Mathlib

/-!
# CPP_TO_PYTHON: lexer, recursive-descent parser and Python emitter

A shallow embedding of `src/lexer.cpp`, `src/parser.cpp` and `src/codegen.cpp`.

* A C++ `string` is a list of characters (`Str`).
* The lexer state `(sourceCode, currentPos)` is the suffix of the source text that
  starts at `currentPos`.
* The parser state `(tokens, pos)` is the suffix of the token vector that starts at
  `pos`; the empty suffix is the state `pos = tokens.size()`, in which `current()`
  indexes the vector out of its bounds.
* A thrown `runtime_error` is the result `Res.error`, an out-of-bounds read of the
  token vector is `Res.outOfBounds`.
* Recursion and loops of the parser are bounded by a fuel argument (the depth of
  the call chain); `Res.outOfFuel` marks an exhausted bound.
-/

namespace CppToPython

/-- The C++ `string`: a sequence of characters. -/
abbrev Str := List Char

/-! ## lexer.cpp -/

/-- The token kinds of `enum class TokenType`. -/
inductive TokenType where
  | KEYWORD_INT | KEYWORD_FLOAT | KEYWORD_IF | KEYWORD_ELSE | KEYWORD_FOR
  | KEYWORD_WHILE | KEYWORD_COUT | KEYWORD_ENDL | KEYWORD_MAIN
  | IDENTIFIER | NUMBER_LITERAL | STRING_LITERAL
  | EQUALS | DOUBLE_EQUALS | PLUS | PLUS_PLUS | MINUS | MULTIPLY | DIVIDE | MODULO
  | LESS_THAN | LESS_THAN_EQUAL | GREATER_THAN | GREATER_THAN_EQUAL | NOT_EQUAL
  | STREAM_OPERATOR
  | OPEN_PAREN | CLOSE_PAREN | OPEN_BRACE | CLOSE_BRACE | SEMICOLON
  | END_OF_FILE | UNKNOWN
  deriving DecidableEq, Repr

open TokenType

/-- The name of a token kind, `tokenTypeToString`. -/
def tokenTypeToString : TokenType → Str
  | KEYWORD_INT => "KEYWORD_INT".toList
  | KEYWORD_FLOAT => "KEYWORD_FLOAT".toList
  | KEYWORD_IF => "KEYWORD_IF".toList
  | KEYWORD_ELSE => "KEYWORD_ELSE".toList
  | KEYWORD_FOR => "KEYWORD_FOR".toList
  | KEYWORD_WHILE => "KEYWORD_WHILE".toList
  | KEYWORD_COUT => "KEYWORD_COUT".toList
  | KEYWORD_MAIN => "KEYWORD_MAIN".toList
  | KEYWORD_ENDL => "KEYWORD_ENDL".toList
  | IDENTIFIER => "IDENTIFIER".toList
  | NUMBER_LITERAL => "NUMBER_LITERAL".toList
  | STRING_LITERAL => "STRING_LITERAL".toList
  | EQUALS => "EQUALS".toList
  | DOUBLE_EQUALS => "DOUBLE_EQUALS".toList
  | PLUS => "PLUS".toList
  | PLUS_PLUS => "PLUS_PLUS".toList
  | MINUS => "MINUS".toList
  | MULTIPLY => "MULTIPLY".toList
  | DIVIDE => "DIVIDE".toList
  | MODULO => "MODULO".toList
  | LESS_THAN => "LESS_THAN".toList
  | LESS_THAN_EQUAL => "LESS_THAN_EQUAL".toList
  | GREATER_THAN => "GREATER_THAN".toList
  | GREATER_THAN_EQUAL => "GREATER_THAN_EQUAL".toList
  | NOT_EQUAL => "NOT_EQUAL".toList
  | STREAM_OPERATOR => "STREAM_OPERATOR".toList
  | OPEN_PAREN => "OPEN_PAREN".toList
  | CLOSE_PAREN => "CLOSE_PAREN".toList
  | OPEN_BRACE => "OPEN_BRACE".toList
  | CLOSE_BRACE => "CLOSE_BRACE".toList
  | SEMICOLON => "SEMICOLON".toList
  | END_OF_FILE => "END_OF_FILE".toList
  | UNKNOWN => "UNKNOWN".toList

/-- The `struct Token`: a kind and the lexeme. -/
structure Token where
  type : TokenType
  value : Str
  deriving DecidableEq, Repr

/-- The C `isspace` in the "C" locale: space, `\t`, `\n`, `\v`, `\f`, `\r`. -/
def isspace (c : Char) : Bool :=
  c == ' ' || c == '\t' || c == '\n' || c == '\x0b' || c == '\x0c' || c == '\r'

/-- The C `isdigit`. -/
def isdigit (c : Char) : Bool := '0' ≤ c && c ≤ '9'

/-- The C `isalpha` in the "C" locale. -/
def isalpha (c : Char) : Bool := ('a' ≤ c && c ≤ 'z') || ('A' ≤ c && c ≤ 'Z')

/-- The C `isalnum`. -/
def isalnum (c : Char) : Bool := isalpha c || isdigit c

/-- The keyword table filled in by the constructor `Lexer::Lexer`. -/
def keywords (w : Str) : Option TokenType :=
  if w = "int".toList then some KEYWORD_INT
  else if w = "float".toList then some KEYWORD_FLOAT
  else if w = "if".toList then some KEYWORD_IF
  else if w = "else".toList then some KEYWORD_ELSE
  else if w = "for".toList then some KEYWORD_FOR
  else if w = "while".toList then some KEYWORD_WHILE
  else if w = "cout".toList then some KEYWORD_COUT
  else if w = "main".toList then some KEYWORD_MAIN
  else if w = "endl".toList then some KEYWORD_ENDL
  else none

/-- The character after the current one, or NUL at the end: `Lexer::peek`.
The argument is the source text from `currentPos` on. -/
def peek : Str → Char
  | _ :: c :: _ => c
  | _ => '\x00'

/-- Skips to the next newline (which stays): `Lexer::skipComment`. -/
def skipComment : Str → Str
  | [] => []
  | c :: cs => if c ≠ '\n' then skipComment cs else c :: cs

/-- Characters of an identifier: `isalnum(c) || c == '_'`. -/
def isIdentChar (c : Char) : Bool := isalnum c || c == '_'

/-- The loop of `Lexer::readIdentifier`: the accepted run and the text left. -/
def readIdentifierLoop : Str → Str × Str
  | [] => ([], [])
  | c :: cs =>
    if isIdentChar c then ((c :: (readIdentifierLoop cs).1), (readIdentifierLoop cs).2)
    else ([], c :: cs)

/-- The token and the text left: `Lexer::readIdentifier`. -/
def readIdentifier (s : Str) : Token × Str :=
  (⟨(keywords (readIdentifierLoop s).1).getD IDENTIFIER, (readIdentifierLoop s).1⟩,
    (readIdentifierLoop s).2)

/-- The loop of `Lexer::readNumber` with its flag `hasDecimal`. -/
def readNumberLoop : Bool → Str → Str × Str
  | _, [] => ([], [])
  | hasDecimal, c :: cs =>
    if isdigit c || c == '.' then
      if c == '.' then
        if hasDecimal then ([], c :: cs)
        else ((c :: (readNumberLoop true cs).1), (readNumberLoop true cs).2)
      else ((c :: (readNumberLoop hasDecimal cs).1), (readNumberLoop hasDecimal cs).2)
    else ([], c :: cs)

/-- The token and the text left: `Lexer::readNumber`. -/
def readNumber (s : Str) : Token × Str :=
  (⟨NUMBER_LITERAL, (readNumberLoop false s).1⟩, (readNumberLoop false s).2)

/-- The loop of `Lexer::readStringLiteral`: the content up to the next quote and
the text from that quote on. -/
def readStringLoop : Str → Str × Str
  | [] => ([], [])
  | c :: cs =>
    if c ≠ '"' then ((c :: (readStringLoop cs).1), (readStringLoop cs).2)
    else ([], c :: cs)

/-- The token and the text left: `Lexer::readStringLiteral`. The opening quote is
skipped, and so is the character the loop stopped at (if any). -/
def readStringLiteral (s : Str) : Token × Str :=
  (⟨STRING_LITERAL, (readStringLoop (s.drop 1)).1⟩, (readStringLoop (s.drop 1)).2.drop 1)

/-- The last branches of step 6 of the loop body of `Lexer::tokenize`, the
single-character operators and punctuation and the final `else`: the token pushed
(each of these branches consumes one character). -/
def punctuationToken (currentChar : Char) : Token :=
  if currentChar = '-' then ⟨MINUS, "-".toList⟩
  else if currentChar = '*' then ⟨MULTIPLY, "*".toList⟩
  else if currentChar = '/' then ⟨DIVIDE, "/".toList⟩
  else if currentChar = '%' then ⟨MODULO, "%".toList⟩
  else if currentChar = '(' then ⟨OPEN_PAREN, "(".toList⟩
  else if currentChar = ')' then ⟨CLOSE_PAREN, ")".toList⟩
  else if currentChar = '\x7b' then ⟨OPEN_BRACE, "\x7b".toList⟩
  else if currentChar = '\x7d' then ⟨CLOSE_BRACE, "\x7d".toList⟩
  else if currentChar = ';' then ⟨SEMICOLON, ";".toList⟩
  else ⟨UNKNOWN, [currentChar]⟩

/-- Step 6 of the loop body of `Lexer::tokenize`, operators and punctuation: the
token pushed and the number of characters consumed. The second argument is the
source text from `currentPos` on. -/
def operatorToken (currentChar : Char) (s : Str) : Token × Nat :=
  if currentChar = '=' then
    if peek s = '=' then (⟨DOUBLE_EQUALS, "==".toList⟩, 2) else (⟨EQUALS, "=".toList⟩, 1)
  else if currentChar = '+' then
    if peek s = '+' then (⟨PLUS_PLUS, "++".toList⟩, 2) else (⟨PLUS, "+".toList⟩, 1)
  else if currentChar = '<' then
    if peek s = '<' then (⟨STREAM_OPERATOR, "<<".toList⟩, 2)
    else if peek s = '=' then (⟨LESS_THAN_EQUAL, "<=".toList⟩, 2)
    else (⟨LESS_THAN, "<".toList⟩, 1)
  else if currentChar = '>' then
    if peek s = '=' then (⟨GREATER_THAN_EQUAL, ">=".toList⟩, 2)
    else (⟨GREATER_THAN, ">".toList⟩, 1)
  else if currentChar = '!' then
    if peek s = '=' then (⟨NOT_EQUAL, "!=".toList⟩, 2) else (⟨UNKNOWN, "!".toList⟩, 1)
  else (punctuationToken currentChar, 1)

/-- The `while` loop of `Lexer::tokenize` followed by the final `push_back` of the
end-of-file token. The first argument bounds the number of iterations; `none`
means the bound was hit before the input was exhausted. -/
def tokenizeLoop : Nat → Str → Option (List Token)
  | 0, _ => none
  | _ + 1, [] => some [⟨END_OF_FILE, []⟩]
  | fuel + 1, currentChar :: cs =>
    if isspace currentChar then tokenizeLoop fuel cs
    else if currentChar = '/' ∧ peek (currentChar :: cs) = '/' then
      tokenizeLoop fuel (skipComment (currentChar :: cs))
    else if isalpha currentChar || currentChar == '_' then
      (tokenizeLoop fuel (readIdentifier (currentChar :: cs)).2).map
        (fun ts => (readIdentifier (currentChar :: cs)).1 :: ts)
    else if isdigit currentChar then
      (tokenizeLoop fuel (readNumber (currentChar :: cs)).2).map
        (fun ts => (readNumber (currentChar :: cs)).1 :: ts)
    else if currentChar = '"' then
      (tokenizeLoop fuel (readStringLiteral (currentChar :: cs)).2).map
        (fun ts => (readStringLiteral (currentChar :: cs)).1 :: ts)
    else
      (tokenizeLoop fuel
          ((currentChar :: cs).drop (operatorToken currentChar (currentChar :: cs)).2)).map
        (fun ts => (operatorToken currentChar (currentChar :: cs)).1 :: ts)

/-- The lexer, `Lexer(source).tokenize()`. Every iteration of the loop consumes at
least one character, so `source.length + 1` iterations are enough. -/
def tokenize (source : Str) : Option (List Token) :=
  tokenizeLoop (source.length + 1) source

/-! ## parser.cpp -/

/-- The expression nodes, the subclasses of `ExprAST`. -/
inductive ExprAST where
  | number (value : Str)
  | variable (name : Str)
  | stringLiteral (value : Str)
  | binary (op : Str) (left right : ExprAST)
  deriving DecidableEq, Repr

/-- The statement nodes, the subclasses of `StatementAST`. The fields appear in the
order of the class declarations. -/
inductive StatementAST where
  | varDecl (varType varName : Str) (initialValue : Option ExprAST)
  | assignment (varName : Str) (value : ExprAST)
  | cout (parts : List ExprAST) (hasEndl : Bool)
  | ifStatement (condition : ExprAST) (thenBody elseBody : List StatementAST)
      (elseIfBlocks : List (ExprAST × List StatementAST))
  | forStatement (init condition increment : Str) (body : List StatementAST)
  | whileStatement (condition : ExprAST) (body : List StatementAST)

/-- A program, `ProgramAST`. -/
abbrev ProgramAST := List StatementAST

/-- Outcome of a run of the parser. -/
inductive Res (α : Type) where
  /-- normal return -/
  | ok (a : α)
  /-- a `runtime_error` was thrown, with its message -/
  | error (msg : Str)
  /-- `tokens[pos]` was read with `pos ≥ tokens.size()` -/
  | outOfBounds
  /-- the bound on the call depth was exhausted -/
  | outOfFuel
  deriving DecidableEq, Repr

/-- Sequencing of parser steps: everything but `ok` ends the run. -/
def Res.bind {α β : Type} (r : Res α) (f : α → Res β) : Res β :=
  match r with
  | .ok a => f a
  | .error msg => .error msg
  | .outOfBounds => .outOfBounds
  | .outOfFuel => .outOfFuel

/-- The method `Parser::advance`: `if (pos < tokens.size()) ++pos`. -/
def advance (ts : List Token) : List Token := ts.tail

/-- The method `Parser::consume`. -/
def consume (type : TokenType) (message : Str) : List Token → Res (List Token)
  | [] => .outOfBounds
  | t :: rest =>
    if t.type = type then .ok (advance (t :: rest))
    else .error ("Parser Error: ".toList ++ message ++ ". Got ".toList ++ tokenTypeToString t.type)

/-- The method `Parser::parseAtom`. -/
def parseAtom : List Token → Res (ExprAST × List Token)
  | [] => .outOfBounds
  | t :: rest =>
    if t.type = NUMBER_LITERAL then .ok (.number t.value, advance (t :: rest))
    else if t.type = IDENTIFIER then .ok (.variable t.value, advance (t :: rest))
    else if t.type = STRING_LITERAL then .ok (.stringLiteral t.value, advance (t :: rest))
    else .error "Expected atom.".toList

/-- The loop condition of `Parser::parseComparison`. -/
def isComparisonOp (t : TokenType) : Bool :=
  t = GREATER_THAN || t = LESS_THAN || t = GREATER_THAN_EQUAL || t = LESS_THAN_EQUAL ||
    t = DOUBLE_EQUALS || t = NOT_EQUAL

mutual
/-- The method `Parser::parseFactor`. -/
def parseFactor : Nat → List Token → Res (ExprAST × List Token)
  | 0, _ => .outOfFuel
  | _ + 1, [] => .outOfBounds
  | fuel + 1, t :: rest =>
    if t.type = OPEN_PAREN then
      (parseComparison fuel (advance (t :: rest))).bind fun r =>
        (consume CLOSE_PAREN "')'".toList r.2).bind fun ts => .ok (r.1, ts)
    else parseAtom (t :: rest)
/-- The `while` loop of `Parser::parseTerm`, entered with the tree built so far. -/
def parseTermLoop : Nat → ExprAST → List Token → Res (ExprAST × List Token)
  | 0, _, _ => .outOfFuel
  | _ + 1, _, [] => .outOfBounds
  | fuel + 1, left, t :: rest =>
    if t.type = MULTIPLY ∨ t.type = DIVIDE then
      (parseFactor fuel (advance (t :: rest))).bind fun r =>
        parseTermLoop fuel
          (.binary (if t.type = MULTIPLY then "*".toList else "/".toList) left r.1) r.2
    else .ok (left, t :: rest)
/-- The method `Parser::parseTerm`. -/
def parseTerm : Nat → List Token → Res (ExprAST × List Token)
  | 0, _ => .outOfFuel
  | fuel + 1, ts => (parseFactor fuel ts).bind fun r => parseTermLoop fuel r.1 r.2
/-- The `while` loop of `Parser::parseExpression`. -/
def parseExpressionLoop : Nat → ExprAST → List Token → Res (ExprAST × List Token)
  | 0, _, _ => .outOfFuel
  | _ + 1, _, [] => .outOfBounds
  | fuel + 1, left, t :: rest =>
    if t.type = PLUS ∨ t.type = MINUS then
      (parseTerm fuel (advance (t :: rest))).bind fun r =>
        parseExpressionLoop fuel
          (.binary (if t.type = PLUS then "+".toList else "-".toList) left r.1) r.2
    else .ok (left, t :: rest)
/-- The method `Parser::parseExpression`. -/
def parseExpression : Nat → List Token → Res (ExprAST × List Token)
  | 0, _ => .outOfFuel
  | fuel + 1, ts => (parseTerm fuel ts).bind fun r => parseExpressionLoop fuel r.1 r.2
/-- The `while` loop of `Parser::parseComparison`. -/
def parseComparisonLoop : Nat → ExprAST → List Token → Res (ExprAST × List Token)
  | 0, _, _ => .outOfFuel
  | _ + 1, _, [] => .outOfBounds
  | fuel + 1, left, t :: rest =>
    if isComparisonOp t.type then
      (parseExpression fuel (advance (t :: rest))).bind fun r =>
        parseComparisonLoop fuel (.binary t.value left r.1) r.2
    else .ok (left, t :: rest)
/-- The method `Parser::parseComparison`. -/
def parseComparison : Nat → List Token → Res (ExprAST × List Token)
  | 0, _ => .outOfFuel
  | fuel + 1, ts => (parseExpression fuel ts).bind fun r => parseComparisonLoop fuel r.1 r.2
end

/-- The method `Parser::parseVariableDeclaration`. -/
def parseVariableDeclaration (fuel : Nat) : List Token → Res (StatementAST × List Token)
  | [] => .outOfBounds
  | t :: rest =>
    match advance (t :: rest) with
    | [] => .outOfBounds
    | n :: rest1 =>
      (consume IDENTIFIER "variable name".toList (n :: rest1)).bind fun ts1 =>
        match ts1 with
        | [] => .outOfBounds
        | e :: rest2 =>
          if e.type = EQUALS then
            (parseExpression fuel (advance (e :: rest2))).bind fun r =>
              (consume SEMICOLON "';'".toList r.2).bind fun ts2 =>
                .ok (.varDecl t.value n.value (some r.1), ts2)
          else
            (consume SEMICOLON "';'".toList (e :: rest2)).bind fun ts2 =>
              .ok (.varDecl t.value n.value none, ts2)

/-- The method `Parser::parseAssignmentStatement`. -/
def parseAssignmentStatement (fuel : Nat) : List Token → Res (StatementAST × List Token)
  | [] => .outOfBounds
  | t :: rest =>
    (consume EQUALS "'='".toList (advance (t :: rest))).bind fun ts1 =>
      (parseExpression fuel ts1).bind fun r =>
        (consume SEMICOLON "';'".toList r.2).bind fun ts2 =>
          .ok (.assignment t.value r.1, ts2)

/-- The `while` loop of `Parser::parseCoutStatement`: the parts pushed from here on,
whether `hasEndl` gets set from here on, and the tokens left. -/
def parseCoutLoop : Nat → List Token → Res ((List ExprAST × Bool) × List Token)
  | 0, _ => .outOfFuel
  | _ + 1, [] => .outOfBounds
  | fuel + 1, t :: rest =>
    if t.type = STREAM_OPERATOR then
      match advance (t :: rest) with
      | [] => .outOfBounds
      | e :: rest1 =>
        if e.type = KEYWORD_ENDL then
          (parseCoutLoop fuel (advance (e :: rest1))).bind fun r => .ok ((r.1.1, true), r.2)
        else
          (parseExpression fuel (e :: rest1)).bind fun x =>
            (parseCoutLoop fuel x.2).bind fun r => .ok ((x.1 :: r.1.1, r.1.2), r.2)
    else .ok (([], false), t :: rest)

/-- The method `Parser::parseCoutStatement`. -/
def parseCoutStatement (fuel : Nat) (ts : List Token) : Res (StatementAST × List Token) :=
  (parseCoutLoop fuel (advance ts)).bind fun r =>
    (consume SEMICOLON "';'".toList r.2).bind fun ts1 => .ok (.cout r.1.1 r.1.2, ts1)

/-- One of the three capture loops of `Parser::parseForStatement`,
`while (current().type != stop) { text += current().value + " "; advance(); }`:
the captured text and the tokens left. -/
def captureUntil (stop : TokenType) : List Token → Res (Str × List Token)
  | [] => .outOfBounds
  | t :: rest =>
    if t.type ≠ stop then
      (captureUntil stop rest).bind fun r => .ok (t.value ++ " ".toList ++ r.1, r.2)
    else .ok ([], t :: rest)

mutual
/-- The `while` loop of `Parser::parseBlock`. -/
def parseBlockLoop : Nat → List Token → Res (List StatementAST × List Token)
  | 0, _ => .outOfFuel
  | _ + 1, [] => .outOfBounds
  | fuel + 1, t :: rest =>
    if t.type ≠ CLOSE_BRACE ∧ t.type ≠ END_OF_FILE then
      (parseStatement fuel (t :: rest)).bind fun r =>
        (parseBlockLoop fuel r.2).bind fun b => .ok (r.1 :: b.1, b.2)
    else .ok ([], t :: rest)
/-- The method `Parser::parseBlock`. -/
def parseBlock : Nat → List Token → Res (List StatementAST × List Token)
  | 0, _ => .outOfFuel
  | fuel + 1, ts =>
    (consume OPEN_BRACE "'\x7b'".toList ts).bind fun ts1 =>
      (parseBlockLoop fuel ts1).bind fun b =>
        (consume CLOSE_BRACE "'\x7d'".toList b.2).bind fun ts2 => .ok (b.1, ts2)
/-- The `while` loop of `Parser::parseIfStatement` over the `else` keywords: the
else-if blocks pushed from here on, the else body, and the tokens left. -/
def parseElseLoop : Nat → List Token →
    Res ((List (ExprAST × List StatementAST) × List StatementAST) × List Token)
  | 0, _ => .outOfFuel
  | _ + 1, [] => .outOfBounds
  | fuel + 1, t :: rest =>
    if t.type = KEYWORD_ELSE then
      match advance (t :: rest) with
      | [] => .outOfBounds
      | i :: rest1 =>
        if i.type = KEYWORD_IF then
          (consume OPEN_PAREN "'('".toList (advance (i :: rest1))).bind fun ts1 =>
            (parseComparison fuel ts1).bind fun c =>
              (consume CLOSE_PAREN "')'".toList c.2).bind fun ts2 =>
                (parseBlock fuel ts2).bind fun b =>
                  (parseElseLoop fuel b.2).bind fun r =>
                    .ok (((c.1, b.1) :: r.1.1, r.1.2), r.2)
        else
          (parseBlock fuel (i :: rest1)).bind fun b => .ok (([], b.1), b.2)
    else .ok (([], []), t :: rest)
/-- The method `Parser::parseIfStatement`. -/
def parseIfStatement : Nat → List Token → Res (StatementAST × List Token)
  | 0, _ => .outOfFuel
  | fuel + 1, ts =>
    (consume OPEN_PAREN "'('".toList (advance ts)).bind fun ts1 =>
      (parseComparison fuel ts1).bind fun c =>
        (consume CLOSE_PAREN "')'".toList c.2).bind fun ts2 =>
          (parseBlock fuel ts2).bind fun b =>
            (parseElseLoop fuel b.2).bind fun r =>
              .ok (.ifStatement c.1 b.1 r.1.2 r.1.1, r.2)
/-- The method `Parser::parseForStatement`. -/
def parseForStatement : Nat → List Token → Res (StatementAST × List Token)
  | 0, _ => .outOfFuel
  | fuel + 1, ts =>
    (consume OPEN_PAREN "'('".toList (advance ts)).bind fun ts1 =>
      (captureUntil SEMICOLON ts1).bind fun init =>
        (consume SEMICOLON "';'".toList init.2).bind fun ts2 =>
          (captureUntil SEMICOLON ts2).bind fun cond =>
            (consume SEMICOLON "';'".toList cond.2).bind fun ts3 =>
              (captureUntil CLOSE_PAREN ts3).bind fun inc =>
                (consume CLOSE_PAREN "')'".toList inc.2).bind fun ts4 =>
                  (parseBlock fuel ts4).bind fun b =>
                    .ok (.forStatement init.1 cond.1 inc.1 b.1, b.2)
/-- The method `Parser::parseWhileStatement`. -/
def parseWhileStatement : Nat → List Token → Res (StatementAST × List Token)
  | 0, _ => .outOfFuel
  | fuel + 1, ts =>
    (consume OPEN_PAREN "'('".toList (advance ts)).bind fun ts1 =>
      (parseComparison fuel ts1).bind fun c =>
        (consume CLOSE_PAREN "')'".toList c.2).bind fun ts2 =>
          (parseBlock fuel ts2).bind fun b => .ok (.whileStatement c.1 b.1, b.2)
/-- The method `Parser::parseStatement`. -/
def parseStatement : Nat → List Token → Res (StatementAST × List Token)
  | 0, _ => .outOfFuel
  | _ + 1, [] => .outOfBounds
  | fuel + 1, t :: rest =>
    match t.type with
    | KEYWORD_INT => parseVariableDeclaration fuel (t :: rest)
    | KEYWORD_FLOAT => parseVariableDeclaration fuel (t :: rest)
    | IDENTIFIER => parseAssignmentStatement fuel (t :: rest)
    | KEYWORD_COUT => parseCoutStatement fuel (t :: rest)
    | KEYWORD_IF => parseIfStatement fuel (t :: rest)
    | KEYWORD_FOR => parseForStatement fuel (t :: rest)
    | KEYWORD_WHILE => parseWhileStatement fuel (t :: rest)
    | _ => .error ("Unexpected token: ".toList ++ tokenTypeToString t.type)
end

/-- The `while` loop of `Parser::parse`. -/
def parseLoop : Nat → List Token → Res ProgramAST
  | 0, _ => .outOfFuel
  | _ + 1, [] => .outOfBounds
  | fuel + 1, t :: rest =>
    if t.type ≠ END_OF_FILE then
      (parseStatement fuel (t :: rest)).bind fun r =>
        (parseLoop fuel r.2).bind fun p => .ok (r.1 :: p)
    else .ok []

/-- A bound on the depth of the parser's call chain on a token vector; it is never
exhausted (`parse_ne_outOfFuel`). -/
def parseFuel (tokens : List Token) : Nat := 8 * tokens.length + 16

/-- The parser on a token vector: `Parser(tokens).parse()`. -/
def parse (tokens : List Token) : Res ProgramAST :=
  parseLoop (parseFuel tokens) tokens

/-! ## codegen.cpp -/

/-- Modelled from the spec: the `toPython()` methods of the four expression classes,
which `codegen.cpp` calls and the sources do not define. A number is its lexeme, a
variable its name, a string literal its content between fresh double quotes, and a
binary node is `"(" + left + op + right + ")"`. -/
def ExprAST.toPython : ExprAST → Str
  | .number value => value
  | .variable name => name
  | .stringLiteral value => "\"".toList ++ value ++ "\"".toList
  | .binary op left right => "(".toList ++ left.toPython ++ op ++ right.toPython ++ ")".toList

/-- The method `CodeGenrator::indent`: `n` spaces. -/
def indent (n : Nat) : Str := List.replicate n ' '

/-- The method `CodeGenrator::exprToPy`: every node is of one of the four classes,
so one of the casts succeeds. -/
def exprToPy (expr : ExprAST) : Str := expr.toPython

/-- The method `CodeGenrator::varDeclToPy`, on the fields of the node. -/
def varDeclToPy (varName : Str) (initialValue : Option ExprAST) : Str :=
  match initialValue with
  | some v => varName ++ " = ".toList ++ v.toPython
  | none => varName ++ " = None".toList

/-- The method `CodeGenrator::assignToPy`, on the fields of the node. -/
def assignToPy (varName : Str) (value : ExprAST) : Str :=
  varName ++ " = ".toList ++ value.toPython

/-- The loop of `CodeGenrator::coutToPy`: the parts separated by `", "`. -/
def coutPartsToPy : List ExprAST → Str
  | [] => []
  | [e] => e.toPython
  | e :: e1 :: rest => e.toPython ++ ", ".toList ++ coutPartsToPy (e1 :: rest)

/-- The method `CodeGenrator::coutToPy`, on the field `parts` (`hasEndl` is not read). -/
def coutToPy (parts : List ExprAST) : Str :=
  "print(".toList ++ coutPartsToPy parts ++ ")".toList

/-- The lambda `trim` of `CodeGenrator::forToPy`: leading, then trailing, whitespace
is erased. -/
def trim (t : Str) : Str := List.rdropWhile isspace (List.dropWhile isspace t)

/-- The call `s.find(c)` of `std::string` for a character: the first index, or
`none` for `npos`. -/
def findChar (c : Char) : Str → Option Nat
  | [] => none
  | x :: xs => if x = c then some 0 else (findChar c xs).map (· + 1)

/-- The call `s.find(pat)` of `std::string` for a string: the first index at which
`pat` occurs, or `none` for `npos`. -/
def findStr (pat : Str) : Str → Option Nat
  | [] => if pat = [] then some 0 else none
  | x :: xs =>
    if pat.isPrefixOf (x :: xs) then some 0 else (findStr pat xs).map (· + 1)

/-- The step `if (left.find("int ") == 0) left = left.substr(4); else if
(left.find("float ") == 0) left = left.substr(6);` of `CodeGenrator::forToPy`. -/
def forStripType (left : Str) : Str :=
  if findStr "int ".toList left = some 0 then left.drop 4
  else if findStr "float ".toList left = some 0 then left.drop 6
  else left

/-- The variable and the start expression that `CodeGenrator::forToPy` extracts from
the trimmed `init` text; both are empty when it has no `=`. -/
def forVarStart (init : Str) : Str × Str :=
  match findChar '=' init with
  | some eq => (trim (forStripType (trim (init.take eq))), trim (init.drop (eq + 1)))
  | none => ([], [])

/-- The position `opPos` that `CodeGenrator::forToPy` computes in the trimmed
`condition` text: that of the first `<`, or else that of the first `>`. -/
def forOpPos (cond : Str) : Option Nat :=
  match findChar '<' cond with
  | some p => some p
  | none => findChar '>' cond

/-- The end expression that `CodeGenrator::forToPy` extracts from the trimmed
`condition` text. -/
def forEndExpr (cond : Str) : Str :=
  match forOpPos cond with
  | some p => trim (cond.drop (p + 1))
  | none => "/*cond*/".toList

/-- The step that `CodeGenrator::forToPy` computes from the trimmed `increment`. -/
def forStep (inc : Str) : Int :=
  if (findStr "--".toList inc).isSome then -1 else 1

/-- The header line that `CodeGenrator::forToPy` writes before the body, from the
three texts of the node and the indentation. -/
def forHeaderToPy (init condition increment : Str) (indentLevel : Nat) : Str :=
  indent indentLevel ++ "for ".toList ++ (forVarStart (trim init)).1 ++ " in range(".toList ++
    (forVarStart (trim init)).2 ++ ", ".toList ++ forEndExpr (trim condition) ++
    (if forStep (trim increment) ≠ 1 then
      ", ".toList ++ (Int.repr (forStep (trim increment))).toList
    else []) ++ "):\n".toList

mutual
/-- The method `CodeGenrator::toPython`, with `ifToPy`, `forToPy` and `whileToPy`
in its branches. -/
def toPython : StatementAST → Nat → Str
  | .varDecl _ varName initialValue, indentLevel =>
    indent indentLevel ++ varDeclToPy varName initialValue
  | .assignment varName value, indentLevel => indent indentLevel ++ assignToPy varName value
  | .cout parts _, indentLevel => indent indentLevel ++ coutToPy parts
  | .ifStatement condition thenBody elseBody elseIfBlocks, indentLevel =>
    indent indentLevel ++ "if ".toList ++ condition.toPython ++ ":\n".toList ++
      bodyToPy thenBody (indentLevel + 4) ++
      elseIfBlocksToPy elseIfBlocks indentLevel ++
      (if elseBody.isEmpty then []
       else indent indentLevel ++ "else:\n".toList ++ bodyToPy elseBody (indentLevel + 4))
  | .forStatement init condition increment body, indentLevel =>
    forHeaderToPy init condition increment indentLevel ++ bodyToPy body (indentLevel + 4)
  | .whileStatement condition body, indentLevel =>
    indent indentLevel ++ "while ".toList ++ condition.toPython ++ ":\n".toList ++
      bodyToPy body (indentLevel + 4)
/-- The loops `for (auto &s : body) ss << toPython(*s, indentLevel) << "\n"`. -/
def bodyToPy : List StatementAST → Nat → Str
  | [], _ => []
  | s :: rest, indentLevel =>
    toPython s indentLevel ++ "\n".toList ++ bodyToPy rest indentLevel
/-- The loop of `CodeGenrator::ifToPy` over the else-if blocks. -/
def elseIfBlocksToPy : List (ExprAST × List StatementAST) → Nat → Str
  | [], _ => []
  | eif :: rest, indentLevel =>
    indent indentLevel ++ "elif ".toList ++ eif.1.toPython ++ ":\n".toList ++
      bodyToPy eif.2 (indentLevel + 4) ++ elseIfBlocksToPy rest indentLevel
end

/-- The method `CodeGenrator::generate`. -/
def generate (program : ProgramAST) : Str := bodyToPy program 0

/-- The pipeline of `main` in `codegen.cpp`, from the source text to the Python
text: `Lexer`, `Parser`, `CodeGenrator`. -/
def translate (source : Str) : Res Str :=
  match tokenize source with
  | none => .outOfFuel
  | some tokens => (parse tokens).bind fun program => .ok (generate program)

/-- The token vector that `tokenize` returns; `tokenize` returns on every input
(`tokenize_eq_some`). -/
def lex (source : Str) : List Token := (tokenize source).getD []

/-- The end-of-file token that `Lexer::tokenize` pushes last. -/
def eofToken : Token := ⟨END_OF_FILE, []⟩

/-- The token kinds that `parseAtom` accepts. -/
def isAtomType (t : TokenType) : Bool :=
  t = NUMBER_LITERAL || t = IDENTIFIER || t = STRING_LITERAL

/-- The node that `parseAtom` builds from a token of an atom kind. -/
def atomOf (t : Token) : ExprAST :=
  if t.type = NUMBER_LITERAL then .number t.value
  else if t.type = IDENTIFIER then .variable t.value
  else .stringLiteral t.value

/-- The tokens of the additive operators, as the lexer produces them. -/
def additiveOps : List Token := [⟨PLUS, "+".toList⟩, ⟨MINUS, "-".toList⟩]

/-- The tokens of the multiplicative operators, as the lexer produces them. -/
def multiplicativeOps : List Token := [⟨MULTIPLY, "*".toList⟩, ⟨DIVIDE, "/".toList⟩]

/-- The tokens of the six comparison operators, as the lexer produces them. -/
def comparisonOps : List Token :=
  [⟨GREATER_THAN, ">".toList⟩, ⟨LESS_THAN, "<".toList⟩, ⟨GREATER_THAN_EQUAL, ">=".toList⟩,
    ⟨LESS_THAN_EQUAL, "<=".toList⟩, ⟨DOUBLE_EQUALS, "==".toList⟩, ⟨NOT_EQUAL, "!=".toList⟩]

/-- The token vector of `a0 o1 a1 ... on an` followed by end-of-file, from the first
atom and the pairs `(oi, ai)`. -/
def chainTokens (a0 : Token) (pairs : List (Token × Token)) : List Token :=
  a0 :: (pairs.flatMap fun p => [p.1, p.2]) ++ [eofToken]

/-- The left-nested tree `Binary(on, ... Binary(o2, Binary(o1, a0, a1), a2) ..., an)`. -/
def leftNested (a0 : ExprAST) (pairs : List (Token × Token)) : ExprAST :=
  pairs.foldl (fun left p => .binary p.1.value left (atomOf p.2)) a0

/-- A property of the value a run returns, when it returns one. -/
def Res.Sat {α : Type} (r : Res α) (P : α → Prop) : Prop := ∀ a, r = .ok a → P a

/-- Every `cout` keyword of the token vector is directly followed by a `<<` token. -/
def coutFollowed : List Token → Bool
  | [] => true
  | [t] => t.type ≠ KEYWORD_COUT
  | t :: u :: rest =>
    (t.type ≠ KEYWORD_COUT || u.type = STREAM_OPERATOR) && coutFollowed (u :: rest)

mutual
/-- Every `Cout` node of the statement, at any depth, has at least one part or has
`hasEndl` set. -/
def coutNonEmpty : StatementAST → Bool
  | .varDecl _ _ _ => true
  | .assignment _ _ => true
  | .cout parts hasEndl => !parts.isEmpty || hasEndl
  | .ifStatement _ thenBody elseBody elseIfBlocks =>
    coutNonEmptyBody thenBody && coutNonEmptyBody elseBody && coutNonEmptyElseIfs elseIfBlocks
  | .forStatement _ _ _ body => coutNonEmptyBody body
  | .whileStatement _ body => coutNonEmptyBody body
/-- The property `coutNonEmpty` for every statement of a body. -/
def coutNonEmptyBody : List StatementAST → Bool
  | [] => true
  | s :: rest => coutNonEmpty s && coutNonEmptyBody rest
/-- The property `coutNonEmpty` for every statement of every else-if block. -/
def coutNonEmptyElseIfs : List (ExprAST × List StatementAST) → Bool
  | [] => true
  | eif :: rest => coutNonEmptyBody eif.2 && coutNonEmptyElseIfs rest
end

/-- The lexeme of the token kinds whose lexeme is fixed: the keywords, the operators,
the punctuation, and end-of-file (empty). -/
def fixedLexeme : TokenType → Option Str
  | KEYWORD_INT => some "int".toList
  | KEYWORD_FLOAT => some "float".toList
  | KEYWORD_IF => some "if".toList
  | KEYWORD_ELSE => some "else".toList
  | KEYWORD_FOR => some "for".toList
  | KEYWORD_WHILE => some "while".toList
  | KEYWORD_COUT => some "cout".toList
  | KEYWORD_ENDL => some "endl".toList
  | KEYWORD_MAIN => some "main".toList
  | EQUALS => some "=".toList
  | DOUBLE_EQUALS => some "==".toList
  | PLUS => some "+".toList
  | PLUS_PLUS => some "++".toList
  | MINUS => some "-".toList
  | MULTIPLY => some "*".toList
  | DIVIDE => some "/".toList
  | MODULO => some "%".toList
  | LESS_THAN => some "<".toList
  | LESS_THAN_EQUAL => some "<=".toList
  | GREATER_THAN => some ">".toList
  | GREATER_THAN_EQUAL => some ">=".toList
  | NOT_EQUAL => some "!=".toList
  | STREAM_OPERATOR => some "<<".toList
  | OPEN_PAREN => some "(".toList
  | CLOSE_PAREN => some ")".toList
  | OPEN_BRACE => some "\x7b".toList
  | CLOSE_BRACE => some "\x7d".toList
  | SEMICOLON => some ";".toList
  | END_OF_FILE => some []
  | IDENTIFIER => none
  | NUMBER_LITERAL => none
  | STRING_LITERAL => none
  | UNKNOWN => none

/-- The text of an identifier: a letter or underscore, then letters, digits and
underscores. -/
def isIdentifierText : Str → Bool
  | [] => false
  | c :: cs => (isalpha c || c == '_') && cs.all isIdentChar

/-- The text of a number literal: it starts with a digit and consists of digits and
at most one `.`. -/
def isNumberText : Str → Bool
  | [] => false
  | c :: cs => isdigit c && cs.all (fun x => isdigit x || x == '.') && decide (cs.count '.' ≤ 1)

/-- The shape of the lexeme of a token, by kind, as the lexer produces it. -/
def lexemeOk (t : Token) : Bool :=
  match t.type with
  | IDENTIFIER => isIdentifierText t.value && (keywords t.value).isNone
  | NUMBER_LITERAL => isNumberText t.value
  | STRING_LITERAL => t.value.all (fun c => c != '"')
  | UNKNOWN => t.value.length == 1 && t.value.all (fun c => !isspace c)
  | k => fixedLexeme k == some t.value

/-- The lines of a text: the pieces between its newline characters. -/
def splitLines : Str → List Str
  | [] => [[]]
  | c :: cs =>
    if c = '\n' then [] :: splitLines cs
    else (c :: (splitLines cs).headD []) :: (splitLines cs).tail

/-- The number of space characters a line starts with. -/
def leadingSpaces (line : Str) : Nat := (line.takeWhile (· == ' ')).length

/-- A line without a newline character that is empty or starts with a multiple of
four spaces. -/
def lineOk (line : Str) : Bool :=
  line.all (fun c => c != '\n') && (line.isEmpty || leadingSpaces line % 4 == 0)

/-- Every non-empty line of the text starts with a number of spaces that is a
multiple of four. -/
def indentOk (text : Str) : Bool :=
  (splitLines text).all fun line => line.isEmpty || leadingSpaces line % 4 == 0

/-- The text of a list of lines, each followed by a newline. -/
def joinLines (lines : List Str) : Str := lines.flatMap fun l => l ++ ['\n']

/-- A text made of lines with `lineOk`, each followed by a newline. -/
def LinesOk (text : Str) : Prop := ∃ ls, text = joinLines ls ∧ ∀ l ∈ ls, lineOk l = true

/-- No newline character in a text. -/
def noNewline (s : Str) : Prop := '\n' ∉ s

/-- The token kind of the operator that a `Binary` node carries, from its symbol. -/
def binaryOpType (op : Str) : Option TokenType :=
  if op = "+".toList then some PLUS
  else if op = "-".toList then some MINUS
  else if op = "*".toList then some MULTIPLY
  else if op = "/".toList then some DIVIDE
  else if op = "<".toList then some LESS_THAN
  else if op = ">".toList then some GREATER_THAN
  else if op = "<=".toList then some LESS_THAN_EQUAL
  else if op = ">=".toList then some GREATER_THAN_EQUAL
  else if op = "==".toList then some DOUBLE_EQUALS
  else if op = "!=".toList then some NOT_EQUAL
  else none

/-- The expression trees whose atoms carry lexemes of the right shape and whose
binary nodes carry one of the ten operator symbols. -/
def exprWF : ExprAST → Bool
  | .number value => isNumberText value
  | .variable name => isIdentifierText name && (keywords name).isNone
  | .stringLiteral value => value.all (fun c => c != '"')
  | .binary op left right => (binaryOpType op).isSome && exprWF left && exprWF right

/-- The tokens of the emitted text of an expression tree. -/
def exprTokens : ExprAST → List Token
  | .number value => [⟨NUMBER_LITERAL, value⟩]
  | .variable name => [⟨IDENTIFIER, name⟩]
  | .stringLiteral value => [⟨STRING_LITERAL, value⟩]
  | .binary op left right =>
    ⟨OPEN_PAREN, "(".toList⟩ :: exprTokens left ++
      ⟨(binaryOpType op).getD UNKNOWN, op⟩ :: exprTokens right ++ [⟨CLOSE_PAREN, ")".toList⟩]

/-- The characters an emitted expression can start with. -/
def operandStart (c : Char) : Bool :=
  c == '(' || c == '"' || isdigit c || isalpha c || c == '_'

/-- A text that ends the identifier or number before it: it is empty or starts with a
character that is neither a letter, a digit, an underscore nor a `.`. -/
def delimited : Str → Bool
  | [] => true
  | c :: _ => !isIdentChar c && c != '.'

/-- A bound on the call depth that `parseFactor` needs on the tokens of a tree. -/
def exprDepth : ExprAST → Nat
  | .binary _ left right => max (exprDepth left) (exprDepth right) + 5
  | _ => 1

/-- One iteration of the loop of `Lexer::tokenize` on a non-empty text: the token
pushed, or `none` when whitespace or a comment is skipped, and the text left. -/
def lexStep (c : Char) (cs : Str) : Option Token × Str :=
  if isspace c then (none, cs)
  else if c = '/' ∧ peek (c :: cs) = '/' then (none, skipComment (c :: cs))
  else if isalpha c || c == '_' then
    (some (readIdentifier (c :: cs)).1, (readIdentifier (c :: cs)).2)
  else if isdigit c then (some (readNumber (c :: cs)).1, (readNumber (c :: cs)).2)
  else if c = '"' then
    (some (readStringLiteral (c :: cs)).1, (readStringLiteral (c :: cs)).2)
  else
    (some (operatorToken c (c :: cs)).1, (c :: cs).drop (operatorToken c (c :: cs)).2)

/-- The lexemes of the tokens of a text, concatenated along the run of the lexer, with
one space where whitespace or comments stood between two tokens. `started` tells that
a token was already written, `separated` that whitespace or a comment was skipped
since; the first argument bounds the number of iterations. -/
def respellLoop : Nat → Bool → Bool → Str → Str
  | 0, _, _, _ => []
  | _ + 1, _, _, [] => []
  | fuel + 1, started, separated, c :: cs =>
    match (lexStep c cs).1 with
    | none => respellLoop fuel started true (lexStep c cs).2
    | some t =>
      (if started && separated then " ".toList else []) ++ t.value ++
        respellLoop fuel true false (lexStep c cs).2

/-- The text of property 1 of the spec: the lexemes of `source` concatenated, with
single spaces where whitespace or comments separated two tokens. -/
def respell (source : Str) : Str := respellLoop (source.length + 1) false false source

/-- The characters that, placed right after the lexeme of a token, would change what
the lexer reads there. -/
def tokenExtends (t : TokenType) (c : Char) : Bool :=
  match t with
  | IDENTIFIER | KEYWORD_INT | KEYWORD_FLOAT | KEYWORD_IF | KEYWORD_ELSE | KEYWORD_FOR
  | KEYWORD_WHILE | KEYWORD_COUT | KEYWORD_ENDL | KEYWORD_MAIN => isIdentChar c
  | NUMBER_LITERAL => isdigit c || c == '.'
  | EQUALS => c == '='
  | PLUS => c == '+'
  | LESS_THAN => c == '<' || c == '='
  | GREATER_THAN => c == '='
  | DIVIDE => c == '/'
  | _ => false

/-- The hypotheses of the invariant theorems of the expression parser: `Inv` is a
property of token vectors kept by dropping tokens, `GE` a property of expression
trees that the atoms built from such vectors have and the binary nodes keep. -/
structure ExprInv (Inv : List Token → Prop) (GE : ExprAST → Prop) : Prop where
  tail : ∀ t ts, Inv (t :: ts) → Inv ts
  atom : ∀ t ts, Inv (t :: ts) → isAtomType t.type = true → GE (atomOf t)
  mul : ∀ l r, GE l → GE r → GE (.binary "*".toList l r)
  div : ∀ l r, GE l → GE r → GE (.binary "/".toList l r)
  add : ∀ l r, GE l → GE r → GE (.binary "+".toList l r)
  sub : ∀ l r, GE l → GE r → GE (.binary "-".toList l r)
  cmp : ∀ t ts l r, Inv (t :: ts) → isComparisonOp t.type = true → GE l → GE r →
    GE (.binary t.value l r)

/-- The hypotheses of the invariant theorem of the statement parser: on top of those
of the expression parser, `GS` is a property of statements that the three simple
statement parsers establish on vectors with `Inv`, and that the compound statements
inherit from their parts. -/
structure StmtInv (Inv : List Token → Prop) (GE : ExprAST → Prop)
    (GS : StatementAST → Prop) : Prop where
  expr : ExprInv Inv GE
  varDecl : ∀ n t ts, Inv (t :: ts) → (t.type = KEYWORD_INT ∨ t.type = KEYWORD_FLOAT) →
    (parseVariableDeclaration n (t :: ts)).Sat fun r => GS r.1
  assign : ∀ n t ts, Inv (t :: ts) → t.type = IDENTIFIER →
    (parseAssignmentStatement n (t :: ts)).Sat fun r => GS r.1
  cout : ∀ n t ts, Inv (t :: ts) → t.type = KEYWORD_COUT →
    (parseCoutStatement n (t :: ts)).Sat fun r => GS r.1
  ifS : ∀ c t e eifs, GE c → (∀ s ∈ t, GS s) → (∀ s ∈ e, GS s) →
    (∀ p ∈ eifs, GE p.1 ∧ ∀ s ∈ p.2, GS s) → GS (.ifStatement c t e eifs)
  forS : ∀ ts1 ts2 ts3 i c n body, Inv ts1 → Inv ts2 → Inv ts3 →
    captureUntil SEMICOLON ts1 = .ok i → captureUntil SEMICOLON ts2 = .ok c →
    captureUntil CLOSE_PAREN ts3 = .ok n → (∀ s ∈ body, GS s) →
    GS (.forStatement i.1 c.1 n.1 body)
  whileS : ∀ c body, GE c → (∀ s ∈ body, GS s) → GS (.whileStatement c body)

/-- The keyword list of section 4.1 of the spec, in its order, each word with its
kind. -/
def specKeywords : List (Str × TokenType) :=
  [("int".toList, KEYWORD_INT), ("float".toList, KEYWORD_FLOAT), ("if".toList, KEYWORD_IF),
    ("else".toList, KEYWORD_ELSE), ("for".toList, KEYWORD_FOR), ("while".toList, KEYWORD_WHILE),
    ("cout".toList, KEYWORD_COUT), ("endl".toList, KEYWORD_ENDL), ("main".toList, KEYWORD_MAIN)]

/-- A non-empty text of digits. -/
def isDigits (a : Str) : Bool := !a.isEmpty && a.all isdigit

/-- No newline character in a text, as a test. -/
def plainText (s : Str) : Bool := s.all fun c => c != '\n'

mutual
/-- No variable name, emitted expression or captured for-header text of the statement,
at any depth, holds a newline character. -/
def plainStmt : StatementAST → Bool
  | .varDecl _ varName initialValue =>
    plainText varName &&
      (match initialValue with
       | some e => plainText e.toPython
       | none => true)
  | .assignment varName value => plainText varName && plainText value.toPython
  | .cout parts _ => parts.all fun e => plainText e.toPython
  | .ifStatement condition thenBody elseBody elseIfBlocks =>
    plainText condition.toPython && plainBody thenBody && plainBody elseBody &&
      plainElseIfs elseIfBlocks
  | .forStatement init condition increment body =>
    plainText init && plainText condition && plainText increment && plainBody body
  | .whileStatement condition body => plainText condition.toPython && plainBody body
/-- The property `plainStmt` for every statement of a body. -/
def plainBody : List StatementAST → Bool
  | [] => true
  | s :: rest => plainStmt s && plainBody rest
/-- The property `plainStmt` for every else-if block: its condition and its body. -/
def plainElseIfs : List (ExprAST × List StatementAST) → Bool
  | [] => true
  | eif :: rest => plainText eif.1.toPython && plainBody eif.2 && plainElseIfs rest
end

/-- The number of lines of a text that, after their leading spaces, start with
`elif `. -/
def elifLines (text : Str) : Nat :=
  (splitLines text).countP fun line => "elif ".toList.isPrefixOf (line.dropWhile (· == ' '))

/-- The number of lines of a text that start with exactly `n` spaces followed by
`elif `. -/
def elifLinesAt (n : Nat) (text : Str) : Nat :=
  (splitLines text).countP fun line => (indent n ++ "elif ".toList).isPrefixOf line

/-- A text made of lines, each followed by a newline, that are empty or start with
`k` spaces. -/
def LinesAt (k : Nat) (text : Str) : Prop :=
  ∃ ls, text = joinLines ls ∧ ∀ l ∈ ls, noNewline l ∧ (l = [] ∨ indent k <+: l)

/-- A text made of lines, each followed by a newline, `n` of which start with exactly
`k` spaces followed by `elif `. -/
def ElifCount (k : Nat) (text : Str) (n : Nat) : Prop :=
  ∃ ls, text = joinLines ls ∧ (∀ l ∈ ls, noNewline l) ∧
    ls.countP (fun line => (indent k ++ "elif ".toList).isPrefixOf line) = n

/-- The token kinds that the parser consumes outside the segments of a for header:
all but `main`, `++`, `%`, end-of-file and `Unknown`. -/
def isGrammarToken (k : TokenType) : Bool :=
  match k with
  | KEYWORD_MAIN | PLUS_PLUS | MODULO | END_OF_FILE | UNKNOWN => false
  | _ => true

/-- The position of a scan of the token vector relative to the for headers: outside
of them, right after a `for` keyword, or in one of the three segments. -/
inductive HeaderPos where
  | outside | afterFor | init | condition | increment
  deriving DecidableEq, Repr

/-- The position after a token: a `for` keyword met outside starts a header, the
token after it (the parenthesis) opens the first segment, a `;` ends the first and the
second segment and a `)` the third. -/
def HeaderPos.next (p : HeaderPos) (t : Token) : HeaderPos :=
  match p with
  | .outside => if t.type = KEYWORD_FOR then .afterFor else .outside
  | .afterFor => .init
  | .init => if t.type = SEMICOLON then .condition else .init
  | .condition => if t.type = SEMICOLON then .increment else .condition
  | .increment => if t.type = CLOSE_PAREN then .outside else .increment

/-- The token lies in a segment of a for header: it is met in a segment and does not
end it. -/
def HeaderPos.captured (p : HeaderPos) (t : Token) : Bool :=
  match p with
  | .outside => false
  | .afterFor => false
  | .init => t.type ≠ SEMICOLON
  | .condition => t.type ≠ SEMICOLON
  | .increment => t.type ≠ CLOSE_PAREN

/-- The position of the scan after the tokens. -/
def headerPos (p : HeaderPos) : List Token → HeaderPos
  | [] => p
  | t :: rest => headerPos (p.next t) rest

/-- The tokens that lie in no segment of a for header, the scan starting at `p`. -/
def outsideHeaders (p : HeaderPos) : List Token → List Token
  | [] => []
  | t :: rest =>
    if p.captured t then outsideHeaders (p.next t) rest
    else t :: outsideHeaders (p.next t) rest

/-- The footprint of a run of the parser that starts at position `p` of the scan: when
it returns, the tokens it consumed lead the scan to `q` and those outside the
segments of the for headers are of kinds with a grammar production; when it reads the
token vector out of its bounds, this holds for all the tokens outside the segments. -/
def FootAt {β : Type} (p q : HeaderPos) (ts : List Token) (res : Res (β × List Token)) : Prop :=
  (∀ x r, res = .ok (x, r) → ∃ a, ts = a ++ r ∧ headerPos p a = q ∧
    ∀ t ∈ outsideHeaders p a, isGrammarToken t.type = true) ∧
  (res = .outOfBounds → ∀ t ∈ outsideHeaders p ts, isGrammarToken t.type = true)

/-- The kinds of the ten binary operators of the expression grammar. -/
def isOperatorToken (k : TokenType) : Bool :=
  k = MULTIPLY || k = DIVIDE || k = PLUS || k = MINUS || isComparisonOp k

/-- The token vector `ts'` is `ts` with its last token, an end-of-file token, replaced
by the tokens `κ`. -/
def Reframed (κ ts ts' : List Token) : Prop :=
  ∃ a z, z.type = END_OF_FILE ∧ ts = a ++ [z] ∧ ts' = a ++ κ

/-- The second run returns what the first returns, with the tokens left reframed. -/
def Framed {β : Type} (κ : List Token) (res res' : Res (β × List Token)) : Prop :=
  ∀ x r, res = .ok (x, r) → ∃ r', res' = .ok (x, r') ∧ Reframed κ r r'

/-- An item that follows a `<<` in a cout statement: the keyword `endl`, or an
expression, given by its tokens and its tree. -/
inductive CoutItem where
  | endl
  | expr (tokens : List Token) (tree : ExprAST)

/-- The tokens of an item. -/
def CoutItem.tokens : CoutItem → List Token
  | .endl => [⟨KEYWORD_ENDL, "endl".toList⟩]
  | .expr tokens _ => tokens

/-- The item is `endl`. -/
def CoutItem.isEndl : CoutItem → Bool
  | .endl => true
  | .expr _ _ => false

/-- The tokens of an expression item, followed by end-of-file, are parsed entirely
by `parseExpression`, to the tree of the item. -/
def CoutItem.valid : CoutItem → Prop
  | .endl => True
  | .expr tokens tree => ∃ n, parseExpression n (tokens ++ [eofToken]) = .ok (tree, [eofToken])

/-- The tokens of a sequence of items, each after a `<<` token. -/
def coutItemsTokens (items : List CoutItem) : List Token :=
  items.flatMap fun i => ⟨STREAM_OPERATOR, "<<".toList⟩ :: i.tokens

/-- The token vector of a source text made of the statement `cout << i1 ... << in;`. -/
def coutTokens (items : List CoutItem) : List Token :=
  ⟨KEYWORD_COUT, "cout".toList⟩ ::
    (coutItemsTokens items ++ [⟨SEMICOLON, ";".toList⟩, eofToken])

/-- The trees of the expression items, in their order. -/
def coutParts (items : List CoutItem) : List ExprAST :=
  items.filterMap fun i =>
    match i with
    | .endl => none
    | .expr _ tree => some tree

/-- The tokens of `int main() {`. -/
def intMainTokens : List Token :=
  [⟨KEYWORD_INT, "int".toList⟩, ⟨KEYWORD_MAIN, "main".toList⟩, ⟨OPEN_PAREN, "(".toList⟩,
    ⟨CLOSE_PAREN, ")".toList⟩, ⟨OPEN_BRACE, "\x7b".toList⟩]

/-- The first index of a text at which a `<` or a `>` stands, whichever character
comes first. -/
def findLessOrGreater : Str → Option Nat
  | [] => none
  | x :: xs => if x = '<' ∨ x = '>' then some 0 else (findLessOrGreater xs).map (· + 1)

/-- The end expression of a for header in the words of the spec, not of the source:
the trimmed text behind the earliest `<` or `>` of the trimmed `condition`, and the
placeholder when it holds neither character. -/
def specForEndExpr (cond : Str) : Str :=
  match findLessOrGreater cond with
  | some p => trim (cond.drop (p + 1))
  | none => "/*cond*/".toList

/-- The ten operator symbols of the spec: `+ - * / < > <= >= == !=`. -/
def specOperators : List Str :=
  ["+".toList, "-".toList, "*".toList, "/".toList, "<".toList, ">".toList, "<=".toList,
    ">=".toList, "==".toList, "!=".toList]

/-- The operators of the `Binary` nodes of an expression tree. -/
def binaryOps : ExprAST → List Str
  | .number _ => []
  | .variable _ => []
  | .stringLiteral _ => []
  | .binary op left right => op :: (binaryOps left ++ binaryOps right)

mutual
/-- The operators of the `Binary` nodes of the expressions of a statement, those of
the statements of its bodies included. The three texts of a `for` header are not
expressions. -/
def stmtBinaryOps : StatementAST → List Str
  | .varDecl _ _ initialValue =>
    match initialValue with
    | some e => binaryOps e
    | none => []
  | .assignment _ value => binaryOps value
  | .cout parts _ => (parts.map binaryOps).flatten
  | .ifStatement condition thenBody elseBody elseIfBlocks =>
    binaryOps condition ++ bodyBinaryOps thenBody ++ bodyBinaryOps elseBody ++
      elseIfsBinaryOps elseIfBlocks
  | .forStatement _ _ _ body => bodyBinaryOps body
  | .whileStatement condition body => binaryOps condition ++ bodyBinaryOps body
/-- The operators of the `Binary` nodes of the statements of a body. -/
def bodyBinaryOps : List StatementAST → List Str
  | [] => []
  | s :: rest => stmtBinaryOps s ++ bodyBinaryOps rest
/-- The operators of the `Binary` nodes of the else-if blocks: conditions and
bodies. -/
def elseIfsBinaryOps : List (ExprAST × List StatementAST) → List Str
  | [] => []
  | eif :: rest => binaryOps eif.1 ++ bodyBinaryOps eif.2 ++ elseIfsBinaryOps rest
end

/-! # Theorems -/

theorem skipComment_length_le (s : Str) : (skipComment s).length ≤ s.length := by
  induction s with
  | nil => simp [skipComment]
  | cons c cs ih =>
    unfold skipComment
    split_ifs
    · simp; omega
    · simp

theorem readIdentifierLoop_append (s : Str) :
    (readIdentifierLoop s).1 ++ (readIdentifierLoop s).2 = s := by
  induction s with
  | nil => simp [readIdentifierLoop]
  | cons c cs ih =>
    unfold readIdentifierLoop
    split_ifs
    · simpa using ih
    · simp

theorem readNumberLoop_append (b : Bool) (s : Str) :
    (readNumberLoop b s).1 ++ (readNumberLoop b s).2 = s := by
  induction s generalizing b with
  | nil => simp [readNumberLoop]
  | cons c cs ih =>
    unfold readNumberLoop
    split_ifs
    · simp
    · simpa using ih true
    · simpa using ih b
    · simp

theorem readStringLoop_append (s : Str) :
    (readStringLoop s).1 ++ (readStringLoop s).2 = s := by
  induction s with
  | nil => simp [readStringLoop]
  | cons c cs ih =>
    unfold readStringLoop
    split_ifs
    · simpa using ih
    · simp

theorem readIdentifier_snd (s : Str) : (readIdentifier s).2 = (readIdentifierLoop s).2 := rfl

theorem readIdentifier_value (s : Str) :
    (readIdentifier s).1.value = (readIdentifierLoop s).1 := rfl

theorem readIdentifier_length_lt (c : Char) (cs : Str) (h : (isalpha c || c == '_') = true) :
    (readIdentifier (c :: cs)).2.length < (c :: cs).length := by
  rw [readIdentifier_snd]
  have h1 := congrArg List.length (readIdentifierLoop_append (c :: cs))
  have h2 : isIdentChar c = true := by
    simp only [isIdentChar, isalnum, Bool.or_eq_true] at *
    tauto
  have h3 : (readIdentifierLoop (c :: cs)).1.length ≥ 1 := by
    simp [readIdentifierLoop, h2]
  simp only [List.length_append] at h1
  omega

theorem readNumber_length_lt (c : Char) (cs : Str) (h : isdigit c = true) :
    (readNumber (c :: cs)).2.length < (c :: cs).length := by
  have h1 := congrArg List.length (readNumberLoop_append false (c :: cs))
  have hc : c ≠ '.' := by
    rintro rfl
    simp [isdigit] at h
  have h3 : (readNumberLoop false (c :: cs)).1.length ≥ 1 := by
    simp [readNumberLoop, h, hc]
  simp only [List.length_append] at h1
  simp only [readNumber]
  omega

theorem readStringLiteral_length_lt (c : Char) (cs : Str) :
    (readStringLiteral (c :: cs)).2.length < (c :: cs).length := by
  have h1 := congrArg List.length (readStringLoop_append cs)
  simp only [List.length_append] at h1
  simp only [readStringLiteral, List.drop_succ_cons, List.drop_zero, List.length_drop,
    List.length_cons]
  omega

theorem operatorToken_consumed (c : Char) (s : Str) :
    1 ≤ (operatorToken c s).2 := by
  simp only [operatorToken, apply_ite Prod.snd]
  split_ifs <;> simp

theorem tokenizeLoop_fuel (n : Nat) : ∀ (m : Nat) (s : Str), s.length < n → s.length < m →
    tokenizeLoop n s = tokenizeLoop m s := by
  induction n with
  | zero => intro m s h; omega
  | succ n ih =>
    intro m s hn hm
    cases m with
    | zero => omega
    | succ m =>
      cases s with
      | nil => simp [tokenizeLoop]
      | cons c cs =>
        simp only [List.length_cons] at hn hm
        unfold tokenizeLoop
        split_ifs with h1 h2 h3 h4 h5
        · exact ih m cs (by omega) (by omega)
        · have := skipComment_length_le cs
          have h6 : skipComment (c :: cs) = skipComment cs := by
            simp [skipComment, h2.1]
          rw [h6]
          exact ih m _ (by omega) (by omega)
        · have := readIdentifier_length_lt c cs h3
          simp only [List.length_cons] at this
          rw [ih m _ (by omega) (by omega)]
        · have := readNumber_length_lt c cs h4
          simp only [List.length_cons] at this
          rw [ih m _ (by omega) (by omega)]
        · have := readStringLiteral_length_lt c cs
          simp only [List.length_cons] at this
          rw [ih m _ (by omega) (by omega)]
        · have := operatorToken_consumed c (c :: cs)
          have h7 : ((c :: cs).drop (operatorToken c (c :: cs)).2).length < n := by
            simp only [List.length_drop, List.length_cons]; omega
          have h8 : ((c :: cs).drop (operatorToken c (c :: cs)).2).length < m := by
            simp only [List.length_drop, List.length_cons]; omega
          rw [ih m _ h7 h8]

theorem skipComment_cons_slash (cs : Str) : skipComment ('/' :: cs) = skipComment cs := by
  simp [skipComment]

/-- The unfolding of `tokenize` on a non-empty text: one iteration of the loop. -/
theorem tokenize_cons (c : Char) (cs : Str) :
    tokenize (c :: cs) =
      if isspace c then tokenize cs
      else if c = '/' ∧ peek (c :: cs) = '/' then tokenize (skipComment (c :: cs))
      else if isalpha c || c == '_' then
        (tokenize (readIdentifier (c :: cs)).2).map (fun ts => (readIdentifier (c :: cs)).1 :: ts)
      else if isdigit c then
        (tokenize (readNumber (c :: cs)).2).map (fun ts => (readNumber (c :: cs)).1 :: ts)
      else if c = '"' then
        (tokenize (readStringLiteral (c :: cs)).2).map
          (fun ts => (readStringLiteral (c :: cs)).1 :: ts)
      else
        (tokenize ((c :: cs).drop (operatorToken c (c :: cs)).2)).map
          (fun ts => (operatorToken c (c :: cs)).1 :: ts) := by
  have key : ∀ r : Str, r.length < (c :: cs).length →
      tokenizeLoop ((c :: cs).length) r = tokenize r := by
    intro r hr
    exact tokenizeLoop_fuel _ _ r hr (Nat.lt_succ_self _)
  conv_lhs => unfold tokenize tokenizeLoop
  split_ifs with h1 h2 h3 h4 h5
  · exact key cs (by simp)
  · have := skipComment_length_le cs
    rw [h2.1, skipComment_cons_slash]
    exact key _ (by simp; omega)
  · rw [key _ (readIdentifier_length_lt c cs h3)]
  · rw [key _ (readNumber_length_lt c cs h4)]
  · rw [key _ (readStringLiteral_length_lt c cs)]
  · have := operatorToken_consumed c (c :: cs)
    rw [key _ (by simp only [List.length_drop, List.length_cons]; omega)]

theorem tokenize_nil : tokenize [] = some [eofToken] := rfl

/-- Induction along the run of the lexer: a property of source texts holds for all
of them when it holds for the empty text and is carried back over every kind of
loop iteration. -/
theorem lexer_induction {motive : Str → Prop} (nil : motive [])
    (space : ∀ c cs, isspace c = true → motive cs → motive (c :: cs))
    (comment : ∀ c cs, isspace c = false → c = '/' ∧ peek (c :: cs) = '/' →
      motive (skipComment (c :: cs)) → motive (c :: cs))
    (ident : ∀ c cs, isspace c = false → ¬ (c = '/' ∧ peek (c :: cs) = '/') →
      (isalpha c || c == '_') = true →
      motive (readIdentifier (c :: cs)).2 → motive (c :: cs))
    (number : ∀ c cs, isspace c = false → ¬ (c = '/' ∧ peek (c :: cs) = '/') →
      (isalpha c || c == '_') = false → isdigit c = true →
      motive (readNumber (c :: cs)).2 → motive (c :: cs))
    (string : ∀ c cs, c = '"' →
      motive (readStringLiteral (c :: cs)).2 → motive (c :: cs))
    (operator : ∀ c cs, isspace c = false → ¬ (c = '/' ∧ peek (c :: cs) = '/') →
      (isalpha c || c == '_') = false → isdigit c = false → c ≠ '"' →
      motive ((c :: cs).drop (operatorToken c (c :: cs)).2) → motive (c :: cs))
    (s : Str) : motive s := by
  generalize hn : s.length = n
  induction n using Nat.strong_induction_on generalizing s with
  | _ n ih =>
    cases s with
    | nil => exact nil
    | cons c cs =>
      subst hn
      by_cases h1 : isspace c = true
      · exact space c cs h1 (ih _ (by simp) cs rfl)
      have h1 : isspace c = false := by simpa using h1
      by_cases h2 : c = '/' ∧ peek (c :: cs) = '/'
      · refine comment c cs h1 h2 (ih _ ?_ _ rfl)
        have := skipComment_length_le cs
        rw [h2.1, skipComment_cons_slash]
        simp; omega
      by_cases h3 : (isalpha c || c == '_') = true
      · exact ident c cs h1 h2 h3 (ih _ (readIdentifier_length_lt c cs h3) _ rfl)
      have h3 : (isalpha c || c == '_') = false := by simpa using h3
      by_cases h4 : isdigit c = true
      · exact number c cs h1 h2 h3 h4 (ih _ (readNumber_length_lt c cs h4) _ rfl)
      have h4 : isdigit c = false := by simpa using h4
      by_cases h5 : c = '"'
      · exact string c cs h5 (ih _ (readStringLiteral_length_lt c cs) _ rfl)
      refine operator c cs h1 h2 h3 h4 h5 (ih _ ?_ _ rfl)
      have := operatorToken_consumed c (c :: cs)
      simp only [List.length_drop, List.length_cons]; omega

theorem tokenize_eq_some (s : Str) : tokenize s = some (lex s) := by
  have h : ∃ ts, tokenize s = some ts := by
    induction s using lexer_induction with
    | nil => exact ⟨_, rfl⟩
    | space c cs h ih => rw [tokenize_cons, if_pos h]; exact ih
    | comment c cs h1 h2 ih => rw [tokenize_cons, if_neg (by simp [h1]), if_pos h2]; exact ih
    | ident c cs h1 h2 h3 ih =>
      obtain ⟨ts, hts⟩ := ih
      rw [tokenize_cons, if_neg (by simp [h1]), if_neg h2, if_pos h3, hts]; exact ⟨_, rfl⟩
    | number c cs h1 h2 h3 h4 ih =>
      obtain ⟨ts, hts⟩ := ih
      rw [tokenize_cons, if_neg (by simp [h1]), if_neg h2, if_neg (by simp [h3]), if_pos h4, hts]
      exact ⟨_, rfl⟩
    | string c cs h5 ih =>
      obtain ⟨ts, hts⟩ := ih
      subst h5
      rw [tokenize_cons, if_neg (by decide), if_neg (fun h => absurd h.1 (by decide)),
        if_neg (by decide), if_neg (by decide), if_pos rfl, hts]
      exact ⟨_, rfl⟩
    | operator c cs h1 h2 h3 h4 h5 ih =>
      obtain ⟨ts, hts⟩ := ih
      rw [tokenize_cons, if_neg (by simp [h1]), if_neg h2, if_neg (by simp [h3]),
        if_neg (by simp [h4]), if_neg h5, hts]
      exact ⟨_, rfl⟩
  obtain ⟨ts, hts⟩ := h
  simp [lex, hts]

theorem lex_nil : lex [] = [eofToken] := rfl

/-- The unfolding of the lexer on a non-empty text: one iteration of the loop. -/
theorem lex_cons (c : Char) (cs : Str) :
    lex (c :: cs) =
      if isspace c then lex cs
      else if c = '/' ∧ peek (c :: cs) = '/' then lex (skipComment (c :: cs))
      else if isalpha c || c == '_' then
        (readIdentifier (c :: cs)).1 :: lex (readIdentifier (c :: cs)).2
      else if isdigit c then (readNumber (c :: cs)).1 :: lex (readNumber (c :: cs)).2
      else if c = '"' then
        (readStringLiteral (c :: cs)).1 :: lex (readStringLiteral (c :: cs)).2
      else
        (operatorToken c (c :: cs)).1 :: lex ((c :: cs).drop (operatorToken c (c :: cs)).2) := by
  have h := tokenize_cons c cs
  simp only [tokenize_eq_some, Option.map_some'] at h
  split_ifs at h ⊢ <;> exact Option.some.inj h

theorem lex_space (c : Char) (cs : Str) (h : isspace c = true) : lex (c :: cs) = lex cs := by
  rw [lex_cons, if_pos h]

theorem lex_comment (c : Char) (cs : Str) (h1 : isspace c = false)
    (h2 : c = '/' ∧ peek (c :: cs) = '/') : lex (c :: cs) = lex (skipComment (c :: cs)) := by
  rw [lex_cons, if_neg (by simp [h1]), if_pos h2]

theorem lex_ident (c : Char) (cs : Str) (h1 : isspace c = false)
    (h2 : ¬ (c = '/' ∧ peek (c :: cs) = '/')) (h3 : (isalpha c || c == '_') = true) :
    lex (c :: cs) = (readIdentifier (c :: cs)).1 :: lex (readIdentifier (c :: cs)).2 := by
  rw [lex_cons, if_neg (by simp [h1]), if_neg h2, if_pos h3]

theorem lex_number (c : Char) (cs : Str) (h1 : isspace c = false)
    (h2 : ¬ (c = '/' ∧ peek (c :: cs) = '/')) (h3 : (isalpha c || c == '_') = false)
    (h4 : isdigit c = true) :
    lex (c :: cs) = (readNumber (c :: cs)).1 :: lex (readNumber (c :: cs)).2 := by
  rw [lex_cons, if_neg (by simp [h1]), if_neg h2, if_neg (by simp [h3]), if_pos h4]

theorem lex_string (cs : Str) :
    lex ('"' :: cs) = (readStringLiteral ('"' :: cs)).1 :: lex (readStringLiteral ('"' :: cs)).2 := by
  rw [lex_cons, if_neg (by decide), if_neg (fun h => absurd h.1 (by decide)),
    if_neg (by decide), if_neg (by decide), if_pos rfl]

theorem lex_operator (c : Char) (cs : Str) (h1 : isspace c = false)
    (h2 : ¬ (c = '/' ∧ peek (c :: cs) = '/')) (h3 : (isalpha c || c == '_') = false)
    (h4 : isdigit c = false) (h5 : c ≠ '"') :
    lex (c :: cs) =
      (operatorToken c (c :: cs)).1 :: lex ((c :: cs).drop (operatorToken c (c :: cs)).2) := by
  rw [lex_cons, if_neg (by simp [h1]), if_neg h2, if_neg (by simp [h3]),
    if_neg (by simp [h4]), if_neg h5]

theorem keywords_ne_eof (w : Str) : (keywords w).getD IDENTIFIER ≠ END_OF_FILE := by
  unfold keywords
  split_ifs <;> simp

theorem punctuationToken_type_ne_eof (c : Char) : (punctuationToken c).type ≠ END_OF_FILE := by
  unfold punctuationToken
  split_ifs <;> simp

theorem operatorToken_type_ne_eof (c : Char) (s : Str) :
    (operatorToken c s).1.type ≠ END_OF_FILE := by
  simp only [operatorToken, apply_ite Prod.fst, apply_ite Token.type]
  split_ifs <;> first | exact punctuationToken_type_ne_eof c | simp

/-- The token vector is a run of tokens that are not end-of-file, followed by the
end-of-file token. -/
theorem lex_shape (s : Str) :
    ∃ init, lex s = init ++ [eofToken] ∧ ∀ t ∈ init, t.type ≠ END_OF_FILE := by
  induction s using lexer_induction with
  | nil => exact ⟨[], rfl, by simp⟩
  | space c cs h ih => rw [lex_space c cs h]; exact ih
  | comment c cs h1 h2 ih => rw [lex_comment c cs h1 h2]; exact ih
  | ident c cs h1 h2 h3 ih =>
    obtain ⟨init, h, hi⟩ := ih
    refine ⟨(readIdentifier (c :: cs)).1 :: init, by rw [lex_ident c cs h1 h2 h3, h]; rfl, ?_⟩
    intro t ht
    rcases List.mem_cons.1 ht with rfl | ht
    · exact keywords_ne_eof _
    · exact hi t ht
  | number c cs h1 h2 h3 h4 ih =>
    obtain ⟨init, h, hi⟩ := ih
    refine ⟨(readNumber (c :: cs)).1 :: init, by rw [lex_number c cs h1 h2 h3 h4, h]; rfl, ?_⟩
    intro t ht
    rcases List.mem_cons.1 ht with rfl | ht
    · simp [readNumber]
    · exact hi t ht
  | string c cs h5 ih =>
    subst h5
    obtain ⟨init, h, hi⟩ := ih
    refine ⟨(readStringLiteral ('"' :: cs)).1 :: init, by rw [lex_string, h]; rfl, ?_⟩
    intro t ht
    rcases List.mem_cons.1 ht with rfl | ht
    · simp [readStringLiteral]
    · exact hi t ht
  | operator c cs h1 h2 h3 h4 h5 ih =>
    obtain ⟨init, h, hi⟩ := ih
    refine ⟨(operatorToken c (c :: cs)).1 :: init,
      by rw [lex_operator c cs h1 h2 h3 h4 h5, h]; rfl, ?_⟩
    intro t ht
    rcases List.mem_cons.1 ht with rfl | ht
    · exact operatorToken_type_ne_eof _ _
    · exact hi t ht

/-- C6: the lexer is total. On every source text `tokenize` returns a token vector,
within any number of loop iterations above the length of the text (every iteration
consumes at least one character); the vector ends with the end-of-file token, whose
lexeme is empty, and no token before it has the end-of-file kind. -/
theorem tokenize_total (source : Str) :
    ∃ tokens init, tokenize source = some tokens ∧
      (∀ k, tokenizeLoop (source.length + 1 + k) source = some tokens) ∧
      tokens = init ++ [⟨END_OF_FILE, []⟩] ∧
      ∀ t ∈ init, t.type ≠ END_OF_FILE := by
  obtain ⟨init, h, hi⟩ := lex_shape source
  refine ⟨lex source, init, tokenize_eq_some source, ?_, h, hi⟩
  intro k
  rw [← tokenize_eq_some source]
  exact tokenizeLoop_fuel _ _ source (by omega) (by omega)

/-- C1 (code bug): on the counting-down loop of Scenario D the emitted header is
`for k in range(10, 0):`, without the third argument `-1`. The lexer has no token for
`--`, the parser captures the increment `k--` as the text `k - - `, and the search for
`--` in it fails. -/
theorem translate_countdown_for :
    translate "for (int k = 10; k > 0; k--) \x7b cout << k << endl; \x7d".toList =
      .ok "for k in range(10, 0):\n    print(k)\n\n".toList := by
  decide

/-- C2 (code bug): on the unterminated header `for (` the capture loop of
`parseForStatement` steps over the end-of-file token and reads the token vector out
of its bounds; the run ends neither with a program nor with a parse error. -/
theorem parse_unterminated_for_out_of_bounds :
    tokenize "for (".toList =
        some [⟨KEYWORD_FOR, "for".toList⟩, ⟨OPEN_PAREN, "(".toList⟩, ⟨END_OF_FILE, []⟩] ∧
      parse [⟨KEYWORD_FOR, "for".toList⟩, ⟨OPEN_PAREN, "(".toList⟩, ⟨END_OF_FILE, []⟩] =
        .outOfBounds := by
  exact ⟨by decide, by rfl⟩

/-- C9 (code bug): on `x = ;` parsing stops at the `;` token inside `parseAtom`, whose
message is `Expected atom.`; it contains the name of no token kind, in particular not
`SEMICOLON`. -/
theorem parse_error_expected_atom_no_kind :
    tokenize "x = ;".toList =
        some [⟨IDENTIFIER, "x".toList⟩, ⟨EQUALS, "=".toList⟩, ⟨SEMICOLON, ";".toList⟩,
          ⟨END_OF_FILE, []⟩] ∧
      parse [⟨IDENTIFIER, "x".toList⟩, ⟨EQUALS, "=".toList⟩, ⟨SEMICOLON, ";".toList⟩,
          ⟨END_OF_FILE, []⟩] = .error "Expected atom.".toList ∧
      ∀ k : TokenType, ¬ tokenTypeToString k <:+: "Expected atom.".toList := by
  refine ⟨by decide, by rfl, ?_⟩
  intro k
  cases k <;> decide

@[simp] theorem Res.bind_ok {α β : Type} (a : α) (f : α → Res β) : (Res.ok a).bind f = f a := rfl
@[simp] theorem Res.bind_error {α β : Type} (m : Str) (f : α → Res β) :
    (Res.error m : Res α).bind f = .error m := rfl
@[simp] theorem Res.bind_outOfBounds {α β : Type} (f : α → Res β) :
    (Res.outOfBounds : Res α).bind f = .outOfBounds := rfl
@[simp] theorem Res.bind_outOfFuel {α β : Type} (f : α → Res β) :
    (Res.outOfFuel : Res α).bind f = .outOfFuel := rfl

theorem parseAtom_atom (t : Token) (rest : List Token) (h : isAtomType t.type = true) :
    parseAtom (t :: rest) = .ok (atomOf t, rest) := by
  simp only [isAtomType, Bool.or_eq_true, decide_eq_true_eq] at h
  unfold parseAtom atomOf advance
  rcases h with (h | h) | h <;> simp [h]

theorem parseFactor_atom (n : Nat) (t : Token) (rest : List Token)
    (h : isAtomType t.type = true) :
    parseFactor (n + 1) (t :: rest) = .ok (atomOf t, rest) := by
  have h1 : t.type ≠ OPEN_PAREN := by
    intro h2; rw [h2] at h; revert h; decide
  rw [parseFactor, if_neg h1, parseAtom_atom t rest h]

/-- The loop of `parseTerm` stops at a token that is neither `*` nor `/`. -/
theorem parseTermLoop_stop (n : Nat) (left : ExprAST) (t : Token) (rest : List Token)
    (h : ¬ (t.type = MULTIPLY ∨ t.type = DIVIDE)) :
    parseTermLoop (n + 1) left (t :: rest) = .ok (left, t :: rest) := by
  rw [parseTermLoop, if_neg h]

theorem parseExpressionLoop_stop (n : Nat) (left : ExprAST) (t : Token) (rest : List Token)
    (h : ¬ (t.type = PLUS ∨ t.type = MINUS)) :
    parseExpressionLoop (n + 1) left (t :: rest) = .ok (left, t :: rest) := by
  rw [parseExpressionLoop, if_neg h]

theorem parseComparisonLoop_stop (n : Nat) (left : ExprAST) (t : Token) (rest : List Token)
    (h : isComparisonOp t.type = false) :
    parseComparisonLoop (n + 1) left (t :: rest) = .ok (left, t :: rest) := by
  rw [parseComparisonLoop, if_neg (by simp [h])]

/-- An atom followed by a token that is neither `*` nor `/` is a whole term. -/
theorem parseTerm_atom (n : Nat) (a t : Token) (rest : List Token)
    (ha : isAtomType a.type = true) (h : ¬ (t.type = MULTIPLY ∨ t.type = DIVIDE)) :
    parseTerm (n + 2) (a :: t :: rest) = .ok (atomOf a, t :: rest) := by
  rw [parseTerm, parseFactor_atom n a _ ha, Res.bind_ok, parseTermLoop_stop n _ t rest h]

/-- An atom followed by a token that is no arithmetic operator is a whole additive
expression. -/
theorem parseExpression_atom (n : Nat) (a t : Token) (rest : List Token)
    (ha : isAtomType a.type = true) (h1 : ¬ (t.type = MULTIPLY ∨ t.type = DIVIDE))
    (h2 : ¬ (t.type = PLUS ∨ t.type = MINUS)) :
    parseExpression (n + 3) (a :: t :: rest) = .ok (atomOf a, t :: rest) := by
  rw [parseExpression, parseTerm_atom n a t rest ha h1, Res.bind_ok,
    parseExpressionLoop_stop _ _ t rest h2]

theorem chainTokens_cons (a0 : Token) (p : Token × Token) (pairs : List (Token × Token)) :
    chainTokens a0 (p :: pairs) = a0 :: p.1 :: chainTokens p.2 pairs := by
  simp [chainTokens]

/-- The head of what follows the first atom of a chain: an operator of the chain or
the end-of-file token. -/
theorem chainTokens_tail (a0 : Token) (pairs : List (Token × Token)) :
    ∃ t rest, chainTokens a0 pairs = a0 :: t :: rest ∧
      (t = eofToken ∨ ∃ p ∈ pairs, t = p.1) := by
  cases pairs with
  | nil => exact ⟨eofToken, [], rfl, Or.inl rfl⟩
  | cons p ps => exact ⟨p.1, _, chainTokens_cons a0 p ps, Or.inr ⟨p, by simp, rfl⟩⟩

theorem parseTermLoop_chain (pairs : List (Token × Token)) :
    ∀ (n : Nat) (left : ExprAST) (a0 : Token),
      (∀ p ∈ pairs, p.1 ∈ multiplicativeOps ∧ isAtomType p.2.type = true) →
      parseTermLoop (n + pairs.length + 2) left ((chainTokens a0 pairs).tail) =
        .ok (pairs.foldl (fun l p => ExprAST.binary p.1.value l (atomOf p.2)) left,
          [eofToken]) := by
  induction pairs with
  | nil =>
    intro n left a0 _
    exact parseTermLoop_stop _ left eofToken [] (by decide)
  | cons p ps ih =>
    intro n left a0 h
    obtain ⟨hop, hat⟩ := h p (by simp)
    have hps : ∀ q ∈ ps, q.1 ∈ multiplicativeOps ∧ isAtomType q.2.type = true :=
      fun q hq => h q (by simp [hq])
    rw [chainTokens_cons, List.tail_cons]
    have e : n + (p :: ps).length + 2 = (n + ps.length + 2) + 1 := by simp; omega
    rw [e, parseTermLoop]
    have hty : p.1.type = MULTIPLY ∨ p.1.type = DIVIDE := by
      simp only [multiplicativeOps, List.mem_cons, List.mem_singleton, List.not_mem_nil,
        or_false] at hop
      rcases hop with h | h <;> simp [h]
    have hval : (if p.1.type = MULTIPLY then "*".toList else "/".toList) = p.1.value := by
      simp only [multiplicativeOps, List.mem_cons, List.mem_singleton, List.not_mem_nil,
        or_false] at hop
      rcases hop with h | h <;> simp [h]
    rw [if_pos hty, hval]
    have e2 : n + ps.length + 2 = (n + ps.length + 1) + 1 := by omega
    have hfac : parseFactor (n + ps.length + 2) (advance (p.1 :: chainTokens p.2 ps)) =
        .ok (atomOf p.2, (chainTokens p.2 ps).tail) := by
      obtain ⟨t, rest, hc, _⟩ := chainTokens_tail p.2 ps
      rw [advance, List.tail_cons, hc, e2, parseFactor_atom _ p.2 _ hat, List.tail_cons]
    rw [hfac, Res.bind_ok]
    exact ih n _ p.2 hps

theorem parseExpressionLoop_chain (pairs : List (Token × Token)) :
    ∀ (n : Nat) (left : ExprAST) (a0 : Token),
      (∀ p ∈ pairs, p.1 ∈ additiveOps ∧ isAtomType p.2.type = true) →
      parseExpressionLoop (n + pairs.length + 3) left ((chainTokens a0 pairs).tail) =
        .ok (pairs.foldl (fun l p => ExprAST.binary p.1.value l (atomOf p.2)) left,
          [eofToken]) := by
  induction pairs with
  | nil =>
    intro n left a0 _
    exact parseExpressionLoop_stop _ left eofToken [] (by decide)
  | cons p ps ih =>
    intro n left a0 h
    obtain ⟨hop, hat⟩ := h p (by simp)
    have hps : ∀ q ∈ ps, q.1 ∈ additiveOps ∧ isAtomType q.2.type = true :=
      fun q hq => h q (by simp [hq])
    rw [chainTokens_cons, List.tail_cons]
    have e : n + (p :: ps).length + 3 = (n + ps.length + 3) + 1 := by simp; omega
    rw [e, parseExpressionLoop]
    have hty : p.1.type = PLUS ∨ p.1.type = MINUS := by
      simp only [additiveOps, List.mem_cons, List.mem_singleton, List.not_mem_nil,
        or_false] at hop
      rcases hop with h | h <;> simp [h]
    have hval : (if p.1.type = PLUS then "+".toList else "-".toList) = p.1.value := by
      simp only [additiveOps, List.mem_cons, List.mem_singleton, List.not_mem_nil,
        or_false] at hop
      rcases hop with h | h <;> simp [h]
    rw [if_pos hty, hval]
    have hterm : parseTerm (n + ps.length + 3) (advance (p.1 :: chainTokens p.2 ps)) =
        .ok (atomOf p.2, (chainTokens p.2 ps).tail) := by
      obtain ⟨t, rest, hc, ht⟩ := chainTokens_tail p.2 ps
      have hnm : ¬ (t.type = MULTIPLY ∨ t.type = DIVIDE) := by
        rcases ht with rfl | ⟨q, hq, rfl⟩
        · decide
        · have := (hps q hq).1
          simp only [additiveOps, List.mem_cons, List.mem_singleton, List.not_mem_nil,
            or_false] at this
          rcases this with h | h <;> simp [h]
      rw [advance, List.tail_cons, hc,
        show n + ps.length + 3 = (n + ps.length + 1) + 2 by omega,
        parseTerm_atom _ p.2 t rest hat hnm, List.tail_cons]
    rw [hterm, Res.bind_ok]
    exact ih n _ p.2 hps

theorem comparisonOps_type (t : Token) (h : t ∈ comparisonOps) :
    isComparisonOp t.type = true ∧ ¬ (t.type = MULTIPLY ∨ t.type = DIVIDE) ∧
      ¬ (t.type = PLUS ∨ t.type = MINUS) := by
  simp only [comparisonOps, List.mem_cons, List.mem_singleton, List.not_mem_nil,
    or_false] at h
  rcases h with h | h | h | h | h | h <;> subst h <;> decide

theorem parseComparisonLoop_chain (pairs : List (Token × Token)) :
    ∀ (n : Nat) (left : ExprAST) (a0 : Token),
      (∀ p ∈ pairs, p.1 ∈ comparisonOps ∧ isAtomType p.2.type = true) →
      parseComparisonLoop (n + pairs.length + 4) left ((chainTokens a0 pairs).tail) =
        .ok (pairs.foldl (fun l p => ExprAST.binary p.1.value l (atomOf p.2)) left,
          [eofToken]) := by
  induction pairs with
  | nil =>
    intro n left a0 _
    exact parseComparisonLoop_stop _ left eofToken [] (by decide)
  | cons p ps ih =>
    intro n left a0 h
    obtain ⟨hop, hat⟩ := h p (by simp)
    have hps : ∀ q ∈ ps, q.1 ∈ comparisonOps ∧ isAtomType q.2.type = true :=
      fun q hq => h q (by simp [hq])
    rw [chainTokens_cons, List.tail_cons]
    have e : n + (p :: ps).length + 4 = (n + ps.length + 4) + 1 := by simp; omega
    rw [e, parseComparisonLoop, if_pos (comparisonOps_type p.1 hop).1]
    have hexp : parseExpression (n + ps.length + 4) (advance (p.1 :: chainTokens p.2 ps)) =
        .ok (atomOf p.2, (chainTokens p.2 ps).tail) := by
      obtain ⟨t, rest, hc, ht⟩ := chainTokens_tail p.2 ps
      have hn : ¬ (t.type = MULTIPLY ∨ t.type = DIVIDE) ∧ ¬ (t.type = PLUS ∨ t.type = MINUS) := by
        rcases ht with rfl | ⟨q, hq, rfl⟩
        · decide
        · exact (comparisonOps_type q.1 (hps q hq).1).2
      rw [advance, List.tail_cons, hc,
        show n + ps.length + 4 = (n + ps.length + 1) + 3 by omega,
        parseExpression_atom _ p.2 t rest hat hn.1 hn.2, List.tail_cons]
    rw [hexp, Res.bind_ok]
    exact ih n _ p.2 hps

theorem chainTokens_length (a0 : Token) (pairs : List (Token × Token)) :
    (chainTokens a0 pairs).length = 2 * pairs.length + 2 := by
  induction pairs generalizing a0 with
  | nil => rfl
  | cons p ps ih => rw [chainTokens_cons, List.length_cons, List.length_cons, ih p.2]; simp; omega

theorem parseFuel_chainTokens (a0 : Token) (pairs : List (Token × Token)) :
    parseFuel (chainTokens a0 pairs) = (15 * pairs.length + 27) + pairs.length + 5 := by
  rw [parseFuel, chainTokens_length]
  omega

/-- C5: left associativity. For a chain `a0 o1 a1 ... on an` of atoms joined by
operators of one precedence level, the parser function of that level returns the
left-nested tree and stops at the end-of-file token. -/
theorem parse_left_associative (a0 : Token) (pairs : List (Token × Token))
    (ha0 : isAtomType a0.type = true) (hat : ∀ p ∈ pairs, isAtomType p.2.type = true) :
    ((∀ p ∈ pairs, p.1 ∈ multiplicativeOps) →
      parseTerm (parseFuel (chainTokens a0 pairs)) (chainTokens a0 pairs) =
        .ok (leftNested (atomOf a0) pairs, [eofToken])) ∧
    ((∀ p ∈ pairs, p.1 ∈ additiveOps) →
      parseExpression (parseFuel (chainTokens a0 pairs)) (chainTokens a0 pairs) =
        .ok (leftNested (atomOf a0) pairs, [eofToken])) ∧
    ((∀ p ∈ pairs, p.1 ∈ comparisonOps) →
      parseComparison (parseFuel (chainTokens a0 pairs)) (chainTokens a0 pairs) =
        .ok (leftNested (atomOf a0) pairs, [eofToken])) := by
  obtain ⟨t, rest, hc, ht⟩ := chainTokens_tail a0 pairs
  have htail : (chainTokens a0 pairs).tail = t :: rest := by rw [hc, List.tail_cons]
  refine ⟨fun hop => ?_, fun hop => ?_, fun hop => ?_⟩
  · rw [parseFuel_chainTokens,
      show 15 * pairs.length + 27 + pairs.length + 5
        = ((15 * pairs.length + 29) + pairs.length + 2) + 1 by omega, parseTerm]
    have hf : parseFactor (15 * pairs.length + 29 + pairs.length + 2) (chainTokens a0 pairs) =
        .ok (atomOf a0, (chainTokens a0 pairs).tail) := by
      rw [htail, hc, show 15 * pairs.length + 29 + pairs.length + 2
        = (15 * pairs.length + 29 + pairs.length + 1) + 1 by omega,
        parseFactor_atom _ a0 _ ha0]
    rw [hf, Res.bind_ok]
    exact parseTermLoop_chain pairs _ _ a0 (fun p hp => ⟨hop p hp, hat p hp⟩)
  · rw [parseFuel_chainTokens,
      show 15 * pairs.length + 27 + pairs.length + 5
        = ((15 * pairs.length + 28) + pairs.length + 3) + 1 by omega, parseExpression]
    have hnm : ¬ (t.type = MULTIPLY ∨ t.type = DIVIDE) := by
      rcases ht with rfl | ⟨q, hq, rfl⟩
      · decide
      · have := hop q hq
        simp only [additiveOps, List.mem_cons, List.mem_singleton, List.not_mem_nil,
          or_false] at this
        rcases this with h | h <;> simp [h]
    have hf : parseTerm (15 * pairs.length + 28 + pairs.length + 3) (chainTokens a0 pairs) =
        .ok (atomOf a0, (chainTokens a0 pairs).tail) := by
      rw [htail, hc, show 15 * pairs.length + 28 + pairs.length + 3
        = (15 * pairs.length + 28 + pairs.length + 1) + 2 by omega,
        parseTerm_atom _ a0 t rest ha0 hnm]
    rw [hf, Res.bind_ok]
    exact parseExpressionLoop_chain pairs _ _ a0 (fun p hp => ⟨hop p hp, hat p hp⟩)
  · rw [parseFuel_chainTokens,
      show 15 * pairs.length + 27 + pairs.length + 5
        = ((15 * pairs.length + 27) + pairs.length + 4) + 1 by omega, parseComparison]
    have hn : ¬ (t.type = MULTIPLY ∨ t.type = DIVIDE) ∧ ¬ (t.type = PLUS ∨ t.type = MINUS) := by
      rcases ht with rfl | ⟨q, hq, rfl⟩
      · decide
      · exact (comparisonOps_type q.1 (hop q hq)).2
    have hf : parseExpression (15 * pairs.length + 27 + pairs.length + 4)
        (chainTokens a0 pairs) = .ok (atomOf a0, (chainTokens a0 pairs).tail) := by
      rw [htail, hc, show 15 * pairs.length + 27 + pairs.length + 4
        = (15 * pairs.length + 27 + pairs.length + 1) + 3 by omega,
        parseExpression_atom _ a0 t rest ha0 hn.1 hn.2]
    rw [hf, Res.bind_ok]
    exact parseComparisonLoop_chain pairs _ _ a0 (fun p hp => ⟨hop p hp, hat p hp⟩)

/-- The left-associativity theorem on the chain `1 - 2 - 3`. -/
theorem parse_left_associative_witness :
    parseExpression 64
        (chainTokens ⟨NUMBER_LITERAL, "1".toList⟩
          [(⟨MINUS, "-".toList⟩, ⟨NUMBER_LITERAL, "2".toList⟩),
            (⟨MINUS, "-".toList⟩, ⟨NUMBER_LITERAL, "3".toList⟩)]) =
      .ok (.binary "-".toList (.binary "-".toList (.number "1".toList) (.number "2".toList))
        (.number "3".toList), [eofToken]) :=
  (parse_left_associative ⟨NUMBER_LITERAL, "1".toList⟩
    [(⟨MINUS, "-".toList⟩, ⟨NUMBER_LITERAL, "2".toList⟩),
      (⟨MINUS, "-".toList⟩, ⟨NUMBER_LITERAL, "3".toList⟩)] (by decide) (by decide)).2.1
    (by decide)

theorem parse_precedence_aux (n : Nat) (a b c : Token) (ha : isAtomType a.type = true)
    (hb : isAtomType b.type = true) (hc : isAtomType c.type = true) :
    parseExpression (n + 6)
        [a, ⟨PLUS, "+".toList⟩, b, ⟨MULTIPLY, "*".toList⟩, c, eofToken] =
      .ok (.binary "+".toList (atomOf a) (.binary "*".toList (atomOf b) (atomOf c)),
        [eofToken]) ∧
    parseExpression (n + 6)
        [a, ⟨MULTIPLY, "*".toList⟩, b, ⟨PLUS, "+".toList⟩, c, eofToken] =
      .ok (.binary "+".toList (.binary "*".toList (atomOf a) (atomOf b)) (atomOf c),
        [eofToken]) ∧
    parseComparison (n + 6)
        [a, ⟨PLUS, "+".toList⟩, b, ⟨LESS_THAN, "<".toList⟩, c, eofToken] =
      .ok (.binary "<".toList (.binary "+".toList (atomOf a) (atomOf b)) (atomOf c),
        [eofToken]) := by
  refine ⟨?_, ?_, ?_⟩
  · simp [parseExpression, parseTerm, parseTermLoop, parseExpressionLoop,
      parseFactor_atom, ha, hb, hc, advance, eofToken]
  · simp [parseExpression, parseTerm, parseTermLoop, parseExpressionLoop,
      parseFactor_atom, ha, hb, hc, advance, eofToken]
  · simp [parseComparison, parseComparisonLoop, parseExpression, parseTerm, parseTermLoop,
      parseExpressionLoop, parseFactor_atom, ha, hb, hc, advance, eofToken, isComparisonOp]

/-- C4: operator precedence. On atoms `a`, `b`, `c`, the tokens of `a + b * c` parse to
`Binary(+, a, Binary(*, b, c))`, those of `a * b + c` to `Binary(+, Binary(*, a, b), c)`
and those of `a + b < c`, at comparison level, to `Binary(<, Binary(+, a, b), c)`;
and `int x = 1 + 2 * 3;` is translated to the line `x = (1+(2*3))`. -/
theorem parse_precedence (a b c : Token) (ha : isAtomType a.type = true)
    (hb : isAtomType b.type = true) (hc : isAtomType c.type = true) :
    parseExpression
        (parseFuel [a, ⟨PLUS, "+".toList⟩, b, ⟨MULTIPLY, "*".toList⟩, c, eofToken])
        [a, ⟨PLUS, "+".toList⟩, b, ⟨MULTIPLY, "*".toList⟩, c, eofToken] =
      .ok (.binary "+".toList (atomOf a) (.binary "*".toList (atomOf b) (atomOf c)),
        [eofToken]) ∧
    parseExpression
        (parseFuel [a, ⟨MULTIPLY, "*".toList⟩, b, ⟨PLUS, "+".toList⟩, c, eofToken])
        [a, ⟨MULTIPLY, "*".toList⟩, b, ⟨PLUS, "+".toList⟩, c, eofToken] =
      .ok (.binary "+".toList (.binary "*".toList (atomOf a) (atomOf b)) (atomOf c),
        [eofToken]) ∧
    parseComparison
        (parseFuel [a, ⟨PLUS, "+".toList⟩, b, ⟨LESS_THAN, "<".toList⟩, c, eofToken])
        [a, ⟨PLUS, "+".toList⟩, b, ⟨LESS_THAN, "<".toList⟩, c, eofToken] =
      .ok (.binary "<".toList (.binary "+".toList (atomOf a) (atomOf b)) (atomOf c),
        [eofToken]) ∧
    translate "int x = 1 + 2 * 3;".toList = .ok "x = (1+(2*3))\n".toList := by
  obtain ⟨h1, h2, h3⟩ := parse_precedence_aux 58 a b c ha hb hc
  exact ⟨h1, h2, h3, by decide⟩

/-- The precedence theorem on the atoms `1`, `y` and `"s"`. -/
theorem parse_precedence_witness :
    parseExpression 64
        [⟨NUMBER_LITERAL, "1".toList⟩, ⟨PLUS, "+".toList⟩, ⟨IDENTIFIER, "y".toList⟩,
          ⟨MULTIPLY, "*".toList⟩, ⟨STRING_LITERAL, "s".toList⟩, eofToken] =
      .ok (.binary "+".toList (.number "1".toList)
        (.binary "*".toList (.variable "y".toList) (.stringLiteral "s".toList)), [eofToken]) :=
  (parse_precedence ⟨NUMBER_LITERAL, "1".toList⟩ ⟨IDENTIFIER, "y".toList⟩
    ⟨STRING_LITERAL, "s".toList⟩ (by decide) (by decide) (by decide)).1

theorem Res.sat_ok {α : Type} {a : α} {P : α → Prop} (h : P a) : (Res.ok a).Sat P := by
  intro b hb
  cases hb
  exact h

theorem Res.sat_error {α : Type} {m : Str} {P : α → Prop} : (Res.error m : Res α).Sat P := by
  intro b hb; cases hb

theorem Res.sat_outOfBounds {α : Type} {P : α → Prop} : (Res.outOfBounds : Res α).Sat P := by
  intro b hb; cases hb

theorem Res.sat_outOfFuel {α : Type} {P : α → Prop} : (Res.outOfFuel : Res α).Sat P := by
  intro b hb; cases hb

theorem Res.sat_bind {α β : Type} {r : Res α} {f : α → Res β} {P : α → Prop} {Q : β → Prop}
    (h : r.Sat P) (hf : ∀ a, P a → (f a).Sat Q) : (r.bind f).Sat Q := by
  cases r with
  | ok a => exact hf a (h a rfl)
  | error m => exact Res.sat_error
  | outOfBounds => exact Res.sat_outOfBounds
  | outOfFuel => exact Res.sat_outOfFuel

theorem Res.Sat.mono {α : Type} {r : Res α} {P Q : α → Prop} (h : r.Sat P)
    (hpq : ∀ a, P a → Q a) : r.Sat Q := fun a ha => hpq a (h a ha)

/-- The method `consume` returns a proper suffix of the tokens, after a token of the
expected kind. -/
theorem consume_sat (type : TokenType) (message : Str) (ts : List Token) :
    (consume type message ts).Sat fun ts1 => ∃ t, t.type = type ∧ ts = t :: ts1 := by
  cases ts with
  | nil => exact Res.sat_outOfBounds
  | cons t rest =>
    rw [consume]
    split_ifs with h
    · exact Res.sat_ok ⟨t, h, rfl⟩
    · exact Res.sat_error

theorem consume_sat_suffix (type : TokenType) (message : Str) (ts : List Token) :
    (consume type message ts).Sat fun ts1 => ts1 <:+ ts :=
  (consume_sat type message ts).mono fun _ ⟨_, _, h⟩ => h ▸ List.suffix_cons _ _

theorem advance_suffix (ts : List Token) : advance ts <:+ ts := List.tail_suffix ts

theorem ExprInv.suffix {Inv : List Token → Prop} {GE : ExprAST → Prop} (H : ExprInv Inv GE)
    {ts1 ts : List Token} (h : ts1 <:+ ts) (hi : Inv ts) : Inv ts1 := by
  obtain ⟨pre, rfl⟩ := h
  induction pre with
  | nil => exact hi
  | cons t pre ih => exact ih (H.tail t _ hi)

theorem parseAtom_sat {Inv : List Token → Prop} {GE : ExprAST → Prop} (H : ExprInv Inv GE)
    (ts : List Token) (hi : Inv ts) :
    (parseAtom ts).Sat fun r => GE r.1 ∧ r.2 <:+ ts := by
  cases ts with
  | nil => exact Res.sat_outOfBounds
  | cons t rest =>
    rw [parseAtom]
    split_ifs with h1 h2 h3
    · refine Res.sat_ok ⟨?_, by exact advance_suffix (t :: rest)⟩
      have := H.atom t rest hi (by simp [isAtomType, h1])
      simpa [atomOf, h1] using this
    · refine Res.sat_ok ⟨?_, by exact advance_suffix (t :: rest)⟩
      have := H.atom t rest hi (by simp [isAtomType, h2])
      simpa [atomOf, h1, h2] using this
    · refine Res.sat_ok ⟨?_, by exact advance_suffix (t :: rest)⟩
      have := H.atom t rest hi (by simp [isAtomType, h3])
      simpa [atomOf, h1, h2, h3] using this
    · exact Res.sat_error

/-- The invariant of the expression parser, for all seven functions at once. -/
theorem parseExpr_sat_all {Inv : List Token → Prop} {GE : ExprAST → Prop}
    (H : ExprInv Inv GE) (n : Nat) :
    (∀ ts, Inv ts → (parseFactor n ts).Sat fun r => GE r.1 ∧ r.2 <:+ ts) ∧
    (∀ left ts, Inv ts → GE left →
      (parseTermLoop n left ts).Sat fun r => GE r.1 ∧ r.2 <:+ ts) ∧
    (∀ ts, Inv ts → (parseTerm n ts).Sat fun r => GE r.1 ∧ r.2 <:+ ts) ∧
    (∀ left ts, Inv ts → GE left →
      (parseExpressionLoop n left ts).Sat fun r => GE r.1 ∧ r.2 <:+ ts) ∧
    (∀ ts, Inv ts → (parseExpression n ts).Sat fun r => GE r.1 ∧ r.2 <:+ ts) ∧
    (∀ left ts, Inv ts → GE left →
      (parseComparisonLoop n left ts).Sat fun r => GE r.1 ∧ r.2 <:+ ts) ∧
    (∀ ts, Inv ts → (parseComparison n ts).Sat fun r => GE r.1 ∧ r.2 <:+ ts) := by
  induction n with
  | zero =>
    refine ⟨?_, ?_, ?_, ?_, ?_, ?_, ?_⟩ <;> intros <;>
      first
        | (rw [parseFactor]; exact Res.sat_outOfFuel)
        | (rw [parseTermLoop]; exact Res.sat_outOfFuel)
        | (rw [parseTerm]; exact Res.sat_outOfFuel)
        | (rw [parseExpressionLoop]; exact Res.sat_outOfFuel)
        | (rw [parseExpression]; exact Res.sat_outOfFuel)
        | (rw [parseComparisonLoop]; exact Res.sat_outOfFuel)
        | (rw [parseComparison]; exact Res.sat_outOfFuel)
  | succ n ih =>
    obtain ⟨ihF, ihTL, ihT, ihEL, ihE, ihCL, ihC⟩ := ih
    refine ⟨?_, ?_, ?_, ?_, ?_, ?_, ?_⟩
    · intro ts hi
      cases ts with
      | nil => rw [parseFactor]; exact Res.sat_outOfBounds
      | cons t rest =>
        rw [parseFactor]
        split_ifs with h
        · refine Res.sat_bind (ihC _ (H.suffix (advance_suffix _) hi)) ?_
          rintro r ⟨hg, hs⟩
          refine Res.sat_bind (consume_sat_suffix _ _ _) ?_
          intro ts1 h1
          exact Res.sat_ok ⟨hg, (h1.trans hs).trans (advance_suffix _)⟩
        · exact parseAtom_sat H _ hi
    · intro left ts hi hl
      cases ts with
      | nil => rw [parseTermLoop]; exact Res.sat_outOfBounds
      | cons t rest =>
        rw [parseTermLoop]
        by_cases h : t.type = MULTIPLY ∨ t.type = DIVIDE
        · rw [if_pos h]
          refine Res.sat_bind (ihF _ (H.suffix (advance_suffix _) hi)) ?_
          rintro r ⟨hg, hs⟩
          have hs' : r.2 <:+ t :: rest := hs.trans (advance_suffix _)
          have hb : GE (.binary (if t.type = MULTIPLY then "*".toList else "/".toList)
              left r.1) := by
            split_ifs
            · exact H.mul _ _ hl hg
            · exact H.div _ _ hl hg
          exact (ihTL _ r.2 (H.suffix hs' hi) hb).mono fun r' h' => ⟨h'.1, h'.2.trans hs'⟩
        · rw [if_neg h]
          exact Res.sat_ok ⟨hl, List.suffix_refl _⟩
    · intro ts hi
      rw [parseTerm]
      refine Res.sat_bind (ihF ts hi) ?_
      rintro r ⟨hg, hs⟩
      exact (ihTL r.1 r.2 (H.suffix hs hi) hg).mono fun r' h' => ⟨h'.1, h'.2.trans hs⟩
    · intro left ts hi hl
      cases ts with
      | nil => rw [parseExpressionLoop]; exact Res.sat_outOfBounds
      | cons t rest =>
        rw [parseExpressionLoop]
        by_cases h : t.type = PLUS ∨ t.type = MINUS
        · rw [if_pos h]
          refine Res.sat_bind (ihT _ (H.suffix (advance_suffix _) hi)) ?_
          rintro r ⟨hg, hs⟩
          have hs' : r.2 <:+ t :: rest := hs.trans (advance_suffix _)
          have hb : GE (.binary (if t.type = PLUS then "+".toList else "-".toList)
              left r.1) := by
            split_ifs
            · exact H.add _ _ hl hg
            · exact H.sub _ _ hl hg
          exact (ihEL _ r.2 (H.suffix hs' hi) hb).mono fun r' h' => ⟨h'.1, h'.2.trans hs'⟩
        · rw [if_neg h]
          exact Res.sat_ok ⟨hl, List.suffix_refl _⟩
    · intro ts hi
      rw [parseExpression]
      refine Res.sat_bind (ihT ts hi) ?_
      rintro r ⟨hg, hs⟩
      exact (ihEL r.1 r.2 (H.suffix hs hi) hg).mono fun r' h' => ⟨h'.1, h'.2.trans hs⟩
    · intro left ts hi hl
      cases ts with
      | nil => rw [parseComparisonLoop]; exact Res.sat_outOfBounds
      | cons t rest =>
        rw [parseComparisonLoop]
        split_ifs with h
        · refine Res.sat_bind (ihE _ (H.suffix (advance_suffix _) hi)) ?_
          rintro r ⟨hg, hs⟩
          have hs' : r.2 <:+ t :: rest := hs.trans (advance_suffix _)
          exact (ihCL _ r.2 (H.suffix hs' hi) (H.cmp t rest _ _ hi h hl hg)).mono
            fun r' h' => ⟨h'.1, h'.2.trans hs'⟩
        · exact Res.sat_ok ⟨hl, List.suffix_refl _⟩
    · intro ts hi
      rw [parseComparison]
      refine Res.sat_bind (ihE ts hi) ?_
      rintro r ⟨hg, hs⟩
      exact (ihCL r.1 r.2 (H.suffix hs hi) hg).mono fun r' h' => ⟨h'.1, h'.2.trans hs⟩

theorem Res.Sat.and {α : Type} {r : Res α} {P Q : α → Prop} (h1 : r.Sat P) (h2 : r.Sat Q) :
    r.Sat fun a => P a ∧ Q a := fun a ha => ⟨h1 a ha, h2 a ha⟩

theorem exprInv_trivial : ExprInv (fun _ => True) (fun _ => True) :=
  ⟨fun _ _ _ => trivial, fun _ _ _ _ => trivial, fun _ _ _ _ => trivial,
    fun _ _ _ _ => trivial, fun _ _ _ _ => trivial, fun _ _ _ _ => trivial,
    fun _ _ _ _ _ _ _ _ => trivial⟩

theorem parseExpression_suffix (n : Nat) (ts : List Token) :
    (parseExpression n ts).Sat fun r => r.2 <:+ ts :=
  ((parseExpr_sat_all exprInv_trivial n).2.2.2.2.1 ts trivial).mono fun _ h => h.2

theorem parseComparison_suffix (n : Nat) (ts : List Token) :
    (parseComparison n ts).Sat fun r => r.2 <:+ ts :=
  ((parseExpr_sat_all exprInv_trivial n).2.2.2.2.2.2 ts trivial).mono fun _ h => h.2

theorem parseExpression_sat {Inv : List Token → Prop} {GE : ExprAST → Prop}
    (H : ExprInv Inv GE) (n : Nat) (ts : List Token) (hi : Inv ts) :
    (parseExpression n ts).Sat fun r => GE r.1 ∧ r.2 <:+ ts :=
  (parseExpr_sat_all H n).2.2.2.2.1 ts hi

theorem parseComparison_sat {Inv : List Token → Prop} {GE : ExprAST → Prop}
    (H : ExprInv Inv GE) (n : Nat) (ts : List Token) (hi : Inv ts) :
    (parseComparison n ts).Sat fun r => GE r.1 ∧ r.2 <:+ ts :=
  (parseExpr_sat_all H n).2.2.2.2.2.2 ts hi

theorem parseVariableDeclaration_suffix (n : Nat) (ts : List Token) :
    (parseVariableDeclaration n ts).Sat fun r => r.2 <:+ ts := by
  cases ts with
  | nil => exact Res.sat_outOfBounds
  | cons t rest =>
    cases rest with
    | nil => exact Res.sat_outOfBounds
    | cons i rest1 =>
      simp only [parseVariableDeclaration, advance, List.tail_cons]
      refine Res.sat_bind (consume_sat_suffix _ _ _) ?_
      intro ts1 h1
      have h1' : ts1 <:+ t :: i :: rest1 := h1.trans (List.suffix_cons _ _)
      cases ts1 with
      | nil => exact Res.sat_outOfBounds
      | cons e rest2 =>
        simp only []
        split_ifs with he
        · refine Res.sat_bind (parseExpression_suffix n _) ?_
          intro r hr
          refine Res.sat_bind (consume_sat_suffix _ _ _) ?_
          intro ts2 h2
          exact Res.sat_ok (((h2.trans hr).trans (List.suffix_cons _ _)).trans h1')
        · refine Res.sat_bind (consume_sat_suffix _ _ _) ?_
          intro ts2 h2
          exact Res.sat_ok (h2.trans h1')

theorem parseAssignmentStatement_suffix (n : Nat) (ts : List Token) :
    (parseAssignmentStatement n ts).Sat fun r => r.2 <:+ ts := by
  cases ts with
  | nil => exact Res.sat_outOfBounds
  | cons t rest =>
    rw [parseAssignmentStatement]
    refine Res.sat_bind (consume_sat_suffix _ _ _) ?_
    intro ts1 h1
    refine Res.sat_bind (parseExpression_suffix n _) ?_
    intro r hr
    refine Res.sat_bind (consume_sat_suffix _ _ _) ?_
    intro ts2 h2
    exact Res.sat_ok (((h2.trans hr).trans h1).trans (advance_suffix _))

theorem parseCoutLoop_suffix (n : Nat) : ∀ ts : List Token,
    (parseCoutLoop n ts).Sat fun r => r.2 <:+ ts := by
  induction n with
  | zero => intro ts; rw [parseCoutLoop]; exact Res.sat_outOfFuel
  | succ n ih =>
    intro ts
    cases ts with
    | nil => rw [parseCoutLoop]; exact Res.sat_outOfBounds
    | cons t rest =>
      rw [parseCoutLoop]
      by_cases h : t.type = STREAM_OPERATOR
      · rw [if_pos h]
        cases rest with
        | nil => exact Res.sat_outOfBounds
        | cons e rest1 =>
          simp only [advance, List.tail_cons]
          split_ifs with he
          · refine Res.sat_bind (ih _) ?_
            intro r hr
            exact Res.sat_ok ((hr.trans (List.suffix_cons _ _)).trans (List.suffix_cons _ _))
          · refine Res.sat_bind (parseExpression_suffix n _) ?_
            intro x hx
            refine Res.sat_bind (ih _) ?_
            intro r hr
            exact Res.sat_ok ((hr.trans hx).trans (List.suffix_cons _ _))
      · rw [if_neg h]
        exact Res.sat_ok (List.suffix_refl _)

theorem parseCoutStatement_suffix (n : Nat) (ts : List Token) :
    (parseCoutStatement n ts).Sat fun r => r.2 <:+ ts := by
  rw [parseCoutStatement]
  refine Res.sat_bind (parseCoutLoop_suffix n _) ?_
  intro r hr
  refine Res.sat_bind (consume_sat_suffix _ _ _) ?_
  intro ts1 h1
  exact Res.sat_ok ((h1.trans hr).trans (advance_suffix _))

theorem captureUntil_suffix (stop : TokenType) : ∀ ts : List Token,
    (captureUntil stop ts).Sat fun r => r.2 <:+ ts := by
  intro ts
  induction ts with
  | nil => exact Res.sat_outOfBounds
  | cons t rest ih =>
    rw [captureUntil]
    split_ifs with h
    · refine Res.sat_bind ih ?_
      intro r hr
      exact Res.sat_ok (hr.trans (List.suffix_cons _ _))
    · exact Res.sat_ok (List.suffix_refl _)

theorem Res.sat_bind_eq {α β : Type} {r : Res α} {f : α → Res β} {Q : β → Prop}
    (hf : ∀ a, r = .ok a → (f a).Sat Q) : (r.bind f).Sat Q := by
  cases r with
  | ok a => exact hf a rfl
  | error m => exact Res.sat_error
  | outOfBounds => exact Res.sat_outOfBounds
  | outOfFuel => exact Res.sat_outOfFuel

/-- The invariant of the statement parser, for all seven functions at once. -/
theorem parseStmt_sat_all {Inv : List Token → Prop} {GE : ExprAST → Prop}
    {GS : StatementAST → Prop} (H : StmtInv Inv GE GS) (n : Nat) :
    (∀ ts, Inv ts → (parseBlockLoop n ts).Sat fun r => (∀ s ∈ r.1, GS s) ∧ r.2 <:+ ts) ∧
    (∀ ts, Inv ts → (parseBlock n ts).Sat fun r => (∀ s ∈ r.1, GS s) ∧ r.2 <:+ ts) ∧
    (∀ ts, Inv ts → (parseElseLoop n ts).Sat fun r =>
      ((∀ p ∈ r.1.1, GE p.1 ∧ ∀ s ∈ p.2, GS s) ∧ (∀ s ∈ r.1.2, GS s)) ∧ r.2 <:+ ts) ∧
    (∀ ts, Inv ts → (parseIfStatement n ts).Sat fun r => GS r.1 ∧ r.2 <:+ ts) ∧
    (∀ ts, Inv ts → (parseForStatement n ts).Sat fun r => GS r.1 ∧ r.2 <:+ ts) ∧
    (∀ ts, Inv ts → (parseWhileStatement n ts).Sat fun r => GS r.1 ∧ r.2 <:+ ts) ∧
    (∀ ts, Inv ts → (parseStatement n ts).Sat fun r => GS r.1 ∧ r.2 <:+ ts) := by
  have suf : ∀ {a b : List Token}, a <:+ b → Inv b → Inv a := fun h hi => H.expr.suffix h hi
  induction n with
  | zero =>
    refine ⟨?_, ?_, ?_, ?_, ?_, ?_, ?_⟩ <;> intros <;>
      first
        | (rw [parseBlockLoop]; exact Res.sat_outOfFuel)
        | (rw [parseBlock]; exact Res.sat_outOfFuel)
        | (rw [parseElseLoop]; exact Res.sat_outOfFuel)
        | (rw [parseIfStatement]; exact Res.sat_outOfFuel)
        | (rw [parseForStatement]; exact Res.sat_outOfFuel)
        | (rw [parseWhileStatement]; exact Res.sat_outOfFuel)
        | (rw [parseStatement]; exact Res.sat_outOfFuel)
  | succ n ih =>
    obtain ⟨ihBL, ihB, ihEL, ihI, ihF, ihW, ihS⟩ := ih
    refine ⟨?_, ?_, ?_, ?_, ?_, ?_, ?_⟩
    · -- parseBlockLoop
      intro ts hi
      cases ts with
      | nil => rw [parseBlockLoop]; exact Res.sat_outOfBounds
      | cons t rest =>
        rw [parseBlockLoop]
        split_ifs with h
        · refine Res.sat_bind (ihS _ hi) ?_
          rintro r ⟨hg, hs⟩
          refine Res.sat_bind (ihBL _ (suf hs hi)) ?_
          rintro b ⟨hb, hbs⟩
          refine Res.sat_ok ⟨?_, hbs.trans hs⟩
          intro s hs'
          rcases List.mem_cons.1 hs' with rfl | h'
          · exact hg
          · exact hb s h'
        · exact Res.sat_ok ⟨by simp, List.suffix_refl _⟩
    · -- parseBlock
      intro ts hi
      rw [parseBlock]
      refine Res.sat_bind (consume_sat_suffix _ _ _) ?_
      intro ts1 h1
      refine Res.sat_bind (ihBL _ (suf h1 hi)) ?_
      rintro b ⟨hb, hbs⟩
      refine Res.sat_bind (consume_sat_suffix _ _ _) ?_
      intro ts2 h2
      exact Res.sat_ok ⟨hb, (h2.trans hbs).trans h1⟩
    · -- parseElseLoop
      intro ts hi
      cases ts with
      | nil => rw [parseElseLoop]; exact Res.sat_outOfBounds
      | cons t rest =>
        rw [parseElseLoop]
        by_cases h : t.type = KEYWORD_ELSE
        · rw [if_pos h]
          cases rest with
          | nil => exact Res.sat_outOfBounds
          | cons i rest1 =>
            have hi1 : Inv (i :: rest1) := suf (List.suffix_cons _ _) hi
            simp only [advance, List.tail_cons]
            split_ifs with h2
            · refine Res.sat_bind (consume_sat_suffix _ _ _) ?_
              intro ts1 h1
              have hs1 : ts1 <:+ i :: rest1 := h1.trans (List.suffix_cons _ _)
              refine Res.sat_bind (parseComparison_sat H.expr n _ (suf hs1 hi1)) ?_
              rintro c ⟨hc, hcs⟩
              refine Res.sat_bind (consume_sat_suffix _ _ _) ?_
              intro ts2 h3
              have hs2 : ts2 <:+ i :: rest1 := (h3.trans hcs).trans hs1
              refine Res.sat_bind (ihB _ (suf hs2 hi1)) ?_
              rintro b ⟨hb, hbs⟩
              have hs3 : b.2 <:+ i :: rest1 := hbs.trans hs2
              refine Res.sat_bind (ihEL _ (suf hs3 hi1)) ?_
              rintro r ⟨⟨hr1, hr2⟩, hrs⟩
              refine Res.sat_ok ⟨⟨?_, hr2⟩, (hrs.trans hs3).trans (List.suffix_cons _ _)⟩
              intro p hp
              rcases List.mem_cons.1 hp with rfl | h'
              · exact ⟨hc, hb⟩
              · exact hr1 p h'
            · refine Res.sat_bind (ihB _ hi1) ?_
              rintro b ⟨hb, hbs⟩
              exact Res.sat_ok ⟨⟨by simp, hb⟩, hbs.trans (List.suffix_cons _ _)⟩
        · rw [if_neg h]
          exact Res.sat_ok ⟨⟨by simp, by simp⟩, List.suffix_refl _⟩
    · -- parseIfStatement
      intro ts hi
      rw [parseIfStatement]
      refine Res.sat_bind (consume_sat_suffix _ _ _) ?_
      intro ts1 h1
      have hs1 : ts1 <:+ ts := h1.trans (advance_suffix _)
      refine Res.sat_bind (parseComparison_sat H.expr n _ (suf hs1 hi)) ?_
      rintro c ⟨hc, hcs⟩
      refine Res.sat_bind (consume_sat_suffix _ _ _) ?_
      intro ts2 h2
      have hs2 : ts2 <:+ ts := (h2.trans hcs).trans hs1
      refine Res.sat_bind (ihB _ (suf hs2 hi)) ?_
      rintro b ⟨hb, hbs⟩
      have hs3 : b.2 <:+ ts := hbs.trans hs2
      refine Res.sat_bind (ihEL _ (suf hs3 hi)) ?_
      rintro r ⟨⟨hr1, hr2⟩, hrs⟩
      exact Res.sat_ok ⟨H.ifS _ _ _ _ hc hb hr2 hr1, hrs.trans hs3⟩
    · -- parseForStatement
      intro ts hi
      rw [parseForStatement]
      refine Res.sat_bind (consume_sat_suffix _ _ _) ?_
      intro ts1 h1
      have hs1 : ts1 <:+ ts := h1.trans (advance_suffix _)
      refine Res.sat_bind_eq ?_
      intro init hinit
      have hs1' : init.2 <:+ ts := (captureUntil_suffix _ _ _ hinit).trans hs1
      refine Res.sat_bind (consume_sat_suffix _ _ _) ?_
      intro ts2 h2
      have hs2 : ts2 <:+ ts := h2.trans hs1'
      refine Res.sat_bind_eq ?_
      intro cond hcond
      have hs2' : cond.2 <:+ ts := (captureUntil_suffix _ _ _ hcond).trans hs2
      refine Res.sat_bind (consume_sat_suffix _ _ _) ?_
      intro ts3 h3
      have hs3 : ts3 <:+ ts := h3.trans hs2'
      refine Res.sat_bind_eq ?_
      intro inc hinc
      have hs3' : inc.2 <:+ ts := (captureUntil_suffix _ _ _ hinc).trans hs3
      refine Res.sat_bind (consume_sat_suffix _ _ _) ?_
      intro ts4 h4
      have hs4 : ts4 <:+ ts := h4.trans hs3'
      refine Res.sat_bind (ihB _ (suf hs4 hi)) ?_
      rintro b ⟨hb, hbs⟩
      exact Res.sat_ok ⟨H.forS ts1 ts2 ts3 init cond inc b.1 (suf hs1 hi) (suf hs2 hi)
        (suf hs3 hi) hinit hcond hinc hb, hbs.trans hs4⟩
    · -- parseWhileStatement
      intro ts hi
      rw [parseWhileStatement]
      refine Res.sat_bind (consume_sat_suffix _ _ _) ?_
      intro ts1 h1
      have hs1 : ts1 <:+ ts := h1.trans (advance_suffix _)
      refine Res.sat_bind (parseComparison_sat H.expr n _ (suf hs1 hi)) ?_
      rintro c ⟨hc, hcs⟩
      refine Res.sat_bind (consume_sat_suffix _ _ _) ?_
      intro ts2 h2
      have hs2 : ts2 <:+ ts := (h2.trans hcs).trans hs1
      refine Res.sat_bind (ihB _ (suf hs2 hi)) ?_
      rintro b ⟨hb, hbs⟩
      exact Res.sat_ok ⟨H.whileS _ _ hc hb, hbs.trans hs2⟩
    · -- parseStatement
      intro ts hi
      cases ts with
      | nil => rw [parseStatement]; exact Res.sat_outOfBounds
      | cons t rest =>
        rw [parseStatement]
        split
        · exact (H.varDecl n t rest hi (Or.inl ‹_›)).and (parseVariableDeclaration_suffix _ _)
        · exact (H.varDecl n t rest hi (Or.inr ‹_›)).and (parseVariableDeclaration_suffix _ _)
        · exact (H.assign n t rest hi ‹_›).and (parseAssignmentStatement_suffix _ _)
        · exact (H.cout n t rest hi ‹_›).and (parseCoutStatement_suffix _ _)
        · exact ihI _ hi
        · exact ihF _ hi
        · exact ihW _ hi
        · exact Res.sat_error

/-- The invariant of the loop of `parse`: every statement of the program has `GS`. -/
theorem parseLoop_sat {Inv : List Token → Prop} {GE : ExprAST → Prop}
    {GS : StatementAST → Prop} (H : StmtInv Inv GE GS) (n : Nat) :
    ∀ ts, Inv ts → (parseLoop n ts).Sat fun p => ∀ s ∈ p, GS s := by
  induction n with
  | zero => intro ts _; rw [parseLoop]; exact Res.sat_outOfFuel
  | succ n ih =>
    intro ts hi
    cases ts with
    | nil => rw [parseLoop]; exact Res.sat_outOfBounds
    | cons t rest =>
      rw [parseLoop]
      split_ifs with h
      · refine Res.sat_bind ((parseStmt_sat_all H n).2.2.2.2.2.2 _ hi) ?_
        rintro r ⟨hg, hs⟩
        refine Res.sat_bind (ih _ (H.expr.suffix hs hi)) ?_
        intro p hp
        refine Res.sat_ok ?_
        intro s hs'
        rcases List.mem_cons.1 hs' with rfl | h'
        · exact hg
        · exact hp s h'
      · exact Res.sat_ok (by simp)

/-- What `parseVariableDeclaration` returns: a declaration whose type is the lexeme of
the first token and whose name is the lexeme of the identifier after it. -/
theorem parseVariableDeclaration_sat {Inv : List Token → Prop} {GE : ExprAST → Prop}
    (H : ExprInv Inv GE) (n : Nat) (t : Token) (ts : List Token) (hi : Inv (t :: ts)) :
    (parseVariableDeclaration n (t :: ts)).Sat fun r =>
      ∃ i rest iv, ts = i :: rest ∧ i.type = IDENTIFIER ∧
        r.1 = .varDecl t.value i.value iv ∧ ∀ e, iv = some e → GE e := by
  cases ts with
  | nil => exact Res.sat_outOfBounds
  | cons i rest =>
    have hi1 : Inv (i :: rest) := H.tail _ _ hi
    simp only [parseVariableDeclaration, advance, List.tail_cons]
    refine Res.sat_bind (consume_sat _ _ _) ?_
    rintro ts1 ⟨i', hty, heq⟩
    obtain ⟨rfl, rfl⟩ := List.cons.inj heq
    cases rest with
    | nil => exact Res.sat_outOfBounds
    | cons e rest2 =>
      simp only []
      split_ifs with he
      · refine Res.sat_bind (parseExpression_sat H n _ (H.tail _ _ (H.tail _ _ hi1))) ?_
        rintro x ⟨hx, _⟩
        refine Res.sat_bind (P := fun _ => True) (fun _ _ => trivial) fun _ _ => ?_
        exact Res.sat_ok ⟨_, _, _, rfl, hty, rfl, fun e h => by cases h; exact hx⟩
      · refine Res.sat_bind (P := fun _ => True) (fun _ _ => trivial) fun _ _ => ?_
        exact Res.sat_ok ⟨_, _, _, rfl, hty, rfl, fun e h => by cases h⟩

/-- What `parseAssignmentStatement` returns: an assignment to the lexeme of the first
token. -/
theorem parseAssignmentStatement_sat {Inv : List Token → Prop} {GE : ExprAST → Prop}
    (H : ExprInv Inv GE) (n : Nat) (t : Token) (ts : List Token) (hi : Inv (t :: ts)) :
    (parseAssignmentStatement n (t :: ts)).Sat fun r =>
      ∃ e, r.1 = .assignment t.value e ∧ GE e := by
  rw [parseAssignmentStatement]
  refine Res.sat_bind (consume_sat_suffix _ _ _) fun ts1 h1 => ?_
  refine Res.sat_bind (parseExpression_sat H n _
    (H.suffix (h1.trans (advance_suffix _)) hi)) ?_
  rintro x ⟨hx, _⟩
  refine Res.sat_bind (P := fun _ => True) (fun _ _ => trivial) fun _ _ => ?_
  exact Res.sat_ok ⟨_, rfl, hx⟩

theorem parseCoutLoop_sat {Inv : List Token → Prop} {GE : ExprAST → Prop}
    (H : ExprInv Inv GE) (n : Nat) : ∀ ts : List Token, Inv ts →
    (parseCoutLoop n ts).Sat fun r => ∀ e ∈ r.1.1, GE e := by
  induction n with
  | zero => intro ts _; rw [parseCoutLoop]; exact Res.sat_outOfFuel
  | succ n ih =>
    intro ts hi
    cases ts with
    | nil => rw [parseCoutLoop]; exact Res.sat_outOfBounds
    | cons t rest =>
      rw [parseCoutLoop]
      by_cases h : t.type = STREAM_OPERATOR
      · rw [if_pos h]
        cases rest with
        | nil => exact Res.sat_outOfBounds
        | cons e rest1 =>
          have hi1 : Inv (e :: rest1) := H.tail _ _ hi
          simp only [advance, List.tail_cons]
          split_ifs with he
          · refine Res.sat_bind (ih _ (H.tail _ _ hi1)) fun r hr => ?_
            exact Res.sat_ok hr
          · refine Res.sat_bind (parseExpression_sat H n _ hi1) ?_
            rintro x ⟨hx, hxs⟩
            refine Res.sat_bind (ih _ (H.suffix hxs hi1)) fun r hr => ?_
            refine Res.sat_ok ?_
            intro e' he'
            rcases List.mem_cons.1 he' with rfl | h'
            · exact hx
            · exact hr e' h'
      · rw [if_neg h]
        exact Res.sat_ok (by simp)

/-- What `parseCoutStatement` returns: a `Cout` node. -/
theorem parseCoutStatement_sat {Inv : List Token → Prop} {GE : ExprAST → Prop}
    (H : ExprInv Inv GE) (n : Nat) (ts : List Token) (hi : Inv ts) :
    (parseCoutStatement n ts).Sat fun r =>
      ∃ parts hasEndl, r.1 = .cout parts hasEndl ∧ ∀ e ∈ parts, GE e := by
  rw [parseCoutStatement]
  refine Res.sat_bind (parseCoutLoop_sat H n _ (H.suffix (advance_suffix _) hi)) fun r hr => ?_
  refine Res.sat_bind (P := fun _ => True) (fun _ _ => trivial) fun _ _ => ?_
  exact Res.sat_ok ⟨_, _, rfl, hr⟩

theorem coutNonEmptyBody_iff (l : List StatementAST) :
    coutNonEmptyBody l = true ↔ ∀ s ∈ l, coutNonEmpty s = true := by
  induction l with
  | nil => simp [coutNonEmptyBody]
  | cons s rest ih => simp [coutNonEmptyBody, ih]

theorem coutNonEmptyElseIfs_iff (l : List (ExprAST × List StatementAST)) :
    coutNonEmptyElseIfs l = true ↔ ∀ p ∈ l, ∀ s ∈ p.2, coutNonEmpty s = true := by
  induction l with
  | nil => simp [coutNonEmptyElseIfs]
  | cons p rest ih => simp [coutNonEmptyElseIfs, ih, coutNonEmptyBody_iff]

theorem coutFollowed_tail (t : Token) (ts : List Token) (h : coutFollowed (t :: ts) = true) :
    coutFollowed ts = true := by
  cases ts with
  | nil => rfl
  | cons u rest =>
    simp only [coutFollowed, Bool.and_eq_true] at h
    exact h.2

theorem parseCoutLoop_nonEmpty (n : Nat) (t : Token) (ts : List Token)
    (h : t.type = STREAM_OPERATOR) :
    (parseCoutLoop n (t :: ts)).Sat fun r => (!r.1.1.isEmpty || r.1.2) = true := by
  cases n with
  | zero => rw [parseCoutLoop]; exact Res.sat_outOfFuel
  | succ n =>
    rw [parseCoutLoop, if_pos h]
    cases ts with
    | nil => exact Res.sat_outOfBounds
    | cons e rest =>
      simp only [advance, List.tail_cons]
      split_ifs with he
      · exact Res.sat_bind (P := fun _ => True) (fun _ _ => trivial)
          fun r _ => Res.sat_ok (by simp)
      · refine Res.sat_bind (P := fun _ => True) (fun _ _ => trivial) fun x _ => ?_
        exact Res.sat_bind (P := fun _ => True) (fun _ _ => trivial)
          fun r _ => Res.sat_ok (by simp)

theorem stmtInv_coutNonEmpty :
    StmtInv (fun ts => coutFollowed ts = true) (fun _ => True)
      (fun s => coutNonEmpty s = true) where
  expr := ⟨coutFollowed_tail, fun _ _ _ _ => trivial, fun _ _ _ _ => trivial,
    fun _ _ _ _ => trivial, fun _ _ _ _ => trivial, fun _ _ _ _ => trivial,
    fun _ _ _ _ _ _ _ _ => trivial⟩
  varDecl := by
    intro n t ts hi _
    exact (parseVariableDeclaration_sat exprInv_trivial n t ts trivial).mono
      fun r ⟨_, _, _, _, _, h, _⟩ => by rw [h]; rfl
  assign := by
    intro n t ts hi _
    exact (parseAssignmentStatement_sat exprInv_trivial n t ts trivial).mono
      fun r ⟨_, h, _⟩ => by rw [h]; rfl
  cout := by
    intro n t ts hi ht
    rw [parseCoutStatement]
    cases ts with
    | nil => simp [coutFollowed, ht] at hi
    | cons u rest =>
      have hu : u.type = STREAM_OPERATOR := by
        simp only [coutFollowed, Bool.and_eq_true, Bool.or_eq_true, decide_eq_true_eq] at hi
        rcases hi.1 with h | h
        · simp [ht] at h
        · exact h
      simp only [advance, List.tail_cons]
      refine Res.sat_bind (parseCoutLoop_nonEmpty n u rest hu) fun r hr => ?_
      exact Res.sat_bind (P := fun _ => True) (fun _ _ => trivial)
        fun _ _ => Res.sat_ok (by simpa [coutNonEmpty] using hr)
  ifS := by
    intro c t e eifs _ ht he heifs
    simp only [coutNonEmpty, Bool.and_eq_true, coutNonEmptyBody_iff, coutNonEmptyElseIfs_iff]
    exact ⟨⟨ht, he⟩, fun p hp => (heifs p hp).2⟩
  forS := by
    intro _ _ _ _ _ _ body _ _ _ _ _ _ hb
    simpa only [coutNonEmpty, coutNonEmptyBody_iff] using hb
  whileS := by
    intro _ body _ hb
    simpa only [coutNonEmpty, coutNonEmptyBody_iff] using hb

/-- C8 as stated fails: `cout;` parses, to a `Cout` node with no part and `hasEndl`
unset. -/
theorem cout_without_stream_accepted :
    tokenize "cout;".toList =
        some [⟨KEYWORD_COUT, "cout".toList⟩, ⟨SEMICOLON, ";".toList⟩, ⟨END_OF_FILE, []⟩] ∧
      parse [⟨KEYWORD_COUT, "cout".toList⟩, ⟨SEMICOLON, ";".toList⟩, ⟨END_OF_FILE, []⟩] =
        .ok [.cout [] false] ∧
      coutNonEmptyBody [.cout [] false] = false := by
  exact ⟨by decide, by rfl, by rfl⟩

/-- C8, amended: when the source text parses and each of its `cout` keywords is
directly followed by `<<`, every `Cout` node of the program, at any depth, has at
least one part or has `hasEndl` set. -/
theorem parse_cout_nonEmpty (source : Str) (tokens : List Token) (program : ProgramAST)
    (hlex : tokenize source = some tokens) (hfollowed : coutFollowed tokens = true)
    (hparse : parse tokens = .ok program) : coutNonEmptyBody program = true := by
  have := hlex
  rw [coutNonEmptyBody_iff]
  exact parseLoop_sat stmtInv_coutNonEmpty _ tokens hfollowed program hparse

/-- The amended C8 on `cout << x << endl;`. -/
theorem parse_cout_nonEmpty_witness :
    coutNonEmptyBody [.cout [.variable "x".toList] true] = true :=
  parse_cout_nonEmpty "cout << x << endl;".toList
    [⟨KEYWORD_COUT, "cout".toList⟩, ⟨STREAM_OPERATOR, "<<".toList⟩, ⟨IDENTIFIER, "x".toList⟩,
      ⟨STREAM_OPERATOR, "<<".toList⟩, ⟨KEYWORD_ENDL, "endl".toList⟩, ⟨SEMICOLON, ";".toList⟩,
      ⟨END_OF_FILE, []⟩]
    [.cout [.variable "x".toList] true] (by decide) (by decide) (by rfl)

theorem readIdentifierLoop_all (s : Str) :
    (readIdentifierLoop s).1.all isIdentChar = true := by
  induction s with
  | nil => rfl
  | cons c cs ih =>
    rw [readIdentifierLoop]
    split_ifs with h
    · simp only [List.all_cons, h, Bool.true_and]; exact ih
    · rfl

theorem readIdentifierLoop_cons (c : Char) (cs : Str) (h : isIdentChar c = true) :
    (readIdentifierLoop (c :: cs)).1 = c :: (readIdentifierLoop cs).1 := by
  rw [readIdentifierLoop, if_pos h]

theorem isIdentChar_of_start (c : Char) (h : (isalpha c || c == '_') = true) :
    isIdentChar c = true := by
  simp only [isIdentChar, isalnum, Bool.or_eq_true] at *
  tauto

theorem keywords_fixedLexeme (w : Str) (k : TokenType) (h : keywords w = some k) :
    fixedLexeme k = some w := by
  unfold keywords at h
  split_ifs at h with h1 h2 h3 h4 h5 h6 h7 h8 h9 <;> cases h <;> simp [fixedLexeme, *]

theorem keywords_kind (w : Str) (k : TokenType) (h : keywords w = some k) :
    k ≠ IDENTIFIER ∧ k ≠ NUMBER_LITERAL ∧ k ≠ STRING_LITERAL ∧ k ≠ UNKNOWN := by
  unfold keywords at h
  split_ifs at h <;> cases h <;> simp

theorem lexemeOk_of_fixed (t : Token) (h : fixedLexeme t.type = some t.value) :
    lexemeOk t = true := by
  obtain ⟨k, v⟩ := t
  cases k <;> simp_all [lexemeOk, fixedLexeme]

theorem readIdentifier_lexemeOk (c : Char) (cs : Str) (h : (isalpha c || c == '_') = true) :
    lexemeOk (readIdentifier (c :: cs)).1 = true := by
  have hv : (readIdentifier (c :: cs)).1.value = c :: (readIdentifierLoop cs).1 := by
    rw [readIdentifier_value, readIdentifierLoop_cons c cs (isIdentChar_of_start c h)]
  cases hk : keywords (readIdentifierLoop (c :: cs)).1 with
  | some k =>
    apply lexemeOk_of_fixed
    have := keywords_fixedLexeme _ _ hk
    simpa [readIdentifier, hk] using this
  | none =>
    have ht : (readIdentifier (c :: cs)).1.type = IDENTIFIER := by simp [readIdentifier, hk]
    have hk' : keywords (readIdentifier (c :: cs)).1.value = none := hk
    simp only [lexemeOk, ht, Bool.and_eq_true, hk', Option.isNone_none, and_true]
    rw [hv, isIdentifierText, h, Bool.true_and]
    exact readIdentifierLoop_all cs

theorem readNumberLoop_all (b : Bool) (s : Str) :
    (readNumberLoop b s).1.all (fun x => isdigit x || x == '.') = true := by
  induction s generalizing b with
  | nil => rfl
  | cons c cs ih =>
    rw [readNumberLoop]
    split_ifs with h1 h2 h3
    · rfl
    · simp only [List.all_cons, h1, Bool.true_and]; exact ih true
    · simp only [List.all_cons, h1, Bool.true_and]; exact ih b
    · rfl

theorem readNumberLoop_count (b : Bool) (s : Str) :
    (readNumberLoop b s).1.count '.' ≤ if b then 0 else 1 := by
  induction s generalizing b with
  | nil => simp [readNumberLoop]
  | cons c cs ih =>
    rw [readNumberLoop]
    by_cases h1 : (isdigit c || c == '.') = true
    · rw [if_pos h1]
      by_cases h2 : (c == '.') = true
      · rw [if_pos h2]
        have hc : c = '.' := by simpa using h2
        cases b with
        | true => simp
        | false =>
          have := ih true
          simp only [if_true, Nat.le_zero] at this
          simp [hc, this]
      · rw [if_neg h2]
        have hc : c ≠ '.' := by simpa using h2
        rw [List.count_cons_of_ne (Ne.symm hc)]
        exact ih b
    · rw [if_neg h1]
      simp

theorem isdigit_ne_dot (c : Char) (h : isdigit c = true) : c ≠ '.' := by
  rintro rfl
  revert h
  decide

theorem readNumber_lexemeOk (c : Char) (cs : Str) (h : isdigit c = true) :
    lexemeOk (readNumber (c :: cs)).1 = true := by
  have hc := isdigit_ne_dot c h
  have hv : (readNumberLoop false (c :: cs)).1 = c :: (readNumberLoop false cs).1 := by
    rw [readNumberLoop]
    simp [h, hc]
  have h1 := readNumberLoop_all false cs
  have h2 := readNumberLoop_count false cs
  simp only [Bool.false_eq_true, if_false] at h2
  simp only [lexemeOk, readNumber, hv, isNumberText, h, h1, Bool.true_and, decide_eq_true_eq]
  exact h2

theorem readStringLoop_all (s : Str) :
    (readStringLoop s).1.all (fun c => c != '"') = true := by
  induction s with
  | nil => rfl
  | cons c cs ih =>
    rw [readStringLoop]
    split_ifs with h
    · simp only [List.all_cons, Bool.and_eq_true, bne_iff_ne, ne_eq]
      exact ⟨h, ih⟩
    · rfl

theorem readStringLiteral_lexemeOk (s : Str) : lexemeOk (readStringLiteral s).1 = true := by
  simp only [lexemeOk, readStringLiteral]
  exact readStringLoop_all _

theorem punctuationToken_lexemeOk (c : Char) (h : isspace c = false) :
    lexemeOk (punctuationToken c) = true := by
  unfold punctuationToken
  split_ifs <;> simp [lexemeOk, fixedLexeme, h]

theorem operatorToken_lexemeOk (c : Char) (s : Str) (h : isspace c = false) :
    lexemeOk (operatorToken c s).1 = true := by
  simp only [operatorToken, apply_ite Prod.fst]
  split_ifs <;> first | exact punctuationToken_lexemeOk c h | decide

/-- Every token of the token vector has a lexeme of the shape of its kind. -/
theorem lex_lexemeOk (s : Str) : ∀ t ∈ lex s, lexemeOk t = true := by
  induction s using lexer_induction with
  | nil => intro t ht; simp only [lex_nil, List.mem_singleton] at ht; subst ht; rfl
  | space c cs h ih => rw [lex_space c cs h]; exact ih
  | comment c cs h1 h2 ih => rw [lex_comment c cs h1 h2]; exact ih
  | ident c cs h1 h2 h3 ih =>
    rw [lex_ident c cs h1 h2 h3]
    intro t ht
    rcases List.mem_cons.1 ht with rfl | ht
    · exact readIdentifier_lexemeOk c cs h3
    · exact ih t ht
  | number c cs h1 h2 h3 h4 ih =>
    rw [lex_number c cs h1 h2 h3 h4]
    intro t ht
    rcases List.mem_cons.1 ht with rfl | ht
    · exact readNumber_lexemeOk c cs h4
    · exact ih t ht
  | string c cs h5 ih =>
    subst h5
    rw [lex_string]
    intro t ht
    rcases List.mem_cons.1 ht with rfl | ht
    · exact readStringLiteral_lexemeOk _
    · exact ih t ht
  | operator c cs h1 h2 h3 h4 h5 ih =>
    rw [lex_operator c cs h1 h2 h3 h4 h5]
    intro t ht
    rcases List.mem_cons.1 ht with rfl | ht
    · exact operatorToken_lexemeOk c _ h1
    · exact ih t ht

theorem splitLines_ne_nil (s : Str) : splitLines s ≠ [] := by
  cases s with
  | nil => simp [splitLines]
  | cons c cs => rw [splitLines]; split_ifs <;> simp

theorem splitLines_append_newline (l rest : Str) (h : noNewline l) :
    splitLines (l ++ '\n' :: rest) = l :: splitLines rest := by
  induction l with
  | nil => simp [splitLines]
  | cons c cs ih =>
    have hc : c ≠ '\n' := fun e => h (by simp [e])
    have hcs : noNewline cs := fun e => h (List.mem_cons_of_mem _ e)
    rw [List.cons_append, splitLines, if_neg hc, ih hcs]
    simp

theorem joinLines_nil : joinLines [] = [] := rfl

theorem joinLines_cons (l : Str) (ls : List Str) :
    joinLines (l :: ls) = l ++ '\n' :: joinLines ls := by
  simp [joinLines]

theorem joinLines_append (a b : List Str) : joinLines (a ++ b) = joinLines a ++ joinLines b := by
  simp [joinLines]

theorem lineOk_noNewline (l : Str) (h : lineOk l = true) : noNewline l := by
  simp only [lineOk, Bool.and_eq_true, List.all_eq_true, bne_iff_ne, ne_eq] at h
  exact fun hm => h.1 _ hm rfl

theorem splitLines_joinLines (ls : List Str) (h : ∀ l ∈ ls, lineOk l = true) :
    splitLines (joinLines ls) = ls ++ [[]] := by
  induction ls with
  | nil => rfl
  | cons l ls ih =>
    rw [joinLines_cons, splitLines_append_newline l _ (lineOk_noNewline l (h l (by simp))),
      ih (fun x hx => h x (by simp [hx]))]
    rfl

/-- A text made of good lines passes the indentation check. -/
theorem indentOk_of_linesOk {text : Str} (h : LinesOk text) : indentOk text = true := by
  obtain ⟨ls, rfl, hls⟩ := h
  rw [indentOk, splitLines_joinLines ls hls, List.all_eq_true]
  intro l hl
  rcases List.mem_append.1 hl with hl | hl
  · have := hls l hl
    simp only [lineOk, Bool.and_eq_true] at this
    exact this.2
  · simp only [List.mem_singleton] at hl
    subst hl
    rfl

theorem LinesOk.nil : LinesOk [] := ⟨[], rfl, by simp⟩

theorem LinesOk.append {a b : Str} (ha : LinesOk a) (hb : LinesOk b) : LinesOk (a ++ b) := by
  obtain ⟨la, rfl, hla⟩ := ha
  obtain ⟨lb, rfl, hlb⟩ := hb
  refine ⟨la ++ lb, (joinLines_append la lb).symm, ?_⟩
  intro l hl
  rcases List.mem_append.1 hl with h | h
  · exact hla l h
  · exact hlb l h

theorem LinesOk.line {l : Str} (h : lineOk l = true) : LinesOk (l ++ ['\n']) :=
  ⟨[l], by simp [joinLines], by simpa using h⟩

theorem LinesOk.blank : LinesOk ['\n'] := LinesOk.line (l := []) rfl

theorem leadingSpaces_indent (k : Nat) (c : Char) (rest : Str) (hc : c ≠ ' ') :
    leadingSpaces (indent k ++ c :: rest) = k := by
  induction k with
  | zero => simp [leadingSpaces, indent, hc]
  | succ k ih =>
    simp only [leadingSpaces, indent, List.replicate_succ, List.cons_append] at ih ⊢
    rw [List.takeWhile_cons_of_pos (by simp)]
    simp [ih, hc]

theorem noNewline_indent (k : Nat) : noNewline (indent k) := by
  intro h
  have := List.eq_of_mem_replicate h
  revert this
  decide

theorem noNewline_append {a b : Str} : noNewline (a ++ b) ↔ noNewline a ∧ noNewline b := by
  simp [noNewline, List.mem_append, not_or]

/-- An indented line: `k` spaces, `k` a multiple of four, then a text without newline
that does not start with a space. -/
theorem lineOk_indent (k : Nat) (c : Char) (rest : Str) (hk : k % 4 = 0) (hc : c ≠ ' ')
    (hn : noNewline (c :: rest)) : lineOk (indent k ++ c :: rest) = true := by
  have h1 : noNewline (indent k ++ c :: rest) := noNewline_append.2 ⟨noNewline_indent k, hn⟩
  simp only [lineOk, Bool.and_eq_true, List.all_eq_true, bne_iff_ne, ne_eq, Bool.or_eq_true,
    beq_iff_eq]
  refine ⟨fun x hx e => h1 (e ▸ hx), Or.inr ?_⟩
  rw [leadingSpaces_indent k c rest hc, hk]

theorem isIdentChar_ne_newline (c : Char) (h : isIdentChar c = true) : c ≠ '\n' ∧ c ≠ ' ' := by
  constructor <;> (rintro rfl; revert h; decide)

theorem isIdentifierText_shape (v : Str) (h : isIdentifierText v = true) :
    ∃ c rest, v = c :: rest ∧ c ≠ ' ' ∧ noNewline (c :: rest) := by
  cases v with
  | nil => simp [isIdentifierText] at h
  | cons c cs =>
    simp only [isIdentifierText, Bool.and_eq_true, List.all_eq_true] at h
    have hc := isIdentChar_ne_newline c (isIdentChar_of_start c h.1)
    refine ⟨c, cs, rfl, hc.2, ?_⟩
    intro hm
    rcases List.mem_cons.1 hm with e | hm
    · exact hc.1 e.symm
    · exact (isIdentChar_ne_newline _ (h.2 _ hm)).1 rfl

theorem isNumberText_noNewline (v : Str) (h : isNumberText v = true) : noNewline v := by
  cases v with
  | nil => simp [isNumberText] at h
  | cons c cs =>
    simp only [isNumberText, Bool.and_eq_true, List.all_eq_true, Bool.or_eq_true,
      beq_iff_eq] at h
    intro hm
    rcases List.mem_cons.1 hm with e | hm
    · have := h.1.1; rw [← e] at this; revert this; decide
    · rcases h.1.2 _ hm with h' | h'
      · revert h'; decide
      · revert h'; decide

/-- The lexeme of a token that is not a string literal has no newline. -/
theorem lexemeOk_noNewline (t : Token) (h : lexemeOk t = true) (hs : t.type ≠ STRING_LITERAL) :
    noNewline t.value := by
  obtain ⟨k, v⟩ := t
  cases k
  case IDENTIFIER =>
    simp only [lexemeOk, Bool.and_eq_true] at h
    obtain ⟨c, rest, rfl, _, hn⟩ := isIdentifierText_shape v h.1
    exact hn
  case NUMBER_LITERAL => exact isNumberText_noNewline v h
  case STRING_LITERAL => exact absurd rfl hs
  case UNKNOWN =>
    simp only [lexemeOk, Bool.and_eq_true, List.all_eq_true, Bool.not_eq_true'] at h
    intro hm
    have := h.2 _ hm
    revert this; decide
  all_goals
    simp only [lexemeOk, fixedLexeme, beq_iff_eq, Option.some.injEq] at h
    subst h
    unfold noNewline
    decide

theorem noNewline_of_sublist {a b : Str} (h : a.Sublist b) (hb : noNewline b) : noNewline a :=
  fun hm => hb (h.subset hm)

theorem trim_sublist (s : Str) : (trim s).Sublist s :=
  (List.rdropWhile_prefix _ _).sublist.trans (List.dropWhile_sublist _)

theorem noNewline_trim {s : Str} (h : noNewline s) : noNewline (trim s) :=
  noNewline_of_sublist (trim_sublist s) h

theorem noNewline_forStripType {left : Str} (h : noNewline left) :
    noNewline (forStripType left) := by
  unfold forStripType
  split_ifs
  · exact noNewline_of_sublist (List.drop_sublist _ _) h
  · exact noNewline_of_sublist (List.drop_sublist _ _) h
  · exact h

theorem noNewline_forVarStart {init : Str} (h : noNewline init) :
    noNewline (forVarStart init).1 ∧ noNewline (forVarStart init).2 := by
  unfold forVarStart
  split
  · exact ⟨noNewline_trim (noNewline_forStripType
      (noNewline_trim (noNewline_of_sublist (List.take_sublist _ _) h))),
      noNewline_trim (noNewline_of_sublist (List.drop_sublist _ _) h)⟩
  · exact ⟨by simp [noNewline], by simp [noNewline]⟩

theorem noNewline_forEndExpr {cond : Str} (h : noNewline cond) : noNewline (forEndExpr cond) := by
  unfold forEndExpr
  split
  · exact noNewline_trim (noNewline_of_sublist (List.drop_sublist _ _) h)
  · unfold noNewline; decide

theorem noNewline_stepText (inc : Str) :
    noNewline (if forStep inc ≠ 1 then ", ".toList ++ (Int.repr (forStep inc)).toList else []) := by
  unfold forStep
  split_ifs <;> (unfold noNewline; decide)

/-- The header that `forToPy` writes is one good line followed by a newline. -/
theorem forHeaderToPy_linesOk (init condition increment : Str) (k : Nat) (hk : k % 4 = 0)
    (hi : noNewline init) (hc : noNewline condition) :
    LinesOk (forHeaderToPy init condition increment k) := by
  have e : forHeaderToPy init condition increment k =
      (indent k ++ 'f' :: ("or ".toList ++ (forVarStart (trim init)).1 ++
        " in range(".toList ++ (forVarStart (trim init)).2 ++ ", ".toList ++
        forEndExpr (trim condition) ++
        (if forStep (trim increment) ≠ 1 then
          ", ".toList ++ (Int.repr (forStep (trim increment))).toList else []) ++
        "):".toList)) ++ ['\n'] := by
    have e1 : "for ".toList = 'f' :: "or ".toList := rfl
    have e2 : "):\n".toList = "):".toList ++ ['\n'] := rfl
    simp only [forHeaderToPy, e1, e2, List.append_assoc, List.cons_append]
  rw [e]
  apply LinesOk.line
  apply lineOk_indent k _ _ hk (by decide)
  have hvs := noNewline_forVarStart (noNewline_trim hi)
  have he := noNewline_forEndExpr (noNewline_trim hc)
  have hst := noNewline_stepText (trim increment)
  have h1 : noNewline ("or ".toList) := by unfold noNewline; decide
  have h2 : noNewline (" in range(".toList) := by unfold noNewline; decide
  have h3 : noNewline (", ".toList) := by unfold noNewline; decide
  have h4 : noNewline ("):".toList) := by unfold noNewline; decide
  have : noNewline ("or ".toList ++ (forVarStart (trim init)).1 ++
        " in range(".toList ++ (forVarStart (trim init)).2 ++ ", ".toList ++
        forEndExpr (trim condition) ++
        (if forStep (trim increment) ≠ 1 then
          ", ".toList ++ (Int.repr (forStep (trim increment))).toList else []) ++
        "):".toList) := by
    simp only [noNewline_append]
    tauto
  intro hm
  rcases List.mem_cons.1 hm with e | hm
  · revert e; decide
  · exact this hm

theorem captureUntil_noNewline (stop : TokenType) : ∀ (ts : List Token)
    (_ : ∀ t ∈ ts, noNewline t.value),
    (captureUntil stop ts).Sat fun r => noNewline r.1 := by
  intro ts
  induction ts with
  | nil => intro _; exact Res.sat_outOfBounds
  | cons t rest ih =>
    intro h
    rw [captureUntil]
    split_ifs with hs
    · refine Res.sat_bind (ih fun x hx => h x (List.mem_cons_of_mem _ hx)) fun r hr => ?_
      refine Res.sat_ok ?_
      simp only [noNewline_append]
      exact ⟨⟨h t (by simp), by unfold noNewline; decide⟩, hr⟩
    · exact Res.sat_ok (by simp [noNewline])

theorem noNewline_coutPartsToPy (parts : List ExprAST)
    (h : ∀ e ∈ parts, noNewline e.toPython) : noNewline (coutPartsToPy parts) := by
  induction parts with
  | nil => simp [coutPartsToPy, noNewline]
  | cons e rest ih =>
    cases rest with
    | nil => simpa [coutPartsToPy] using h e (by simp)
    | cons e1 rest1 =>
      rw [coutPartsToPy]
      simp only [noNewline_append]
      exact ⟨⟨h e (by simp), by unfold noNewline; decide⟩,
        ih fun x hx => h x (List.mem_cons_of_mem _ hx)⟩

theorem noNewline_binary (op : Str) (l r : ExprAST) (hop : noNewline op)
    (hl : noNewline l.toPython) (hr : noNewline r.toPython) :
    noNewline (ExprAST.binary op l r).toPython := by
  simp only [ExprAST.toPython, noNewline_append]
  exact ⟨⟨⟨⟨by unfold noNewline; decide, hl⟩, hop⟩, hr⟩, by unfold noNewline; decide⟩

theorem exprInv_noNewline :
    ExprInv (fun ts => ∀ t ∈ ts, lexemeOk t = true ∧ noNewline t.value)
      (fun e => noNewline e.toPython) where
  tail := fun t ts h x hx => h x (List.mem_cons_of_mem _ hx)
  atom := by
    intro t ts h _
    have hv := (h t (by simp)).2
    unfold atomOf
    split_ifs
    · exact hv
    · exact hv
    · simp only [ExprAST.toPython, noNewline_append]
      exact ⟨⟨by unfold noNewline; decide, hv⟩, by unfold noNewline; decide⟩
  mul := fun l r hl hr => noNewline_binary _ l r (by unfold noNewline; decide) hl hr
  div := fun l r hl hr => noNewline_binary _ l r (by unfold noNewline; decide) hl hr
  add := fun l r hl hr => noNewline_binary _ l r (by unfold noNewline; decide) hl hr
  sub := fun l r hl hr => noNewline_binary _ l r (by unfold noNewline; decide) hl hr
  cmp := fun t ts l r h _ hl hr => noNewline_binary _ l r (h t (by simp)).2 hl hr

theorem bodyToPy_linesOk (body : List StatementAST) (k : Nat)
    (h : ∀ s ∈ body, LinesOk (toPython s k ++ ['\n'])) : LinesOk (bodyToPy body k) := by
  induction body with
  | nil => rw [bodyToPy]; exact LinesOk.nil
  | cons s rest ih =>
    rw [bodyToPy]
    exact (h s (by simp)).append (ih fun x hx => h x (List.mem_cons_of_mem _ hx))

/-- A header line `pad + keyword + text + ":"` followed by a newline. -/
theorem headerLine_linesOk (k : Nat) (hk : k % 4 = 0) (c : Char) (kw text : Str)
    (hc : c ≠ ' ') (hkw : noNewline (c :: kw)) (ht : noNewline text) :
    LinesOk (indent k ++ (c :: kw) ++ text ++ ":\n".toList) := by
  have e : indent k ++ (c :: kw) ++ text ++ ":\n".toList =
      (indent k ++ c :: (kw ++ text ++ ":".toList)) ++ ['\n'] := by
    have e2 : ":\n".toList = ":".toList ++ ['\n'] := rfl
    simp only [e2, List.append_assoc, List.cons_append]
  rw [e]
  apply LinesOk.line
  apply lineOk_indent k _ _ hk hc
  intro hm
  rcases List.mem_cons.1 hm with e | hm
  · exact hkw (List.mem_cons.2 (Or.inl e))
  · simp only [List.mem_append] at hm
    rcases hm with (hm | hm) | hm
    · exact hkw (List.mem_cons_of_mem _ hm)
    · exact ht hm
    · revert hm; decide

theorem elseIfBlocksToPy_linesOk (eifs : List (ExprAST × List StatementAST)) (k : Nat)
    (hk : k % 4 = 0)
    (h : ∀ p ∈ eifs, noNewline p.1.toPython ∧
      ∀ s ∈ p.2, LinesOk (toPython s (k + 4) ++ ['\n'])) :
    LinesOk (elseIfBlocksToPy eifs k) := by
  induction eifs with
  | nil => rw [elseIfBlocksToPy]; exact LinesOk.nil
  | cons p rest ih =>
    rw [elseIfBlocksToPy]
    obtain ⟨hp1, hp2⟩ := h p (by simp)
    refine ((headerLine_linesOk k hk 'e' "lif ".toList _ (by decide)
      (by unfold noNewline; decide) hp1).append (bodyToPy_linesOk _ _ hp2)).append
      (ih fun x hx => h x (List.mem_cons_of_mem _ hx))

theorem simpleLine_linesOk (k : Nat) (hk : k % 4 = 0) (c : Char) (text : Str)
    (hc : c ≠ ' ') (ht : noNewline (c :: text)) :
    LinesOk (indent k ++ (c :: text) ++ ['\n']) :=
  LinesOk.line (lineOk_indent k c text hk hc ht)

theorem stmtInv_linesOk :
    StmtInv (fun ts => ∀ t ∈ ts, lexemeOk t = true ∧ noNewline t.value)
      (fun e => noNewline e.toPython)
      (fun s => ∀ k, k % 4 = 0 → LinesOk (toPython s k ++ ['\n'])) where
  expr := exprInv_noNewline
  varDecl := by
    intro n t ts hi _
    refine (parseVariableDeclaration_sat exprInv_noNewline n t ts hi).mono ?_
    rintro r ⟨i, rest, iv, rfl, hty, hr, hiv⟩ k hk
    have hok := (hi i (by simp)).1
    simp only [lexemeOk, hty, Bool.and_eq_true] at hok
    obtain ⟨c, cs, hval, hc, hn⟩ := isIdentifierText_shape _ hok.1
    rw [hr, toPython, hval]
    cases iv with
    | none =>
      exact simpleLine_linesOk k hk c (cs ++ " = None".toList) hc (by
        intro hm
        rcases List.mem_cons.1 hm with e | hm
        · exact hn (List.mem_cons.2 (Or.inl e))
        · rcases List.mem_append.1 hm with hm | hm
          · exact hn (List.mem_cons_of_mem _ hm)
          · revert hm; decide)
    | some v =>
      exact simpleLine_linesOk k hk c (cs ++ " = ".toList ++ v.toPython) hc (by
        intro hm
        rcases List.mem_cons.1 hm with e | hm
        · exact hn (List.mem_cons.2 (Or.inl e))
        · rcases List.mem_append.1 hm with hm | hm
          · rcases List.mem_append.1 hm with hm | hm
            · exact hn (List.mem_cons_of_mem _ hm)
            · revert hm; decide
          · exact hiv v rfl hm)
  assign := by
    intro n t ts hi hty
    refine (parseAssignmentStatement_sat exprInv_noNewline n t ts hi).mono ?_
    rintro r ⟨e, hr, he⟩ k hk
    have hok := (hi t (by simp)).1
    simp only [lexemeOk, hty, Bool.and_eq_true] at hok
    obtain ⟨c, cs, hval, hc, hn⟩ := isIdentifierText_shape _ hok.1
    rw [hr, toPython, assignToPy, hval]
    exact simpleLine_linesOk k hk c (cs ++ " = ".toList ++ e.toPython) hc (by
      intro hm
      rcases List.mem_cons.1 hm with e' | hm
      · exact hn (List.mem_cons.2 (Or.inl e'))
      · rcases List.mem_append.1 hm with hm | hm
        · rcases List.mem_append.1 hm with hm | hm
          · exact hn (List.mem_cons_of_mem _ hm)
          · revert hm; decide
        · exact he hm)
  cout := by
    intro n t ts hi _
    refine (parseCoutStatement_sat exprInv_noNewline n (t :: ts) hi).mono ?_
    rintro r ⟨parts, b, hr, hp⟩ k hk
    rw [hr, toPython, coutToPy]
    exact simpleLine_linesOk k hk 'p' ("rint(".toList ++ coutPartsToPy parts ++ ")".toList)
      (by decide) (by
      intro hm
      rcases List.mem_cons.1 hm with e' | hm
      · revert e'; decide
      · rcases List.mem_append.1 hm with hm | hm
        · rcases List.mem_append.1 hm with hm | hm
          · revert hm; decide
          · exact noNewline_coutPartsToPy parts hp hm
        · revert hm; decide)
  ifS := by
    intro c t e eifs hc ht he heifs k hk
    have hk4 : (k + 4) % 4 = 0 := by omega
    rw [toPython]
    have h1 := headerLine_linesOk k hk 'i' "f ".toList c.toPython (by decide)
      (by unfold noNewline; decide) hc
    have h2 := bodyToPy_linesOk t (k + 4) fun s hs => ht s hs (k + 4) hk4
    have h3 := elseIfBlocksToPy_linesOk eifs k hk fun p hp =>
      ⟨(heifs p hp).1, fun s hs => (heifs p hp).2 s hs (k + 4) hk4⟩
    have h4 : LinesOk (if e.isEmpty then []
        else indent k ++ "else:\n".toList ++ bodyToPy e (k + 4)) := by
      split_ifs
      · exact LinesOk.nil
      · have e1 : indent k ++ "else:\n".toList = (indent k ++ 'e' :: "lse:".toList) ++ ['\n'] := by
          rw [List.append_assoc]; rfl
        rw [e1]
        exact (LinesOk.line (lineOk_indent k 'e' _ hk (by decide)
          (by unfold noNewline; decide))).append
          (bodyToPy_linesOk e (k + 4) fun s hs => he s hs (k + 4) hk4)
    exact (((h1.append h2).append h3).append h4).append LinesOk.blank
  forS := by
    intro ts1 ts2 ts3 i c n body h1 h2 _ hi hc _ hb k hk
    have hk4 : (k + 4) % 4 = 0 := by omega
    rw [toPython]
    have hi' := captureUntil_noNewline SEMICOLON ts1 (fun t ht => (h1 t ht).2) i hi
    have hc' := captureUntil_noNewline SEMICOLON ts2 (fun t ht => (h2 t ht).2) c hc
    exact ((forHeaderToPy_linesOk i.1 c.1 n.1 k hk hi' hc').append
      (bodyToPy_linesOk body (k + 4) fun s hs => hb s hs (k + 4) hk4)).append LinesOk.blank
  whileS := by
    intro c body hc hb k hk
    have hk4 : (k + 4) % 4 = 0 := by omega
    rw [toPython]
    exact ((headerLine_linesOk k hk 'w' "hile ".toList c.toPython (by decide)
      (by unfold noNewline; decide) hc).append
      (bodyToPy_linesOk body (k + 4) fun s hs => hb s hs (k + 4) hk4)).append LinesOk.blank

theorem Res.bind_eq_ok {α β : Type} {r : Res α} {f : α → Res β} {b : β}
    (h : r.bind f = .ok b) : ∃ a, r = .ok a ∧ f a = .ok b := by
  cases r with
  | ok a => exact ⟨a, rfl, h⟩
  | error m => cases h
  | outOfBounds => cases h
  | outOfFuel => cases h

/-- C10 as stated fails: a string literal may hold a newline, and its lexeme is
emitted raw; here a line of the output starts with one space. -/
theorem translate_indent_counterexample :
    translate "for (i = \"a\n b\"; i < 3; i++) \x7b \x7d".toList =
        .ok "for i in range(a\n b, 3):\n\n".toList ∧
      indentOk "for i in range(a\n b, 3):\n\n".toList = false := by
  decide

/-- C10, amended: when the source text is translated and none of its string literals
holds a newline, every non-empty line of the emitted text starts with a number of
spaces that is a multiple of four. -/
theorem translate_indentOk (source : Str) (tokens : List Token) (out : Str)
    (hlex : tokenize source = some tokens)
    (hstr : ∀ t ∈ tokens, t.type = STRING_LITERAL → '\n' ∉ t.value)
    (h : translate source = .ok out) : indentOk out = true := by
  have htok : tokens = lex source := by
    have := tokenize_eq_some source
    rw [hlex] at this
    exact Option.some.inj this
  have hinv : ∀ t ∈ tokens, lexemeOk t = true ∧ noNewline t.value := by
    intro t ht
    have hok : lexemeOk t = true := lex_lexemeOk source t (htok ▸ ht)
    refine ⟨hok, ?_⟩
    by_cases hs : t.type = STRING_LITERAL
    · exact hstr t ht hs
    · exact lexemeOk_noNewline t hok hs
  simp only [translate, hlex] at h
  obtain ⟨program, hp, hg⟩ := Res.bind_eq_ok h
  cases hg
  have hall := parseLoop_sat stmtInv_linesOk _ tokens hinv program hp
  exact indentOk_of_linesOk (bodyToPy_linesOk program 0 fun s hs => hall s hs 0 rfl)

/-- The amended C10 on a nested `if` inside a `while`. -/
theorem translate_indentOk_witness :
    indentOk "while (x>0):\n    if (x>1):\n        print(\"a\")\n\n\n".toList = true :=
  translate_indentOk "while (x > 0) \x7b if (x > 1) \x7b cout << \"a\"; \x7d \x7d".toList
    [⟨KEYWORD_WHILE, "while".toList⟩, ⟨OPEN_PAREN, "(".toList⟩, ⟨IDENTIFIER, "x".toList⟩,
      ⟨GREATER_THAN, ">".toList⟩, ⟨NUMBER_LITERAL, "0".toList⟩, ⟨CLOSE_PAREN, ")".toList⟩,
      ⟨OPEN_BRACE, "\x7b".toList⟩, ⟨KEYWORD_IF, "if".toList⟩, ⟨OPEN_PAREN, "(".toList⟩,
      ⟨IDENTIFIER, "x".toList⟩, ⟨GREATER_THAN, ">".toList⟩, ⟨NUMBER_LITERAL, "1".toList⟩,
      ⟨CLOSE_PAREN, ")".toList⟩, ⟨OPEN_BRACE, "\x7b".toList⟩, ⟨KEYWORD_COUT, "cout".toList⟩,
      ⟨STREAM_OPERATOR, "<<".toList⟩, ⟨STRING_LITERAL, "a".toList⟩, ⟨SEMICOLON, ";".toList⟩,
      ⟨CLOSE_BRACE, "\x7d".toList⟩, ⟨CLOSE_BRACE, "\x7d".toList⟩, ⟨END_OF_FILE, []⟩]
    "while (x>0):\n    if (x>1):\n        print(\"a\")\n\n\n".toList
    (by decide) (by decide) (by decide)

theorem char_le_iff (a b : Char) : a ≤ b ↔ a.toNat ≤ b.toNat := by
  rw [Char.le_def]
  exact Iff.rfl

theorem char_ne_of_toNat {a b : Char} (h : a.toNat ≠ b.toNat) : a ≠ b := by
  rintro rfl; exact h rfl

theorem isdigit_iff (c : Char) : isdigit c = true ↔ 48 ≤ c.toNat ∧ c.toNat ≤ 57 := by
  simp only [isdigit, Bool.and_eq_true, decide_eq_true_eq, char_le_iff]
  exact Iff.rfl

theorem isalpha_iff (c : Char) :
    isalpha c = true ↔ (97 ≤ c.toNat ∧ c.toNat ≤ 122) ∨ (65 ≤ c.toNat ∧ c.toNat ≤ 90) := by
  simp only [isalpha, Bool.or_eq_true, Bool.and_eq_true, decide_eq_true_eq, char_le_iff]
  exact Iff.rfl

theorem isspace_iff (c : Char) :
    isspace c = true ↔ c.toNat = 32 ∨ (9 ≤ c.toNat ∧ c.toNat ≤ 13) := by
  have key : ∀ d : Char, c = d ↔ c.toNat = d.toNat := by
    intro d
    constructor
    · rintro rfl; rfl
    · intro h
      apply Char.ext
      apply UInt32.ext  
      exact h
  simp only [isspace, Bool.or_eq_true, beq_iff_eq, key]
  have e1 : ' '.toNat = 32 := rfl
  have e2 : '\t'.toNat = 9 := rfl
  have e3 : '\n'.toNat = 10 := rfl
  have e4 : '\x0b'.toNat = 11 := rfl
  have e5 : '\x0c'.toNat = 12 := rfl
  have e6 : '\r'.toNat = 13 := rfl
  rw [e1, e2, e3, e4, e5, e6]
  omega

theorem char_eq_iff (c d : Char) : c = d ↔ c.toNat = d.toNat := by
  constructor
  · rintro rfl; rfl
  · intro h
    apply Char.ext
    apply UInt32.ext
    exact h

theorem isIdentChar_iff (c : Char) :
    isIdentChar c = true ↔ (97 ≤ c.toNat ∧ c.toNat ≤ 122) ∨ (65 ≤ c.toNat ∧ c.toNat ≤ 90) ∨
      (48 ≤ c.toNat ∧ c.toNat ≤ 57) ∨ c.toNat = 95 := by
  have e : '_'.toNat = 95 := rfl
  simp only [isIdentChar, isalnum, Bool.or_eq_true, isalpha_iff, isdigit_iff, beq_iff_eq,
    char_eq_iff, e]
  tauto

theorem readIdentifierLoop_delimited (v rest : Str) (hv : v.all isIdentChar = true)
    (hr : delimited rest = true) : readIdentifierLoop (v ++ rest) = (v, rest) := by
  induction v with
  | nil =>
    cases rest with
    | nil => rfl
    | cons c cs =>
      simp only [delimited, Bool.and_eq_true, Bool.not_eq_true'] at hr
      rw [List.nil_append, readIdentifierLoop, if_neg (by simp [hr.1])]
  | cons c cs ih =>
    simp only [List.all_cons, Bool.and_eq_true] at hv
    rw [List.cons_append, readIdentifierLoop, if_pos hv.1, ih hv.2]

theorem readNumberLoop_delimited (v rest : Str) (b : Bool)
    (hv : v.all (fun x => isdigit x || x == '.') = true)
    (hc : v.count '.' ≤ if b then 0 else 1) (hr : delimited rest = true) :
    readNumberLoop b (v ++ rest) = (v, rest) := by
  induction v generalizing b with
  | nil =>
    cases rest with
    | nil => rfl
    | cons c cs =>
      simp only [delimited, Bool.and_eq_true, Bool.not_eq_true', bne_iff_ne, ne_eq] at hr
      have h1 : isdigit c = false := by
        have := hr.1
        rw [← Bool.not_eq_true, isIdentChar_iff] at this
        rw [← Bool.not_eq_true, isdigit_iff]
        omega
      rw [List.nil_append, readNumberLoop, if_neg (by simp [h1, hr.2])]
  | cons c cs ih =>
    simp only [List.all_cons, Bool.and_eq_true] at hv
    rw [List.cons_append, readNumberLoop, if_pos hv.1]
    by_cases hd : (c == '.') = true
    · have hcd : c = '.' := by simpa using hd
      rw [if_pos hd]
      cases b with
      | true => simp [hcd] at hc
      | false =>
        simp only [hcd, List.count_cons_self, Bool.false_eq_true, if_false] at hc
        rw [if_neg (by simp), ih true hv.2 (by simp; omega)]
    · have hcd : c ≠ '.' := by simpa using hd
      rw [if_neg hd, ih b hv.2 (by rwa [List.count_cons_of_ne (Ne.symm hcd)] at hc)]

theorem readStringLoop_quote (v rest : Str) (hv : v.all (fun c => c != '"') = true) :
    readStringLoop (v ++ '"' :: rest) = (v, '"' :: rest) := by
  induction v with
  | nil => rw [List.nil_append, readStringLoop, if_neg (by simp)]
  | cons c cs ih =>
    simp only [List.all_cons, Bool.and_eq_true, bne_iff_ne, ne_eq] at hv
    rw [List.cons_append, readStringLoop, if_pos hv.1, ih (by simpa using hv.2)]

theorem operandStart_iff (c : Char) :
    operandStart c = true ↔ c.toNat = 40 ∨ c.toNat = 34 ∨ (48 ≤ c.toNat ∧ c.toNat ≤ 57) ∨
      (97 ≤ c.toNat ∧ c.toNat ≤ 122) ∨ (65 ≤ c.toNat ∧ c.toNat ≤ 90) ∨ c.toNat = 95 := by
  have e1 : '('.toNat = 40 := rfl
  have e2 : '"'.toNat = 34 := rfl
  have e3 : '_'.toNat = 95 := rfl
  simp only [operandStart, Bool.or_eq_true, isalpha_iff, isdigit_iff, beq_iff_eq,
    char_eq_iff, e1, e2, e3]
  tauto

theorem operandStart_ne (c : Char) (h : operandStart c = true) :
    c ≠ '+' ∧ c ≠ '=' ∧ c ≠ '<' ∧ c ≠ '/' := by
  rw [operandStart_iff] at h
  have e1 : '+'.toNat = 43 := rfl
  have e2 : '='.toNat = 61 := rfl
  have e3 : '<'.toNat = 60 := rfl
  have e4 : '/'.toNat = 47 := rfl
  simp only [ne_eq, char_eq_iff, e1, e2, e3, e4]
  omega

theorem isdigit_class (c : Char) (h : isdigit c = true) :
    isspace c = false ∧ c ≠ '/' ∧ (isalpha c || c == '_') = false ∧ c ≠ '.' := by
  rw [isdigit_iff] at h
  have e1 : '/'.toNat = 47 := rfl
  have e2 : '_'.toNat = 95 := rfl
  have e3 : '.'.toNat = 46 := rfl
  refine ⟨?_, ?_, ?_, ?_⟩
  · rw [← Bool.not_eq_true, isspace_iff]; omega
  · rw [ne_eq, char_eq_iff, e1]; omega
  · rw [← Bool.not_eq_true, Bool.or_eq_true, isalpha_iff, beq_iff_eq, char_eq_iff, e2]; omega
  · rw [ne_eq, char_eq_iff, e3]; omega

theorem identStart_class (c : Char) (h : (isalpha c || c == '_') = true) :
    isspace c = false ∧ c ≠ '/' := by
  have e1 : '/'.toNat = 47 := rfl
  have e2 : '_'.toNat = 95 := rfl
  rw [Bool.or_eq_true, isalpha_iff, beq_iff_eq, char_eq_iff, e2] at h
  refine ⟨?_, ?_⟩
  · rw [← Bool.not_eq_true, isspace_iff]; omega
  · rw [ne_eq, char_eq_iff, e1]; omega

/-- The text of a number, before a delimiter, is lexed to one number token. -/
theorem lex_numberText (v rest : Str) (hv : isNumberText v = true)
    (hr : delimited rest = true) :
    lex (v ++ rest) = ⟨NUMBER_LITERAL, v⟩ :: lex rest := by
  cases v with
  | nil => simp [isNumberText] at hv
  | cons c cs =>
    simp only [isNumberText, Bool.and_eq_true, decide_eq_true_eq] at hv
    obtain ⟨⟨hd, hall⟩, hcount⟩ := hv
    obtain ⟨h1, h2, h3, h4⟩ := isdigit_class c hd
    have hloop : readNumberLoop false ((c :: cs) ++ rest) = (c :: cs, rest) := by
      apply readNumberLoop_delimited _ _ _ _ _ hr
      · simp only [List.all_cons, hd, Bool.true_or, Bool.true_and]; exact hall
      · rw [List.count_cons_of_ne (Ne.symm h4)]; simpa using hcount
    rw [List.cons_append, lex_number c _ h1 (fun h => h2 h.1) h3 hd]
    rw [List.cons_append] at hloop
    simp only [readNumber, hloop]

/-- The text of an identifier that is no keyword, before a delimiter, is lexed to one
identifier token. -/
theorem lex_identifierText (v rest : Str) (hv : isIdentifierText v = true)
    (hk : keywords v = none) (hr : delimited rest = true) :
    lex (v ++ rest) = ⟨IDENTIFIER, v⟩ :: lex rest := by
  cases v with
  | nil => simp [isIdentifierText] at hv
  | cons c cs =>
    simp only [isIdentifierText, Bool.and_eq_true] at hv
    obtain ⟨hs, hall⟩ := hv
    obtain ⟨h1, h2⟩ := identStart_class c hs
    have hloop : readIdentifierLoop ((c :: cs) ++ rest) = (c :: cs, rest) := by
      apply readIdentifierLoop_delimited _ _ _ hr
      simp only [List.all_cons, isIdentChar_of_start c hs, Bool.true_and]; exact hall
    rw [List.cons_append, lex_ident c _ h1 (fun h => h2 h.1) hs]
    rw [List.cons_append] at hloop
    simp only [readIdentifier, hloop, hk, Option.getD_none]

/-- A quoted text without inner quote is lexed to one string token. -/
theorem lex_stringText (v rest : Str) (hv : v.all (fun c => c != '"') = true) :
    lex ('"' :: (v ++ '"' :: rest)) = ⟨STRING_LITERAL, v⟩ :: lex rest := by
  rw [lex_string]
  simp only [readStringLiteral, List.drop_succ_cons, List.drop_zero, readStringLoop_quote v rest hv]

theorem lex_open_paren (rest : Str) :
    lex ('(' :: rest) = ⟨OPEN_PAREN, "(".toList⟩ :: lex rest := by
  rw [lex_operator '(' rest (by decide) (fun h => absurd h.1 (by decide)) (by decide)
    (by decide) (by decide)]
  rfl

theorem lex_close_paren (rest : Str) :
    lex (')' :: rest) = ⟨CLOSE_PAREN, ")".toList⟩ :: lex rest := by
  rw [lex_operator ')' rest (by decide) (fun h => absurd h.1 (by decide)) (by decide)
    (by decide) (by decide)]
  rfl

theorem binaryOpType_cases (op : Str) (k : TokenType) (hop : binaryOpType op = some k) :
    (op = "+".toList ∧ k = PLUS) ∨ (op = "-".toList ∧ k = MINUS) ∨
    (op = "*".toList ∧ k = MULTIPLY) ∨ (op = "/".toList ∧ k = DIVIDE) ∨
    (op = "<".toList ∧ k = LESS_THAN) ∨ (op = ">".toList ∧ k = GREATER_THAN) ∨
    (op = "<=".toList ∧ k = LESS_THAN_EQUAL) ∨ (op = ">=".toList ∧ k = GREATER_THAN_EQUAL) ∨
    (op = "==".toList ∧ k = DOUBLE_EQUALS) ∨ (op = "!=".toList ∧ k = NOT_EQUAL) := by
  rw [binaryOpType] at hop
  by_cases e1 : op = "+".toList
  · rw [if_pos e1] at hop; exact Or.inl ⟨e1, (Option.some.inj hop).symm⟩
  rw [if_neg e1] at hop
  by_cases e2 : op = "-".toList
  · rw [if_pos e2] at hop; exact Or.inr (Or.inl ⟨e2, (Option.some.inj hop).symm⟩)
  rw [if_neg e2] at hop
  by_cases e3 : op = "*".toList
  · rw [if_pos e3] at hop; exact Or.inr (Or.inr (Or.inl ⟨e3, (Option.some.inj hop).symm⟩))
  rw [if_neg e3] at hop
  by_cases e4 : op = "/".toList
  · rw [if_pos e4] at hop
    exact Or.inr (Or.inr (Or.inr (Or.inl ⟨e4, (Option.some.inj hop).symm⟩)))
  rw [if_neg e4] at hop
  by_cases e5 : op = "<".toList
  · rw [if_pos e5] at hop
    exact Or.inr (Or.inr (Or.inr (Or.inr (Or.inl ⟨e5, (Option.some.inj hop).symm⟩))))
  rw [if_neg e5] at hop
  by_cases e6 : op = ">".toList
  · rw [if_pos e6] at hop
    exact Or.inr (Or.inr (Or.inr (Or.inr (Or.inr (Or.inl ⟨e6, (Option.some.inj hop).symm⟩)))))
  rw [if_neg e6] at hop
  by_cases e7 : op = "<=".toList
  · rw [if_pos e7] at hop
    exact Or.inr (Or.inr (Or.inr (Or.inr (Or.inr (Or.inr
      (Or.inl ⟨e7, (Option.some.inj hop).symm⟩))))))
  rw [if_neg e7] at hop
  by_cases e8 : op = ">=".toList
  · rw [if_pos e8] at hop
    exact Or.inr (Or.inr (Or.inr (Or.inr (Or.inr (Or.inr (Or.inr
      (Or.inl ⟨e8, (Option.some.inj hop).symm⟩)))))))
  rw [if_neg e8] at hop
  by_cases e9 : op = "==".toList
  · rw [if_pos e9] at hop
    exact Or.inr (Or.inr (Or.inr (Or.inr (Or.inr (Or.inr (Or.inr (Or.inr
      (Or.inl ⟨e9, (Option.some.inj hop).symm⟩))))))))
  rw [if_neg e9] at hop
  by_cases e10 : op = "!=".toList
  · rw [if_pos e10] at hop
    exact Or.inr (Or.inr (Or.inr (Or.inr (Or.inr (Or.inr (Or.inr (Or.inr
      (Or.inr ⟨e10, (Option.some.inj hop).symm⟩))))))))
  rw [if_neg e10] at hop
  cases hop

theorem lex_plus (c : Char) (cs : Str) (h : c ≠ '+') :
    lex ('+' :: c :: cs) = ⟨PLUS, "+".toList⟩ :: lex (c :: cs) := by
  rw [lex_operator '+' _ (by decide) (fun h => absurd h.1 (by decide)) (by decide)
        (by decide) (by decide)]
  simp [operatorToken, peek, h]

/-- The symbol of a binary operator, before the start of an operand, is lexed to the
token of the operator. -/
theorem lex_binaryOp (op : Str) (k : TokenType) (c : Char) (cs : Str)
    (hop : binaryOpType op = some k) (hc : operandStart c = true) :
    lex (op ++ c :: cs) = ⟨k, op⟩ :: lex (c :: cs) := by
  obtain ⟨h1, h2, h3, h4⟩ := operandStart_ne c hc
  rcases binaryOpType_cases op k hop with ⟨a1, b1⟩ | ⟨a2, b2⟩ | ⟨a3, b3⟩ | ⟨a4, b4⟩ |
    ⟨a5, b5⟩ | ⟨a6, b6⟩ | ⟨a7, b7⟩ | ⟨a8, b8⟩ | ⟨a9, b9⟩ | ⟨a10, b10⟩
  all_goals subst_vars
  · exact lex_plus c cs h1
  · rw [show "-".toList ++ c :: cs = '-' :: c :: cs from rfl,
      lex_operator '-' _ (by decide) (fun h => absurd h.1 (by decide)) (by decide)
        (by decide) (by decide)]
    rfl
  · rw [show "*".toList ++ c :: cs = '*' :: c :: cs from rfl,
      lex_operator '*' _ (by decide) (fun h => absurd h.1 (by decide)) (by decide)
        (by decide) (by decide)]
    rfl
  · rw [show "/".toList ++ c :: cs = '/' :: c :: cs from rfl,
      lex_operator '/' (c :: cs) (by decide) (fun h => h4 h.2) (by decide)
        (by decide) (by decide)]
    rfl
  · rw [show "<".toList ++ c :: cs = '<' :: c :: cs from rfl,
      lex_operator '<' _ (by decide) (fun h => absurd h.1 (by decide)) (by decide)
        (by decide) (by decide)]
    simp [operatorToken, peek, h2, h3]
  · rw [show ">".toList ++ c :: cs = '>' :: c :: cs from rfl,
      lex_operator '>' _ (by decide) (fun h => absurd h.1 (by decide)) (by decide)
        (by decide) (by decide)]
    simp [operatorToken, peek, h2]
  · rw [show "<=".toList ++ c :: cs = '<' :: '=' :: c :: cs from rfl,
      lex_operator '<' _ (by decide) (fun h => absurd h.1 (by decide)) (by decide)
        (by decide) (by decide)]
    rfl
  · rw [show ">=".toList ++ c :: cs = '>' :: '=' :: c :: cs from rfl,
      lex_operator '>' _ (by decide) (fun h => absurd h.1 (by decide)) (by decide)
        (by decide) (by decide)]
    rfl
  · rw [show "==".toList ++ c :: cs = '=' :: '=' :: c :: cs from rfl,
      lex_operator '=' _ (by decide) (fun h => absurd h.1 (by decide)) (by decide)
        (by decide) (by decide)]
    rfl
  · rw [show "!=".toList ++ c :: cs = '!' :: '=' :: c :: cs from rfl,
      lex_operator '!' _ (by decide) (fun h => absurd h.1 (by decide)) (by decide)
        (by decide) (by decide)]
    rfl

theorem binaryOp_delimited (op : Str) (k : TokenType) (rest : Str)
    (hop : binaryOpType op = some k) : delimited (op ++ rest) = true := by
  rcases binaryOpType_cases op k hop with ⟨a1, b1⟩ | ⟨a2, b2⟩ | ⟨a3, b3⟩ | ⟨a4, b4⟩ |
    ⟨a5, b5⟩ | ⟨a6, b6⟩ | ⟨a7, b7⟩ | ⟨a8, b8⟩ | ⟨a9, b9⟩ | ⟨a10, b10⟩ <;> subst_vars <;> rfl

/-- The emitted text of a well-formed tree starts with a character that starts an
operand. -/
theorem toPython_start : ∀ (e : ExprAST), exprWF e = true →
    ∃ c cs, e.toPython = c :: cs ∧ operandStart c = true
  | .number [], h => by simp [exprWF, isNumberText] at h
  | .number (c :: cs), h => by
    simp only [exprWF, isNumberText, Bool.and_eq_true] at h
    exact ⟨c, cs, rfl, by simp [operandStart, h.1.1]⟩
  | .variable [], h => by simp [exprWF, isIdentifierText] at h
  | .variable (c :: cs), h => by
    simp only [exprWF, isIdentifierText, Bool.and_eq_true, Bool.or_eq_true] at h
    refine ⟨c, cs, rfl, ?_⟩
    simp only [operandStart, Bool.or_eq_true]
    tauto
  | .stringLiteral v, _ => ⟨'"', v ++ "\"".toList, rfl, rfl⟩
  | .binary op l r, _ =>
    ⟨'(', l.toPython ++ op ++ r.toPython ++ ")".toList, by simp [ExprAST.toPython], rfl⟩

/-- Lexing the emitted text of a well-formed tree gives the tokens of the tree. -/
theorem lex_toPython : ∀ (e : ExprAST), exprWF e = true →
    ∀ rest, delimited rest = true → lex (e.toPython ++ rest) = exprTokens e ++ lex rest
  | .number v, h, rest, hr => lex_numberText v rest h hr
  | .variable v, h, rest, hr => by
    simp only [exprWF, Bool.and_eq_true, Option.isNone_iff_eq_none] at h
    exact lex_identifierText v rest h.1 h.2 hr
  | .stringLiteral v, h, rest, _ => by
    simp only [exprWF] at h
    have := lex_stringText v rest h
    simpa [ExprAST.toPython, exprTokens] using this
  | .binary op l r, h, rest, _ => by
    simp only [exprWF, Bool.and_eq_true, Option.isSome_iff_exists] at h
    obtain ⟨⟨⟨k, hk⟩, hl⟩, hr'⟩ := h
    obtain ⟨c, cs, hstart, hc⟩ := toPython_start r hr'
    have e1 : (ExprAST.binary op l r).toPython ++ rest =
        '(' :: (l.toPython ++ (op ++ (r.toPython ++ (')' :: rest)))) := by
      simp [ExprAST.toPython]
    rw [e1, lex_open_paren, lex_toPython l hl _ (binaryOp_delimited op k _ hk)]
    have e2 : op ++ (r.toPython ++ ')' :: rest) = op ++ c :: (cs ++ ')' :: rest) := by
      rw [hstart]; rfl
    rw [e2, lex_binaryOp op k c _ hk hc]
    have e3 : c :: (cs ++ ')' :: rest) = r.toPython ++ ')' :: rest := by rw [hstart]; rfl
    rw [e3, lex_toPython r hr' _ (by rfl), lex_close_paren]
    simp [exprTokens, hk]

theorem parseFactor_fuel_pos {n : Nat} {ts : List Token} {r : ExprAST × List Token}
    (h : parseFactor n ts = .ok r) : ∃ m, n = m + 1 := by
  cases n with
  | zero => rw [parseFactor] at h; cases h
  | succ m => exact ⟨m, rfl⟩

/-- A factor followed by a token that is neither `*` nor `/` is a whole term. -/
theorem parseTerm_of_factor (n : Nat) (ts : List Token) (e : ExprAST) (t : Token)
    (rest : List Token) (h : parseFactor n ts = .ok (e, t :: rest))
    (ht : ¬ (t.type = MULTIPLY ∨ t.type = DIVIDE)) :
    parseTerm (n + 1) ts = .ok (e, t :: rest) := by
  obtain ⟨m, rfl⟩ := parseFactor_fuel_pos h
  rw [parseTerm, h, Res.bind_ok, parseTermLoop_stop m e t rest ht]

/-- A term followed by a token that is neither `+` nor `-` is a whole additive
expression. -/
theorem parseExpression_of_term (n : Nat) (ts : List Token) (e : ExprAST) (t : Token)
    (rest : List Token) (h : parseTerm n ts = .ok (e, t :: rest))
    (ht : ¬ (t.type = PLUS ∨ t.type = MINUS)) :
    parseExpression (n + 1) ts = .ok (e, t :: rest) := by
  have hn : ∃ m, n = m + 1 := by
    cases n with
    | zero => rw [parseTerm] at h; cases h
    | succ m => exact ⟨m, rfl⟩
  obtain ⟨m, rfl⟩ := hn
  rw [parseExpression, h, Res.bind_ok, parseExpressionLoop_stop m e t rest ht]

/-- An additive expression followed by a token that is no comparison operator is a
whole comparison. -/
theorem parseComparison_of_expression (n : Nat) (ts : List Token) (e : ExprAST) (t : Token)
    (rest : List Token) (h : parseExpression n ts = .ok (e, t :: rest))
    (ht : isComparisonOp t.type = false) :
    parseComparison (n + 1) ts = .ok (e, t :: rest) := by
  have hn : ∃ m, n = m + 1 := by
    cases n with
    | zero => rw [parseExpression] at h; cases h
    | succ m => exact ⟨m, rfl⟩
  obtain ⟨m, rfl⟩ := hn
  rw [parseComparison, h, Res.bind_ok, parseComparisonLoop_stop m e t rest ht]

/-- The three levels of a binary operator. -/
theorem binaryOpType_level (op : Str) (k : TokenType) (h : binaryOpType op = some k) :
    ((k = MULTIPLY ∨ k = DIVIDE) ∧ (if k = MULTIPLY then "*".toList else "/".toList) = op) ∨
    ((k = PLUS ∨ k = MINUS) ∧ ¬ (k = MULTIPLY ∨ k = DIVIDE) ∧
      (if k = PLUS then "+".toList else "-".toList) = op) ∨
    (isComparisonOp k = true ∧ ¬ (k = MULTIPLY ∨ k = DIVIDE) ∧ ¬ (k = PLUS ∨ k = MINUS)) := by
  rcases binaryOpType_cases op k h with ⟨a1, b1⟩ | ⟨a2, b2⟩ | ⟨a3, b3⟩ | ⟨a4, b4⟩ |
    ⟨a5, b5⟩ | ⟨a6, b6⟩ | ⟨a7, b7⟩ | ⟨a8, b8⟩ | ⟨a9, b9⟩ | ⟨a10, b10⟩ <;> subst_vars <;> decide

/-- Parsing the tokens of a well-formed tree as a factor gives the tree back. -/
theorem parseFactor_exprTokens : ∀ (e : ExprAST), exprWF e = true →
    ∀ (n : Nat) (rest : List Token), exprDepth e ≤ n →
      parseFactor n (exprTokens e ++ rest) = .ok (e, rest)
  | .number v, _, n, rest, hn => by
    obtain ⟨m, rfl⟩ : ∃ m, n = m + 1 := ⟨n - 1, by simp only [exprDepth] at hn; omega⟩
    exact parseFactor_atom m ⟨NUMBER_LITERAL, v⟩ rest rfl
  | .variable v, _, n, rest, hn => by
    obtain ⟨m, rfl⟩ : ∃ m, n = m + 1 := ⟨n - 1, by simp only [exprDepth] at hn; omega⟩
    exact parseFactor_atom m ⟨IDENTIFIER, v⟩ rest rfl
  | .stringLiteral v, _, n, rest, hn => by
    obtain ⟨m, rfl⟩ : ∃ m, n = m + 1 := ⟨n - 1, by simp only [exprDepth] at hn; omega⟩
    exact parseFactor_atom m ⟨STRING_LITERAL, v⟩ rest rfl
  | .binary op l r, h, n, rest, hn => by
    simp only [exprWF, Bool.and_eq_true, Option.isSome_iff_exists] at h
    obtain ⟨⟨⟨k, hk⟩, hl⟩, hr⟩ := h
    simp only [exprDepth] at hn
    obtain ⟨m, rfl⟩ : ∃ m, n = m + 5 := ⟨n - 5, by omega⟩
    have hdl : exprDepth l ≤ m + 1 := by omega
    have hdr : exprDepth r ≤ m := by omega
    obtain ⟨m', rfl⟩ : ∃ m', m = m' + 1 := by
      have : 1 ≤ exprDepth r := by cases r <;> simp [exprDepth]
      exact ⟨m - 1, by omega⟩
    -- the tokens after the opening parenthesis
    have etok : exprTokens (.binary op l r) ++ rest =
        ⟨OPEN_PAREN, "(".toList⟩ :: (exprTokens l ++
          ⟨k, op⟩ :: (exprTokens r ++ ⟨CLOSE_PAREN, ")".toList⟩ :: rest)) := by
      simp [exprTokens, hk]
    have hL := parseFactor_exprTokens l hl (m' + 2)
      (⟨k, op⟩ :: (exprTokens r ++ ⟨CLOSE_PAREN, ")".toList⟩ :: rest)) hdl
    have hR := parseFactor_exprTokens r hr (m' + 1) (⟨CLOSE_PAREN, ")".toList⟩ :: rest) hdr
    have hclose1 : ¬ ((⟨CLOSE_PAREN, ")".toList⟩ : Token).type = MULTIPLY ∨
        (⟨CLOSE_PAREN, ")".toList⟩ : Token).type = DIVIDE) := by decide
    have hclose2 : ¬ ((⟨CLOSE_PAREN, ")".toList⟩ : Token).type = PLUS ∨
        (⟨CLOSE_PAREN, ")".toList⟩ : Token).type = MINUS) := by decide
    have hclose3 : isComparisonOp (⟨CLOSE_PAREN, ")".toList⟩ : Token).type = false := by decide
    have hcmp : parseComparison (m' + 5) (exprTokens l ++
        ⟨k, op⟩ :: (exprTokens r ++ ⟨CLOSE_PAREN, ")".toList⟩ :: rest)) =
        .ok (.binary op l r, ⟨CLOSE_PAREN, ")".toList⟩ :: rest) := by
      rcases binaryOpType_level op k hk with ⟨hm, hval⟩ | ⟨ha, hnm, hval⟩ | ⟨hc, hnm, hna⟩
      · -- multiplicative operator: the loop of parseTerm takes it
        have hT : parseTerm (m' + 3) (exprTokens l ++
            ⟨k, op⟩ :: (exprTokens r ++ ⟨CLOSE_PAREN, ")".toList⟩ :: rest)) =
            .ok (.binary op l r, ⟨CLOSE_PAREN, ")".toList⟩ :: rest) := by
          rw [parseTerm, hL, Res.bind_ok, parseTermLoop, if_pos hm, advance, List.tail_cons,
            hR, Res.bind_ok, hval, parseTermLoop_stop _ _ _ _ hclose1]
        exact parseComparison_of_expression _ _ _ _ _
          (parseExpression_of_term _ _ _ _ _ hT hclose2) hclose3
      · -- additive operator: the loop of parseExpression takes it
        have hT := parseTerm_of_factor _ _ _ _ _ hL hnm
        have hTr := parseTerm_of_factor _ _ _ _ _ hR hclose1
        have hE : parseExpression (m' + 4) (exprTokens l ++
            ⟨k, op⟩ :: (exprTokens r ++ ⟨CLOSE_PAREN, ")".toList⟩ :: rest)) =
            .ok (.binary op l r, ⟨CLOSE_PAREN, ")".toList⟩ :: rest) := by
          rw [parseExpression, hT, Res.bind_ok, parseExpressionLoop, if_pos ha, advance,
            List.tail_cons]
          rw [show m' + 2 = (m' + 1) + 1 from rfl] at hTr
          rw [hTr, Res.bind_ok, hval, parseExpressionLoop_stop _ _ _ _ hclose2]
        exact parseComparison_of_expression _ _ _ _ _ hE hclose3
      · -- comparison operator: the loop of parseComparison takes it
        have hE := parseExpression_of_term _ _ _ _ _
          (parseTerm_of_factor _ _ _ _ _ hL hnm) hna
        have hEr := parseExpression_of_term _ _ _ _ _
          (parseTerm_of_factor _ _ _ _ _ hR hclose1) hclose2
        rw [parseComparison, hE, Res.bind_ok, parseComparisonLoop, if_pos hc, advance,
          List.tail_cons, hEr, Res.bind_ok, parseComparisonLoop_stop _ _ _ _ hclose3]
    rw [etok, parseFactor, if_pos rfl, advance, List.tail_cons, hcmp, Res.bind_ok]
    rfl

theorem exprWF_binary (op : Str) (l r : ExprAST) (hop : (binaryOpType op).isSome = true)
    (hl : exprWF l = true) (hr : exprWF r = true) : exprWF (.binary op l r) = true := by
  simp only [exprWF, hop, hl, hr, Bool.and_self]

theorem comparison_lexeme (t : Token) (hc : isComparisonOp t.type = true)
    (hok : lexemeOk t = true) : (binaryOpType t.value).isSome = true := by
  obtain ⟨k, v⟩ := t
  cases k <;> first
    | (exfalso; simp [isComparisonOp] at hc; done)
    | (simp only [lexemeOk, fixedLexeme, beq_iff_eq, Option.some.injEq] at hok
       subst hok
       rfl)

/-- The trees that the expression parser builds from tokens with well-shaped lexemes
are well formed. -/
theorem exprInv_wf :
    ExprInv (fun ts => ∀ t ∈ ts, lexemeOk t = true) (fun e => exprWF e = true) where
  tail := fun t ts h x hx => h x (List.mem_cons_of_mem _ hx)
  atom := by
    intro t ts h hat
    have hok := h t (by simp)
    obtain ⟨k, v⟩ := t
    cases k <;> first
      | (exfalso; simp [isAtomType] at hat; done)
      | (simpa [atomOf, exprWF, lexemeOk] using hok)
  mul := fun l r hl hr => exprWF_binary _ l r rfl hl hr
  div := fun l r hl hr => exprWF_binary _ l r rfl hl hr
  add := fun l r hl hr => exprWF_binary _ l r rfl hl hr
  sub := fun l r hl hr => exprWF_binary _ l r rfl hl hr
  cmp := fun t ts l r h hc hl hr =>
    exprWF_binary _ l r (comparison_lexeme t hc (h t (by simp))) hl hr

theorem exprDepth_le_tokens : ∀ e : ExprAST, exprDepth e ≤ 5 * (exprTokens e).length
  | .number _ => by simp [exprDepth, exprTokens]
  | .variable _ => by simp [exprDepth, exprTokens]
  | .stringLiteral _ => by simp [exprDepth, exprTokens]
  | .binary op l r => by
    have hl := exprDepth_le_tokens l
    have hr := exprDepth_le_tokens r
    simp only [exprDepth, exprTokens, List.length_cons, List.length_append, List.length_nil]
    omega

/-- C3: expression round trip. When the comparison-level parser builds the tree `e`
from the tokens of a source text, lexing the emitted text of `e` and parsing it at the
same level gives `e` again and stops at the end-of-file token, so the whole text is
consumed. -/
theorem expr_round_trip (source : Str) (tokens rest : List Token) (e : ExprAST)
    (hlex : tokenize source = some tokens)
    (hparse : parseComparison (parseFuel tokens) tokens = .ok (e, rest)) :
    ∃ tokens', tokenize (exprToPy e) = some tokens' ∧
      parseComparison (parseFuel tokens') tokens' = .ok (e, [⟨END_OF_FILE, []⟩]) := by
  have htok : tokens = lex source := by
    have := tokenize_eq_some source
    rw [hlex] at this
    exact Option.some.inj this
  have hwf : exprWF e = true :=
    (parseComparison_sat exprInv_wf _ tokens
      (fun t ht => lex_lexemeOk source t (htok ▸ ht)) (e, rest) hparse).1
  have hlex' : lex (exprToPy e) = exprTokens e ++ [eofToken] := by
    have := lex_toPython e hwf [] rfl
    rwa [List.append_nil, lex_nil] at this
  refine ⟨exprTokens e ++ [eofToken], by rw [tokenize_eq_some, hlex'], ?_⟩
  have hd := exprDepth_le_tokens e
  have hfuel : parseFuel (exprTokens e ++ [eofToken]) =
      (8 * (exprTokens e).length + 21) + 3 := by
    simp only [parseFuel, List.length_append, List.length_singleton]
    omega
  rw [hfuel]
  have hF := parseFactor_exprTokens e hwf (8 * (exprTokens e).length + 21) [eofToken]
    (by omega)
  exact parseComparison_of_expression _ _ _ _ _
    (parseExpression_of_term _ _ _ _ _
      (parseTerm_of_factor _ _ _ _ _ hF (by decide)) (by decide)) (by decide)

/-- The round trip on `(a + 1) * b < "s"`, an expression with all parentheses the
emitter would write but the outer ones. -/
theorem expr_round_trip_witness :
    ∃ tokens', tokenize "(((a+1)*b)<\"s\")".toList = some tokens' ∧
      parseComparison (parseFuel tokens') tokens' =
        .ok (.binary "<".toList (.binary "*".toList
          (.binary "+".toList (.variable "a".toList) (.number "1".toList))
          (.variable "b".toList)) (.stringLiteral "s".toList), [⟨END_OF_FILE, []⟩]) :=
  expr_round_trip "((a + 1) * b) < \"s\"".toList
    [⟨OPEN_PAREN, "(".toList⟩, ⟨OPEN_PAREN, "(".toList⟩, ⟨IDENTIFIER, "a".toList⟩,
      ⟨PLUS, "+".toList⟩, ⟨NUMBER_LITERAL, "1".toList⟩, ⟨CLOSE_PAREN, ")".toList⟩,
      ⟨MULTIPLY, "*".toList⟩, ⟨IDENTIFIER, "b".toList⟩, ⟨CLOSE_PAREN, ")".toList⟩,
      ⟨LESS_THAN, "<".toList⟩, ⟨STRING_LITERAL, "s".toList⟩, ⟨END_OF_FILE, []⟩]
    [⟨END_OF_FILE, []⟩]
    (.binary "<".toList (.binary "*".toList
      (.binary "+".toList (.variable "a".toList) (.number "1".toList))
      (.variable "b".toList)) (.stringLiteral "s".toList))
    (by decide) (by decide)


theorem lexStep_length (c : Char) (cs : Str) :
    (lexStep c cs).2.length < (c :: cs).length := by
  unfold lexStep
  split_ifs with h1 h2 h3 h4 h5
  · simp
  · have := skipComment_length_le cs
    rw [h2.1, skipComment_cons_slash]
    simp only [List.length_cons]; omega
  · exact readIdentifier_length_lt c cs h3
  · exact readNumber_length_lt c cs h4
  · exact readStringLiteral_length_lt c cs
  · have := operatorToken_consumed c (c :: cs)
    simp only [List.length_drop, List.length_cons]; omega

/-- One step of the lexer, in terms of `lexStep`. -/
theorem lex_cons_step (c : Char) (cs : Str) :
    lex (c :: cs) = match (lexStep c cs).1 with
      | none => lex (lexStep c cs).2
      | some t => t :: lex (lexStep c cs).2 := by
  rw [lex_cons]
  unfold lexStep
  split_ifs <;> rfl

theorem respellLoop_fuel (n : Nat) : ∀ (m : Nat) (a b : Bool) (s : Str),
    s.length < n → s.length < m → respellLoop n a b s = respellLoop m a b s := by
  induction n with
  | zero => intro m a b s h; omega
  | succ n ih =>
    intro m a b s hn hm
    cases m with
    | zero => omega
    | succ m =>
      cases s with
      | nil => simp [respellLoop]
      | cons c cs =>
        have hl := lexStep_length c cs
        simp only [List.length_cons] at hn hm hl
        rw [respellLoop, respellLoop]
        cases (lexStep c cs).1 with
        | none => exact ih m _ _ _ (by omega) (by omega)
        | some t => simp only []; rw [ih m _ _ _ (by omega) (by omega)]

/-- The text `respell` writes from a state of the run on: `started` and `separated`
as in `respellLoop`, on the text left. -/
theorem respellLoop_cons (n : Nat) (a b : Bool) (c : Char) (cs : Str)
    (hn : (c :: cs).length < n) :
    respellLoop n a b (c :: cs) = match (lexStep c cs).1 with
      | none => respellLoop n a true (lexStep c cs).2
      | some t => (if a && b then " ".toList else []) ++ t.value ++
          respellLoop n true false (lexStep c cs).2 := by
  obtain ⟨m, rfl⟩ : ∃ m, n = m + 1 := ⟨n - 1, by omega⟩
  have hl := lexStep_length c cs
  simp only [List.length_cons] at hn hl
  rw [respellLoop]
  cases (lexStep c cs).1 with
  | none => exact respellLoop_fuel _ _ _ _ _ (by omega) (by omega)
  | some t => simp only []; rw [respellLoop_fuel m (m + 1) _ _ _ (by omega) (by omega)]

theorem readIdentifierLoop_stop_head (s : Str) (c : Char)
    (h : (readIdentifierLoop s).2.head? = some c) : isIdentChar c = false := by
  induction s with
  | nil => simp [readIdentifierLoop] at h
  | cons x xs ih =>
    rw [readIdentifierLoop] at h
    split_ifs at h with hx
    · exact ih h
    · simp only [List.head?_cons, Option.some.injEq] at h
      subst h
      simpa using hx

theorem readNumberLoop_stop_head (b : Bool) (s : Str) (c : Char)
    (h : (readNumberLoop b s).2.head? = some c) : isdigit c = false := by
  induction s generalizing b with
  | nil => simp [readNumberLoop] at h
  | cons x xs ih =>
    rw [readNumberLoop] at h
    by_cases h1 : (isdigit x || x == '.') = true
    · rw [if_pos h1] at h
      by_cases h2 : (x == '.') = true
      · rw [if_pos h2] at h
        cases b with
        | true =>
          simp only [if_true, List.head?_cons, Option.some.injEq] at h
          subst h
          have : x = '.' := by simpa using h2
          subst this
          rfl
        | false =>
          simp only [Bool.false_eq_true, if_false] at h
          exact ih true h
      · rw [if_neg h2] at h
        exact ih b h
    · rw [if_neg h1] at h
      simp only [List.head?_cons, Option.some.injEq] at h
      subst h
      simp only [Bool.or_eq_true, not_or, Bool.not_eq_true] at h1
      exact h1.1

theorem tokenExtends_keywords (v : Str) (c : Char) :
    tokenExtends ((keywords v).getD IDENTIFIER) c = isIdentChar c := by
  unfold keywords
  split_ifs <;> rfl

theorem punctuationToken_cases (c : Char) :
    (c = '-' ∧ punctuationToken c = ⟨MINUS, "-".toList⟩) ∨
    (c = '*' ∧ punctuationToken c = ⟨MULTIPLY, "*".toList⟩) ∨
    (c = '/' ∧ punctuationToken c = ⟨DIVIDE, "/".toList⟩) ∨
    (c = '%' ∧ punctuationToken c = ⟨MODULO, "%".toList⟩) ∨
    (c = '(' ∧ punctuationToken c = ⟨OPEN_PAREN, "(".toList⟩) ∨
    (c = ')' ∧ punctuationToken c = ⟨CLOSE_PAREN, ")".toList⟩) ∨
    (c = '\x7b' ∧ punctuationToken c = ⟨OPEN_BRACE, "\x7b".toList⟩) ∨
    (c = '\x7d' ∧ punctuationToken c = ⟨CLOSE_BRACE, "\x7d".toList⟩) ∨
    (c = ';' ∧ punctuationToken c = ⟨SEMICOLON, ";".toList⟩) ∨
    punctuationToken c = ⟨UNKNOWN, [c]⟩ := by
  rw [punctuationToken]
  by_cases h1 : c = '-'
  · rw [if_pos h1]; exact Or.inl ⟨h1, rfl⟩
  rw [if_neg h1]
  by_cases h2 : c = '*'
  · rw [if_pos h2]; exact Or.inr (Or.inl ⟨h2, rfl⟩)
  rw [if_neg h2]
  by_cases h3 : c = '/'
  · rw [if_pos h3]; exact Or.inr (Or.inr (Or.inl ⟨h3, rfl⟩))
  rw [if_neg h3]
  by_cases h4 : c = '%'
  · rw [if_pos h4]; exact Or.inr (Or.inr (Or.inr (Or.inl ⟨h4, rfl⟩)))
  rw [if_neg h4]
  by_cases h5 : c = '('
  · rw [if_pos h5]; exact Or.inr (Or.inr (Or.inr (Or.inr (Or.inl ⟨h5, rfl⟩))))
  rw [if_neg h5]
  by_cases h6 : c = ')'
  · rw [if_pos h6]; exact Or.inr (Or.inr (Or.inr (Or.inr (Or.inr (Or.inl ⟨h6, rfl⟩)))))
  rw [if_neg h6]
  by_cases h7 : c = '\x7b'
  · rw [if_pos h7]
    exact Or.inr (Or.inr (Or.inr (Or.inr (Or.inr (Or.inr (Or.inl ⟨h7, rfl⟩))))))
  rw [if_neg h7]
  by_cases h8 : c = '\x7d'
  · rw [if_pos h8]
    exact Or.inr (Or.inr (Or.inr (Or.inr (Or.inr (Or.inr (Or.inr (Or.inl ⟨h8, rfl⟩)))))))
  rw [if_neg h8]
  by_cases h9 : c = ';'
  · rw [if_pos h9]
    exact Or.inr (Or.inr (Or.inr (Or.inr (Or.inr (Or.inr (Or.inr (Or.inr
      (Or.inl ⟨h9, rfl⟩))))))))
  rw [if_neg h9]
  exact Or.inr (Or.inr (Or.inr (Or.inr (Or.inr (Or.inr (Or.inr (Or.inr (Or.inr rfl))))))))

theorem punctuationToken_munch (c : Char) :
    (punctuationToken c).type = UNKNOWN ∨
      ((punctuationToken c).value = [c] ∧
        ((punctuationToken c).type = DIVIDE ∧ c = '/' ∨
          ∀ c', tokenExtends (punctuationToken c).type c' = false)) := by
  rcases punctuationToken_cases c with ⟨a1, h⟩ | ⟨a2, h⟩ | ⟨a3, h⟩ | ⟨a4, h⟩ | ⟨a5, h⟩ |
    ⟨a6, h⟩ | ⟨a7, h⟩ | ⟨a8, h⟩ | ⟨a9, h⟩ | h <;> try subst_vars
  all_goals rw [h]
  · exact Or.inr ⟨rfl, Or.inr fun _ => rfl⟩
  · exact Or.inr ⟨rfl, Or.inr fun _ => rfl⟩
  · exact Or.inr ⟨rfl, Or.inl ⟨rfl, rfl⟩⟩
  · exact Or.inr ⟨rfl, Or.inr fun _ => rfl⟩
  · exact Or.inr ⟨rfl, Or.inr fun _ => rfl⟩
  · exact Or.inr ⟨rfl, Or.inr fun _ => rfl⟩
  · exact Or.inr ⟨rfl, Or.inr fun _ => rfl⟩
  · exact Or.inr ⟨rfl, Or.inr fun _ => rfl⟩
  · exact Or.inr ⟨rfl, Or.inr fun _ => rfl⟩
  · exact Or.inl rfl

theorem peek_cons_cons (c d : Char) (ds : Str) : peek (c :: d :: ds) = d := rfl

theorem peek_singleton (c : Char) : peek [c] = '\x00' := rfl

/-- What the operator branch of the lexer leaves behind: the text is the lexeme
followed by the text left, and the text left does not start with a character that
would have made the lexer read a longer operator or a comment. -/
theorem operatorToken_munch (c : Char) (cs : Str)
    (h2 : ¬ (c = '/' ∧ peek (c :: cs) = '/')) :
    (operatorToken c (c :: cs)).1.type = UNKNOWN ∨
      (c :: cs = (operatorToken c (c :: cs)).1.value ++
          (c :: cs).drop (operatorToken c (c :: cs)).2 ∧
        ∀ c', ((c :: cs).drop (operatorToken c (c :: cs)).2).head? = some c' →
          tokenExtends (operatorToken c (c :: cs)).1.type c' = false) := by
  have hp : ∀ x : Char, x ≠ '\x00' → peek (c :: cs) = x → ∃ ds, cs = x :: ds := by
    intro x hx hpk
    cases cs with
    | nil => exact absurd hpk.symm hx
    | cons d ds => exact ⟨ds, by rw [peek_cons_cons] at hpk; rw [hpk]⟩
  have hn : ∀ x : Char, peek (c :: cs) ≠ x → ∀ c', cs.head? = some c' → c' ≠ x := by
    intro x hx c' hc'
    cases cs with
    | nil => simp at hc'
    | cons d ds =>
      simp only [List.head?_cons, Option.some.injEq] at hc'
      subst hc'
      exact hx
  unfold operatorToken
  split_ifs with e1 p1 e2 p2 e3 p3 p4 e4 p5 e5 p6
  · obtain ⟨ds, rfl⟩ := hp '=' (by decide) p1
    subst e1; exact Or.inr ⟨rfl, fun _ _ => rfl⟩
  · subst e1
    refine Or.inr ⟨rfl, fun c' hc' => ?_⟩
    have := hn '=' p1 c' hc'
    simpa [tokenExtends] using this
  · obtain ⟨ds, rfl⟩ := hp '+' (by decide) p2
    subst e2; exact Or.inr ⟨rfl, fun _ _ => rfl⟩
  · subst e2
    refine Or.inr ⟨rfl, fun c' hc' => ?_⟩
    have := hn '+' p2 c' hc'
    simpa [tokenExtends] using this
  · obtain ⟨ds, rfl⟩ := hp '<' (by decide) p3
    subst e3; exact Or.inr ⟨rfl, fun _ _ => rfl⟩
  · obtain ⟨ds, rfl⟩ := hp '=' (by decide) p4
    subst e3; exact Or.inr ⟨rfl, fun _ _ => rfl⟩
  · subst e3
    refine Or.inr ⟨rfl, fun c' hc' => ?_⟩
    have h1 := hn '<' p3 c' hc'
    have h2 := hn '=' p4 c' hc'
    simp [tokenExtends, h1, h2]
  · obtain ⟨ds, rfl⟩ := hp '=' (by decide) p5
    subst e4; exact Or.inr ⟨rfl, fun _ _ => rfl⟩
  · subst e4
    refine Or.inr ⟨rfl, fun c' hc' => ?_⟩
    have := hn '=' p5 c' hc'
    simpa [tokenExtends] using this
  · obtain ⟨ds, rfl⟩ := hp '=' (by decide) p6
    subst e5; exact Or.inr ⟨rfl, fun _ _ => rfl⟩
  · exact Or.inl rfl
  · rcases punctuationToken_munch c with h | ⟨hv, h⟩
    · exact Or.inl h
    · refine Or.inr ⟨by simp [hv], fun c' hc' => ?_⟩
      rcases h with ⟨hd, hc⟩ | h
      · rw [hd]
        simp only [List.drop_succ_cons, List.drop_zero] at hc'
        have := hn '/' (fun hpk => h2 ⟨hc, hpk⟩) c' hc'
        simpa [tokenExtends] using this
      · exact h c'

theorem readIdentifierLoop_stop (v u : Str) (hv : v.all isIdentChar = true)
    (hu : ∀ c, u.head? = some c → isIdentChar c = false) :
    readIdentifierLoop (v ++ u) = (v, u) := by
  induction v with
  | nil =>
    cases u with
    | nil => rfl
    | cons c cs =>
      rw [List.nil_append, readIdentifierLoop, if_neg (by simp [hu c rfl])]
  | cons c cs ih =>
    simp only [List.all_cons, Bool.and_eq_true] at hv
    rw [List.cons_append, readIdentifierLoop, if_pos hv.1, ih hv.2]

theorem readNumberLoop_stop (v u : Str) (b : Bool)
    (hv : v.all (fun x => isdigit x || x == '.') = true)
    (hc : v.count '.' ≤ if b then 0 else 1)
    (hu : ∀ c, u.head? = some c → isdigit c = false ∧ c ≠ '.') :
    readNumberLoop b (v ++ u) = (v, u) := by
  induction v generalizing b with
  | nil =>
    cases u with
    | nil => rfl
    | cons c cs =>
      obtain ⟨h1, h2⟩ := hu c rfl
      rw [List.nil_append, readNumberLoop, if_neg (by simp [h1, h2])]
  | cons c cs ih =>
    simp only [List.all_cons, Bool.and_eq_true] at hv
    rw [List.cons_append, readNumberLoop, if_pos hv.1]
    by_cases hd : (c == '.') = true
    · have hcd : c = '.' := by simpa using hd
      rw [if_pos hd]
      cases b with
      | true => simp [hcd] at hc
      | false =>
        simp only [hcd, List.count_cons_self, Bool.false_eq_true, if_false] at hc
        rw [if_neg (by simp), ih true hv.2 (by simp; omega)]
    · have hcd : c ≠ '.' := by simpa using hd
      rw [if_neg hd, ih b hv.2 (by rwa [List.count_cons_of_ne (Ne.symm hcd)] at hc)]

/-- The text of an identifier or keyword, before a character that is no identifier
character, is lexed to one token again. -/
theorem lex_identifierText_stop (v u : Str) (hv : isIdentifierText v = true)
    (hu : ∀ c, u.head? = some c → isIdentChar c = false) :
    lex (v ++ u) = ⟨(keywords v).getD IDENTIFIER, v⟩ :: lex u := by
  cases v with
  | nil => simp [isIdentifierText] at hv
  | cons c cs =>
    simp only [isIdentifierText, Bool.and_eq_true] at hv
    obtain ⟨hs, hall⟩ := hv
    obtain ⟨h1, h2⟩ := identStart_class c hs
    have hloop : readIdentifierLoop ((c :: cs) ++ u) = (c :: cs, u) := by
      apply readIdentifierLoop_stop _ _ _ hu
      simp only [List.all_cons, isIdentChar_of_start c hs, Bool.true_and]; exact hall
    rw [List.cons_append, lex_ident c _ h1 (fun h => h2 h.1) hs]
    rw [List.cons_append] at hloop
    simp only [readIdentifier, hloop]

/-- The text of a number, before a character that is neither a digit nor `.`, is
lexed to one number token again. -/
theorem lex_numberText_stop (v u : Str) (hv : isNumberText v = true)
    (hu : ∀ c, u.head? = some c → isdigit c = false ∧ c ≠ '.') :
    lex (v ++ u) = ⟨NUMBER_LITERAL, v⟩ :: lex u := by
  cases v with
  | nil => simp [isNumberText] at hv
  | cons c cs =>
    simp only [isNumberText, Bool.and_eq_true, decide_eq_true_eq] at hv
    obtain ⟨⟨hd, hall⟩, hcount⟩ := hv
    obtain ⟨h1, h2, h3, h4⟩ := isdigit_class c hd
    have hloop : readNumberLoop false ((c :: cs) ++ u) = (c :: cs, u) := by
      apply readNumberLoop_stop _ _ _ _ _ hu
      · simp only [List.all_cons, hd, Bool.true_or, Bool.true_and]; exact hall
      · rw [List.count_cons_of_ne (Ne.symm h4)]; simpa using hcount
    rw [List.cons_append, lex_number c _ h1 (fun h => h2 h.1) h3 hd]
    rw [List.cons_append] at hloop
    simp only [readNumber, hloop]

theorem peek_ne_of_head (c x : Char) (u : Str) (hx : x ≠ '\x00')
    (hu : ∀ c', u.head? = some c' → c' ≠ x) : peek (c :: u) ≠ x := by
  cases u with
  | nil => exact fun h => hx h.symm
  | cons d ds => exact hu d rfl

theorem lex_op1 (c : Char) (u : Str) (tok : Token) (h1 : isspace c = false)
    (h2 : ¬ (c = '/' ∧ peek (c :: u) = '/')) (h3 : (isalpha c || c == '_') = false)
    (h4 : isdigit c = false) (h5 : c ≠ '"') (htok : operatorToken c (c :: u) = (tok, 1)) :
    lex (c :: u) = tok :: lex u := by
  rw [lex_operator c u h1 h2 h3 h4 h5, htok]
  rfl

theorem lex_op2 (c d : Char) (u : Str) (tok : Token) (h1 : isspace c = false)
    (h2 : ¬ (c = '/' ∧ peek (c :: d :: u) = '/')) (h3 : (isalpha c || c == '_') = false)
    (h4 : isdigit c = false) (h5 : c ≠ '"')
    (htok : operatorToken c (c :: d :: u) = (tok, 2)) :
    lex (c :: d :: u) = tok :: lex u := by
  rw [lex_operator c (d :: u) h1 h2 h3 h4 h5, htok]
  rfl

theorem head_ne_of_beq_false {u : Str} {x : Char}
    (hu : ∀ c', u.head? = some c' → (c' == x) = false) :
    ∀ c', u.head? = some c' → c' ≠ x := fun c' h => by simpa using hu c' h

/-- The lexeme of a keyword, operator or punctuation token, before a character that
does not extend it, is lexed to that token again. -/
theorem lex_fixedLexeme (k : TokenType) (sym u : Str) (hfix : fixedLexeme k = some sym)
    (hk : k ≠ END_OF_FILE) (hu : ∀ c', u.head? = some c' → tokenExtends k c' = false) :
    lex (sym ++ u) = ⟨k, sym⟩ :: lex u := by
  cases k <;> simp only [fixedLexeme, Option.some.injEq] at hfix <;>
    first | (subst hfix) | (exact absurd hfix (by simp))
  case KEYWORD_INT => exact lex_identifierText_stop _ u rfl hu
  case KEYWORD_FLOAT => exact lex_identifierText_stop _ u rfl hu
  case KEYWORD_IF => exact lex_identifierText_stop _ u rfl hu
  case KEYWORD_ELSE => exact lex_identifierText_stop _ u rfl hu
  case KEYWORD_FOR => exact lex_identifierText_stop _ u rfl hu
  case KEYWORD_WHILE => exact lex_identifierText_stop _ u rfl hu
  case KEYWORD_COUT => exact lex_identifierText_stop _ u rfl hu
  case KEYWORD_ENDL => exact lex_identifierText_stop _ u rfl hu
  case KEYWORD_MAIN => exact lex_identifierText_stop _ u rfl hu
  case END_OF_FILE => exact absurd rfl hk
  case EQUALS =>
    have hp := peek_ne_of_head '=' '=' u (by decide) (head_ne_of_beq_false hu)
    exact lex_op1 '=' u _ (by decide) (fun h => absurd h.1 (by decide)) (by decide)
      (by decide) (by decide) (by rw [operatorToken, if_pos rfl, if_neg hp])
  case DOUBLE_EQUALS =>
    exact lex_op2 '=' '=' u _ (by decide) (fun h => absurd h.1 (by decide)) (by decide)
      (by decide) (by decide) rfl
  case PLUS =>
    have hp := peek_ne_of_head '+' '+' u (by decide) (head_ne_of_beq_false hu)
    exact lex_op1 '+' u _ (by decide) (fun h => absurd h.1 (by decide)) (by decide)
      (by decide) (by decide)
      (by rw [operatorToken, if_neg (by decide), if_pos rfl, if_neg hp])
  case PLUS_PLUS =>
    exact lex_op2 '+' '+' u _ (by decide) (fun h => absurd h.1 (by decide)) (by decide)
      (by decide) (by decide) rfl
  case MINUS =>
    exact lex_op1 '-' u _ (by decide) (fun h => absurd h.1 (by decide)) (by decide)
      (by decide) (by decide) rfl
  case MULTIPLY =>
    exact lex_op1 '*' u _ (by decide) (fun h => absurd h.1 (by decide)) (by decide)
      (by decide) (by decide) rfl
  case DIVIDE =>
    have hp := peek_ne_of_head '/' '/' u (by decide) (head_ne_of_beq_false hu)
    exact lex_op1 '/' u _ (by decide) (fun h => hp h.2) (by decide)
      (by decide) (by decide) rfl
  case MODULO =>
    exact lex_op1 '%' u _ (by decide) (fun h => absurd h.1 (by decide)) (by decide)
      (by decide) (by decide) rfl
  case LESS_THAN =>
    have h1 : ∀ c', u.head? = some c' → c' ≠ '<' := fun c' h => by
      have := hu c' h; simp [tokenExtends] at this; exact this.1
    have h2 : ∀ c', u.head? = some c' → c' ≠ '=' := fun c' h => by
      have := hu c' h; simp [tokenExtends] at this; exact this.2
    have hp1 := peek_ne_of_head '<' '<' u (by decide) h1
    have hp2 := peek_ne_of_head '<' '=' u (by decide) h2
    exact lex_op1 '<' u _ (by decide) (fun h => absurd h.1 (by decide)) (by decide)
      (by decide) (by decide)
      (by rw [operatorToken, if_neg (by decide), if_neg (by decide), if_pos rfl, if_neg hp1,
        if_neg hp2])
  case LESS_THAN_EQUAL =>
    exact lex_op2 '<' '=' u _ (by decide) (fun h => absurd h.1 (by decide)) (by decide)
      (by decide) (by decide) rfl
  case GREATER_THAN =>
    have hp := peek_ne_of_head '>' '=' u (by decide) (head_ne_of_beq_false hu)
    exact lex_op1 '>' u _ (by decide) (fun h => absurd h.1 (by decide)) (by decide)
      (by decide) (by decide)
      (by rw [operatorToken, if_neg (by decide), if_neg (by decide), if_neg (by decide),
        if_pos rfl, if_neg hp])
  case GREATER_THAN_EQUAL =>
    exact lex_op2 '>' '=' u _ (by decide) (fun h => absurd h.1 (by decide)) (by decide)
      (by decide) (by decide) rfl
  case NOT_EQUAL =>
    exact lex_op2 '!' '=' u _ (by decide) (fun h => absurd h.1 (by decide)) (by decide)
      (by decide) (by decide) rfl
  case STREAM_OPERATOR =>
    exact lex_op2 '<' '<' u _ (by decide) (fun h => absurd h.1 (by decide)) (by decide)
      (by decide) (by decide) rfl
  case OPEN_PAREN =>
    exact lex_op1 '(' u _ (by decide) (fun h => absurd h.1 (by decide)) (by decide)
      (by decide) (by decide) rfl
  case CLOSE_PAREN =>
    exact lex_op1 ')' u _ (by decide) (fun h => absurd h.1 (by decide)) (by decide)
      (by decide) (by decide) rfl
  case OPEN_BRACE =>
    exact lex_op1 '\x7b' u _ (by decide) (fun h => absurd h.1 (by decide)) (by decide)
      (by decide) (by decide) rfl
  case CLOSE_BRACE =>
    exact lex_op1 '\x7d' u _ (by decide) (fun h => absurd h.1 (by decide)) (by decide)
      (by decide) (by decide) rfl
  case SEMICOLON =>
    exact lex_op1 ';' u _ (by decide) (fun h => absurd h.1 (by decide)) (by decide)
      (by decide) (by decide) rfl

/-- The lexeme of a token that is neither a string literal, nor unknown, nor
end-of-file, before a character that does not extend it, is lexed to that token. -/
theorem lex_reread (t : Token) (u : Str) (hok : lexemeOk t = true)
    (h1 : t.type ≠ STRING_LITERAL) (h2 : t.type ≠ UNKNOWN) (h3 : t.type ≠ END_OF_FILE)
    (hu : ∀ c', u.head? = some c' → tokenExtends t.type c' = false) :
    lex (t.value ++ u) = t :: lex u := by
  obtain ⟨k, v⟩ := t
  by_cases hi : k = IDENTIFIER
  · subst hi
    simp only [lexemeOk, Bool.and_eq_true, Option.isNone_iff_eq_none] at hok
    have := lex_identifierText_stop v u hok.1 hu
    rwa [hok.2] at this
  by_cases hn : k = NUMBER_LITERAL
  · subst hn
    simp only [lexemeOk] at hok
    refine lex_numberText_stop v u hok fun c' hc' => ?_
    have := hu c' hc'
    simpa [tokenExtends] using this
  have hfix : fixedLexeme k = some v := by
    cases k <;> first
      | exact absurd rfl hi | exact absurd rfl hn | exact absurd rfl h1 | exact absurd rfl h2
      | simpa [lexemeOk] using hok
  exact lex_fixedLexeme k v u hfix h3 hu

theorem operatorToken_value_ne_nil (c : Char) (s : Str) :
    (operatorToken c s).1.value ≠ [] := by
  have hp : (punctuationToken c).value ≠ [] := by
    rcases punctuationToken_cases c with g1 | g2 | g3 | g4 | g5 | g6 | g7 | g8 | g9 | g
    · rw [g1.2]; simp
    · rw [g2.2]; simp
    · rw [g3.2]; simp
    · rw [g4.2]; simp
    · rw [g5.2]; simp
    · rw [g6.2]; simp
    · rw [g7.2]; simp
    · rw [g8.2]; simp
    · rw [g9.2]; simp
    · rw [g]; simp
  simp only [operatorToken, apply_ite Prod.fst, apply_ite Token.value]
  split_ifs <;> first | exact hp | simp

/-- What a step of the lexer that pushes a token, neither a string literal nor
unknown, leaves behind. -/
theorem lexStep_munch (c : Char) (cs : Str) (t : Token) (h : (lexStep c cs).1 = some t)
    (hs : t.type ≠ STRING_LITERAL) (hun : t.type ≠ UNKNOWN) :
    c :: cs = t.value ++ (lexStep c cs).2 ∧ t.value ≠ [] ∧ t.type ≠ END_OF_FILE ∧
      ∀ c', (lexStep c cs).2.head? = some c' →
        tokenExtends t.type c' = false ∨ (t.type = NUMBER_LITERAL ∧ c' = '.') := by
  rw [lexStep] at h ⊢
  split_ifs at h ⊢ with h1 h2 h3 h4 h5
  · -- identifier or keyword
    simp only [Option.some.injEq] at h
    subst h
    have happ := readIdentifierLoop_append (c :: cs)
    refine ⟨happ.symm, ?_, keywords_ne_eof _, fun c' hc' => Or.inl ?_⟩
    · rw [readIdentifier_value, readIdentifierLoop_cons c cs (isIdentChar_of_start c h3)]
      simp
    · show tokenExtends ((keywords _).getD IDENTIFIER) c' = _
      rw [tokenExtends_keywords]
      exact readIdentifierLoop_stop_head _ c' hc'
  · -- number
    simp only [Option.some.injEq] at h
    subst h
    have happ := readNumberLoop_append false (c :: cs)
    refine ⟨happ.symm, ?_, by simp [readNumber], fun c' hc' => ?_⟩
    · have hc := isdigit_ne_dot c h4
      simp [readNumber, readNumberLoop, h4, hc]
    · have hd := readNumberLoop_stop_head false _ c' hc'
      by_cases hdot : c' = '.'
      · exact Or.inr ⟨rfl, hdot⟩
      · exact Or.inl (by simp [tokenExtends, readNumber, hd, hdot])
  · -- string literal
    simp only [Option.some.injEq] at h
    subst h
    exact absurd rfl hs
  · -- operator or punctuation
    simp only [Option.some.injEq] at h
    subst h
    rcases operatorToken_munch c cs h2 with hu | ⟨happ, hext⟩
    · exact absurd hu hun
    · exact ⟨happ, operatorToken_value_ne_nil _ _, operatorToken_type_ne_eof _ _,
        fun c' hc' => Or.inl (hext c' hc')⟩

theorem respellLoop_nil (n : Nat) (a b : Bool) : respellLoop n a b [] = [] := by
  cases n <;> rfl

theorem tokenExtends_space (k : TokenType) : tokenExtends k ' ' = false := by
  cases k <;> rfl

theorem lexStep_dot (cs : Str) : (lexStep '.' cs).1 = some ⟨UNKNOWN, ['.']⟩ := by
  rfl

/-- After skipped whitespace or a comment, what `respell` writes is empty or starts
with a space. -/
theorem respellLoop_separated (s : Str) : ∀ n, s.length < n →
    respellLoop n true true s = [] ∨ ∃ x, respellLoop n true true s = ' ' :: x := by
  generalize hl : s.length = l
  induction l using Nat.strong_induction_on generalizing s with
  | _ l ih =>
    intro n hn
    cases s with
    | nil => exact Or.inl (respellLoop_nil n _ _)
    | cons c cs =>
      subst hl
      have hlen := lexStep_length c cs
      rw [respellLoop_cons n _ _ c cs hn]
      cases (lexStep c cs).1 with
      | none => exact ih _ hlen _ rfl n (by omega)
      | some t => exact Or.inr ⟨_, rfl⟩

/-- Right after a token, what `respell` writes starts with a space or with the
character the text left starts with, and then a token starts there. -/
theorem respellLoop_adjacent (s : Str) (n : Nat) (hn : s.length < n)
    (hgood : ∀ t ∈ lex s, t.type ≠ UNKNOWN ∧ t.type ≠ STRING_LITERAL) (c' : Char)
    (h : (respellLoop n true false s).head? = some c') :
    c' = ' ' ∨ ∃ cs t, s = c' :: cs ∧ (lexStep c' cs).1 = some t ∧ t ∈ lex s := by
  cases s with
  | nil => rw [respellLoop_nil] at h; cases h
  | cons c cs =>
    have hlen := lexStep_length c cs
    have hlex := lex_cons_step c cs
    rw [respellLoop_cons n _ _ c cs hn] at h
    cases hstep : (lexStep c cs).1 with
    | none =>
      rw [hstep] at h
      simp only [] at h
      rcases respellLoop_separated (lexStep c cs).2 n (by omega) with h0 | ⟨x, hx⟩
      · rw [h0] at h; cases h
      · rw [hx] at h
        exact Or.inl (by simpa using h.symm)
    | some t =>
      rw [hstep] at h hlex
      simp only [] at h hlex
      have ht : t ∈ lex (c :: cs) := by rw [hlex]; simp
      obtain ⟨hun, hs⟩ := hgood t ht
      obtain ⟨happ, hne, _, _⟩ := lexStep_munch c cs t hstep hs hun
      obtain ⟨v0, vs, hv⟩ := List.exists_cons_of_ne_nil hne
      rw [hv] at h happ
      simp only [Bool.and_false, Bool.false_eq_true, if_false, List.nil_append,
        List.cons_append, List.head?_cons, Option.some.injEq, List.cons.injEq] at h happ
      subst h
      obtain ⟨hc, _⟩ := happ
      subst hc
      exact Or.inr ⟨cs, t, rfl, hstep, ht⟩

/-- The respelt text, from any state of the run on, lexes to the tokens of the text
left. -/
theorem lex_respellLoop (s : Str) :
    (∀ t ∈ lex s, t.type ≠ UNKNOWN ∧ t.type ≠ STRING_LITERAL) →
    ∀ n a b, s.length < n → lex (respellLoop n a b s) = lex s := by
  generalize hl : s.length = l
  induction l using Nat.strong_induction_on generalizing s with
  | _ l ih =>
    intro hgood n a b hn
    cases s with
    | nil => rw [respellLoop_nil]
    | cons c cs =>
      subst hl
      have hlen := lexStep_length c cs
      have hlex := lex_cons_step c cs
      rw [respellLoop_cons n _ _ c cs hn]
      cases hstep : (lexStep c cs).1 with
      | none =>
        rw [hstep] at hlex
        simp only [] at hlex ⊢
        rw [hlex]
        exact ih _ hlen _ rfl (by rwa [hlex] at hgood) n a true (by omega)
      | some t =>
        rw [hstep] at hlex
        simp only [] at hlex ⊢
        have ht : t ∈ lex (c :: cs) := by rw [hlex]; simp
        have hgood' : ∀ x ∈ lex (lexStep c cs).2, x.type ≠ UNKNOWN ∧ x.type ≠ STRING_LITERAL :=
          fun x hx => hgood x (by rw [hlex]; exact List.mem_cons_of_mem _ hx)
        obtain ⟨hun, hs⟩ := hgood t ht
        obtain ⟨_, _, heof, hext⟩ := lexStep_munch c cs t hstep hs hun
        have hok : lexemeOk t = true := lex_lexemeOk _ t ht
        have hrest := ih _ hlen (lexStep c cs).2 rfl hgood' n true false (by omega)
        have hu : ∀ c', (respellLoop n true false (lexStep c cs).2).head? = some c' →
            tokenExtends t.type c' = false := by
          intro c' hc'
          rcases respellLoop_adjacent _ n (by omega) hgood' c' hc' with rfl | ⟨ds, t', hr, hst, ht'⟩
          · exact tokenExtends_space _
          · rcases hext c' (by rw [hr]; rfl) with h | ⟨_, hdot⟩
            · exact h
            · subst hdot
              rw [lexStep_dot] at hst
              cases hst
              exact absurd rfl (hgood' _ ht').1
        have hmain : lex (t.value ++ respellLoop n true false (lexStep c cs).2) =
            t :: lex (lexStep c cs).2 := by
          rw [lex_reread t _ hok hs hun heof hu, hrest]
        rw [hlex]
        by_cases hab : (a && b) = true
        · rw [if_pos hab, List.append_assoc]
          rw [show " ".toList ++ (t.value ++ respellLoop n true false (lexStep c cs).2) =
            ' ' :: (t.value ++ respellLoop n true false (lexStep c cs).2) from rfl,
            lex_space ' ' _ rfl]
          exact hmain
        · rw [if_neg hab, List.nil_append]
          exact hmain

/-- C7 as stated fails: the lexeme of a string literal leaves out the quotes, so
`"hi"`, respelt `hi`, lexes to an identifier. -/
theorem respell_string_counterexample :
    tokenize "\"hi\"".toList = some [⟨STRING_LITERAL, "hi".toList⟩, ⟨END_OF_FILE, []⟩] ∧
      respell "\"hi\"".toList = "hi".toList ∧
      tokenize "hi".toList = some [⟨IDENTIFIER, "hi".toList⟩, ⟨END_OF_FILE, []⟩] := by
  decide

/-- C7, amended: when the token vector of a source text holds neither an unknown token
nor a string literal, the text of its lexemes, with single spaces where whitespace or
comments separated two tokens, lexes to the same token vector. -/
theorem respell_lex (source : Str) (tokens : List Token)
    (hlex : tokenize source = some tokens)
    (hunknown : ∀ t ∈ tokens, t.type ≠ UNKNOWN)
    (hstring : ∀ t ∈ tokens, t.type ≠ STRING_LITERAL) :
    tokenize (respell source) = some tokens := by
  have htok : tokens = lex source := by
    have := tokenize_eq_some source
    rw [hlex] at this
    exact Option.some.inj this
  subst htok
  rw [tokenize_eq_some, respell,
    lex_respellLoop source (fun t ht => ⟨hunknown t ht, hstring t ht⟩) _ _ _
      (Nat.lt_succ_self _)]

/-- The amended C7 on a text with a comment, runs of whitespace and adjacent tokens. -/
theorem respell_lex_witness :
    tokenize (respell "int  x=1;//c\ny <=2".toList) =
      some [⟨KEYWORD_INT, "int".toList⟩, ⟨IDENTIFIER, "x".toList⟩, ⟨EQUALS, "=".toList⟩,
        ⟨NUMBER_LITERAL, "1".toList⟩, ⟨SEMICOLON, ";".toList⟩, ⟨IDENTIFIER, "y".toList⟩,
        ⟨LESS_THAN_EQUAL, "<=".toList⟩, ⟨NUMBER_LITERAL, "2".toList⟩, ⟨END_OF_FILE, []⟩] :=
  respell_lex "int  x=1;//c\ny <=2".toList _ (by decide) (by decide) (by decide)

theorem stmtInv_trivial : StmtInv (fun _ => True) (fun _ => True) (fun _ => True) where
  expr := exprInv_trivial
  varDecl := fun _ _ _ _ _ _ _ => trivial
  assign := fun _ _ _ _ _ _ _ => trivial
  cout := fun _ _ _ _ _ _ _ => trivial
  ifS := fun _ _ _ _ _ _ _ _ => trivial
  forS := fun _ _ _ _ _ _ _ _ _ _ _ _ _ _ => trivial
  whileS := fun _ _ _ _ => trivial

theorem parseBlock_suffix (n : Nat) (ts : List Token) :
    (parseBlock n ts).Sat fun r => r.2 <:+ ts :=
  ((parseStmt_sat_all stmtInv_trivial n).2.1 ts trivial).mono fun _ h => h.2

theorem parseBlockLoop_suffix (n : Nat) (ts : List Token) :
    (parseBlockLoop n ts).Sat fun r => r.2 <:+ ts :=
  ((parseStmt_sat_all stmtInv_trivial n).1 ts trivial).mono fun _ h => h.2

theorem parseElseLoop_suffix (n : Nat) (ts : List Token) :
    (parseElseLoop n ts).Sat fun r => r.2 <:+ ts :=
  ((parseStmt_sat_all stmtInv_trivial n).2.2.1 ts trivial).mono fun _ h => h.2

theorem parseStatement_suffix (n : Nat) (ts : List Token) :
    (parseStatement n ts).Sat fun r => r.2 <:+ ts :=
  ((parseStmt_sat_all stmtInv_trivial n).2.2.2.2.2.2 ts trivial).mono fun _ h => h.2

theorem consume_sat_lt (type : TokenType) (message : Str) (ts : List Token) :
    (consume type message ts).Sat fun ts1 => ts1.length < ts.length :=
  (consume_sat type message ts).mono fun _ ⟨_, _, h⟩ => by rw [h]; simp

/-- A successful `parseBlock` consumes at least one token. -/
theorem parseBlock_progress (n : Nat) (ts : List Token) :
    (parseBlock n ts).Sat fun r => r.2.length < ts.length := by
  cases n with
  | zero => rw [parseBlock]; exact Res.sat_outOfFuel
  | succ n =>
    rw [parseBlock]
    refine Res.sat_bind (consume_sat_lt _ _ _) fun ts1 h1 => ?_
    refine Res.sat_bind (parseBlockLoop_suffix n _) fun b hb => ?_
    refine Res.sat_bind (consume_sat_suffix _ _ _) fun ts2 h2 => ?_
    refine Res.sat_ok ?_
    have := (h2.trans hb).length_le
    simp only at this ⊢
    omega

/-- A successful `parseStatement` consumes at least one token. -/
theorem parseStatement_progress (n : Nat) (ts : List Token) :
    (parseStatement n ts).Sat fun r => r.2.length < ts.length := by
  cases n with
  | zero => rw [parseStatement]; exact Res.sat_outOfFuel
  | succ n =>
    cases ts with
    | nil => rw [parseStatement]; exact Res.sat_outOfBounds
    | cons t rest =>
      have hvar : (parseVariableDeclaration n (t :: rest)).Sat
          fun r => r.2.length < (t :: rest).length := by
        cases rest with
        | nil => exact Res.sat_outOfBounds
        | cons i rest1 =>
          simp only [parseVariableDeclaration, advance, List.tail_cons]
          refine Res.sat_bind (consume_sat_suffix _ _ _) fun ts1 h1 => ?_
          cases ts1 with
          | nil => exact Res.sat_outOfBounds
          | cons e rest2 =>
            simp only []
            have l1 := h1.length_le
            simp only [List.length_cons] at l1
            split_ifs
            · refine Res.sat_bind (parseExpression_suffix n _) fun x hx => ?_
              refine Res.sat_bind (consume_sat_lt _ _ _) fun ts2 h2 => ?_
              refine Res.sat_ok ?_
              have l2 := hx.length_le
              simp only [List.length_cons] at h2 l2 ⊢
              omega
            · refine Res.sat_bind (consume_sat_lt _ _ _) fun ts2 h2 => ?_
              refine Res.sat_ok ?_
              simp only [List.length_cons] at h2 ⊢
              omega
      have hloopEnd : ∀ (c : ExprAST × List Token) (k : StatementAST),
          c.2.length ≤ (t :: rest).length →
          ((consume SEMICOLON "';'".toList c.2).bind fun ts2 => Res.ok (k, ts2)).Sat
            fun r => r.2.length < (t :: rest).length := by
        intro c k hc
        refine Res.sat_bind (consume_sat_lt _ _ _) fun ts2 h2 => Res.sat_ok ?_
        simp only at h2 ⊢
        omega
      rw [parseStatement]
      split
      · exact hvar
      · exact hvar
      · -- assignment
        rw [parseAssignmentStatement]
        refine Res.sat_bind (consume_sat_suffix _ _ _) fun ts1 h1 => ?_
        refine Res.sat_bind (parseExpression_suffix n _) fun x hx => ?_
        exact hloopEnd x _ (((hx.trans h1).trans (advance_suffix _)).length_le)
      · -- cout
        rw [parseCoutStatement]
        refine Res.sat_bind (parseCoutLoop_suffix n _) fun x hx => ?_
        refine Res.sat_bind (consume_sat_lt _ _ _) fun ts2 h2 => Res.sat_ok ?_
        have := (hx.trans (advance_suffix _)).length_le
        simp only at h2 this ⊢
        omega
      · -- if
        cases n with
        | zero => rw [parseIfStatement]; exact Res.sat_outOfFuel
        | succ n =>
          rw [parseIfStatement]
          refine Res.sat_bind (consume_sat_suffix _ _ _) fun ts1 h1 => ?_
          refine Res.sat_bind (parseComparison_suffix n _) fun c hc => ?_
          refine Res.sat_bind (consume_sat_suffix _ _ _) fun ts2 h2 => ?_
          refine Res.sat_bind ((parseBlock_progress n _).and (parseBlock_suffix n _))
            fun b hb => ?_
          refine Res.sat_bind (parseElseLoop_suffix n _) fun r hr => Res.sat_ok ?_
          have l1 := (((h2.trans hc).trans h1).trans (advance_suffix _)).length_le
          have l2 := hr.length_le
          have l3 := hb.1
          simp only at l1 l2 l3 ⊢
          omega
      · -- for
        cases n with
        | zero => rw [parseForStatement]; exact Res.sat_outOfFuel
        | succ n =>
          rw [parseForStatement]
          refine Res.sat_bind (consume_sat_suffix _ _ _) fun ts1 h1 => ?_
          refine Res.sat_bind (captureUntil_suffix _ _) fun i hi => ?_
          refine Res.sat_bind (consume_sat_suffix _ _ _) fun ts2 h2 => ?_
          refine Res.sat_bind (captureUntil_suffix _ _) fun c hc => ?_
          refine Res.sat_bind (consume_sat_suffix _ _ _) fun ts3 h3 => ?_
          refine Res.sat_bind (captureUntil_suffix _ _) fun k hk => ?_
          refine Res.sat_bind (consume_sat_suffix _ _ _) fun ts4 h4 => ?_
          refine Res.sat_bind (parseBlock_progress n _) fun b hb => Res.sat_ok ?_
          have l1 := (((((((h4.trans hk).trans h3).trans hc).trans h2).trans hi).trans
            h1).trans (advance_suffix _)).length_le
          simp only at l1 hb ⊢
          omega
      · -- while
        cases n with
        | zero => rw [parseWhileStatement]; exact Res.sat_outOfFuel
        | succ n =>
          rw [parseWhileStatement]
          refine Res.sat_bind (consume_sat_suffix _ _ _) fun ts1 h1 => ?_
          refine Res.sat_bind (parseComparison_suffix n _) fun c hc => ?_
          refine Res.sat_bind (consume_sat_suffix _ _ _) fun ts2 h2 => ?_
          refine Res.sat_bind (parseBlock_progress n _) fun b hb => Res.sat_ok ?_
          have l1 := (((h2.trans hc).trans h1).trans (advance_suffix _)).length_le
          simp only at l1 hb ⊢
          omega
      · exact Res.sat_error

theorem Res.bind_ne_outOfFuel {α β : Type} {r : Res α} {f : α → Res β}
    (h : r ≠ .outOfFuel) (hf : ∀ a, r = .ok a → f a ≠ .outOfFuel) :
    r.bind f ≠ .outOfFuel := by
  cases r with
  | ok a => exact hf a rfl
  | error m => intro e; cases e
  | outOfBounds => intro e; cases e
  | outOfFuel => exact absurd rfl h

theorem consume_ne_outOfFuel (type : TokenType) (message : Str) (ts : List Token) :
    consume type message ts ≠ .outOfFuel := by
  cases ts with
  | nil => intro e; cases e
  | cons t rest =>
    rw [consume]
    split_ifs <;> (intro e; cases e)

theorem parseAtom_ne_outOfFuel (ts : List Token) : parseAtom ts ≠ .outOfFuel := by
  cases ts with
  | nil => intro e; cases e
  | cons t rest =>
    rw [parseAtom]
    split_ifs <;> (intro e; cases e)

theorem captureUntil_ne_outOfFuel (stop : TokenType) (ts : List Token) :
    captureUntil stop ts ≠ .outOfFuel := by
  induction ts with
  | nil => intro e; cases e
  | cons t rest ih =>
    rw [captureUntil]
    split_ifs
    · exact Res.bind_ne_outOfFuel ih fun _ _ e => by cases e
    · intro e; cases e

theorem consume_length {type : TokenType} {message : Str} {ts ts1 : List Token}
    (h : consume type message ts = .ok ts1) : ts1.length + 1 = ts.length := by
  obtain ⟨t, _, rfl⟩ := consume_sat type message ts ts1 h
  rfl

/-- The expression parser does not run out of fuel when the fuel is above eight times
the number of tokens left, plus a constant per function. -/
theorem parseExpr_fuel_all (n : Nat) :
    (∀ ts, 8 * ts.length + 1 ≤ n → parseFactor n ts ≠ .outOfFuel) ∧
    (∀ left ts, 8 * ts.length + 1 ≤ n → parseTermLoop n left ts ≠ .outOfFuel) ∧
    (∀ ts, 8 * ts.length + 2 ≤ n → parseTerm n ts ≠ .outOfFuel) ∧
    (∀ left ts, 8 * ts.length + 1 ≤ n → parseExpressionLoop n left ts ≠ .outOfFuel) ∧
    (∀ ts, 8 * ts.length + 3 ≤ n → parseExpression n ts ≠ .outOfFuel) ∧
    (∀ left ts, 8 * ts.length + 1 ≤ n → parseComparisonLoop n left ts ≠ .outOfFuel) ∧
    (∀ ts, 8 * ts.length + 4 ≤ n → parseComparison n ts ≠ .outOfFuel) := by
  induction n with
  | zero => refine ⟨?_, ?_, ?_, ?_, ?_, ?_, ?_⟩ <;> intros <;> omega
  | succ n ih =>
    obtain ⟨ihF, ihTL, ihT, ihEL, ihE, ihCL, ihC⟩ := ih
    have sF := fun ts => (parseExpr_sat_all exprInv_trivial n).1 ts trivial
    have sT := fun ts => (parseExpr_sat_all exprInv_trivial n).2.2.1 ts trivial
    have sE := fun ts => (parseExpr_sat_all exprInv_trivial n).2.2.2.2.1 ts trivial
    refine ⟨?_, ?_, ?_, ?_, ?_, ?_, ?_⟩
    · intro ts h
      cases ts with
      | nil => rw [parseFactor]; intro e; cases e
      | cons t rest =>
        rw [parseFactor]
        simp only [List.length_cons] at h
        split_ifs
        · refine Res.bind_ne_outOfFuel (ihC _ (by simp only [advance, List.tail_cons]; omega))
            fun r _ => ?_
          exact Res.bind_ne_outOfFuel (consume_ne_outOfFuel _ _ _) fun _ _ e => by cases e
        · exact parseAtom_ne_outOfFuel _
    · intro left ts h
      cases ts with
      | nil => rw [parseTermLoop]; intro e; cases e
      | cons t rest =>
        rw [parseTermLoop]
        simp only [List.length_cons] at h
        by_cases hc : t.type = MULTIPLY ∨ t.type = DIVIDE
        · rw [if_pos hc]
          refine Res.bind_ne_outOfFuel
            (ihF _ (by simp only [advance, List.tail_cons]; omega)) fun r hr => ?_
          have := (sF _ r hr).2.length_le
          simp only [advance, List.tail_cons] at this
          exact ihTL _ _ (by omega)
        · rw [if_neg hc]; intro e; cases e
    · intro ts h
      rw [parseTerm]
      refine Res.bind_ne_outOfFuel (ihF _ (by omega)) fun r hr => ?_
      have := (sF _ r hr).2.length_le
      exact ihTL _ _ (by omega)
    · intro left ts h
      cases ts with
      | nil => rw [parseExpressionLoop]; intro e; cases e
      | cons t rest =>
        rw [parseExpressionLoop]
        simp only [List.length_cons] at h
        by_cases hc : t.type = PLUS ∨ t.type = MINUS
        · rw [if_pos hc]
          refine Res.bind_ne_outOfFuel
            (ihT _ (by simp only [advance, List.tail_cons]; omega)) fun r hr => ?_
          have := (sT _ r hr).2.length_le
          simp only [advance, List.tail_cons] at this
          exact ihEL _ _ (by omega)
        · rw [if_neg hc]; intro e; cases e
    · intro ts h
      rw [parseExpression]
      refine Res.bind_ne_outOfFuel (ihT _ (by omega)) fun r hr => ?_
      have := (sT _ r hr).2.length_le
      exact ihEL _ _ (by omega)
    · intro left ts h
      cases ts with
      | nil => rw [parseComparisonLoop]; intro e; cases e
      | cons t rest =>
        rw [parseComparisonLoop]
        simp only [List.length_cons] at h
        split_ifs
        · refine Res.bind_ne_outOfFuel
            (ihE _ (by simp only [advance, List.tail_cons]; omega)) fun r hr => ?_
          have := (sE _ r hr).2.length_le
          simp only [advance, List.tail_cons] at this
          exact ihCL _ _ (by omega)
        · intro e; cases e
    · intro ts h
      rw [parseComparison]
      refine Res.bind_ne_outOfFuel (ihE _ (by omega)) fun r hr => ?_
      have := (sE _ r hr).2.length_le
      exact ihCL _ _ (by omega)

theorem parseExpression_ne_outOfFuel (n : Nat) (ts : List Token)
    (h : 8 * ts.length + 3 ≤ n) : parseExpression n ts ≠ .outOfFuel :=
  (parseExpr_fuel_all n).2.2.2.2.1 ts h

theorem parseComparison_ne_outOfFuel (n : Nat) (ts : List Token)
    (h : 8 * ts.length + 4 ≤ n) : parseComparison n ts ≠ .outOfFuel :=
  (parseExpr_fuel_all n).2.2.2.2.2.2 ts h

theorem parseVariableDeclaration_ne_outOfFuel (n : Nat) (ts : List Token)
    (h : 8 * ts.length ≤ n) : parseVariableDeclaration n ts ≠ .outOfFuel := by
  cases ts with
  | nil => intro e; cases e
  | cons t rest =>
    cases rest with
    | nil => intro e; cases e
    | cons i rest1 =>
      simp only [parseVariableDeclaration, advance, List.tail_cons]
      refine Res.bind_ne_outOfFuel (consume_ne_outOfFuel _ _ _) fun ts1 h1 => ?_
      have l1 := consume_length h1
      simp only [List.length_cons] at h l1
      cases ts1 with
      | nil => intro e; cases e
      | cons e rest2 =>
        simp only [List.length_cons] at l1 ⊢
        split_ifs
        · refine Res.bind_ne_outOfFuel (parseExpression_ne_outOfFuel n _ (by omega))
            fun r _ => ?_
          exact Res.bind_ne_outOfFuel (consume_ne_outOfFuel _ _ _) fun _ _ e => by cases e
        · exact Res.bind_ne_outOfFuel (consume_ne_outOfFuel _ _ _) fun _ _ e => by cases e

theorem parseAssignmentStatement_ne_outOfFuel (n : Nat) (ts : List Token)
    (h : 8 * ts.length ≤ n) : parseAssignmentStatement n ts ≠ .outOfFuel := by
  cases ts with
  | nil => intro e; cases e
  | cons t rest =>
    rw [parseAssignmentStatement]
    refine Res.bind_ne_outOfFuel (consume_ne_outOfFuel _ _ _) fun ts1 h1 => ?_
    have l1 := consume_length h1
    simp only [advance, List.tail_cons, List.length_cons] at h l1
    refine Res.bind_ne_outOfFuel (parseExpression_ne_outOfFuel n _ (by omega)) fun r _ => ?_
    exact Res.bind_ne_outOfFuel (consume_ne_outOfFuel _ _ _) fun _ _ e => by cases e

theorem parseCoutLoop_ne_outOfFuel (n : Nat) : ∀ ts : List Token,
    8 * ts.length + 1 ≤ n → parseCoutLoop n ts ≠ .outOfFuel := by
  induction n with
  | zero => intro ts h; omega
  | succ n ih =>
    intro ts h
    cases ts with
    | nil => rw [parseCoutLoop]; intro e; cases e
    | cons t rest =>
      rw [parseCoutLoop]
      simp only [List.length_cons] at h
      by_cases hc : t.type = STREAM_OPERATOR
      · rw [if_pos hc]
        cases rest with
        | nil => intro e; cases e
        | cons e rest1 =>
          simp only [advance, List.tail_cons, List.length_cons] at h ⊢
          split_ifs
          · exact Res.bind_ne_outOfFuel (ih _ (by omega)) fun _ _ e => by cases e
          · refine Res.bind_ne_outOfFuel
              (parseExpression_ne_outOfFuel n _ (by simp only [List.length_cons]; omega))
              fun x hx => ?_
            have := (parseExpression_suffix n _ x hx).length_le
            simp only [List.length_cons] at this
            exact Res.bind_ne_outOfFuel (ih _ (by omega)) fun _ _ e => by cases e
      · rw [if_neg hc]; intro e; cases e

theorem parseCoutStatement_ne_outOfFuel (n : Nat) (ts : List Token)
    (h : 8 * ts.length + 1 ≤ n) : parseCoutStatement n ts ≠ .outOfFuel := by
  rw [parseCoutStatement]
  have := (advance_suffix ts).length_le
  refine Res.bind_ne_outOfFuel (parseCoutLoop_ne_outOfFuel n _ (by omega)) fun r _ => ?_
  exact Res.bind_ne_outOfFuel (consume_ne_outOfFuel _ _ _) fun _ _ e => by cases e

/-- The statement parser does not run out of fuel when the fuel is above eight times
the number of tokens left, plus a constant per function. -/
theorem parseStmt_fuel_all (n : Nat) :
    (∀ ts, 8 * ts.length + 6 ≤ n → parseBlockLoop n ts ≠ .outOfFuel) ∧
    (∀ ts, 8 * ts.length + 6 ≤ n → parseBlock n ts ≠ .outOfFuel) ∧
    (∀ ts, 8 * ts.length + 1 ≤ n → parseElseLoop n ts ≠ .outOfFuel) ∧
    (∀ ts, 8 * ts.length + 4 ≤ n → parseIfStatement n ts ≠ .outOfFuel) ∧
    (∀ ts, 8 * ts.length + 4 ≤ n → parseForStatement n ts ≠ .outOfFuel) ∧
    (∀ ts, 8 * ts.length + 4 ≤ n → parseWhileStatement n ts ≠ .outOfFuel) ∧
    (∀ ts, 8 * ts.length + 5 ≤ n → parseStatement n ts ≠ .outOfFuel) := by
  induction n with
  | zero => refine ⟨?_, ?_, ?_, ?_, ?_, ?_, ?_⟩ <;> intros <;> omega
  | succ n ih =>
    obtain ⟨ihBL, ihB, ihEL, ihI, ihF, ihW, ihS⟩ := ih
    -- a condition in parentheses followed by a block, the common part of if and while
    have hcondBlock : ∀ (β : Type) (ts : List Token) (k : ExprAST × List Token →
        List StatementAST × List Token → Res β),
        8 * ts.length + 4 ≤ n + 1 →
        (∀ c b, b.2.length < ts.length → k c b ≠ .outOfFuel) →
        ((consume OPEN_PAREN "'('".toList (advance ts)).bind fun ts1 =>
          (parseComparison n ts1).bind fun c =>
            (consume CLOSE_PAREN "')'".toList c.2).bind fun ts2 =>
              (parseBlock n ts2).bind fun b => k c b) ≠ .outOfFuel := by
      intro β ts k h hk
      have l0 := (advance_suffix ts).length_le
      refine Res.bind_ne_outOfFuel (consume_ne_outOfFuel _ _ _) fun ts1 h1 => ?_
      have l1 := consume_length h1
      refine Res.bind_ne_outOfFuel (parseComparison_ne_outOfFuel n _ (by omega)) fun c hc => ?_
      have l2 := (parseComparison_suffix n _ c hc).length_le
      refine Res.bind_ne_outOfFuel (consume_ne_outOfFuel _ _ _) fun ts2 h2 => ?_
      have l3 := consume_length h2
      refine Res.bind_ne_outOfFuel (ihB _ (by omega)) fun b hb => ?_
      have l4 := (parseBlock_suffix n _ b hb).length_le
      exact hk c b (by omega)
    refine ⟨?_, ?_, ?_, ?_, ?_, ?_, ?_⟩
    · -- parseBlockLoop
      intro ts h
      cases ts with
      | nil => rw [parseBlockLoop]; intro e; cases e
      | cons t rest =>
        rw [parseBlockLoop]
        split_ifs
        · refine Res.bind_ne_outOfFuel (ihS _ (by omega)) fun r hr => ?_
          have := parseStatement_progress n _ r hr
          simp only [List.length_cons] at h this
          exact Res.bind_ne_outOfFuel (ihBL _ (by omega)) fun _ _ e => by cases e
        · intro e; cases e
    · -- parseBlock
      intro ts h
      rw [parseBlock]
      refine Res.bind_ne_outOfFuel (consume_ne_outOfFuel _ _ _) fun ts1 h1 => ?_
      have l1 := consume_length h1
      refine Res.bind_ne_outOfFuel (ihBL _ (by omega)) fun b _ => ?_
      exact Res.bind_ne_outOfFuel (consume_ne_outOfFuel _ _ _) fun _ _ e => by cases e
    · -- parseElseLoop
      intro ts h
      cases ts with
      | nil => rw [parseElseLoop]; intro e; cases e
      | cons t rest =>
        rw [parseElseLoop]
        simp only [List.length_cons] at h
        by_cases hc : t.type = KEYWORD_ELSE
        · rw [if_pos hc]
          cases rest with
          | nil => intro e; cases e
          | cons i rest1 =>
            simp only [advance, List.tail_cons, List.length_cons] at h ⊢
            split_ifs
            · have := hcondBlock _ (i :: rest1)
                (fun c b => (parseElseLoop n b.2).bind fun r =>
                  Res.ok (((c.1, b.1) :: r.1.1, r.1.2), r.2))
                (by simp only [List.length_cons]; omega)
                (fun c b hb => Res.bind_ne_outOfFuel
                  (ihEL _ (by simp only [List.length_cons] at hb; omega))
                  fun _ _ e => by cases e)
              simpa only [advance, List.tail_cons] using this
            · exact Res.bind_ne_outOfFuel
                (ihB _ (by simp only [List.length_cons]; omega)) fun _ _ e => by cases e
        · rw [if_neg hc]; intro e; cases e
    · -- parseIfStatement
      intro ts h
      rw [parseIfStatement]
      exact hcondBlock _ ts _ h fun c b hb =>
        Res.bind_ne_outOfFuel (ihEL _ (by omega)) fun _ _ e => by cases e
    · -- parseForStatement
      intro ts h
      rw [parseForStatement]
      have l0 := (advance_suffix ts).length_le
      refine Res.bind_ne_outOfFuel (consume_ne_outOfFuel _ _ _) fun ts1 h1 => ?_
      have l1 := consume_length h1
      refine Res.bind_ne_outOfFuel (captureUntil_ne_outOfFuel _ _) fun i hi => ?_
      have l2 := (captureUntil_suffix _ _ i hi).length_le
      refine Res.bind_ne_outOfFuel (consume_ne_outOfFuel _ _ _) fun ts2 h2 => ?_
      have l3 := consume_length h2
      refine Res.bind_ne_outOfFuel (captureUntil_ne_outOfFuel _ _) fun c hc => ?_
      have l4 := (captureUntil_suffix _ _ c hc).length_le
      refine Res.bind_ne_outOfFuel (consume_ne_outOfFuel _ _ _) fun ts3 h3 => ?_
      have l5 := consume_length h3
      refine Res.bind_ne_outOfFuel (captureUntil_ne_outOfFuel _ _) fun k hk => ?_
      have l6 := (captureUntil_suffix _ _ k hk).length_le
      refine Res.bind_ne_outOfFuel (consume_ne_outOfFuel _ _ _) fun ts4 h4 => ?_
      have l7 := consume_length h4
      exact Res.bind_ne_outOfFuel (ihB _ (by omega)) fun _ _ e => by cases e
    · -- parseWhileStatement
      intro ts h
      rw [parseWhileStatement]
      exact hcondBlock _ ts _ h fun c b _ e => by cases e
    · -- parseStatement
      intro ts h
      cases ts with
      | nil => rw [parseStatement]; intro e; cases e
      | cons t rest =>
        rw [parseStatement]
        split
        · exact parseVariableDeclaration_ne_outOfFuel n _ (by omega)
        · exact parseVariableDeclaration_ne_outOfFuel n _ (by omega)
        · exact parseAssignmentStatement_ne_outOfFuel n _ (by omega)
        · exact parseCoutStatement_ne_outOfFuel n _ (by omega)
        · exact ihI _ (by omega)
        · exact ihF _ (by omega)
        · exact ihW _ (by omega)
        · intro e; cases e

theorem parseLoop_ne_outOfFuel (n : Nat) : ∀ ts : List Token,
    8 * ts.length + 6 ≤ n → parseLoop n ts ≠ .outOfFuel := by
  induction n with
  | zero => intro ts h; omega
  | succ n ih =>
    intro ts h
    cases ts with
    | nil => rw [parseLoop]; intro e; cases e
    | cons t rest =>
      rw [parseLoop]
      split_ifs
      · refine Res.bind_ne_outOfFuel ((parseStmt_fuel_all n).2.2.2.2.2.2 _ (by omega))
          fun r hr => ?_
        have := parseStatement_progress n _ r hr
        simp only [List.length_cons] at h this
        exact Res.bind_ne_outOfFuel (ih _ (by omega)) fun _ _ e => by cases e
      · intro e; cases e

/-- The fuel that `parse` gives the parser is never exhausted: on every token vector
the run ends with a program, a parse error, or an out-of-bounds read. -/
theorem parse_ne_outOfFuel (tokens : List Token) : parse tokens ≠ .outOfFuel :=
  parseLoop_ne_outOfFuel _ tokens (by rw [parseFuel]; omega)

/-- The translation never ends for lack of fuel. -/
theorem translate_ne_outOfFuel (source : Str) : translate source ≠ .outOfFuel := by
  rw [translate, tokenize_eq_some]
  exact Res.bind_ne_outOfFuel (parse_ne_outOfFuel _) fun _ _ e => by cases e

/-! ## Scenario B, operators, keywords and numbers -/

set_option maxRecDepth 100000

/-- C13: on the program of Scenario B the emitted text is the seven lines `x = 10`,
`if (x>5):`, `    print("big")`, `elif (x==5):`, `    print("mid")`, `else:`,
`    print("small")`, each followed by a newline, and one more newline: the else-if
clause becomes an `elif` line and the else an `else:` line at the indentation of the
`if`, the bodies are four spaces deeper, and only empty lines follow. -/
theorem translate_if_elif_else :
    translate ("int x = 10; if (x > 5) \x7b cout << \"big\" << endl; \x7d " ++
        "else if (x == 5) \x7b cout << \"mid\" << endl; \x7d " ++
        "else \x7b cout << \"small\" << endl; \x7d").toList =
      .ok (joinLines ["x = 10".toList, "if (x>5):".toList, "    print(\"big\")".toList,
        "elif (x==5):".toList, "    print(\"mid\")".toList, "else:".toList,
        "    print(\"small\")".toList, []]) := by
  decide


theorem lex_op2_of (c d : Char) (r : Str) (tok : Token) (h1 : isspace c = false)
    (h2 : c ≠ '/') (h3 : (isalpha c || c == '_') = false) (h4 : isdigit c = false)
    (h5 : c ≠ '"') (htok : operatorToken c (c :: d :: r) = (tok, 2)) :
    tokenize (c :: d :: r) = (tokenize r).map (fun ts => tok :: ts) := by
  rw [tokenize_eq_some, tokenize_eq_some, Option.map_some',
    lex_op2 c d r tok h1 (fun h => h2 h.1) h3 h4 h5 htok]

theorem lex_op1_of (c : Char) (u : Str) (tok : Token) (h1 : isspace c = false)
    (h2 : c ≠ '/') (h3 : (isalpha c || c == '_') = false) (h4 : isdigit c = false)
    (h5 : c ≠ '"') (htok : operatorToken c (c :: u) = (tok, 1)) :
    tokenize (c :: u) = (tokenize u).map (fun ts => tok :: ts) := by
  rw [tokenize_eq_some, tokenize_eq_some, Option.map_some',
    lex_op1 c u tok h1 (fun h => h2 h.1) h3 h4 h5 htok]

/-- C18: operators are read by one character of lookahead, longest match. Before any
text `r`, each of `==`, `++`, `<<`, `<=`, `>=`, `!=` is read as its two-character token,
followed by the tokens of `r`; and before a character `c` that does not complete a
two-character operator, `=`, `+`, `<`, `>` are read as the one-character token and `!`
as `Unknown("!")`, followed by the tokens of `c` and `r`. -/
theorem tokenize_operator_longest_match (c : Char) (r : Str) :
    tokenize ('=' :: '=' :: r) =
        (tokenize r).map (fun ts => ⟨DOUBLE_EQUALS, "==".toList⟩ :: ts) ∧
      tokenize ('+' :: '+' :: r) =
        (tokenize r).map (fun ts => ⟨PLUS_PLUS, "++".toList⟩ :: ts) ∧
      tokenize ('<' :: '<' :: r) =
        (tokenize r).map (fun ts => ⟨STREAM_OPERATOR, "<<".toList⟩ :: ts) ∧
      tokenize ('<' :: '=' :: r) =
        (tokenize r).map (fun ts => ⟨LESS_THAN_EQUAL, "<=".toList⟩ :: ts) ∧
      tokenize ('>' :: '=' :: r) =
        (tokenize r).map (fun ts => ⟨GREATER_THAN_EQUAL, ">=".toList⟩ :: ts) ∧
      tokenize ('!' :: '=' :: r) =
        (tokenize r).map (fun ts => ⟨NOT_EQUAL, "!=".toList⟩ :: ts) ∧
      (c ≠ '=' → tokenize ('=' :: c :: r) =
        (tokenize (c :: r)).map (fun ts => ⟨EQUALS, "=".toList⟩ :: ts)) ∧
      (c ≠ '+' → tokenize ('+' :: c :: r) =
        (tokenize (c :: r)).map (fun ts => ⟨PLUS, "+".toList⟩ :: ts)) ∧
      (c ≠ '<' → c ≠ '=' → tokenize ('<' :: c :: r) =
        (tokenize (c :: r)).map (fun ts => ⟨LESS_THAN, "<".toList⟩ :: ts)) ∧
      (c ≠ '=' → tokenize ('>' :: c :: r) =
        (tokenize (c :: r)).map (fun ts => ⟨GREATER_THAN, ">".toList⟩ :: ts)) ∧
      (c ≠ '=' → tokenize ('!' :: c :: r) =
        (tokenize (c :: r)).map (fun ts => ⟨UNKNOWN, "!".toList⟩ :: ts)) := by
  refine ⟨?_, ?_, ?_, ?_, ?_, ?_, ?_, ?_, ?_, ?_, ?_⟩
  · exact lex_op2_of _ _ r _ (by decide) (by decide) (by decide) (by decide) (by decide) rfl
  · exact lex_op2_of _ _ r _ (by decide) (by decide) (by decide) (by decide) (by decide) rfl
  · exact lex_op2_of _ _ r _ (by decide) (by decide) (by decide) (by decide) (by decide) rfl
  · exact lex_op2_of _ _ r _ (by decide) (by decide) (by decide) (by decide) (by decide) rfl
  · exact lex_op2_of _ _ r _ (by decide) (by decide) (by decide) (by decide) (by decide) rfl
  · exact lex_op2_of _ _ r _ (by decide) (by decide) (by decide) (by decide) (by decide) rfl
  · intro hc
    exact lex_op1_of _ _ _ (by decide) (by decide) (by decide) (by decide) (by decide)
      (by simp [operatorToken, peek, hc])
  · intro hc
    exact lex_op1_of _ _ _ (by decide) (by decide) (by decide) (by decide) (by decide)
      (by simp [operatorToken, peek, hc])
  · intro hc hc2
    exact lex_op1_of _ _ _ (by decide) (by decide) (by decide) (by decide) (by decide)
      (by simp [operatorToken, peek, hc, hc2])
  · intro hc
    exact lex_op1_of _ _ _ (by decide) (by decide) (by decide) (by decide) (by decide)
      (by simp [operatorToken, peek, hc])
  · intro hc
    exact lex_op1_of _ _ _ (by decide) (by decide) (by decide) (by decide) (by decide)
      (by simp [operatorToken, peek, hc])

theorem tokenize_operator_longest_match_witness :
    tokenize "=1".toList = (tokenize "1".toList).map (fun ts => ⟨EQUALS, "=".toList⟩ :: ts) ∧
      tokenize "<1".toList =
        (tokenize "1".toList).map (fun ts => ⟨LESS_THAN, "<".toList⟩ :: ts) :=
  ⟨(tokenize_operator_longest_match '1' []).2.2.2.2.2.2.1 (by decide),
    (tokenize_operator_longest_match '1' []).2.2.2.2.2.2.2.2.1 (by decide) (by decide)⟩

theorem keywords_eq_lookup (w : Str) : keywords w = specKeywords.lookup w := by
  unfold keywords
  simp only [specKeywords, List.lookup]
  by_cases h1 : w = "int".toList
  · subst h1; rfl
  by_cases h2 : w = "float".toList
  · subst h2; rfl
  by_cases h3 : w = "if".toList
  · subst h3; rfl
  by_cases h4 : w = "else".toList
  · subst h4; rfl
  by_cases h5 : w = "for".toList
  · subst h5; rfl
  by_cases h6 : w = "while".toList
  · subst h6; rfl
  by_cases h7 : w = "cout".toList
  · subst h7; rfl
  by_cases h8 : w = "endl".toList
  · subst h8; rfl
  by_cases h9 : w = "main".toList
  · subst h9; rfl
  rw [if_neg h1, if_neg h2, if_neg h3, if_neg h4, if_neg h5, if_neg h6, if_neg h7, if_neg h9,
    if_neg h8]
  have e : ∀ k : Str, w ≠ k → (w == k) = false := fun k hk => by simpa using hk
  rw [e _ h1, e _ h2, e _ h3, e _ h4, e _ h5, e _ h6, e _ h7, e _ h8, e _ h9]

/-- C19: a non-empty word of letters, digits and underscores that starts with a letter
or an underscore is lexed to one token, followed by the end-of-file token; its lexeme
is the word, its kind is the keyword kind when the word is in the keyword list of the
spec and `IDENTIFIER` otherwise. So `intx` and `Int` are identifiers. -/
theorem tokenize_keyword_or_identifier (w : Str) (hw : isIdentifierText w = true) :
    tokenize w =
        some [⟨(specKeywords.lookup w).getD IDENTIFIER, w⟩, ⟨END_OF_FILE, []⟩] ∧
      tokenize "intx".toList = some [⟨IDENTIFIER, "intx".toList⟩, ⟨END_OF_FILE, []⟩] ∧
      tokenize "Int".toList = some [⟨IDENTIFIER, "Int".toList⟩, ⟨END_OF_FILE, []⟩] := by
  refine ⟨?_, by decide, by decide⟩
  have h := lex_identifierText_stop w [] hw (by simp)
  rw [List.append_nil] at h
  rw [tokenize_eq_some, h, keywords_eq_lookup]
  rfl

theorem tokenize_keyword_or_identifier_witness :
    tokenize "while".toList = some [⟨KEYWORD_WHILE, "while".toList⟩, ⟨END_OF_FILE, []⟩] :=
  (tokenize_keyword_or_identifier "while".toList (by decide)).1

theorem readNumberLoop_second_dot (v r : Str) (b : Bool)
    (hv : v.all (fun x => isdigit x || x == '.') = true)
    (hc : v.count '.' = if b then 0 else 1) :
    readNumberLoop b (v ++ '.' :: r) = (v, '.' :: r) := by
  induction v generalizing b with
  | nil =>
    cases b with
    | true => rfl
    | false => simp at hc
  | cons c cs ih =>
    simp only [List.all_cons, Bool.and_eq_true] at hv
    rw [List.cons_append, readNumberLoop, if_pos hv.1]
    by_cases hd : (c == '.') = true
    · have hcd : c = '.' := by simpa using hd
      rw [if_pos hd]
      cases b with
      | true => simp [hcd] at hc
      | false =>
        simp only [hcd, List.count_cons_self, Bool.false_eq_true, if_false] at hc
        rw [if_neg (by simp), ih true hv.2 (by simp; omega)]
    · have hcd : c ≠ '.' := by simpa using hd
      rw [if_neg hd, ih b hv.2 (by rwa [List.count_cons_of_ne (Ne.symm hcd)] at hc)]

theorem lex_dot (r : Str) : lex ('.' :: r) = ⟨UNKNOWN, ".".toList⟩ :: lex r :=
  lex_op1 '.' r _ (by decide) (fun h => absurd h.1 (by decide)) (by decide) (by decide)
    (by decide) rfl

/-- C20: the lexeme of every number token starts with a digit and consists of digits
and at most one `.`; a number text `n` that already holds a `.` ends before a further
`.`, which starts the next token (an `Unknown` token); and `1.2.3` is lexed to the
number `1.2`, `Unknown(".")`, the number `3` and end-of-file. -/
theorem tokenize_number_literal (source n r : Str) (tokens : List Token)
    (hlex : tokenize source = some tokens) (hn : isNumberText n = true) (hdot : '.' ∈ n) :
    (∀ t ∈ tokens, t.type = NUMBER_LITERAL → isNumberText t.value = true) ∧
      tokenize (n ++ '.' :: r) =
        (tokenize ('.' :: r)).map (fun ts => ⟨NUMBER_LITERAL, n⟩ :: ts) ∧
      tokenize ('.' :: r) = (tokenize r).map (fun ts => ⟨UNKNOWN, ".".toList⟩ :: ts) ∧
      tokenize "1.2.3".toList =
        some [⟨NUMBER_LITERAL, "1.2".toList⟩, ⟨UNKNOWN, ".".toList⟩,
          ⟨NUMBER_LITERAL, "3".toList⟩, ⟨END_OF_FILE, []⟩] := by
  refine ⟨?_, ?_, ?_, by decide⟩
  · intro t ht hk
    rw [tokenize_eq_some] at hlex
    have h := lex_lexemeOk source t (by rw [Option.some.inj hlex]; exact ht)
    simpa [lexemeOk, hk] using h
  · rw [tokenize_eq_some, tokenize_eq_some, Option.map_some']
    cases n with
    | nil => simp [isNumberText] at hn
    | cons c cs =>
      simp only [isNumberText, Bool.and_eq_true, decide_eq_true_eq] at hn
      obtain ⟨⟨hd, hall⟩, hcount⟩ := hn
      obtain ⟨h1, h2, h3, h4⟩ := isdigit_class c hd
      have hmem : '.' ∈ cs := by
        rcases List.mem_cons.mp hdot with h | h
        · exact absurd h.symm h4
        · exact h
      have hpos : 0 < cs.count '.' := List.count_pos_iff.mpr hmem
      have hloop : readNumberLoop false ((c :: cs) ++ '.' :: r) = (c :: cs, '.' :: r) := by
        apply readNumberLoop_second_dot
        · simp only [List.all_cons, hd, Bool.true_or, Bool.true_and]; exact hall
        · rw [List.count_cons_of_ne (Ne.symm h4)]; simp; omega
      rw [List.cons_append, lex_number c _ h1 (fun h => h2 h.1) h3 hd]
      rw [List.cons_append] at hloop
      simp only [readNumber, hloop]
  · rw [tokenize_eq_some, tokenize_eq_some, Option.map_some', lex_dot]

theorem tokenize_number_literal_witness :
    tokenize ("1.5".toList ++ '.' :: "x".toList) =
      (tokenize ('.' :: "x".toList)).map (fun ts => ⟨NUMBER_LITERAL, "1.5".toList⟩ :: ts) :=
  (tokenize_number_literal "7".toList "1.5".toList "x".toList _ (tokenize_eq_some _)
    (by decide) (by decide)).2.1

/-! ## The counting-up loop of Scenario C -/

theorem dropWhile_all_append (p : Char → Bool) (l x : Str) (hl : l.all p = true) :
    (l ++ x).dropWhile p = x.dropWhile p := by
  induction l with
  | nil => rfl
  | cons c cs ih =>
    simp only [List.all_cons, Bool.and_eq_true] at hl
    rw [List.cons_append, List.dropWhile_cons_of_pos hl.1, ih hl.2]

theorem dropWhile_head (p : Char → Bool) (s : Str)
    (h : ∀ c, s.head? = some c → p c = false) : s.dropWhile p = s := by
  cases s with
  | nil => rfl
  | cons c cs => rw [List.dropWhile_cons_of_neg (by simp [h c rfl])]

theorem rdropWhile_all_append (p : Char → Bool) (x r : Str) (hr : r.all p = true) :
    (x ++ r).rdropWhile p = x.rdropWhile p := by
  unfold List.rdropWhile
  rw [List.reverse_append, dropWhile_all_append p _ _ (by simpa using hr)]

theorem rdropWhile_last (p : Char → Bool) (s : Str)
    (h : ∀ c, s.getLast? = some c → p c = false) : s.rdropWhile p = s := by
  unfold List.rdropWhile
  rw [dropWhile_head p _ (by simpa using h), List.reverse_reverse]

/-- The lambda `trim` removes the whitespace around a text that neither starts nor
ends with whitespace. -/
theorem trim_pad (l core r : Str) (hl : l.all isspace = true) (hr : r.all isspace = true)
    (h1 : ∀ c, core.head? = some c → isspace c = false)
    (h2 : ∀ c, core.getLast? = some c → isspace c = false) :
    trim (l ++ (core ++ r)) = core := by
  unfold trim
  rw [dropWhile_all_append _ _ _ hl]
  cases core with
  | nil =>
    rw [List.nil_append, List.dropWhile_eq_nil_iff.mpr (by simpa using hr)]
    rfl
  | cons c cs =>
    rw [dropWhile_head _ _ (by simpa using h1), rdropWhile_all_append _ _ _ hr,
      rdropWhile_last _ _ h2]

theorem getLast?_append_mem (x a : Str) (ha : a ≠ []) (c : Char)
    (h : (x ++ a).getLast? = some c) : c ∈ a := by
  rw [List.getLast?_append_of_ne_nil _ ha] at h
  exact List.mem_of_getLast?_eq_some h

theorem drop_succ_append (l r : Str) (c : Char) : (l ++ c :: r).drop (l.length + 1) = r := by
  induction l with
  | nil => rfl
  | cons x xs ih => simp

theorem findChar_append (c : Char) (l r : Str) (h : c ∉ l) :
    findChar c (l ++ c :: r) = some l.length := by
  induction l with
  | nil => simp [findChar]
  | cons x xs ih =>
    simp only [List.mem_cons, not_or] at h
    rw [List.cons_append, findChar, if_neg (Ne.symm h.1), ih h.2]
    rfl

theorem findChar_none (c : Char) (s : Str) (h : c ∉ s) : findChar c s = none := by
  induction s with
  | nil => rfl
  | cons x xs ih =>
    simp only [List.mem_cons, not_or] at h
    rw [findChar, if_neg (Ne.symm h.1), ih h.2]
    rfl

theorem findStr_none (c : Char) (pat s : Str) (h : c ∉ s) : findStr (c :: pat) s = none := by
  induction s with
  | nil => simp [findStr]
  | cons x xs ih =>
    simp only [List.mem_cons, not_or] at h
    have hx : (c == x) = false := by simpa using h.1
    rw [findStr, if_neg (by simp [List.isPrefixOf, hx]), ih h.2]
    rfl

/-- The characters of an identifier are no whitespace and none of `=`, `<`, `>`, `-`. -/
theorem isIdentChar_plain (c : Char) (h : isIdentChar c = true) :
    isspace c = false ∧ c ≠ '=' ∧ c ≠ '<' ∧ c ≠ '>' ∧ c ≠ '-' ∧ c ≠ ' ' ∧ c ≠ '+' := by
  rw [isIdentChar_iff] at h
  have e1 : '='.toNat = 61 := rfl
  have e2 : '<'.toNat = 60 := rfl
  have e3 : '>'.toNat = 62 := rfl
  have e4 : '-'.toNat = 45 := rfl
  have e5 : ' '.toNat = 32 := rfl
  have e6 : '+'.toNat = 43 := rfl
  refine ⟨?_, ?_, ?_, ?_, ?_, ?_, ?_⟩
  · rw [← Bool.not_eq_true, isspace_iff]; omega
  · rw [ne_eq, char_eq_iff, e1]; omega
  · rw [ne_eq, char_eq_iff, e2]; omega
  · rw [ne_eq, char_eq_iff, e3]; omega
  · rw [ne_eq, char_eq_iff, e4]; omega
  · rw [ne_eq, char_eq_iff, e5]; omega
  · rw [ne_eq, char_eq_iff, e6]; omega

theorem isIdentifierText_all (v : Str) (hv : isIdentifierText v = true) :
    v ≠ [] ∧ ∀ c ∈ v, isIdentChar c = true := by
  cases v with
  | nil => simp [isIdentifierText] at hv
  | cons c cs =>
    simp only [isIdentifierText, Bool.and_eq_true, List.all_eq_true] at hv
    refine ⟨by simp, ?_⟩
    intro x hx
    rcases List.mem_cons.mp hx with h | h
    · subst h; exact isIdentChar_of_start x hv.1
    · exact hv.2 x h


theorem isDigits_all (a : Str) (ha : isDigits a = true) :
    a ≠ [] ∧ (∀ c ∈ a, isdigit c = true) ∧ isNumberText a = true := by
  cases a with
  | nil => simp [isDigits] at ha
  | cons c cs =>
    simp only [isDigits, List.isEmpty_cons, Bool.not_false, Bool.true_and, List.all_cons,
      Bool.and_eq_true, List.all_eq_true] at ha
    refine ⟨by simp, ?_, ?_⟩
    · intro x hx
      rcases List.mem_cons.mp hx with h | h
      · subst h; exact ha.1
      · exact ha.2 x h
    · have hn : '.' ∉ cs := fun hm => (isdigit_class _ (ha.2 _ hm)).2.2.2 rfl
      simp only [isNumberText, ha.1, Bool.true_and, Bool.and_eq_true, List.all_eq_true,
        Bool.or_eq_true, decide_eq_true_eq, List.count_eq_zero_of_not_mem hn]
      exact ⟨fun x hx => Or.inl (ha.2 x hx), by omega⟩

theorem trim_identifier (v : Str) (hv : isIdentifierText v = true) (r : Str)
    (hr : r.all isspace = true) : trim (v ++ r) = v := by
  have h := isIdentifierText_all v hv
  have := trim_pad [] v r rfl hr
    (fun c hc => (isIdentChar_plain c (h.2 c (List.mem_of_mem_head? hc))).1)
    (fun c hc => (isIdentChar_plain c (h.2 c (List.mem_of_getLast?_eq_some hc))).1)
  simpa using this

theorem trim_digits (l a r : Str) (ha : isDigits a = true) (hl : l.all isspace = true)
    (hr : r.all isspace = true) : trim (l ++ (a ++ r)) = a := by
  have h := isDigits_all a ha
  exact trim_pad l a r hl hr
    (fun c hc => (isdigit_class c (h.2.1 c (List.mem_of_mem_head? hc))).1)
    (fun c hc => (isdigit_class c (h.2.1 c (List.mem_of_getLast?_eq_some hc))).1)

/-- The variable and the start expression that `forToPy` extracts from the captured
text of `int v = a`. -/
theorem forVarStart_int (v a : Str) (hv : isIdentifierText v = true)
    (ha : isDigits a = true) :
    forVarStart (trim ('i' :: 'n' :: 't' :: ' ' :: (v ++ ' ' :: '=' :: ' ' :: (a ++ [' '])))) =
      (v, a) := by
  have hvall := isIdentifierText_all v hv
  have haall := isDigits_all a ha
  have e1 : 'i' :: 'n' :: 't' :: ' ' :: (v ++ ' ' :: '=' :: ' ' :: (a ++ [' '])) =
      [] ++ (('i' :: 'n' :: 't' :: ' ' :: (v ++ ' ' :: '=' :: ' ' :: a)) ++ [' ']) := by simp
  have e2 : 'i' :: 'n' :: 't' :: ' ' :: (v ++ ' ' :: '=' :: ' ' :: a) =
      ('i' :: 'n' :: 't' :: ' ' :: (v ++ [' '])) ++ '=' :: (' ' :: a) := by simp
  have hlast : ∀ c, ('i' :: 'n' :: 't' :: ' ' :: (v ++ ' ' :: '=' :: ' ' :: a)).getLast? = some c →
      isspace c = false := by
    intro c hc
    have e3 : 'i' :: 'n' :: 't' :: ' ' :: (v ++ ' ' :: '=' :: ' ' :: a) =
        ('i' :: 'n' :: 't' :: ' ' :: (v ++ [' ', '=', ' '])) ++ a := by simp
    rw [e3] at hc
    exact (isdigit_class c (haall.2.1 c (getLast?_append_mem _ a haall.1 c hc))).1
  rw [e1, trim_pad [] _ [' '] rfl rfl (fun c hc => by cases hc; decide) hlast, e2]
  have hnot : '=' ∉ 'i' :: 'n' :: 't' :: ' ' :: (v ++ [' ']) := by
    intro hm
    simp only [List.mem_cons, List.mem_append, List.mem_singleton] at hm
    rcases hm with h | h | h | h | h | h
    · exact absurd h (by decide)
    · exact absurd h (by decide)
    · exact absurd h (by decide)
    · exact absurd h (by decide)
    · exact (isIdentChar_plain _ (hvall.2 _ h)).2.1 rfl
    · rcases h with h | h
      · exact absurd h (by decide)
      · simp at h
  unfold forVarStart
  rw [findChar_append '=' _ _ hnot]
  simp only [List.take_left]
  have e4 : (('i' :: 'n' :: 't' :: ' ' :: (v ++ [' '])) ++ '=' :: ' ' :: a).drop
      (('i' :: 'n' :: 't' :: ' ' :: (v ++ [' '])).length + 1) = ' ' :: a :=
    drop_succ_append _ _ _
  have e5 : ' ' :: a = [' '] ++ (a ++ []) := by simp
  have e6 : 'i' :: 'n' :: 't' :: ' ' :: (v ++ [' ']) =
      [] ++ (('i' :: 'n' :: 't' :: ' ' :: v) ++ [' ']) := by simp
  have hlast2 : ∀ c, ('i' :: 'n' :: 't' :: ' ' :: v).getLast? = some c → isspace c = false := by
    intro c hc
    have e7 : 'i' :: 'n' :: 't' :: ' ' :: v = ['i', 'n', 't', ' '] ++ v := rfl
    rw [e7] at hc
    exact (isIdentChar_plain c (hvall.2 c (getLast?_append_mem _ v hvall.1 c hc))).1
  rw [e4, e5, trim_digits [' '] a [] ha rfl rfl, e6,
    trim_pad [] _ [' '] rfl rfl (fun c hc => by cases hc; decide) hlast2]
  have e8 : forStripType ('i' :: 'n' :: 't' :: ' ' :: v) = v := by
    simp [forStripType, findStr, List.isPrefixOf]
  rw [e8]
  have := trim_identifier v hv [] rfl
  rw [List.append_nil] at this
  rw [this]


/-- The end expression that `forToPy` extracts from the captured text of `v < b`. -/
theorem forEndExpr_lt (v b : Str) (hv : isIdentifierText v = true) (hb : isDigits b = true) :
    forEndExpr (trim (v ++ ' ' :: '<' :: ' ' :: (b ++ [' ']))) = b := by
  have hvall := isIdentifierText_all v hv
  have hball := isDigits_all b hb
  have e1 : v ++ ' ' :: '<' :: ' ' :: (b ++ [' ']) =
      [] ++ ((v ++ ' ' :: '<' :: ' ' :: b) ++ [' ']) := by simp
  have hhead : ∀ c, (v ++ ' ' :: '<' :: ' ' :: b).head? = some c → isspace c = false := by
    intro c hc
    rw [List.head?_append_of_ne_nil _ hvall.1] at hc
    exact (isIdentChar_plain c (hvall.2 c (List.mem_of_mem_head? hc))).1
  have hlast : ∀ c, (v ++ ' ' :: '<' :: ' ' :: b).getLast? = some c → isspace c = false := by
    intro c hc
    have e3 : v ++ ' ' :: '<' :: ' ' :: b = (v ++ [' ', '<', ' ']) ++ b := by simp
    rw [e3] at hc
    exact (isdigit_class c (hball.2.1 c (getLast?_append_mem _ b hball.1 c hc))).1
  have e2 : v ++ ' ' :: '<' :: ' ' :: b = (v ++ [' ']) ++ '<' :: (' ' :: b) := by simp
  have hnot : '<' ∉ v ++ [' '] := by
    intro hm
    rcases List.mem_append.mp hm with h | h
    · exact (isIdentChar_plain _ (hvall.2 _ h)).2.2.1 rfl
    · simp at h
  rw [e1, trim_pad [] _ [' '] rfl rfl hhead hlast, e2]
  unfold forEndExpr forOpPos
  rw [findChar_append '<' _ _ hnot]
  simp only [drop_succ_append]
  exact trim_digits [' '] b [] hb rfl rfl |> fun h => by simpa using h

/-- The step that `forToPy` computes is 1 when the captured increment holds no `-`. -/
theorem forStep_of_not_mem (inc : Str) (h : '-' ∉ inc) : forStep (trim inc) = 1 := by
  unfold forStep
  have e : findStr "--".toList (trim inc) = none :=
    findStr_none '-' ['-'] (trim inc) (fun hm => h ((trim_sublist inc).subset hm))
  rw [e]
  rfl

/-- The header that `forToPy` writes for `for (int v = a; v < b; v++)`. -/
theorem forHeaderToPy_counting (v a b : Str) (hv : isIdentifierText v = true)
    (ha : isDigits a = true) (hb : isDigits b = true) (n : Nat) :
    forHeaderToPy ('i' :: 'n' :: 't' :: ' ' :: (v ++ ' ' :: '=' :: ' ' :: (a ++ [' '])))
        (v ++ ' ' :: '<' :: ' ' :: (b ++ [' '])) (v ++ ' ' :: '+' :: '+' :: [' ']) n =
      indent n ++ "for ".toList ++ v ++ " in range(".toList ++ a ++ ", ".toList ++ b ++
        "):\n".toList := by
  have hvall := isIdentifierText_all v hv
  have hstep : forStep (trim (v ++ ' ' :: '+' :: '+' :: [' '])) = 1 := by
    apply forStep_of_not_mem
    intro hm
    rcases List.mem_append.mp hm with h | h
    · exact (isIdentChar_plain _ (hvall.2 _ h)).2.2.2.2.1 rfl
    · simp at h
  unfold forHeaderToPy
  rw [forVarStart_int v a hv ha, forEndExpr_lt v b hv hb, hstep]
  simp

theorem lex_word_then (w : Str) (c : Char) (u : Str) (hw : isIdentifierText w = true)
    (hc : isIdentChar c = false) :
    lex (w ++ c :: u) = ⟨(keywords w).getD IDENTIFIER, w⟩ :: lex (c :: u) :=
  lex_identifierText_stop w (c :: u) hw (fun x hx => by cases hx; exact hc)

theorem lex_digits_then (a : Str) (c : Char) (u : Str) (ha : isDigits a = true)
    (hc : isdigit c = false) (hc2 : c ≠ '.') :
    lex (a ++ c :: u) = ⟨NUMBER_LITERAL, a⟩ :: lex (c :: u) :=
  lex_numberText_stop a (c :: u) (isDigits_all a ha).2.2 (fun x hx => by cases hx; exact ⟨hc, hc2⟩)

theorem lex_semicolon (u : Str) : lex (';' :: u) = ⟨SEMICOLON, ";".toList⟩ :: lex u :=
  lex_op1 ';' u _ (by decide) (fun h => absurd h.1 (by decide)) (by decide) (by decide)
    (by decide) rfl

theorem lex_open_brace (u : Str) : lex ('\x7b' :: u) = ⟨OPEN_BRACE, "\x7b".toList⟩ :: lex u :=
  lex_op1 '\x7b' u _ (by decide) (fun h => absurd h.1 (by decide)) (by decide) (by decide)
    (by decide) rfl

theorem lex_close_brace (u : Str) : lex ('\x7d' :: u) = ⟨CLOSE_BRACE, "\x7d".toList⟩ :: lex u :=
  lex_op1 '\x7d' u _ (by decide) (fun h => absurd h.1 (by decide)) (by decide) (by decide)
    (by decide) rfl

theorem lex_plus_plus (u : Str) : lex ('+' :: '+' :: u) = ⟨PLUS_PLUS, "++".toList⟩ :: lex u :=
  lex_op2 '+' '+' u _ (by decide) (fun h => absurd h.1 (by decide)) (by decide) (by decide)
    (by decide) rfl

theorem lex_stream (u : Str) : lex ('<' :: '<' :: u) = ⟨STREAM_OPERATOR, "<<".toList⟩ :: lex u :=
  lex_op2 '<' '<' u _ (by decide) (fun h => absurd h.1 (by decide)) (by decide) (by decide)
    (by decide) rfl

theorem lex_blank (u : Str) : lex (' ' :: u) = lex u := lex_space ' ' u rfl

theorem lex_equals_blank (u : Str) : lex ('=' :: ' ' :: u) = ⟨EQUALS, "=".toList⟩ :: lex u := by
  rw [lex_op1 '=' (' ' :: u) _ (by decide) (fun h => absurd h.1 (by decide)) (by decide)
    (by decide) (by decide) rfl, lex_blank]

theorem lex_less_blank (u : Str) : lex ('<' :: ' ' :: u) = ⟨LESS_THAN, "<".toList⟩ :: lex u := by
  rw [lex_op1 '<' (' ' :: u) _ (by decide) (fun h => absurd h.1 (by decide)) (by decide)
    (by decide) (by decide) rfl, lex_blank]

theorem lex_keyword_blank (w u : Str) (hw : isIdentifierText w = true) :
    lex (w ++ ' ' :: u) = ⟨(keywords w).getD IDENTIFIER, w⟩ :: lex u := by
  rw [lex_word_then w ' ' u hw rfl, lex_blank]

/-- The tokens of `for (int v = a; v < b; v++) { cout << v << endl; }`. -/
theorem lex_countingFor (v a b : Str) (hv : isIdentifierText v = true)
    (hk : keywords v = none) (ha : isDigits a = true) (hb : isDigits b = true) :
    lex ("for (int ".toList ++ v ++ " = ".toList ++ a ++ "; ".toList ++ v ++ " < ".toList ++ b ++
        "; ".toList ++ v ++ "++) \x7b cout << ".toList ++ v ++ " << endl; \x7d".toList) =
      [⟨KEYWORD_FOR, "for".toList⟩, ⟨OPEN_PAREN, "(".toList⟩, ⟨KEYWORD_INT, "int".toList⟩,
        ⟨IDENTIFIER, v⟩, ⟨EQUALS, "=".toList⟩, ⟨NUMBER_LITERAL, a⟩, ⟨SEMICOLON, ";".toList⟩,
        ⟨IDENTIFIER, v⟩, ⟨LESS_THAN, "<".toList⟩, ⟨NUMBER_LITERAL, b⟩, ⟨SEMICOLON, ";".toList⟩,
        ⟨IDENTIFIER, v⟩, ⟨PLUS_PLUS, "++".toList⟩, ⟨CLOSE_PAREN, ")".toList⟩,
        ⟨OPEN_BRACE, "\x7b".toList⟩, ⟨KEYWORD_COUT, "cout".toList⟩,
        ⟨STREAM_OPERATOR, "<<".toList⟩, ⟨IDENTIFIER, v⟩, ⟨STREAM_OPERATOR, "<<".toList⟩,
        ⟨KEYWORD_ENDL, "endl".toList⟩, ⟨SEMICOLON, ";".toList⟩, ⟨CLOSE_BRACE, "\x7d".toList⟩,
        ⟨END_OF_FILE, []⟩] := by
  have kfor : ∀ u, lex ('f' :: 'o' :: 'r' :: ' ' :: u) = ⟨KEYWORD_FOR, "for".toList⟩ :: lex u :=
    fun u => lex_keyword_blank "for".toList u rfl
  have kint : ∀ u, lex ('i' :: 'n' :: 't' :: ' ' :: u) = ⟨KEYWORD_INT, "int".toList⟩ :: lex u :=
    fun u => lex_keyword_blank "int".toList u rfl
  have kcout : ∀ u, lex ('c' :: 'o' :: 'u' :: 't' :: ' ' :: u) =
      ⟨KEYWORD_COUT, "cout".toList⟩ :: lex u :=
    fun u => lex_keyword_blank "cout".toList u rfl
  have kendl : ∀ u, lex ('e' :: 'n' :: 'd' :: 'l' :: ';' :: u) =
      ⟨KEYWORD_ENDL, "endl".toList⟩ :: lex (';' :: u) :=
    fun u => lex_word_then "endl".toList ';' u rfl rfl
  have kv : ∀ u, lex (v ++ ' ' :: u) = ⟨IDENTIFIER, v⟩ :: lex u := by
    intro u; rw [lex_keyword_blank v u hv, hk]; rfl
  have kvp : ∀ u, lex (v ++ '+' :: u) = ⟨IDENTIFIER, v⟩ :: lex ('+' :: u) := by
    intro u; rw [lex_word_then v '+' u hv rfl, hk]; rfl
  have ka : ∀ u, lex (a ++ ';' :: u) = ⟨NUMBER_LITERAL, a⟩ :: lex (';' :: u) :=
    fun u => lex_digits_then a ';' u ha rfl (by decide)
  have kb : ∀ u, lex (b ++ ';' :: u) = ⟨NUMBER_LITERAL, b⟩ :: lex (';' :: u) :=
    fun u => lex_digits_then b ';' u hb rfl (by decide)
  simp only [String.toList, List.append_assoc, List.cons_append, List.nil_append]
  rw [kfor, lex_open_paren, kint, kv, lex_equals_blank, ka, lex_semicolon, lex_blank, kv,
    lex_less_blank, kb, lex_semicolon, lex_blank, kvp, lex_plus_plus, lex_close_paren, lex_blank,
    lex_open_brace, lex_blank, kcout, lex_stream, lex_blank, kv, lex_stream, lex_blank, kendl,
    lex_semicolon, lex_blank, lex_close_brace, lex_nil]
  rfl


/-- The tree of `for (int v = a; v < b; v++) { cout << v << endl; }`. -/
theorem parse_countingFor (v a b : Str) :
    parse [⟨KEYWORD_FOR, "for".toList⟩, ⟨OPEN_PAREN, "(".toList⟩, ⟨KEYWORD_INT, "int".toList⟩,
        ⟨IDENTIFIER, v⟩, ⟨EQUALS, "=".toList⟩, ⟨NUMBER_LITERAL, a⟩, ⟨SEMICOLON, ";".toList⟩,
        ⟨IDENTIFIER, v⟩, ⟨LESS_THAN, "<".toList⟩, ⟨NUMBER_LITERAL, b⟩, ⟨SEMICOLON, ";".toList⟩,
        ⟨IDENTIFIER, v⟩, ⟨PLUS_PLUS, "++".toList⟩, ⟨CLOSE_PAREN, ")".toList⟩,
        ⟨OPEN_BRACE, "\x7b".toList⟩, ⟨KEYWORD_COUT, "cout".toList⟩,
        ⟨STREAM_OPERATOR, "<<".toList⟩, ⟨IDENTIFIER, v⟩, ⟨STREAM_OPERATOR, "<<".toList⟩,
        ⟨KEYWORD_ENDL, "endl".toList⟩, ⟨SEMICOLON, ";".toList⟩, ⟨CLOSE_BRACE, "\x7d".toList⟩,
        ⟨END_OF_FILE, []⟩] =
      .ok [.forStatement ('i' :: 'n' :: 't' :: ' ' :: (v ++ ' ' :: '=' :: ' ' :: (a ++ [' '])))
        (v ++ ' ' :: '<' :: ' ' :: (b ++ [' '])) (v ++ ' ' :: '+' :: '+' :: [' '])
        [.cout [.variable v] true]] := by
  simp [parse, parseFuel, parseLoop, parseStatement, parseForStatement, captureUntil, consume,
    advance, parseBlock, parseBlockLoop, parseCoutStatement, parseCoutLoop, parseExpression,
    parseTerm, parseFactor, parseAtom, parseTermLoop, parseExpressionLoop]

/-- C14: the counting-up loop of Scenario C. For an identifier `v` that is no keyword
and non-empty digit strings `a` and `b`, the text
`for (int v = a; v < b; v++) { cout << v << endl; }` is translated to the line
`for v in range(a, b):`, the line `    print(v)` and an empty line; the range has no
third argument. -/
theorem translate_counting_for (v a b : Str) (hv : isIdentifierText v = true)
    (hk : keywords v = none) (ha : isDigits a = true) (hb : isDigits b = true) :
    translate ("for (int ".toList ++ v ++ " = ".toList ++ a ++ "; ".toList ++ v ++
        " < ".toList ++ b ++ "; ".toList ++ v ++ "++) \x7b cout << ".toList ++ v ++
        " << endl; \x7d".toList) =
      .ok ("for ".toList ++ v ++ " in range(".toList ++ a ++ ", ".toList ++ b ++
        "):\n".toList ++ "    print(".toList ++ v ++ ")\n".toList ++ "\n".toList) := by
  unfold translate
  rw [tokenize_eq_some, lex_countingFor v a b hv hk ha hb]
  simp only [parse_countingFor, Res.bind_ok, generate, bodyToPy, toPython,
    forHeaderToPy_counting v a b hv ha hb, coutToPy, coutPartsToPy, ExprAST.toPython, indent]
  simp

theorem translate_counting_for_witness :
    translate "for (int i = 0; i < 3; i++) \x7b cout << i << endl; \x7d".toList =
      .ok "for i in range(0, 3):\n    print(i)\n\n".toList :=
  translate_counting_for "i".toList "0".toList "3".toList (by decide) (by decide) (by decide)
    (by decide)

/-! ## The `elif` lines of an If statement -/

theorem plainText_iff (s : Str) : plainText s = true ↔ noNewline s := by
  simp only [plainText, List.all_eq_true, bne_iff_ne, ne_eq, noNewline]
  exact ⟨fun h hm => h _ hm rfl, fun h x hx e => h (e ▸ hx)⟩

theorem linesAt_nil (k : Nat) : LinesAt k [] := ⟨[], rfl, by simp⟩

theorem linesAt_append {k : Nat} {a b : Str} (ha : LinesAt k a) (hb : LinesAt k b) :
    LinesAt k (a ++ b) := by
  obtain ⟨la, rfl, hla⟩ := ha
  obtain ⟨lb, rfl, hlb⟩ := hb
  refine ⟨la ++ lb, (joinLines_append la lb).symm, ?_⟩
  intro l hl
  rcases List.mem_append.1 hl with h | h
  · exact hla l h
  · exact hlb l h

theorem linesAt_line (k : Nat) (x : Str) (h : noNewline x) :
    LinesAt k (indent k ++ x ++ ['\n']) :=
  ⟨[indent k ++ x], by simp [joinLines], by
    intro l hl
    simp only [List.mem_singleton] at hl
    subst hl
    exact ⟨noNewline_append.2 ⟨noNewline_indent k, h⟩, Or.inr (List.prefix_append _ _)⟩⟩

theorem linesAt_blank (k : Nat) : LinesAt k ['\n'] :=
  ⟨[[]], rfl, by
    intro l hl
    simp only [List.mem_singleton] at hl
    subst hl
    exact ⟨by simp [noNewline], Or.inl rfl⟩⟩

theorem indent_add (a b : Nat) : indent (a + b) = indent a ++ indent b := by
  exact List.replicate_add a b ' '

theorem linesAt_shallower {k : Nat} {a : Str} (h : LinesAt (k + 4) a) : LinesAt k a := by
  obtain ⟨ls, rfl, hls⟩ := h
  refine ⟨ls, rfl, fun l hl => ⟨(hls l hl).1, ?_⟩⟩
  rcases (hls l hl).2 with h | h
  · exact Or.inl h
  · exact Or.inr ((indent_add k 4 ▸ List.prefix_append (indent k) (indent 4)).trans h)

/-- A header line `pad + keyword + text + ":"` followed by a newline. -/
theorem linesAt_header (k : Nat) (kw text : Str) (hkw : noNewline kw) (ht : noNewline text) :
    LinesAt k (indent k ++ kw ++ text ++ ":\n".toList) := by
  have e : indent k ++ kw ++ text ++ ":\n".toList =
      indent k ++ (kw ++ text ++ ":".toList) ++ ['\n'] := by
    have e2 : ":\n".toList = ":".toList ++ ['\n'] := rfl
    simp only [e2, List.append_assoc]
  rw [e]
  apply linesAt_line
  simp only [noNewline_append]
  exact ⟨⟨hkw, ht⟩, by unfold noNewline; decide⟩

theorem plainParts (parts : List ExprAST)
    (h : (parts.all fun e => plainText e.toPython) = true) :
    noNewline (coutPartsToPy parts) := by
  apply noNewline_coutPartsToPy
  intro e he
  rw [List.all_eq_true] at h
  exact (plainText_iff _).1 (h e he)

theorem forHeaderToPy_linesAt (init condition increment : Str) (k : Nat)
    (hi : noNewline init) (hc : noNewline condition) :
    LinesAt k (forHeaderToPy init condition increment k) := by
  have e : forHeaderToPy init condition increment k =
      indent k ++ ("for ".toList ++ (forVarStart (trim init)).1 ++
        " in range(".toList ++ (forVarStart (trim init)).2 ++ ", ".toList ++
        forEndExpr (trim condition) ++
        (if forStep (trim increment) ≠ 1 then
          ", ".toList ++ (Int.repr (forStep (trim increment))).toList else []) ++
        "):".toList) ++ ['\n'] := by
    have e2 : "):\n".toList = "):".toList ++ ['\n'] := rfl
    simp only [forHeaderToPy, e2, List.append_assoc]
  rw [e]
  apply linesAt_line
  have hvs := noNewline_forVarStart (noNewline_trim hi)
  have he := noNewline_forEndExpr (noNewline_trim hc)
  have hst := noNewline_stepText (trim increment)
  have h1 : noNewline ("for ".toList) := by unfold noNewline; decide
  have h2 : noNewline (" in range(".toList) := by unfold noNewline; decide
  have h3 : noNewline (", ".toList) := by unfold noNewline; decide
  have h4 : noNewline ("):".toList) := by unfold noNewline; decide
  simp only [noNewline_append]
  tauto

mutual
/-- The text of a statement without newline in its names and texts, emitted at
indentation `k`, is made of lines that are empty or start with `k` spaces. -/
theorem toPython_linesAt : ∀ (s : StatementAST) (k : Nat), plainStmt s = true →
    LinesAt k (toPython s k ++ ['\n'])
  | .varDecl _ varName initialValue, k, h => by
    simp only [plainStmt, Bool.and_eq_true, plainText_iff] at h
    rw [toPython]
    apply linesAt_line
    cases initialValue with
    | none =>
      simp only [varDeclToPy, noNewline_append]
      exact ⟨h.1, by unfold noNewline; decide⟩
    | some e =>
      simp only [varDeclToPy, noNewline_append]
      exact ⟨⟨h.1, by unfold noNewline; decide⟩, (plainText_iff _).1 h.2⟩
  | .assignment varName value, k, h => by
    simp only [plainStmt, Bool.and_eq_true, plainText_iff] at h
    rw [toPython]
    apply linesAt_line
    simp only [assignToPy, noNewline_append]
    exact ⟨⟨h.1, by unfold noNewline; decide⟩, h.2⟩
  | .cout parts _, k, h => by
    simp only [plainStmt] at h
    rw [toPython]
    apply linesAt_line
    simp only [coutToPy, noNewline_append]
    exact ⟨⟨by unfold noNewline; decide, plainParts parts h⟩, by unfold noNewline; decide⟩
  | .ifStatement condition thenBody elseBody elseIfBlocks, k, h => by
    simp only [plainStmt, Bool.and_eq_true, plainText_iff] at h
    obtain ⟨⟨⟨hc, ht⟩, he⟩, hei⟩ := h
    rw [toPython]
    refine linesAt_append (linesAt_append (linesAt_append (linesAt_append ?_ ?_) ?_) ?_)
      (linesAt_blank k)
    · exact linesAt_header k _ _ (by unfold noNewline; decide) hc
    · exact (linesAt_shallower (bodyToPy_linesAt thenBody (k + 4) ht))
    · exact elseIfBlocksToPy_linesAt elseIfBlocks k hei
    · split_ifs
      · exact linesAt_nil k
      · refine linesAt_append ?_ (linesAt_shallower (bodyToPy_linesAt elseBody (k + 4) he))
        have := linesAt_header k "else".toList [] (by unfold noNewline; decide)
          (by simp [noNewline])
        simpa using this
  | .forStatement init condition increment body, k, h => by
    simp only [plainStmt, Bool.and_eq_true, plainText_iff] at h
    obtain ⟨⟨⟨hi, hc⟩, _⟩, hb⟩ := h
    rw [toPython]
    exact linesAt_append (linesAt_append (forHeaderToPy_linesAt _ _ _ k hi hc)
      (linesAt_shallower (bodyToPy_linesAt body (k + 4) hb))) (linesAt_blank k)
  | .whileStatement condition body, k, h => by
    simp only [plainStmt, Bool.and_eq_true, plainText_iff] at h
    rw [toPython]
    exact linesAt_append (linesAt_append
      (linesAt_header k _ _ (by unfold noNewline; decide) h.1)
      (linesAt_shallower (bodyToPy_linesAt body (k + 4) h.2))) (linesAt_blank k)
/-- The text of a body, emitted at indentation `k`. -/
theorem bodyToPy_linesAt : ∀ (body : List StatementAST) (k : Nat), plainBody body = true →
    LinesAt k (bodyToPy body k)
  | [], k, _ => by rw [bodyToPy]; exact linesAt_nil k
  | s :: rest, k, h => by
    simp only [plainBody, Bool.and_eq_true] at h
    rw [bodyToPy]
    exact linesAt_append (toPython_linesAt s k h.1) (bodyToPy_linesAt rest k h.2)
/-- The text of the else-if blocks, emitted at indentation `k`. -/
theorem elseIfBlocksToPy_linesAt : ∀ (eifs : List (ExprAST × List StatementAST)) (k : Nat),
    plainElseIfs eifs = true → LinesAt k (elseIfBlocksToPy eifs k)
  | [], k, _ => by rw [elseIfBlocksToPy]; exact linesAt_nil k
  | eif :: rest, k, h => by
    simp only [plainElseIfs, Bool.and_eq_true, plainText_iff] at h
    rw [elseIfBlocksToPy]
    exact linesAt_append (linesAt_append
      (linesAt_header k _ _ (by unfold noNewline; decide) h.1.1)
      (linesAt_shallower (bodyToPy_linesAt eif.2 (k + 4) h.1.2))) (elseIfBlocksToPy_linesAt rest k h.2)
end


theorem splitLines_joinLines_plain (ls : List Str) (h : ∀ l ∈ ls, noNewline l) :
    splitLines (joinLines ls) = ls ++ [[]] := by
  induction ls with
  | nil => rfl
  | cons l ls ih =>
    rw [joinLines_cons, splitLines_append_newline l _ (h l (by simp)),
      ih (fun x hx => h x (by simp [hx]))]
    rfl

theorem elifAt_nil (k : Nat) : (indent k ++ "elif ".toList).isPrefixOf ([] : Str) = false := by
  cases k <;> rfl

theorem elifAt_indent (k : Nat) (rest : Str) :
    (indent k ++ "elif ".toList).isPrefixOf (indent k ++ rest) = "elif ".toList.isPrefixOf rest := by
  induction k with
  | zero => rfl
  | succ k ih =>
    have e : indent (k + 1) = ' ' :: indent k := rfl
    rw [e, List.cons_append, List.cons_append, List.isPrefixOf]
    simpa using ih

/-- The count of an `ElifCount` text is its number of `elif` lines. -/
theorem elifCount_lines {k : Nat} {text : Str} {n : Nat} (h : ElifCount k text n) :
    elifLinesAt k text = n := by
  obtain ⟨ls, rfl, hls, hn⟩ := h
  rw [elifLinesAt, splitLines_joinLines_plain ls hls, List.countP_append, hn]
  simp [List.countP_cons, elifAt_nil]

theorem elifCount_append {k : Nat} {a b : Str} {n m : Nat} (ha : ElifCount k a n)
    (hb : ElifCount k b m) : ElifCount k (a ++ b) (n + m) := by
  obtain ⟨la, rfl, hla, hn⟩ := ha
  obtain ⟨lb, rfl, hlb, hm⟩ := hb
  refine ⟨la ++ lb, (joinLines_append la lb).symm, ?_, by rw [List.countP_append, hn, hm]⟩
  intro l hl
  rcases List.mem_append.1 hl with h | h
  · exact hla l h
  · exact hlb l h

theorem elifCount_nil (k : Nat) : ElifCount k [] 0 := ⟨[], rfl, by simp, rfl⟩

/-- Lines that are empty or start with four more spaces are no `elif` lines of
level `k`. -/
theorem elifCount_deeper {k : Nat} {a : Str} (h : LinesAt (k + 4) a) : ElifCount k a 0 := by
  obtain ⟨ls, rfl, hls⟩ := h
  refine ⟨ls, rfl, fun l hl => (hls l hl).1, ?_⟩
  rw [List.countP_eq_zero]
  intro l hl
  rcases (hls l hl).2 with h | ⟨r, rfl⟩
  · rw [h, elifAt_nil]; simp
  · rw [indent_add, List.append_assoc, elifAt_indent]
    simp [indent, List.isPrefixOf]

/-- A header line `pad + keyword + text + ":"`, counted as an `elif` line when the
keyword is `elif `. -/
theorem elifCount_header (k : Nat) (kw text : Str) (hkw : noNewline kw) (ht : noNewline text) :
    ElifCount k (indent k ++ kw ++ text ++ ":\n".toList)
      (if "elif ".toList.isPrefixOf (kw ++ text ++ ":".toList) then 1 else 0) := by
  have e : indent k ++ kw ++ text ++ ":\n".toList =
      joinLines [indent k ++ (kw ++ text ++ ":".toList)] := by
    have e2 : ":\n".toList = ":".toList ++ ['\n'] := rfl
    simp only [e2, joinLines, List.flatMap_cons, List.flatMap_nil, List.append_assoc,
      List.append_nil]
  refine ⟨_, e, ?_, ?_⟩
  · intro l hl
    simp only [List.mem_singleton] at hl
    subst hl
    simp only [noNewline_append]
    exact ⟨noNewline_indent k, ⟨hkw, ht⟩, by unfold noNewline; decide⟩
  · rw [List.countP_cons, elifAt_indent]
    simp

/-- The else-if blocks emitted at indentation `k` hold one `elif` line of level `k`
each. -/
theorem elseIfBlocksToPy_elifCount : ∀ (eifs : List (ExprAST × List StatementAST)) (k : Nat),
    plainElseIfs eifs = true → ElifCount k (elseIfBlocksToPy eifs k) eifs.length
  | [], k, _ => by rw [elseIfBlocksToPy]; exact elifCount_nil k
  | eif :: rest, k, h => by
    simp only [plainElseIfs, Bool.and_eq_true, plainText_iff] at h
    rw [elseIfBlocksToPy]
    have h1 := elifCount_header k "elif ".toList eif.1.toPython (by unfold noNewline; decide)
      h.1.1
    have e1 : "elif ".toList.isPrefixOf ("elif ".toList ++ eif.1.toPython ++ ":".toList) = true := by
      simp [List.isPrefixOf]
    rw [e1, if_pos rfl] at h1
    have h2 := elifCount_append
      (elifCount_append h1 (elifCount_deeper (bodyToPy_linesAt eif.2 (k + 4) h.1.2)))
      (elseIfBlocksToPy_elifCount rest k h.2)
    have e2 : 1 + 0 + rest.length = (eif :: rest).length := by
      rw [List.length_cons]; omega
    rw [e2] at h2
    exact h2

/-- C11 (amended): an If statement with `n` else-if clauses, whose names, expressions
and for-header texts hold no newline at any depth, is emitted at indentation `k` as a
text with exactly `n` lines that start with `k` spaces followed by `elif `. The
lines of the bodies start with at least `k + 4` spaces; an If statement nested in a
body adds its own `elif` lines there. -/
theorem ifToPy_elif_lines (condition : ExprAST) (thenBody elseBody : List StatementAST)
    (elseIfBlocks : List (ExprAST × List StatementAST)) (indentLevel : Nat)
    (hplain : plainStmt (.ifStatement condition thenBody elseBody elseIfBlocks) = true) :
    elifLinesAt indentLevel
        (toPython (.ifStatement condition thenBody elseBody elseIfBlocks) indentLevel) =
      elseIfBlocks.length := by
  simp only [plainStmt, Bool.and_eq_true, plainText_iff] at hplain
  obtain ⟨⟨⟨hc, ht⟩, he⟩, hei⟩ := hplain
  apply elifCount_lines
  rw [toPython]
  have h1 := elifCount_header indentLevel "if ".toList condition.toPython
    (by unfold noNewline; decide) hc
  have e1 : "elif ".toList.isPrefixOf ("if ".toList ++ condition.toPython ++ ":".toList) =
      false := by simp [List.isPrefixOf]
  rw [e1, if_neg (by simp)] at h1
  have h2 := elifCount_deeper (bodyToPy_linesAt thenBody (indentLevel + 4) ht)
  have h3 := elseIfBlocksToPy_elifCount elseIfBlocks indentLevel hei
  have h4 : ElifCount indentLevel
      (if elseBody.isEmpty then []
       else indent indentLevel ++ "else:\n".toList ++ bodyToPy elseBody (indentLevel + 4)) 0 := by
    split_ifs
    · exact elifCount_nil _
    · have h5 := elifCount_header indentLevel "else".toList [] (by unfold noNewline; decide)
        (by simp [noNewline])
      have e5 : "elif ".toList.isPrefixOf ("else".toList ++ [] ++ ":".toList) = false := by
        decide
      rw [e5, if_neg (by simp)] at h5
      have h6 := elifCount_append h5
        (elifCount_deeper (bodyToPy_linesAt elseBody (indentLevel + 4) he))
      simpa using h6
  have h := elifCount_append (elifCount_append (elifCount_append h1 h2) h3) h4
  have e : 0 + 0 + elseIfBlocks.length + 0 = elseIfBlocks.length := by omega
  rw [e] at h
  exact h

theorem ifToPy_elif_lines_witness :
    elifLinesAt 0 (toPython (.ifStatement (.variable "a".toList) [] []
      [(.variable "b".toList, [.cout [] true])]) 0) = 1 :=
  ifToPy_elif_lines (.variable "a".toList) [] [] [(.variable "b".toList, [.cout [] true])] 0
    (by decide)

/-- C11 (counterexample): `if (a) { if (b) { } else if (c) { } }` parses to an If
statement without else-if clause whose then-body holds an If statement with one; the
text emitted for the outer statement has one line that starts, after its leading
spaces, with `elif `. -/
theorem elif_lines_nested_counterexample :
    parse (lex "if (a) \x7b if (b) \x7b \x7d else if (c) \x7b \x7d \x7d".toList) =
        .ok [.ifStatement (.variable "a".toList)
          [.ifStatement (.variable "b".toList) [] [] [(.variable "c".toList, [])]] [] []] ∧
      elifLines (toPython (.ifStatement (.variable "a".toList)
          [.ifStatement (.variable "b".toList) [] [] [(.variable "c".toList, [])]] [] []) 0) =
        1 := by
  constructor
  · rfl
  · decide


theorem plainBody_iff (body : List StatementAST) :
    plainBody body = true ↔ ∀ s ∈ body, plainStmt s = true := by
  induction body with
  | nil => simp [plainBody]
  | cons s rest ih => simp [plainBody, ih]

theorem plainElseIfs_iff (eifs : List (ExprAST × List StatementAST)) :
    plainElseIfs eifs = true ↔
      ∀ p ∈ eifs, noNewline p.1.toPython ∧ ∀ s ∈ p.2, plainStmt s = true := by
  induction eifs with
  | nil => simp [plainElseIfs]
  | cons p rest ih => simp [plainElseIfs, ih, plainBody_iff, plainText_iff, and_assoc]

theorem stmtInv_plain :
    StmtInv (fun ts => ∀ t ∈ ts, lexemeOk t = true ∧ noNewline t.value)
      (fun e => noNewline e.toPython) (fun s => plainStmt s = true) where
  expr := exprInv_noNewline
  varDecl := by
    intro n t ts hi _
    refine (parseVariableDeclaration_sat exprInv_noNewline n t ts hi).mono ?_
    rintro r ⟨i, rest, iv, rfl, hty, hr, hiv⟩
    have hn := (hi i (by simp)).2
    rw [hr]
    cases iv with
    | none => simpa [plainStmt, plainText_iff] using hn
    | some v => simpa [plainStmt, plainText_iff] using ⟨hn, hiv v rfl⟩
  assign := by
    intro n t ts hi hty
    refine (parseAssignmentStatement_sat exprInv_noNewline n t ts hi).mono ?_
    rintro r ⟨e, hr, he⟩
    rw [hr]
    simpa [plainStmt, plainText_iff] using ⟨(hi t (by simp)).2, he⟩
  cout := by
    intro n t ts hi _
    refine (parseCoutStatement_sat exprInv_noNewline n (t :: ts) hi).mono ?_
    rintro r ⟨parts, b, hr, hp⟩
    rw [hr]
    simpa [plainStmt, plainText_iff] using hp
  ifS := by
    intro c t e eifs hc ht he heifs
    simp only [plainStmt, Bool.and_eq_true, plainText_iff, plainBody_iff, plainElseIfs_iff]
    exact ⟨⟨⟨hc, ht⟩, he⟩, heifs⟩
  forS := by
    intro ts1 ts2 ts3 i c n body h1 h2 h3 hi hc hn hb
    have hi' := captureUntil_noNewline SEMICOLON ts1 (fun t ht => (h1 t ht).2) i hi
    have hc' := captureUntil_noNewline SEMICOLON ts2 (fun t ht => (h2 t ht).2) c hc
    have hn' := captureUntil_noNewline CLOSE_PAREN ts3 (fun t ht => (h3 t ht).2) n hn
    simp only [plainStmt, Bool.and_eq_true, plainText_iff, plainBody_iff]
    exact ⟨⟨⟨hi', hc'⟩, hn'⟩, hb⟩
  whileS := by
    intro c body hc hb
    simp only [plainStmt, Bool.and_eq_true, plainText_iff, plainBody_iff]
    exact ⟨hc, hb⟩

/-- The statements parsed from a source text whose string literals hold no newline
hold no newline in their names, expressions and for-header texts. -/
theorem parse_plainBody (source : Str) (tokens : List Token) (program : ProgramAST)
    (hlex : tokenize source = some tokens)
    (hstr : ∀ t ∈ tokens, t.type = STRING_LITERAL → '\n' ∉ t.value)
    (hparse : parse tokens = .ok program) : plainBody program = true := by
  have htok : tokens = lex source := by
    have := tokenize_eq_some source
    rw [hlex] at this
    exact Option.some.inj this
  have hinv : ∀ t ∈ tokens, lexemeOk t = true ∧ noNewline t.value := by
    intro t ht
    have hok : lexemeOk t = true := lex_lexemeOk source t (htok ▸ ht)
    refine ⟨hok, ?_⟩
    by_cases hs : t.type = STRING_LITERAL
    · exact hstr t ht hs
    · exact lexemeOk_noNewline t hok hs
  exact (plainBody_iff program).2 (parseLoop_sat stmtInv_plain _ tokens hinv program hparse)

/-! ## The result of the parser does not depend on the fuel -/

/-- Sequencing keeps the agreement of two runs: when the first run of each pair
agrees unless the fuel ran out, and so do the continuations, so do the two sequences. -/
theorem Res.bind_mono {α β : Type} {r r' : Res α} {f f' : α → Res β}
    (hr : r ≠ .outOfFuel → r' = r) (hf : ∀ a, r = .ok a → f a ≠ .outOfFuel → f' a = f a)
    (h : r.bind f ≠ .outOfFuel) : r'.bind f' = r.bind f := by
  cases r with
  | ok a =>
    rw [hr (fun e => by cases e)]
    exact hf a rfl h
  | error m => rw [hr (fun e => by cases e)]; rfl
  | outOfBounds => rw [hr (fun e => by cases e)]; rfl
  | outOfFuel => exact absurd rfl h

/-- More fuel does not change the result of the expression parser, once the fuel is
enough for a result. -/
theorem parseExpr_mono_all (n : Nat) :
    (∀ ts, parseFactor n ts ≠ .outOfFuel → parseFactor (n + 1) ts = parseFactor n ts) ∧
    (∀ left ts, parseTermLoop n left ts ≠ .outOfFuel →
      parseTermLoop (n + 1) left ts = parseTermLoop n left ts) ∧
    (∀ ts, parseTerm n ts ≠ .outOfFuel → parseTerm (n + 1) ts = parseTerm n ts) ∧
    (∀ left ts, parseExpressionLoop n left ts ≠ .outOfFuel →
      parseExpressionLoop (n + 1) left ts = parseExpressionLoop n left ts) ∧
    (∀ ts, parseExpression n ts ≠ .outOfFuel →
      parseExpression (n + 1) ts = parseExpression n ts) ∧
    (∀ left ts, parseComparisonLoop n left ts ≠ .outOfFuel →
      parseComparisonLoop (n + 1) left ts = parseComparisonLoop n left ts) ∧
    (∀ ts, parseComparison n ts ≠ .outOfFuel →
      parseComparison (n + 1) ts = parseComparison n ts) := by
  induction n with
  | zero =>
    refine ⟨?_, ?_, ?_, ?_, ?_, ?_, ?_⟩
    · intro ts h; exact absurd (by rw [parseFactor]) h
    · intro left ts h; exact absurd (by rw [parseTermLoop]) h
    · intro ts h; exact absurd (by rw [parseTerm]) h
    · intro left ts h; exact absurd (by rw [parseExpressionLoop]) h
    · intro ts h; exact absurd (by rw [parseExpression]) h
    · intro left ts h; exact absurd (by rw [parseComparisonLoop]) h
    · intro ts h; exact absurd (by rw [parseComparison]) h
  | succ n ih =>
    obtain ⟨ihF, ihTL, ihT, ihEL, ihE, ihCL, ihC⟩ := ih
    refine ⟨?_, ?_, ?_, ?_, ?_, ?_, ?_⟩
    · intro ts h
      cases ts with
      | nil => rw [parseFactor, parseFactor]
      | cons t rest =>
        rw [parseFactor] at h
        rw [parseFactor, parseFactor]
        by_cases hc : t.type = OPEN_PAREN
        · simp only [if_pos hc] at h ⊢
          exact Res.bind_mono (ihC _) (fun _ _ _ => rfl) h
        · simp only [if_neg hc]
    · intro left ts h
      cases ts with
      | nil => rw [parseTermLoop, parseTermLoop]
      | cons t rest =>
        rw [parseTermLoop] at h
        rw [parseTermLoop, parseTermLoop]
        by_cases hc : t.type = MULTIPLY ∨ t.type = DIVIDE
        · simp only [if_pos hc] at h ⊢
          exact Res.bind_mono (ihF _) (fun r _ hr => ihTL _ _ hr) h
        · simp only [if_neg hc]
    · intro ts h
      rw [parseTerm] at h
      rw [parseTerm, parseTerm]
      exact Res.bind_mono (ihF _) (fun r _ hr => ihTL _ _ hr) h
    · intro left ts h
      cases ts with
      | nil => rw [parseExpressionLoop, parseExpressionLoop]
      | cons t rest =>
        rw [parseExpressionLoop] at h
        rw [parseExpressionLoop, parseExpressionLoop]
        by_cases hc : t.type = PLUS ∨ t.type = MINUS
        · simp only [if_pos hc] at h ⊢
          exact Res.bind_mono (ihT _) (fun r _ hr => ihEL _ _ hr) h
        · simp only [if_neg hc]
    · intro ts h
      rw [parseExpression] at h
      rw [parseExpression, parseExpression]
      exact Res.bind_mono (ihT _) (fun r _ hr => ihEL _ _ hr) h
    · intro left ts h
      cases ts with
      | nil => rw [parseComparisonLoop, parseComparisonLoop]
      | cons t rest =>
        rw [parseComparisonLoop] at h
        rw [parseComparisonLoop, parseComparisonLoop]
        by_cases hc : isComparisonOp t.type = true
        · simp only [if_pos hc] at h ⊢
          exact Res.bind_mono (ihE _) (fun r _ hr => ihCL _ _ hr) h
        · simp only [if_neg hc]
    · intro ts h
      rw [parseComparison] at h
      rw [parseComparison, parseComparison]
      exact Res.bind_mono (ihE _) (fun r _ hr => ihCL _ _ hr) h


theorem parseExpression_mono (n : Nat) (ts : List Token) :
    parseExpression n ts ≠ .outOfFuel → parseExpression (n + 1) ts = parseExpression n ts :=
  (parseExpr_mono_all n).2.2.2.2.1 ts

theorem parseComparison_mono (n : Nat) (ts : List Token) :
    parseComparison n ts ≠ .outOfFuel → parseComparison (n + 1) ts = parseComparison n ts :=
  (parseExpr_mono_all n).2.2.2.2.2.2 ts

theorem parseVariableDeclaration_mono (n : Nat) (ts : List Token)
    (h : parseVariableDeclaration n ts ≠ .outOfFuel) :
    parseVariableDeclaration (n + 1) ts = parseVariableDeclaration n ts := by
  cases ts with
  | nil => rfl
  | cons t rest =>
    cases rest with
    | nil => rfl
    | cons i rest1 =>
      simp only [parseVariableDeclaration, advance, List.tail_cons] at h ⊢
      refine Res.bind_mono (fun _ => rfl) (fun ts1 _ h1 => ?_) h
      cases ts1 with
      | nil => rfl
      | cons e rest2 =>
        by_cases hc : e.type = EQUALS
        · simp only [if_pos hc] at h1 ⊢
          exact Res.bind_mono (parseExpression_mono n _) (fun _ _ _ => rfl) h1
        · simp only [if_neg hc]

theorem parseAssignmentStatement_mono (n : Nat) (ts : List Token)
    (h : parseAssignmentStatement n ts ≠ .outOfFuel) :
    parseAssignmentStatement (n + 1) ts = parseAssignmentStatement n ts := by
  cases ts with
  | nil => rfl
  | cons t rest =>
    simp only [parseAssignmentStatement] at h ⊢
    refine Res.bind_mono (fun _ => rfl) (fun ts1 _ h1 => ?_) h
    exact Res.bind_mono (parseExpression_mono n _) (fun _ _ _ => rfl) h1

theorem parseCoutLoop_mono : ∀ (n : Nat) (ts : List Token),
    parseCoutLoop n ts ≠ .outOfFuel → parseCoutLoop (n + 1) ts = parseCoutLoop n ts := by
  intro n
  induction n with
  | zero => intro ts h; exact absurd (by rw [parseCoutLoop]) h
  | succ n ih =>
    intro ts h
    cases ts with
    | nil => rw [parseCoutLoop, parseCoutLoop]
    | cons t rest =>
      rw [parseCoutLoop] at h
      rw [parseCoutLoop, parseCoutLoop]
      by_cases hc : t.type = STREAM_OPERATOR
      · simp only [if_pos hc] at h ⊢
        cases rest with
        | nil => rfl
        | cons e rest1 =>
          simp only [advance, List.tail_cons] at h ⊢
          by_cases he : e.type = KEYWORD_ENDL
          · simp only [if_pos he] at h ⊢
            exact Res.bind_mono (ih _) (fun _ _ _ => rfl) h
          · simp only [if_neg he] at h ⊢
            refine Res.bind_mono (parseExpression_mono n _) (fun x _ h1 => ?_) h
            exact Res.bind_mono (ih _) (fun _ _ _ => rfl) h1
      · simp only [if_neg hc]

theorem parseCoutStatement_mono (n : Nat) (ts : List Token)
    (h : parseCoutStatement n ts ≠ .outOfFuel) :
    parseCoutStatement (n + 1) ts = parseCoutStatement n ts := by
  simp only [parseCoutStatement] at h ⊢
  exact Res.bind_mono (parseCoutLoop_mono n _) (fun _ _ _ => rfl) h

/-- More fuel does not change the result of the statement parser, once the fuel is
enough for a result. -/
theorem parseStmt_mono_all (n : Nat) :
    (∀ ts, parseBlockLoop n ts ≠ .outOfFuel → parseBlockLoop (n + 1) ts = parseBlockLoop n ts) ∧
    (∀ ts, parseBlock n ts ≠ .outOfFuel → parseBlock (n + 1) ts = parseBlock n ts) ∧
    (∀ ts, parseElseLoop n ts ≠ .outOfFuel → parseElseLoop (n + 1) ts = parseElseLoop n ts) ∧
    (∀ ts, parseIfStatement n ts ≠ .outOfFuel →
      parseIfStatement (n + 1) ts = parseIfStatement n ts) ∧
    (∀ ts, parseForStatement n ts ≠ .outOfFuel →
      parseForStatement (n + 1) ts = parseForStatement n ts) ∧
    (∀ ts, parseWhileStatement n ts ≠ .outOfFuel →
      parseWhileStatement (n + 1) ts = parseWhileStatement n ts) ∧
    (∀ ts, parseStatement n ts ≠ .outOfFuel →
      parseStatement (n + 1) ts = parseStatement n ts) := by
  induction n with
  | zero =>
    refine ⟨?_, ?_, ?_, ?_, ?_, ?_, ?_⟩
    · intro ts h; exact absurd (by rw [parseBlockLoop]) h
    · intro ts h; exact absurd (by rw [parseBlock]) h
    · intro ts h; exact absurd (by rw [parseElseLoop]) h
    · intro ts h; exact absurd (by rw [parseIfStatement]) h
    · intro ts h; exact absurd (by rw [parseForStatement]) h
    · intro ts h; exact absurd (by rw [parseWhileStatement]) h
    · intro ts h; exact absurd (by rw [parseStatement]) h
  | succ n ih =>
    obtain ⟨ihBL, ihB, ihEL, ihI, ihFo, ihW, ihS⟩ := ih
    refine ⟨?_, ?_, ?_, ?_, ?_, ?_, ?_⟩
    · intro ts h
      cases ts with
      | nil => rw [parseBlockLoop, parseBlockLoop]
      | cons t rest =>
        rw [parseBlockLoop] at h
        rw [parseBlockLoop, parseBlockLoop]
        by_cases hc : t.type ≠ CLOSE_BRACE ∧ t.type ≠ END_OF_FILE
        · simp only [if_pos hc] at h ⊢
          refine Res.bind_mono (ihS _) (fun r _ h1 => ?_) h
          exact Res.bind_mono (ihBL _) (fun _ _ _ => rfl) h1
        · simp only [if_neg hc]
    · intro ts h
      rw [parseBlock] at h
      rw [parseBlock, parseBlock]
      refine Res.bind_mono (fun _ => rfl) (fun ts1 _ h1 => ?_) h
      exact Res.bind_mono (ihBL _) (fun _ _ _ => rfl) h1
    · intro ts h
      cases ts with
      | nil => rw [parseElseLoop, parseElseLoop]
      | cons t rest =>
        rw [parseElseLoop] at h
        rw [parseElseLoop, parseElseLoop]
        by_cases hc : t.type = KEYWORD_ELSE
        · simp only [if_pos hc] at h ⊢
          cases rest with
          | nil => rfl
          | cons i rest1 =>
            simp only [advance, List.tail_cons] at h ⊢
            by_cases hi : i.type = KEYWORD_IF
            · simp only [if_pos hi] at h ⊢
              refine Res.bind_mono (fun _ => rfl) (fun ts1 _ h1 => ?_) h
              refine Res.bind_mono (parseComparison_mono n _) (fun c _ h2 => ?_) h1
              refine Res.bind_mono (fun _ => rfl) (fun ts2 _ h3 => ?_) h2
              refine Res.bind_mono (ihB _) (fun b _ h4 => ?_) h3
              exact Res.bind_mono (ihEL _) (fun _ _ _ => rfl) h4
            · simp only [if_neg hi] at h ⊢
              exact Res.bind_mono (ihB _) (fun _ _ _ => rfl) h
        · simp only [if_neg hc]
    · intro ts h
      rw [parseIfStatement] at h
      rw [parseIfStatement, parseIfStatement]
      refine Res.bind_mono (fun _ => rfl) (fun ts1 _ h1 => ?_) h
      refine Res.bind_mono (parseComparison_mono n _) (fun c _ h2 => ?_) h1
      refine Res.bind_mono (fun _ => rfl) (fun ts2 _ h3 => ?_) h2
      refine Res.bind_mono (ihB _) (fun b _ h4 => ?_) h3
      exact Res.bind_mono (ihEL _) (fun _ _ _ => rfl) h4
    · intro ts h
      rw [parseForStatement] at h
      rw [parseForStatement, parseForStatement]
      refine Res.bind_mono (fun _ => rfl) (fun ts1 _ h1 => ?_) h
      refine Res.bind_mono (fun _ => rfl) (fun i _ h2 => ?_) h1
      refine Res.bind_mono (fun _ => rfl) (fun ts2 _ h3 => ?_) h2
      refine Res.bind_mono (fun _ => rfl) (fun c _ h4 => ?_) h3
      refine Res.bind_mono (fun _ => rfl) (fun ts3 _ h5 => ?_) h4
      refine Res.bind_mono (fun _ => rfl) (fun c _ h6 => ?_) h5
      refine Res.bind_mono (fun _ => rfl) (fun ts4 _ h7 => ?_) h6
      exact Res.bind_mono (ihB _) (fun _ _ _ => rfl) h7
    · intro ts h
      rw [parseWhileStatement] at h
      rw [parseWhileStatement, parseWhileStatement]
      refine Res.bind_mono (fun _ => rfl) (fun ts1 _ h1 => ?_) h
      refine Res.bind_mono (parseComparison_mono n _) (fun c _ h2 => ?_) h1
      refine Res.bind_mono (fun _ => rfl) (fun ts2 _ h3 => ?_) h2
      exact Res.bind_mono (ihB _) (fun _ _ _ => rfl) h3
    · intro ts h
      cases ts with
      | nil => rw [parseStatement, parseStatement]
      | cons t rest =>
        rw [parseStatement] at h
        rw [parseStatement, parseStatement]
        split at h
        · exact parseVariableDeclaration_mono n _ h
        · exact parseVariableDeclaration_mono n _ h
        · exact parseAssignmentStatement_mono n _ h
        · exact parseCoutStatement_mono n _ h
        · exact ihI _ h
        · exact ihFo _ h
        · exact ihW _ h
        · rfl

theorem parseStatement_mono (n : Nat) (ts : List Token) :
    parseStatement n ts ≠ .outOfFuel → parseStatement (n + 1) ts = parseStatement n ts :=
  (parseStmt_mono_all n).2.2.2.2.2.2 ts

theorem parseLoop_mono : ∀ (n : Nat) (ts : List Token),
    parseLoop n ts ≠ .outOfFuel → parseLoop (n + 1) ts = parseLoop n ts := by
  intro n
  induction n with
  | zero => intro ts h; exact absurd (by rw [parseLoop]) h
  | succ n ih =>
    intro ts h
    cases ts with
    | nil => rw [parseLoop, parseLoop]
    | cons t rest =>
      rw [parseLoop] at h
      rw [parseLoop, parseLoop]
      by_cases hc : t.type ≠ END_OF_FILE
      · simp only [if_pos hc] at h ⊢
        refine Res.bind_mono (parseStatement_mono n _) (fun r _ h1 => ?_) h
        exact Res.bind_mono (ih _) (fun _ _ _ => rfl) h1
      · simp only [if_neg hc]

/-- A result reached with some fuel is reached with any larger fuel. -/
theorem fuel_mono_of_step {α : Type} (f : Nat → Res α)
    (step : ∀ n, f n ≠ .outOfFuel → f (n + 1) = f n) {n m : Nat} (hnm : n ≤ m)
    (h : f n ≠ .outOfFuel) : f m = f n := by
  induction m with
  | zero =>
    have : n = 0 := by omega
    rw [this]
  | succ m ih =>
    by_cases e : n = m + 1
    · rw [e]
    · have hm := ih (by omega)
      rw [step m (by rw [hm]; exact h), hm]

/-! ## The tokens that the parser consumes -/

theorem headerPos_append (p : HeaderPos) (a b : List Token) :
    headerPos p (a ++ b) = headerPos (headerPos p a) b := by
  induction a generalizing p with
  | nil => rfl
  | cons t rest ih => rw [List.cons_append, headerPos, headerPos, ih]

theorem outsideHeaders_append (p : HeaderPos) (a b : List Token) :
    outsideHeaders p (a ++ b) = outsideHeaders p a ++ outsideHeaders (headerPos p a) b := by
  induction a generalizing p with
  | nil => rfl
  | cons t rest ih =>
    rw [List.cons_append, outsideHeaders, outsideHeaders, headerPos, ih]
    split_ifs <;> rfl

theorem footAt_ok_self {β : Type} (p : HeaderPos) (ts : List Token) (x : β) :
    FootAt p p ts (.ok (x, ts)) := by
  refine ⟨?_, fun e => by cases e⟩
  intro y r e
  cases e
  exact ⟨[], rfl, rfl, by simp [outsideHeaders]⟩

theorem footAt_error {β : Type} (p q : HeaderPos) (ts : List Token) (m : Str) :
    FootAt p q ts (.error m : Res (β × List Token)) :=
  ⟨fun _ _ e => (nomatch e), fun e => (nomatch e)⟩

theorem footAt_outOfFuel {β : Type} (p q : HeaderPos) (ts : List Token) :
    FootAt p q ts (.outOfFuel : Res (β × List Token)) :=
  ⟨fun _ _ e => (nomatch e), fun e => (nomatch e)⟩

theorem footAt_nil {β : Type} (p q : HeaderPos) (res : Res (β × List Token))
    (h : ∀ x r, res ≠ .ok (x, r)) : FootAt p q [] res :=
  ⟨fun x r e => absurd e (h x r), fun _ => by simp [outsideHeaders]⟩

theorem footAt_bind {β γ : Type} {p q q' : HeaderPos} {ts : List Token}
    {m : Res (β × List Token)} {f : β × List Token → Res (γ × List Token)}
    (hm : FootAt p q ts m) (hf : ∀ x r, m = .ok (x, r) → FootAt q q' r (f (x, r))) :
    FootAt p q' ts (m.bind f) := by
  cases m with
  | ok a =>
    obtain ⟨x, r⟩ := a
    obtain ⟨a, hts, hpos, hgood⟩ := hm.1 x r rfl
    have h2 := hf x r rfl
    refine ⟨?_, ?_⟩
    · intro y r2 e
      obtain ⟨a2, hr, hpos2, hgood2⟩ := h2.1 y r2 e
      refine ⟨a ++ a2, by rw [hts, hr, List.append_assoc], ?_, ?_⟩
      · rw [headerPos_append, hpos, hpos2]
      · intro t ht
        rw [outsideHeaders_append, hpos] at ht
        rcases List.mem_append.1 ht with h | h
        · exact hgood t h
        · exact hgood2 t h
    · intro e t ht
      rw [hts, outsideHeaders_append, hpos] at ht
      rcases List.mem_append.1 ht with h | h
      · exact hgood t h
      · exact h2.2 e t h
  | error msg => exact footAt_error _ _ _ _
  | outOfBounds => exact ⟨fun _ _ e => (nomatch e), fun _ => hm.2 rfl⟩
  | outOfFuel => exact footAt_outOfFuel _ _ _

/-- A token stepped over before the run. -/
theorem footAt_cons {β : Type} {p q : HeaderPos} (t : Token) {ts : List Token}
    {res : Res (β × List Token)}
    (hg : p.captured t = true ∨ isGrammarToken t.type = true)
    (h : FootAt (p.next t) q ts res) : FootAt p q (t :: ts) res := by
  have key : ∀ l : List Token, (∀ x ∈ outsideHeaders (p.next t) l, isGrammarToken x.type = true) →
      ∀ x ∈ outsideHeaders p (t :: l), isGrammarToken x.type = true := by
    intro l hl x hx
    rw [outsideHeaders] at hx
    by_cases hc : p.captured t = true
    · rw [if_pos hc] at hx; exact hl x hx
    · rw [if_neg hc] at hx
      rcases List.mem_cons.1 hx with e | e
      · rw [e]; exact hg.resolve_left hc
      · exact hl x e
  refine ⟨?_, fun e => key ts (h.2 e)⟩
  intro x r e
  obtain ⟨a, hts, hpos, hgood⟩ := h.1 x r e
  exact ⟨t :: a, by rw [hts]; rfl, hpos, key a hgood⟩

/-- A call of `consume` followed by the rest of the run. -/
theorem footAt_consume_bind {β : Type} {p q : HeaderPos} (k : TokenType) (msg : Str)
    (ts : List Token) (f : List Token → Res (β × List Token))
    (hg : ∀ t : Token, t.type = k → p.captured t = true ∨ isGrammarToken t.type = true)
    (hf : ∀ t r, t.type = k → FootAt (p.next t) q r (f r)) :
    FootAt p q ts ((consume k msg ts).bind f) := by
  cases ts with
  | nil => exact footAt_nil _ _ _ (fun _ _ e => by cases e)
  | cons t rest =>
    rw [consume]
    by_cases hc : t.type = k
    · rw [if_pos hc]
      exact footAt_cons t (hg t hc) (hf t rest hc)
    · rw [if_neg hc]
      exact footAt_error _ _ _ _

/-- A step over a token of a kind of the grammar, outside the for headers. -/
theorem foot_cons {β : Type} (t : Token) {ts : List Token} {res : Res (β × List Token)}
    (hg : isGrammarToken t.type = true) (hf : t.type ≠ KEYWORD_FOR)
    (h : FootAt .outside .outside ts res) : FootAt .outside .outside (t :: ts) res := by
  apply footAt_cons t (Or.inr hg)
  simpa [HeaderPos.next, hf] using h

theorem foot_consume_bind {β : Type} (k : TokenType) (msg : Str) (ts : List Token)
    (f : List Token → Res (β × List Token)) (hg : isGrammarToken k = true)
    (hk : k ≠ KEYWORD_FOR) (hf : ∀ r, FootAt .outside .outside r (f r)) :
    FootAt .outside .outside ts ((consume k msg ts).bind f) := by
  apply footAt_consume_bind k msg ts f (fun t ht => Or.inr (ht ▸ hg))
  intro t r ht
  have : t.type ≠ KEYWORD_FOR := ht ▸ hk
  simpa [HeaderPos.next, this] using hf r

theorem foot_parseAtom (ts : List Token) : FootAt .outside .outside ts (parseAtom ts) := by
  cases ts with
  | nil => exact footAt_nil _ _ _ (fun _ _ e => by cases e)
  | cons t rest =>
    rw [parseAtom]
    simp only [advance, List.tail_cons]
    split_ifs with h1 h2 h3
    · exact foot_cons t (by rw [h1]; rfl) (by rw [h1]; decide) (footAt_ok_self _ _ _)
    · exact foot_cons t (by rw [h2]; rfl) (by rw [h2]; decide) (footAt_ok_self _ _ _)
    · exact foot_cons t (by rw [h3]; rfl) (by rw [h3]; decide) (footAt_ok_self _ _ _)
    · exact footAt_error _ _ _ _

theorem isComparisonOp_grammar (k : TokenType) (h : isComparisonOp k = true) :
    isGrammarToken k = true ∧ k ≠ KEYWORD_FOR := by
  cases k <;> simp [isComparisonOp] at h <;> exact ⟨rfl, by decide⟩

/-- The footprint of the expression parser. -/
theorem parseExpr_foot_all (n : Nat) :
    (∀ ts, FootAt .outside .outside ts (parseFactor n ts)) ∧
    (∀ left ts, FootAt .outside .outside ts (parseTermLoop n left ts)) ∧
    (∀ ts, FootAt .outside .outside ts (parseTerm n ts)) ∧
    (∀ left ts, FootAt .outside .outside ts (parseExpressionLoop n left ts)) ∧
    (∀ ts, FootAt .outside .outside ts (parseExpression n ts)) ∧
    (∀ left ts, FootAt .outside .outside ts (parseComparisonLoop n left ts)) ∧
    (∀ ts, FootAt .outside .outside ts (parseComparison n ts)) := by
  induction n with
  | zero =>
    refine ⟨?_, ?_, ?_, ?_, ?_, ?_, ?_⟩
    · intro ts; rw [parseFactor]; exact footAt_outOfFuel _ _ _
    · intro left ts; rw [parseTermLoop]; exact footAt_outOfFuel _ _ _
    · intro ts; rw [parseTerm]; exact footAt_outOfFuel _ _ _
    · intro left ts; rw [parseExpressionLoop]; exact footAt_outOfFuel _ _ _
    · intro ts; rw [parseExpression]; exact footAt_outOfFuel _ _ _
    · intro left ts; rw [parseComparisonLoop]; exact footAt_outOfFuel _ _ _
    · intro ts; rw [parseComparison]; exact footAt_outOfFuel _ _ _
  | succ n ih =>
    obtain ⟨ihF, ihTL, ihT, ihEL, ihE, ihCL, ihC⟩ := ih
    refine ⟨?_, ?_, ?_, ?_, ?_, ?_, ?_⟩
    · intro ts
      cases ts with
      | nil => rw [parseFactor]; exact footAt_nil _ _ _ (fun _ _ e => by cases e)
      | cons t rest =>
        rw [parseFactor]
        by_cases hc : t.type = OPEN_PAREN
        · rw [if_pos hc]
          simp only [advance, List.tail_cons]
          refine foot_cons t (by rw [hc]; rfl) (by rw [hc]; decide) ?_
          refine footAt_bind (ihC rest) fun x r _ => ?_
          exact foot_consume_bind _ _ _ _ rfl (by decide) fun r1 => footAt_ok_self _ _ _
        · rw [if_neg hc]; exact foot_parseAtom _
    · intro left ts
      cases ts with
      | nil => rw [parseTermLoop]; exact footAt_nil _ _ _ (fun _ _ e => by cases e)
      | cons t rest =>
        rw [parseTermLoop]
        by_cases hc : t.type = MULTIPLY ∨ t.type = DIVIDE
        · rw [if_pos hc]
          simp only [advance, List.tail_cons]
          refine foot_cons t (by rcases hc with h | h <;> (rw [h]; rfl))
            (by rcases hc with h | h <;> (rw [h]; decide)) ?_
          exact footAt_bind (ihF rest) fun x r _ => ihTL _ _
        · rw [if_neg hc]; exact footAt_ok_self _ _ _
    · intro ts
      rw [parseTerm]
      exact footAt_bind (ihF ts) fun x r _ => ihTL _ _
    · intro left ts
      cases ts with
      | nil => rw [parseExpressionLoop]; exact footAt_nil _ _ _ (fun _ _ e => by cases e)
      | cons t rest =>
        rw [parseExpressionLoop]
        by_cases hc : t.type = PLUS ∨ t.type = MINUS
        · rw [if_pos hc]
          simp only [advance, List.tail_cons]
          refine foot_cons t (by rcases hc with h | h <;> (rw [h]; rfl))
            (by rcases hc with h | h <;> (rw [h]; decide)) ?_
          exact footAt_bind (ihT rest) fun x r _ => ihEL _ _
        · rw [if_neg hc]; exact footAt_ok_self _ _ _
    · intro ts
      rw [parseExpression]
      exact footAt_bind (ihT ts) fun x r _ => ihEL _ _
    · intro left ts
      cases ts with
      | nil => rw [parseComparisonLoop]; exact footAt_nil _ _ _ (fun _ _ e => by cases e)
      | cons t rest =>
        rw [parseComparisonLoop]
        by_cases hc : isComparisonOp t.type = true
        · rw [if_pos hc]
          simp only [advance, List.tail_cons]
          refine foot_cons t (isComparisonOp_grammar _ hc).1 (isComparisonOp_grammar _ hc).2 ?_
          exact footAt_bind (ihE rest) fun x r _ => ihCL _ _
        · rw [if_neg hc]; exact footAt_ok_self _ _ _
    · intro ts
      rw [parseComparison]
      exact footAt_bind (ihE ts) fun x r _ => ihCL _ _


theorem foot_parseExpression (n : Nat) (ts : List Token) :
    FootAt .outside .outside ts (parseExpression n ts) :=
  (parseExpr_foot_all n).2.2.2.2.1 ts

theorem foot_parseComparison (n : Nat) (ts : List Token) :
    FootAt .outside .outside ts (parseComparison n ts) :=
  (parseExpr_foot_all n).2.2.2.2.2.2 ts

theorem foot_parseVariableDeclaration (n : Nat) (t : Token) (rest : List Token)
    (ht : t.type = KEYWORD_INT ∨ t.type = KEYWORD_FLOAT) :
    FootAt .outside .outside (t :: rest) (parseVariableDeclaration n (t :: rest)) := by
  refine foot_cons t (by rcases ht with h | h <;> (rw [h]; rfl))
    (by rcases ht with h | h <;> (rw [h]; decide)) ?_
  cases rest with
  | nil => exact footAt_nil _ _ _ (fun _ _ e => by cases e)
  | cons i rest1 =>
    simp only [parseVariableDeclaration, advance, List.tail_cons]
    refine foot_consume_bind _ _ _ _ rfl (by decide) fun ts1 => ?_
    cases ts1 with
    | nil => exact footAt_nil _ _ _ (fun _ _ e => by cases e)
    | cons e rest2 =>
      by_cases hc : e.type = EQUALS
      · simp only [if_pos hc]
        refine foot_cons e (by rw [hc]; rfl) (by rw [hc]; decide) ?_
        refine footAt_bind (foot_parseExpression n rest2) fun x r _ => ?_
        exact foot_consume_bind _ _ _ _ rfl (by decide) fun r1 => footAt_ok_self _ _ _
      · simp only [if_neg hc]
        exact foot_consume_bind _ _ _ _ rfl (by decide) fun r1 => footAt_ok_self _ _ _

theorem foot_parseAssignmentStatement (n : Nat) (t : Token) (rest : List Token)
    (ht : t.type = IDENTIFIER) :
    FootAt .outside .outside (t :: rest) (parseAssignmentStatement n (t :: rest)) := by
  refine foot_cons t (by rw [ht]; rfl) (by rw [ht]; decide) ?_
  simp only [parseAssignmentStatement, advance, List.tail_cons]
  refine foot_consume_bind _ _ _ _ rfl (by decide) fun ts1 => ?_
  refine footAt_bind (foot_parseExpression n ts1) fun x r _ => ?_
  exact foot_consume_bind _ _ _ _ rfl (by decide) fun r1 => footAt_ok_self _ _ _

theorem foot_parseCoutLoop : ∀ (n : Nat) (ts : List Token),
    FootAt .outside .outside ts (parseCoutLoop n ts) := by
  intro n
  induction n with
  | zero => intro ts; rw [parseCoutLoop]; exact footAt_outOfFuel _ _ _
  | succ n ih =>
    intro ts
    cases ts with
    | nil => rw [parseCoutLoop]; exact footAt_nil _ _ _ (fun _ _ e => by cases e)
    | cons t rest =>
      rw [parseCoutLoop]
      by_cases hc : t.type = STREAM_OPERATOR
      · rw [if_pos hc]
        refine foot_cons t (by rw [hc]; rfl) (by rw [hc]; decide) ?_
        cases rest with
        | nil => exact footAt_nil _ _ _ (fun _ _ e => by cases e)
        | cons e rest1 =>
          simp only [advance, List.tail_cons]
          by_cases he : e.type = KEYWORD_ENDL
          · simp only [if_pos he]
            refine foot_cons e (by rw [he]; rfl) (by rw [he]; decide) ?_
            exact footAt_bind (ih rest1) fun x r _ => footAt_ok_self _ _ _
          · simp only [if_neg he]
            refine footAt_bind (foot_parseExpression n _) fun x r _ => ?_
            exact footAt_bind (ih r) fun y r1 _ => footAt_ok_self _ _ _
      · rw [if_neg hc]; exact footAt_ok_self _ _ _

theorem foot_parseCoutStatement (n : Nat) (t : Token) (rest : List Token)
    (ht : t.type = KEYWORD_COUT) :
    FootAt .outside .outside (t :: rest) (parseCoutStatement n (t :: rest)) := by
  refine foot_cons t (by rw [ht]; rfl) (by rw [ht]; decide) ?_
  simp only [parseCoutStatement, advance, List.tail_cons]
  refine footAt_bind (foot_parseCoutLoop n rest) fun x r _ => ?_
  exact foot_consume_bind _ _ _ _ rfl (by decide) fun r1 => footAt_ok_self _ _ _

/-- A capture loop of `parseForStatement` stays in its segment of the header. -/
theorem footAt_captureUntil (p : HeaderPos) (stop : TokenType)
    (hp : ∀ t : Token, t.type ≠ stop → p.next t = p ∧ p.captured t = true) :
    ∀ ts, FootAt p p ts (captureUntil stop ts) := by
  intro ts
  induction ts with
  | nil => exact footAt_nil _ _ _ (fun _ _ e => by cases e)
  | cons t rest ih =>
    rw [CppToPython.captureUntil]
    by_cases hc : t.type ≠ stop
    · rw [if_pos hc]
      refine footAt_cons t (Or.inl (hp t hc).2) ?_
      rw [(hp t hc).1]
      exact footAt_bind ih fun x r _ => footAt_ok_self _ _ _
    · rw [if_neg hc]; exact footAt_ok_self _ _ _

/-- The footprint of the statement parser. -/
theorem parseStmt_foot_all (n : Nat) :
    (∀ ts, FootAt .outside .outside ts (parseBlockLoop n ts)) ∧
    (∀ ts, FootAt .outside .outside ts (parseBlock n ts)) ∧
    (∀ ts, FootAt .outside .outside ts (parseElseLoop n ts)) ∧
    (∀ t rest, t.type = KEYWORD_IF →
      FootAt .outside .outside (t :: rest) (parseIfStatement n (t :: rest))) ∧
    (∀ t rest, t.type = KEYWORD_FOR →
      FootAt .outside .outside (t :: rest) (parseForStatement n (t :: rest))) ∧
    (∀ t rest, t.type = KEYWORD_WHILE →
      FootAt .outside .outside (t :: rest) (parseWhileStatement n (t :: rest))) ∧
    (∀ ts, FootAt .outside .outside ts (parseStatement n ts)) := by
  induction n with
  | zero =>
    refine ⟨?_, ?_, ?_, ?_, ?_, ?_, ?_⟩
    · intro ts; rw [parseBlockLoop]; exact footAt_outOfFuel _ _ _
    · intro ts; rw [parseBlock]; exact footAt_outOfFuel _ _ _
    · intro ts; rw [parseElseLoop]; exact footAt_outOfFuel _ _ _
    · intro t rest _; rw [parseIfStatement]; exact footAt_outOfFuel _ _ _
    · intro t rest _; rw [parseForStatement]; exact footAt_outOfFuel _ _ _
    · intro t rest _; rw [parseWhileStatement]; exact footAt_outOfFuel _ _ _
    · intro ts; rw [parseStatement]; exact footAt_outOfFuel _ _ _
  | succ n ih =>
    obtain ⟨ihBL, ihB, ihEL, ihI, ihFo, ihW, ihS⟩ := ih
    have hcond : ∀ (β : Type) (ts : List Token)
        (f : ExprAST × List Token → List Token → Res (β × List Token)),
        (∀ c ts2, FootAt .outside .outside ts2 (f c ts2)) →
        FootAt .outside .outside ts
          ((consume OPEN_PAREN "'('".toList ts).bind fun ts1 =>
            (parseComparison n ts1).bind fun c =>
              (consume CLOSE_PAREN "')'".toList c.2).bind fun ts2 => f c ts2) := by
      intro β ts f hf
      refine foot_consume_bind _ _ _ _ rfl (by decide) fun ts1 => ?_
      refine footAt_bind (foot_parseComparison n ts1) fun x r _ => ?_
      exact foot_consume_bind _ _ _ _ rfl (by decide) fun ts2 => hf _ _
    refine ⟨?_, ?_, ?_, ?_, ?_, ?_, ?_⟩
    · intro ts
      cases ts with
      | nil => rw [parseBlockLoop]; exact footAt_nil _ _ _ (fun _ _ e => by cases e)
      | cons t rest =>
        rw [parseBlockLoop]
        by_cases hc : t.type ≠ CLOSE_BRACE ∧ t.type ≠ END_OF_FILE
        · rw [if_pos hc]
          refine footAt_bind (ihS _) fun x r _ => ?_
          exact footAt_bind (ihBL r) fun y r1 _ => footAt_ok_self _ _ _
        · rw [if_neg hc]; exact footAt_ok_self _ _ _
    · intro ts
      rw [parseBlock]
      refine foot_consume_bind _ _ _ _ rfl (by decide) fun ts1 => ?_
      refine footAt_bind (ihBL ts1) fun x r _ => ?_
      exact foot_consume_bind _ _ _ _ rfl (by decide) fun ts2 => footAt_ok_self _ _ _
    · intro ts
      cases ts with
      | nil => rw [parseElseLoop]; exact footAt_nil _ _ _ (fun _ _ e => by cases e)
      | cons t rest =>
        rw [parseElseLoop]
        by_cases hc : t.type = KEYWORD_ELSE
        · rw [if_pos hc]
          refine foot_cons t (by rw [hc]; rfl) (by rw [hc]; decide) ?_
          cases rest with
          | nil => exact footAt_nil _ _ _ (fun _ _ e => by cases e)
          | cons i rest1 =>
            simp only [advance, List.tail_cons]
            by_cases hi : i.type = KEYWORD_IF
            · simp only [if_pos hi]
              refine foot_cons i (by rw [hi]; rfl) (by rw [hi]; decide) ?_
              refine hcond _ rest1 _ fun c ts2 => ?_
              refine footAt_bind (ihB ts2) fun x r _ => ?_
              exact footAt_bind (ihEL r) fun y r1 _ => footAt_ok_self _ _ _
            · simp only [if_neg hi]
              exact footAt_bind (ihB _) fun x r _ => footAt_ok_self _ _ _
        · rw [if_neg hc]; exact footAt_ok_self _ _ _
    · intro t rest ht
      rw [parseIfStatement]
      simp only [advance, List.tail_cons]
      refine foot_cons t (by rw [ht]; rfl) (by rw [ht]; decide) ?_
      refine hcond _ rest _ fun c ts2 => ?_
      refine footAt_bind (ihB ts2) fun x r _ => ?_
      exact footAt_bind (ihEL r) fun y r1 _ => footAt_ok_self _ _ _
    · intro t rest ht
      rw [parseForStatement]
      simp only [advance, List.tail_cons]
      refine footAt_cons t (Or.inr (by rw [ht]; rfl)) ?_
      have e1 : HeaderPos.outside.next t = .afterFor := by simp [HeaderPos.next, ht]
      rw [e1]
      refine footAt_consume_bind _ _ _ _ (fun u hu => Or.inr (by rw [hu]; rfl))
        fun u ts1 _ => ?_
      have e2 : HeaderPos.afterFor.next u = .init := rfl
      rw [e2]
      refine footAt_bind (footAt_captureUntil .init SEMICOLON
        (fun v hv => by simp [HeaderPos.next, HeaderPos.captured, hv]) ts1) fun i r1 _ => ?_
      refine footAt_consume_bind _ _ _ _ (fun u hu => Or.inr (by rw [hu]; rfl))
        fun u2 ts2 hu2 => ?_
      have e3 : HeaderPos.init.next u2 = .condition := by simp [HeaderPos.next, hu2]
      rw [e3]
      refine footAt_bind (footAt_captureUntil .condition SEMICOLON
        (fun v hv => by simp [HeaderPos.next, HeaderPos.captured, hv]) ts2) fun c r2 _ => ?_
      refine footAt_consume_bind _ _ _ _ (fun u hu => Or.inr (by rw [hu]; rfl))
        fun u3 ts3 hu3 => ?_
      have e4 : HeaderPos.condition.next u3 = .increment := by simp [HeaderPos.next, hu3]
      rw [e4]
      refine footAt_bind (footAt_captureUntil .increment CLOSE_PAREN
        (fun v hv => by simp [HeaderPos.next, HeaderPos.captured, hv]) ts3) fun c r3 _ => ?_
      refine footAt_consume_bind _ _ _ _ (fun u hu => Or.inr (by rw [hu]; rfl))
        fun u4 ts4 hu4 => ?_
      have e5 : HeaderPos.increment.next u4 = .outside := by simp [HeaderPos.next, hu4]
      rw [e5]
      exact footAt_bind (ihB ts4) fun x r _ => footAt_ok_self _ _ _
    · intro t rest ht
      rw [parseWhileStatement]
      simp only [advance, List.tail_cons]
      refine foot_cons t (by rw [ht]; rfl) (by rw [ht]; decide) ?_
      refine hcond _ rest _ fun c ts2 => ?_
      exact footAt_bind (ihB ts2) fun x r _ => footAt_ok_self _ _ _
    · intro ts
      cases ts with
      | nil => rw [parseStatement]; exact footAt_nil _ _ _ (fun _ _ e => by cases e)
      | cons t rest =>
        rw [parseStatement]
        split
        · exact foot_parseVariableDeclaration n t rest (Or.inl ‹_›)
        · exact foot_parseVariableDeclaration n t rest (Or.inr ‹_›)
        · exact foot_parseAssignmentStatement n t rest ‹_›
        · exact foot_parseCoutStatement n t rest ‹_›
        · exact ihI t rest ‹_›
        · exact ihFo t rest ‹_›
        · exact ihW t rest ‹_›
        · exact footAt_error _ _ _ _

theorem foot_parseStatement (n : Nat) (ts : List Token) :
    FootAt .outside .outside ts (parseStatement n ts) :=
  (parseStmt_foot_all n).2.2.2.2.2.2 ts

/-- The footprint of the top-level loop: when it returns, the tokens before the
end-of-file token it stopped at are consumed; when it reads the token vector out of
its bounds, all the tokens outside the segments of the for headers are of kinds with
a grammar production. -/
theorem parseLoop_foot : ∀ (n : Nat) (ts : List Token),
    (∀ program, parseLoop n ts = .ok program → ∃ a e rest, ts = a ++ e :: rest ∧
      e.type = END_OF_FILE ∧ headerPos .outside a = .outside ∧
      ∀ t ∈ outsideHeaders .outside a, isGrammarToken t.type = true) ∧
    (parseLoop n ts = .outOfBounds →
      ∀ t ∈ outsideHeaders .outside ts, isGrammarToken t.type = true) := by
  intro n
  induction n with
  | zero => intro ts; rw [parseLoop]; exact ⟨fun _ e => (nomatch e), fun e => (nomatch e)⟩
  | succ n ih =>
    intro ts
    cases ts with
    | nil =>
      rw [parseLoop]
      exact ⟨fun _ e => (nomatch e), fun _ => by simp [outsideHeaders]⟩
    | cons t rest =>
      rw [parseLoop]
      by_cases hc : t.type ≠ END_OF_FILE
      · rw [if_pos hc]
        have hS := foot_parseStatement n (t :: rest)
        cases hst : parseStatement n (t :: rest) with
        | ok sr =>
          obtain ⟨s, r⟩ := sr
          obtain ⟨a, hts, hpos, hgood⟩ := hS.1 s r hst
          simp only [Res.bind_ok]
          obtain ⟨ih1, ih2⟩ := ih r
          refine ⟨?_, ?_⟩
          · intro program hp
            obtain ⟨p, hp1, hp2⟩ := Res.bind_eq_ok hp
            obtain ⟨a2, e, rest2, hr, he, hpos2, hgood2⟩ := ih1 p hp1
            refine ⟨a ++ a2, e, rest2, by rw [hts, hr, List.append_assoc], he, ?_, ?_⟩
            · rw [headerPos_append, hpos, hpos2]
            · intro x hx
              rw [outsideHeaders_append, hpos] at hx
              rcases List.mem_append.1 hx with h | h
              · exact hgood x h
              · exact hgood2 x h
          · intro hp x hx
            have hr : parseLoop n r = .outOfBounds := by
              cases hl : parseLoop n r with
              | ok p => rw [hl] at hp; cases hp
              | error m => rw [hl] at hp; cases hp
              | outOfBounds => rfl
              | outOfFuel => rw [hl] at hp; cases hp
            rw [hts, outsideHeaders_append, hpos] at hx
            rcases List.mem_append.1 hx with h | h
            · exact hgood x h
            · exact ih2 hr x h
        | error m => exact ⟨fun _ e => (nomatch e), fun e => (nomatch e)⟩
        | outOfBounds => exact ⟨fun _ e => (nomatch e), fun _ => hS.2 hst⟩
        | outOfFuel => exact ⟨fun _ e => (nomatch e), fun e => (nomatch e)⟩
      · rw [if_neg hc]
        refine ⟨fun _ _ => ⟨[], t, rest, rfl, by simpa using hc, rfl, by simp [outsideHeaders]⟩,
          fun e => (nomatch e)⟩


theorem outsideHeaders_of_no_for (ts : List Token) (h : ∀ t ∈ ts, t.type ≠ KEYWORD_FOR) :
    outsideHeaders .outside ts = ts := by
  induction ts with
  | nil => rfl
  | cons t rest ih =>
    have ht : t.type ≠ KEYWORD_FOR := h t (by simp)
    rw [outsideHeaders]
    simp only [HeaderPos.captured, HeaderPos.next, if_neg ht, Bool.false_eq_true, if_false]
    rw [ih fun x hx => h x (List.mem_cons_of_mem _ hx)]

/-- The only end-of-file token of a token vector that ends with its only end-of-file
token is the last one. -/
theorem eof_split_unique (init a rest : List Token) (e z : Token)
    (hinit : ∀ t ∈ init, t.type ≠ END_OF_FILE) (he : e.type = END_OF_FILE)
    (h : a ++ e :: rest = init ++ [z]) : a = init ∧ rest = [] := by
  induction init generalizing a with
  | nil =>
    cases a with
    | nil => simp at h; exact ⟨rfl, h.2⟩
    | cons y ys =>
      simp only [List.cons_append, List.nil_append, List.cons.injEq] at h
      exact absurd h.2 (by simp)
  | cons x xs ih =>
    cases a with
    | nil =>
      simp only [List.nil_append, List.cons_append, List.cons.injEq] at h
      exact absurd (h.1 ▸ he) (hinit x (by simp))
    | cons y ys =>
      simp only [List.cons_append, List.cons.injEq] at h
      obtain ⟨h1, h2⟩ := ih ys (fun t ht => hinit t (List.mem_cons_of_mem _ ht)) h.2
      exact ⟨by rw [h.1, h1], h2⟩

/-- A successful parse of the tokens of a source text consumes all of them but the
end-of-file token. -/
theorem parse_ok_consumed (source : Str) (program : ProgramAST)
    (h : parse (lex source) = .ok program) :
    ∃ a e, lex source = a ++ [e] ∧ e.type = END_OF_FILE ∧ headerPos .outside a = .outside ∧
      ∀ t ∈ outsideHeaders .outside a, isGrammarToken t.type = true := by
  obtain ⟨a, e, rest, hts, he, hpos, hgood⟩ := (parseLoop_foot _ _).1 program h
  obtain ⟨init, hinit, hne⟩ := lex_shape source
  rw [hinit] at hts
  obtain ⟨h1, h2⟩ := eof_split_unique init a rest e eofToken hne he hts.symm
  exact ⟨a, e, by rw [hinit, hts, h2], he, hpos, hgood⟩

/-- A token of the source text that lies outside the segments of the for headers and
is of a kind without grammar production makes the parser raise a parse error. -/
theorem parse_error_of_outside (source : Str) (t : Token)
    (ht : t ∈ outsideHeaders .outside (lex source)) (hk : isGrammarToken t.type = false)
    (hne : t.type ≠ END_OF_FILE) : ∃ msg, parse (lex source) = .error msg := by
  cases h : parse (lex source) with
  | ok program =>
    obtain ⟨a, e, hts, he, hpos, hgood⟩ := parse_ok_consumed source program h
    rw [hts, outsideHeaders_append, hpos] at ht
    rcases List.mem_append.1 ht with h1 | h1
    · rw [hgood t h1] at hk; cases hk
    · simp only [outsideHeaders, HeaderPos.captured, Bool.false_eq_true, if_false,
        List.mem_singleton] at h1
      exact absurd (h1 ▸ he) hne
  | error msg => exact ⟨msg, rfl⟩
  | outOfBounds =>
    have := (parseLoop_foot _ _).2 h t ht
    rw [this] at hk; cases hk
  | outOfFuel => exact absurd h (parse_ne_outOfFuel _)

/-- C15: when the token stream of a source text holds no `for` keyword and holds a
`%` token or an `Unknown` token, the parser raises a parse error, and so does the
translation: no tree is built. -/
theorem parse_rejects_modulo_unknown (source : Str) (tokens : List Token)
    (hlex : tokenize source = some tokens)
    (hfor : ∀ t ∈ tokens, t.type ≠ KEYWORD_FOR)
    (hbad : ∃ t ∈ tokens, t.type = MODULO ∨ t.type = UNKNOWN) :
    ∃ msg, parse tokens = .error msg ∧ translate source = .error msg := by
  have htok : tokens = lex source := by
    have := tokenize_eq_some source
    rw [hlex] at this
    exact Option.some.inj this
  obtain ⟨t, ht, hk⟩ := hbad
  rw [← outsideHeaders_of_no_for tokens hfor, htok] at ht
  obtain ⟨msg, hmsg⟩ := parse_error_of_outside source t ht
    (by rcases hk with h | h <;> (rw [h]; rfl)) (by rcases hk with h | h <;> (rw [h]; decide))
  refine ⟨msg, htok ▸ hmsg, ?_⟩
  rw [translate, tokenize_eq_some]
  simp only [hmsg, Res.bind_error]

theorem parse_rejects_modulo_unknown_witness :
    ∃ msg, parse (lex "x = 7 % 2;".toList) = .error msg ∧
      translate "x = 7 % 2;".toList = .error msg :=
  parse_rejects_modulo_unknown "x = 7 % 2;".toList (lex "x = 7 % 2;".toList)
    (tokenize_eq_some _) (by decide) (by decide)

/-- C16 (counterexample): `++` is accepted in the first and in the second segment
of a for header as well; `for (i++; i++ < 3; i++) { }` is parsed. -/
theorem plus_plus_accepted_in_init :
    parse (lex "for (i++; i++ < 3; i++) \x7b \x7d".toList) =
      .ok [.forStatement "i ++ ".toList "i ++ < 3 ".toList "i ++ ".toList []] := by
  rfl

/-- C16 (amended): when a `++` token of a source text lies outside the three segments
of the for headers, the parser raises a parse error, and so does the translation.
The headers are those met by a scan from the left: the segments follow the token
after a `for` keyword and end at the first `;`, the second `;` and the next `)`. -/
theorem parse_rejects_plus_plus (source : Str) (tokens : List Token)
    (hlex : tokenize source = some tokens)
    (hpp : ∃ t ∈ outsideHeaders .outside tokens, t.type = PLUS_PLUS) :
    ∃ msg, parse tokens = .error msg ∧ translate source = .error msg := by
  have htok : tokens = lex source := by
    have := tokenize_eq_some source
    rw [hlex] at this
    exact Option.some.inj this
  obtain ⟨t, ht, hk⟩ := hpp
  rw [htok] at ht
  obtain ⟨msg, hmsg⟩ := parse_error_of_outside source t ht (by rw [hk]; rfl) (by rw [hk]; decide)
  refine ⟨msg, htok ▸ hmsg, ?_⟩
  rw [translate, tokenize_eq_some]
  simp only [hmsg, Res.bind_error]

theorem parse_rejects_plus_plus_witness :
    ∃ msg, parse (lex "for (i = 0; i < 3; i++) \x7b i++; \x7d".toList) = .error msg ∧
      translate "for (i = 0; i < 3; i++) \x7b i++; \x7d".toList = .error msg :=
  parse_rejects_plus_plus "for (i = 0; i < 3; i++) \x7b i++; \x7d".toList
    (lex "for (i = 0; i < 3; i++) \x7b i++; \x7d".toList) (tokenize_eq_some _) (by decide)

/-! ## The parser does not look beyond the next token -/

theorem reframed_cases {κ ts ts' : List Token} (h : Reframed κ ts ts') :
    (∃ z, z.type = END_OF_FILE ∧ ts = [z] ∧ ts' = κ) ∨
      ∃ t r r', ts = t :: r ∧ ts' = t :: r' ∧ Reframed κ r r' := by
  obtain ⟨a, z, hz, rfl, rfl⟩ := h
  cases a with
  | nil => exact Or.inl ⟨z, hz, rfl, rfl⟩
  | cons t a => exact Or.inr ⟨t, a ++ [z], a ++ κ, rfl, rfl, a, z, hz, rfl, rfl⟩

theorem reframed_cons {κ r r' : List Token} (t : Token) (h : Reframed κ r r') :
    Reframed κ (t :: r) (t :: r') := by
  obtain ⟨a, z, hz, rfl, rfl⟩ := h
  exact ⟨t :: a, z, hz, rfl, rfl⟩

theorem reframed_base (κ : List Token) (z : Token) (hz : z.type = END_OF_FILE) :
    Reframed κ [z] κ := ⟨[], z, hz, rfl, rfl⟩

theorem framed_ok {β : Type} {κ ts ts' : List Token} (x : β) (h : Reframed κ ts ts') :
    Framed κ (.ok (x, ts)) (.ok (x, ts')) := by
  intro y r e
  cases e
  exact ⟨ts', rfl, h⟩

theorem framed_of_ne_ok {β : Type} {κ : List Token} {res res' : Res (β × List Token)}
    (h : ∀ a, res ≠ .ok a) : Framed κ res res' :=
  fun x r e => absurd e (h (x, r))

theorem framed_bind {β γ : Type} {κ : List Token} {m m' : Res (β × List Token)}
    {f : β × List Token → Res (γ × List Token)} (hm : Framed κ m m')
    (hf : ∀ x r r', Reframed κ r r' → Framed κ (f (x, r)) (f (x, r'))) :
    Framed κ (m.bind f) (m'.bind f) := by
  intro y r2 e
  obtain ⟨a, ha, hfa⟩ := Res.bind_eq_ok e
  obtain ⟨x, r⟩ := a
  obtain ⟨r', hm', hr⟩ := hm x r ha
  obtain ⟨r2', h2, hr2⟩ := hf x r r' hr y r2 hfa
  exact ⟨r2', by rw [hm', Res.bind_ok, h2], hr2⟩

theorem framed_consume_bind {β : Type} {κ ts ts' : List Token} (k : TokenType) (msg : Str)
    (f : List Token → Res (β × List Token)) (hk : k ≠ END_OF_FILE) (h : Reframed κ ts ts')
    (hf : ∀ r r', Reframed κ r r' → Framed κ (f r) (f r')) :
    Framed κ ((consume k msg ts).bind f) ((consume k msg ts').bind f) := by
  rcases (reframed_cases h) with ⟨z, hz, rfl, rfl⟩ | ⟨t, r, r', rfl, rfl, hr⟩
  · rw [consume, if_neg (by rw [hz]; exact Ne.symm hk)]
    exact framed_of_ne_ok (fun _ e => by cases e)
  · rw [consume, consume]
    by_cases hc : t.type = k
    · simp only [if_pos hc, advance, List.tail_cons, Res.bind_ok]
      exact hf r r' hr
    · simp only [if_neg hc]
      exact framed_of_ne_ok (fun _ e => by cases e)

theorem framed_parseAtom {κ ts ts' : List Token} (h : Reframed κ ts ts') :
    Framed κ (parseAtom ts) (parseAtom ts') := by
  rcases (reframed_cases h) with ⟨z, hz, rfl, rfl⟩ | ⟨t, r, r', rfl, rfl, hr⟩
  · rw [parseAtom, if_neg (by rw [hz]; decide), if_neg (by rw [hz]; decide),
      if_neg (by rw [hz]; decide)]
    exact framed_of_ne_ok (fun _ e => by cases e)
  · rw [parseAtom, parseAtom]
    simp only [advance, List.tail_cons]
    split_ifs
    · exact framed_ok _ hr
    · exact framed_ok _ hr
    · exact framed_ok _ hr
    · exact framed_of_ne_ok (fun _ e => by cases e)

theorem isOperatorToken_false {k : TokenType} (h : isOperatorToken k = false) :
    ¬ (k = MULTIPLY ∨ k = DIVIDE) ∧ ¬ (k = PLUS ∨ k = MINUS) ∧ ¬ (isComparisonOp k = true) := by
  simp only [isOperatorToken, Bool.or_eq_false_iff, decide_eq_false_iff_not] at h
  obtain ⟨⟨⟨⟨h1, h2⟩, h3⟩, h4⟩, h5⟩ := h
  refine ⟨?_, ?_, by simp [h5]⟩
  · rintro (e | e) <;> contradiction
  · rintro (e | e) <;> contradiction

/-- The expression parser returns the same tree when the end-of-file token that ends
the token vector is replaced by tokens that start with no binary operator. -/
theorem parseExpr_frame_all (k : Token) (κ : List Token)
    (hk : isOperatorToken k.type = false) (n : Nat) :
    (∀ ts ts', Reframed (k :: κ) ts ts' →
      Framed (k :: κ) (parseFactor n ts) (parseFactor n ts')) ∧
    (∀ left ts ts', Reframed (k :: κ) ts ts' →
      Framed (k :: κ) (parseTermLoop n left ts) (parseTermLoop n left ts')) ∧
    (∀ ts ts', Reframed (k :: κ) ts ts' →
      Framed (k :: κ) (parseTerm n ts) (parseTerm n ts')) ∧
    (∀ left ts ts', Reframed (k :: κ) ts ts' →
      Framed (k :: κ) (parseExpressionLoop n left ts) (parseExpressionLoop n left ts')) ∧
    (∀ ts ts', Reframed (k :: κ) ts ts' →
      Framed (k :: κ) (parseExpression n ts) (parseExpression n ts')) ∧
    (∀ left ts ts', Reframed (k :: κ) ts ts' →
      Framed (k :: κ) (parseComparisonLoop n left ts) (parseComparisonLoop n left ts')) ∧
    (∀ ts ts', Reframed (k :: κ) ts ts' →
      Framed (k :: κ) (parseComparison n ts) (parseComparison n ts')) := by
  obtain ⟨hk1, hk2, hk3⟩ := isOperatorToken_false hk
  induction n with
  | zero =>
    refine ⟨?_, ?_, ?_, ?_, ?_, ?_, ?_⟩
    · intro ts ts' _; rw [parseFactor]; exact framed_of_ne_ok (fun _ e => by cases e)
    · intro left ts ts' _; rw [parseTermLoop]; exact framed_of_ne_ok (fun _ e => by cases e)
    · intro ts ts' _; rw [parseTerm]; exact framed_of_ne_ok (fun _ e => by cases e)
    · intro left ts ts' _; rw [parseExpressionLoop]
      exact framed_of_ne_ok (fun _ e => by cases e)
    · intro ts ts' _; rw [parseExpression]; exact framed_of_ne_ok (fun _ e => by cases e)
    · intro left ts ts' _; rw [parseComparisonLoop]
      exact framed_of_ne_ok (fun _ e => by cases e)
    · intro ts ts' _; rw [parseComparison]; exact framed_of_ne_ok (fun _ e => by cases e)
  | succ n ih =>
    obtain ⟨ihF, ihTL, ihT, ihEL, ihE, ihCL, ihC⟩ := ih
    refine ⟨?_, ?_, ?_, ?_, ?_, ?_, ?_⟩
    · intro ts ts' h
      rcases (reframed_cases h) with ⟨z, hz, rfl, rfl⟩ | ⟨t, r, r', rfl, rfl, hr⟩
      · rw [parseFactor, if_neg (by rw [hz]; decide)]
        exact fun x r e => ((framed_parseAtom (reframed_base (k :: κ) z hz)) x r e).elim
          fun r' hr' => absurd e (by
            rw [parseAtom, if_neg (by rw [hz]; decide), if_neg (by rw [hz]; decide),
              if_neg (by rw [hz]; decide)]
            intro e2; cases e2)
      · rw [parseFactor, parseFactor]
        by_cases hc : t.type = OPEN_PAREN
        · simp only [if_pos hc, advance, List.tail_cons]
          refine framed_bind (ihC _ _ hr) fun x r1 r1' h1 => ?_
          exact framed_consume_bind _ _ _ (by decide) h1 fun r2 r2' h2 => framed_ok _ h2
        · simp only [if_neg hc]
          exact framed_parseAtom (reframed_cons t hr)
    · intro left ts ts' h
      rcases (reframed_cases h) with ⟨z, hz, rfl, rfl⟩ | ⟨t, r, r', rfl, rfl, hr⟩
      · rw [parseTermLoop, parseTermLoop, if_neg (by rw [hz]; decide), if_neg hk1]
        exact framed_ok _ h
      · rw [parseTermLoop, parseTermLoop]
        by_cases hc : t.type = MULTIPLY ∨ t.type = DIVIDE
        · simp only [if_pos hc, advance, List.tail_cons]
          exact framed_bind (ihF _ _ hr) fun x r1 r1' h1 => ihTL _ _ _ h1
        · simp only [if_neg hc]
          exact framed_ok _ h
    · intro ts ts' h
      rw [parseTerm, parseTerm]
      exact framed_bind (ihF _ _ h) fun x r1 r1' h1 => ihTL _ _ _ h1
    · intro left ts ts' h
      rcases (reframed_cases h) with ⟨z, hz, rfl, rfl⟩ | ⟨t, r, r', rfl, rfl, hr⟩
      · rw [parseExpressionLoop, parseExpressionLoop, if_neg (by rw [hz]; decide), if_neg hk2]
        exact framed_ok _ h
      · rw [parseExpressionLoop, parseExpressionLoop]
        by_cases hc : t.type = PLUS ∨ t.type = MINUS
        · simp only [if_pos hc, advance, List.tail_cons]
          exact framed_bind (ihT _ _ hr) fun x r1 r1' h1 => ihEL _ _ _ h1
        · simp only [if_neg hc]
          exact framed_ok _ h
    · intro ts ts' h
      rw [parseExpression, parseExpression]
      exact framed_bind (ihT _ _ h) fun x r1 r1' h1 => ihEL _ _ _ h1
    · intro left ts ts' h
      rcases (reframed_cases h) with ⟨z, hz, rfl, rfl⟩ | ⟨t, r, r', rfl, rfl, hr⟩
      · rw [parseComparisonLoop, parseComparisonLoop, if_neg (by rw [hz]; decide), if_neg hk3]
        exact framed_ok _ h
      · rw [parseComparisonLoop, parseComparisonLoop]
        by_cases hc : isComparisonOp t.type = true
        · simp only [if_pos hc, advance, List.tail_cons]
          exact framed_bind (ihE _ _ hr) fun x r1 r1' h1 => ihCL _ _ _ h1
        · simp only [if_neg hc]
          exact framed_ok _ h
    · intro ts ts' h
      rw [parseComparison, parseComparison]
      exact framed_bind (ihE _ _ h) fun x r1 r1' h1 => ihCL _ _ _ h1

/-! ## The items of a cout statement -/

theorem parseExpression_fuel (n m : Nat) (ts : List Token) (r : ExprAST × List Token)
    (h : parseExpression n ts = .ok r) (hm : 8 * ts.length + 3 ≤ m) :
    parseExpression m ts = .ok r := by
  have h1 : parseExpression (max n m) ts = parseExpression n ts :=
    fuel_mono_of_step (fun i => parseExpression i ts) (fun i => parseExpression_mono i ts)
      (le_max_left n m) (by show parseExpression n ts ≠ _; rw [h]; intro e; cases e)
  have h2 : parseExpression (max n m) ts = parseExpression m ts :=
    fuel_mono_of_step (fun i => parseExpression i ts) (fun i => parseExpression_mono i ts)
      (le_max_right n m) (parseExpression_ne_outOfFuel m ts hm)
  rw [← h2, h1, h]

theorem reframed_of_base {κ r' : List Token} {z : Token} (h : Reframed κ [z] r') : r' = κ := by
  obtain ⟨a, z', _, h1, h2⟩ := h
  cases a with
  | nil => exact h2
  | cons t a =>
    simp only [List.cons_append, List.cons.injEq] at h1
    exact absurd h1.2 (by simp)

/-- An expression parsed before end-of-file is parsed the same way before a token
that is no binary operator. -/
theorem parseExpression_frame (n : Nat) (ts : List Token) (e : ExprAST) (k : Token)
    (κ : List Token) (hk : isOperatorToken k.type = false)
    (h : parseExpression n (ts ++ [eofToken]) = .ok (e, [eofToken])) :
    parseExpression n (ts ++ k :: κ) = .ok (e, k :: κ) := by
  obtain ⟨r', h1, h2⟩ := (parseExpr_frame_all k κ hk n).2.2.2.2.1 _ _
    ⟨ts, eofToken, rfl, rfl, rfl⟩ e _ h
  rw [h1, reframed_of_base h2]

theorem parseFactor_head (n : Nat) (ts : List Token) (r : ExprAST × List Token)
    (h : parseFactor n ts = .ok r) :
    ∃ t rest, ts = t :: rest ∧ (t.type = OPEN_PAREN ∨ isAtomType t.type = true) := by
  cases n with
  | zero => rw [parseFactor] at h; cases h
  | succ n =>
    cases ts with
    | nil => rw [parseFactor] at h; cases h
    | cons t rest =>
      refine ⟨t, rest, rfl, ?_⟩
      rw [parseFactor] at h
      by_cases hc : t.type = OPEN_PAREN
      · exact Or.inl hc
      · rw [if_neg hc, parseAtom] at h
        right
        simp only [isAtomType, Bool.or_eq_true, decide_eq_true_eq]
        split_ifs at h with h1 h2 h3
        · exact Or.inl (Or.inl h1)
        · exact Or.inl (Or.inr h2)
        · exact Or.inr h3

theorem parseExpression_head (n : Nat) (ts : List Token) (r : ExprAST × List Token)
    (h : parseExpression n ts = .ok r) :
    ∃ t rest, ts = t :: rest ∧ (t.type = OPEN_PAREN ∨ isAtomType t.type = true) := by
  cases n with
  | zero => rw [parseExpression] at h; cases h
  | succ n =>
    rw [parseExpression] at h
    obtain ⟨a, ha, _⟩ := Res.bind_eq_ok h
    cases n with
    | zero => rw [parseTerm] at ha; cases ha
    | succ n =>
      rw [parseTerm] at ha
      obtain ⟨b, hb, _⟩ := Res.bind_eq_ok ha
      exact parseFactor_head n ts b hb

theorem coutItemsTokens_cons (i : CoutItem) (items : List CoutItem) :
    coutItemsTokens (i :: items) =
      ⟨STREAM_OPERATOR, "<<".toList⟩ :: (i.tokens ++ coutItemsTokens items) := by
  simp [coutItemsTokens]

/-- The loop of `parseCoutStatement` on a sequence of items, before a token that is
neither `<<` nor a binary operator: the parts are the trees of the expression items
and the flag tells whether an `endl` item was met. -/
theorem parseCoutLoop_items (k : Token) (κ : List Token)
    (hk : isOperatorToken k.type = false) (hs : k.type ≠ STREAM_OPERATOR) :
    ∀ (items : List CoutItem), (∀ i ∈ items, i.valid) →
    ∀ n, 8 * (coutItemsTokens items ++ k :: κ).length + 1 ≤ n →
      parseCoutLoop n (coutItemsTokens items ++ k :: κ) =
        .ok ((coutParts items, items.any CoutItem.isEndl), k :: κ) := by
  intro items
  induction items with
  | nil =>
    intro _ n hn
    cases n with
    | zero => omega
    | succ n =>
      simp only [coutItemsTokens, List.flatMap_nil, List.nil_append]
      rw [parseCoutLoop, if_neg hs]
      rfl
  | cons i items ih =>
    intro hvalid n hn
    have ih' := ih (fun j hj => hvalid j (List.mem_cons_of_mem _ hj))
    rw [coutItemsTokens_cons] at hn ⊢
    simp only [List.cons_append, List.append_assoc, List.length_cons, List.length_append]
      at hn ⊢
    cases n with
    | zero => omega
    | succ n =>
      rw [parseCoutLoop, if_pos rfl]
      cases i with
      | endl =>
        simp only [CoutItem.tokens, List.cons_append, List.nil_append, advance, List.tail_cons,
          List.length_cons, List.length_nil] at hn ⊢
        rw [if_pos trivial, ih' n (by simp only [List.length_append, List.length_cons]; omega)]
        rfl
      | expr ts e =>
        obtain ⟨m, hm⟩ := hvalid (.expr ts e) (by simp)
        obtain ⟨t, rest, hts, hty⟩ := parseExpression_head m _ _ hm
        simp only [CoutItem.tokens] at hn ⊢
        -- the token the expression is followed by
        have hnext : ∃ k' κ', coutItemsTokens items ++ k :: κ = k' :: κ' ∧
            isOperatorToken k'.type = false := by
          cases items with
          | nil => exact ⟨k, κ, rfl, hk⟩
          | cons j items' =>
            rw [coutItemsTokens_cons]
            exact ⟨_, _, rfl, rfl⟩
        obtain ⟨k', κ', hκ, hk'⟩ := hnext
        have hfr := parseExpression_frame m ts e k' κ' hk' hm
        rw [← hκ] at hfr
        have hE := parseExpression_fuel m n _ _ hfr
          (by simp only [List.length_append, List.length_cons]; omega)
        cases ts with
        | nil =>
          simp only [List.nil_append, List.cons.injEq] at hts
          rw [← hts.1] at hty
          exact absurd hty (by decide)
        | cons t0 ts0 =>
          simp only [List.cons_append, List.cons.injEq] at hts
          rw [← hts.1] at hty
          have hne : t0.type ≠ KEYWORD_ENDL := by
            rcases hty with h | h
            · rw [h]; decide
            · intro e0
              rw [e0] at h
              exact absurd h (by decide)
          simp only [List.cons_append, advance, List.tail_cons]
          rw [if_neg hne]
          simp only [List.cons_append] at hE
          rw [hE]
          simp only [Res.bind_ok]
          rw [ih' n (by
            simp only [List.length_append, List.length_cons] at hn ⊢; omega)]
          rfl


/-- The loop of `coutToPy` joins the texts of the parts with `", "`. -/
theorem coutPartsToPy_eq_intercalate (parts : List ExprAST) :
    coutPartsToPy parts = ", ".toList.intercalate (parts.map ExprAST.toPython) := by
  induction parts with
  | nil => rfl
  | cons e rest ih =>
    cases rest with
    | nil => simp [coutPartsToPy, List.intercalate]
    | cons e1 rest1 =>
      rw [coutPartsToPy, ih]
      simp [List.intercalate, List.intersperse]

/-- The tree of a source text made of one cout statement. -/
theorem parse_coutTokens (items : List CoutItem) (hvalid : ∀ i ∈ items, i.valid) :
    parse (coutTokens items) = .ok [.cout (coutParts items) (items.any CoutItem.isEndl)] := by
  have hloop := parseCoutLoop_items ⟨SEMICOLON, ";".toList⟩ [eofToken] rfl (by decide) items
    hvalid
  obtain ⟨n, hn, hle⟩ : ∃ n, parseFuel (coutTokens items) = n + 1 + 1 ∧
      8 * (coutItemsTokens items ++ [⟨SEMICOLON, ";".toList⟩, eofToken]).length + 1 ≤ n := by
    refine ⟨8 * (coutTokens items).length + 14, rfl, ?_⟩
    simp only [coutTokens, List.length_cons, List.length_append, List.length_nil]
    omega
  rw [parse, hn, coutTokens, parseLoop, if_pos (by decide), parseStatement]
  simp only [parseCoutStatement, advance, List.tail_cons, hloop n hle, Res.bind_ok]
  simp only [consume, if_true, advance, List.tail_cons, Res.bind_ok, eofToken, parseLoop]
  rfl

/-- C12: a cout statement is given as a sequence of items after `<<`, each `endl` or
an expression. Its tree holds the trees of the expression items as parts, and the
flag tells whether an `endl` item occurs. Whatever the flag, the text emitted for the
node is `print(`, the texts of the parts joined by `, `, and `)`; it is `print()`
without parts. So two sequences with the same expression items, such as a sequence
and the one with all but one `endl` removed, are translated to the same text. -/
theorem cout_endl_idempotent (items items' : List CoutItem)
    (hvalid : ∀ i ∈ items, i.valid) (hvalid' : ∀ i ∈ items', i.valid)
    (hparts : coutParts items' = coutParts items) :
    parse (coutTokens items) = .ok [.cout (coutParts items) (items.any CoutItem.isEndl)] ∧
      (∀ hasEndl, generate [.cout (coutParts items) hasEndl] =
        "print(".toList ++ ", ".toList.intercalate ((coutParts items).map ExprAST.toPython) ++
          ")\n".toList) ∧
      (∀ hasEndl, generate [.cout [] hasEndl] = "print()\n".toList) ∧
      ((parse (coutTokens items')).bind fun program => .ok (generate program)) =
        (parse (coutTokens items)).bind fun program => .ok (generate program) := by
  have hgen : ∀ (parts : List ExprAST) (b : Bool), generate [.cout parts b] =
      "print(".toList ++ ", ".toList.intercalate (parts.map ExprAST.toPython) ++
        ")\n".toList := by
    intro parts b
    simp only [generate, bodyToPy, toPython, coutToPy, coutPartsToPy_eq_intercalate, indent,
      List.replicate_zero, List.nil_append, List.append_nil, List.append_assoc]
    rfl
  refine ⟨parse_coutTokens items hvalid, hgen _, fun b => hgen [] b, ?_⟩
  rw [parse_coutTokens items hvalid, parse_coutTokens items' hvalid', Res.bind_ok, Res.bind_ok,
    hgen, hgen, hparts]

theorem cout_endl_idempotent_witness :
    ((parse (coutTokens [.expr [⟨IDENTIFIER, "a".toList⟩] (.variable "a".toList), .endl])).bind
        fun program => .ok (generate program)) =
      (parse (coutTokens [.endl, .expr [⟨IDENTIFIER, "a".toList⟩] (.variable "a".toList),
        .endl, .endl])).bind fun program => .ok (generate program) :=
  (cout_endl_idempotent
    [.endl, .expr [⟨IDENTIFIER, "a".toList⟩] (.variable "a".toList), .endl, .endl]
    [.expr [⟨IDENTIFIER, "a".toList⟩] (.variable "a".toList), .endl]
    (by
      intro i hi
      simp only [List.mem_cons, List.mem_singleton, List.not_mem_nil, or_false] at hi
      rcases hi with h | h | h | h <;> subst h
      · trivial
      · exact ⟨3, rfl⟩
      · trivial
      · trivial)
    (by
      intro i hi
      simp only [List.mem_cons, List.mem_singleton, List.not_mem_nil, or_false] at hi
      rcases hi with h | h <;> subst h
      · exact ⟨3, rfl⟩
      · trivial)
    rfl).2.2.2

/-! ## Complete statements followed by further tokens -/

theorem Res.bind_ne_ok {α β : Type} {r : Res α} {f : α → Res β} (h : ∀ a, r ≠ .ok a) :
    ∀ b, r.bind f ≠ .ok b := by
  intro b e
  obtain ⟨a, ha, _⟩ := Res.bind_eq_ok e
  exact h a ha

theorem consume_eof_ne_ok (type : TokenType) (message : Str) (z : Token)
    (hz : z.type = END_OF_FILE) (ht : type ≠ END_OF_FILE) :
    ∀ a, consume type message [z] ≠ .ok a := by
  intro a e
  rw [consume, if_neg (by rw [hz]; exact Ne.symm ht)] at e
  cases e

theorem consume_nil_ne_ok (type : TokenType) (message : Str) :
    ∀ a, consume type message [] ≠ .ok a := fun _ e => by cases e

theorem parseExpression_eof_ne_ok (n : Nat) (z : Token) (hz : z.type = END_OF_FILE) :
    ∀ a, parseExpression n [z] ≠ .ok a := by
  intro a e
  obtain ⟨t, rest, hts, hty⟩ := parseExpression_head n _ a e
  simp only [List.cons.injEq] at hts
  rw [← hts.1, hz] at hty
  exact absurd hty (by decide)

theorem framed_parseExpression {k : Token} {κ ts ts' : List Token}
    (hk : isOperatorToken k.type = false) (n : Nat) (h : Reframed (k :: κ) ts ts') :
    Framed (k :: κ) (parseExpression n ts) (parseExpression n ts') :=
  (parseExpr_frame_all k κ hk n).2.2.2.2.1 ts ts' h

theorem framed_parseComparison {k : Token} {κ ts ts' : List Token}
    (hk : isOperatorToken k.type = false) (n : Nat) (h : Reframed (k :: κ) ts ts') :
    Framed (k :: κ) (parseComparison n ts) (parseComparison n ts') :=
  (parseExpr_frame_all k κ hk n).2.2.2.2.2.2 ts ts' h

theorem framed_parseVariableDeclaration {k : Token} {κ ts ts' : List Token}
    (hk : isOperatorToken k.type = false) (n : Nat) (h : Reframed (k :: κ) ts ts') :
    Framed (k :: κ) (parseVariableDeclaration n ts) (parseVariableDeclaration n ts') := by
  rcases (reframed_cases h) with ⟨z, hz, rfl, rfl⟩ | ⟨t, r, r', rfl, rfl, hr⟩
  · exact framed_of_ne_ok (fun _ e => by cases e)
  · rcases (reframed_cases hr) with ⟨z, hz, rfl, rfl⟩ | ⟨i, r1, r1', rfl, rfl, hr1⟩
    · simp only [parseVariableDeclaration, advance, List.tail_cons]
      exact framed_of_ne_ok (Res.bind_ne_ok (consume_eof_ne_ok _ _ z hz (by decide)))
    · simp only [parseVariableDeclaration, advance, List.tail_cons]
      refine framed_consume_bind _ _ _ (by decide) (reframed_cons i hr1) fun ts1 ts1' h1 => ?_
      rcases (reframed_cases h1) with ⟨z, hz, rfl, rfl⟩ | ⟨e, r2, r2', rfl, rfl, hr2⟩
      · simp only [if_neg (show ¬ z.type = EQUALS by rw [hz]; decide)]
        exact framed_of_ne_ok (Res.bind_ne_ok (consume_eof_ne_ok _ _ z hz (by decide)))
      · by_cases hc : e.type = EQUALS
        · simp only [if_pos hc]
          refine framed_bind (framed_parseExpression hk n hr2) fun x r3 r3' h3 => ?_
          exact framed_consume_bind _ _ _ (by decide) h3 fun r4 r4' h4 => framed_ok _ h4
        · simp only [if_neg hc]
          exact framed_consume_bind _ _ _ (by decide) h1 fun r4 r4' h4 => framed_ok _ h4

theorem framed_parseAssignmentStatement {k : Token} {κ ts ts' : List Token}
    (hk : isOperatorToken k.type = false) (n : Nat) (h : Reframed (k :: κ) ts ts') :
    Framed (k :: κ) (parseAssignmentStatement n ts) (parseAssignmentStatement n ts') := by
  rcases (reframed_cases h) with ⟨z, hz, rfl, rfl⟩ | ⟨t, r, r', rfl, rfl, hr⟩
  · simp only [parseAssignmentStatement, advance, List.tail_cons]
    exact framed_of_ne_ok (Res.bind_ne_ok (consume_nil_ne_ok _ _))
  · simp only [parseAssignmentStatement, advance, List.tail_cons]
    refine framed_consume_bind _ _ _ (by decide) hr fun ts1 ts1' h1 => ?_
    refine framed_bind (framed_parseExpression hk n h1) fun x r3 r3' h3 => ?_
    exact framed_consume_bind _ _ _ (by decide) h3 fun r4 r4' h4 => framed_ok _ h4

theorem framed_parseCoutLoop {k : Token} {κ : List Token}
    (hk : isOperatorToken k.type = false) (hs : k.type ≠ STREAM_OPERATOR) :
    ∀ (n : Nat) (ts ts' : List Token), Reframed (k :: κ) ts ts' →
      Framed (k :: κ) (parseCoutLoop n ts) (parseCoutLoop n ts') := by
  intro n
  induction n with
  | zero =>
    intro ts ts' _
    rw [parseCoutLoop]
    exact framed_of_ne_ok (fun _ e => by cases e)
  | succ n ih =>
    intro ts ts' h
    rcases (reframed_cases h) with ⟨z, hz, rfl, rfl⟩ | ⟨t, r, r', rfl, rfl, hr⟩
    · rw [parseCoutLoop, parseCoutLoop, if_neg (by rw [hz]; decide),
        if_neg hs]
      exact framed_ok _ h
    · rw [parseCoutLoop, parseCoutLoop]
      by_cases hc : t.type = STREAM_OPERATOR
      · simp only [if_pos hc, advance, List.tail_cons]
        rcases (reframed_cases hr) with ⟨z, hz, rfl, rfl⟩ | ⟨e, r1, r1', rfl, rfl, hr1⟩
        · simp only [if_neg (show ¬ z.type = KEYWORD_ENDL by rw [hz]; decide)]
          exact framed_of_ne_ok (Res.bind_ne_ok (parseExpression_eof_ne_ok n z hz))
        · by_cases he : e.type = KEYWORD_ENDL
          · simp only [if_pos he]
            exact framed_bind (ih _ _ hr1) fun x r2 r2' h2 => framed_ok _ h2
          · simp only [if_neg he]
            refine framed_bind (framed_parseExpression hk n hr) fun x r2 r2' h2 => ?_
            exact framed_bind (ih _ _ h2) fun y r3 r3' h3 => framed_ok _ h3
      · simp only [if_neg hc]
        exact framed_ok _ h

theorem framed_parseCoutStatement {k : Token} {κ ts ts' : List Token}
    (hk : isOperatorToken k.type = false) (hs : k.type ≠ STREAM_OPERATOR) (n : Nat)
    (h : Reframed (k :: κ) ts ts') :
    Framed (k :: κ) (parseCoutStatement n ts) (parseCoutStatement n ts') := by
  rcases (reframed_cases h) with ⟨z, hz, rfl, rfl⟩ | ⟨t, r, r', rfl, rfl, hr⟩
  · simp only [parseCoutStatement, advance, List.tail_cons]
    refine framed_of_ne_ok (Res.bind_ne_ok ?_)
    intro a e
    cases n <;> (rw [parseCoutLoop] at e; cases e)
  · simp only [parseCoutStatement, advance, List.tail_cons]
    refine framed_bind (framed_parseCoutLoop hk hs n _ _ hr) fun x r3 r3' h3 => ?_
    exact framed_consume_bind _ _ _ (by decide) h3 fun r4 r4' h4 => framed_ok _ h4

theorem framed_captureUntil {κ : List Token} (stop : TokenType) (hstop : stop ≠ END_OF_FILE) :
    ∀ (ts ts' : List Token), Reframed κ ts ts' →
      Framed κ (captureUntil stop ts) (captureUntil stop ts') := by
  intro ts
  induction ts with
  | nil =>
    intro ts' h
    obtain ⟨a, z, _, h1, _⟩ := h
    exact absurd h1 (by simp)
  | cons t rest ih =>
    intro ts' h
    rcases (reframed_cases h) with ⟨z, hz, e1, rfl⟩ | ⟨t0, r, r', e1, rfl, hr⟩
    · simp only [List.cons.injEq] at e1
      obtain ⟨rfl, rfl⟩ := e1
      rw [CppToPython.captureUntil, if_pos (by rw [hz]; exact Ne.symm hstop)]
      exact framed_of_ne_ok (Res.bind_ne_ok (fun _ e => by cases e))
    · simp only [List.cons.injEq] at e1
      obtain ⟨rfl, rfl⟩ := e1
      rw [CppToPython.captureUntil, CppToPython.captureUntil]
      by_cases hc : t.type ≠ stop
      · simp only [if_pos hc]
        exact framed_bind (ih _ hr) fun x r2 r2' h2 => framed_ok _ h2
      · simp only [if_neg hc]
        exact framed_ok _ (reframed_cons t hr)


theorem parseBlock_eof_ne_ok (n : Nat) (z : Token) (hz : z.type = END_OF_FILE) :
    ∀ a, parseBlock n [z] ≠ .ok a := by
  intro a e
  cases n with
  | zero => rw [parseBlock] at e; cases e
  | succ n =>
    rw [parseBlock] at e
    exact Res.bind_ne_ok (consume_eof_ne_ok _ _ z hz (by decide)) a e

/-- The statement parser returns the same tree when the end-of-file token that ends
the token vector is replaced by tokens that start with no binary operator, `<<` or
`else`. The loop of `parseBlock` stops at the end-of-file token; the property holds
for it when it stops elsewhere. -/
theorem parseStmt_frame_all (k : Token) (κ : List Token)
    (hk : isOperatorToken k.type = false) (hs : k.type ≠ STREAM_OPERATOR)
    (he : k.type ≠ KEYWORD_ELSE) (n : Nat) :
    (∀ ts ts', Reframed (k :: κ) ts ts' → ∀ x r, parseBlockLoop n ts = .ok (x, r) →
      (∀ z, r = [z] → z.type ≠ END_OF_FILE) →
      ∃ r', parseBlockLoop n ts' = .ok (x, r') ∧ Reframed (k :: κ) r r') ∧
    (∀ ts ts', Reframed (k :: κ) ts ts' →
      Framed (k :: κ) (parseBlock n ts) (parseBlock n ts')) ∧
    (∀ ts ts', Reframed (k :: κ) ts ts' →
      Framed (k :: κ) (parseElseLoop n ts) (parseElseLoop n ts')) ∧
    (∀ ts ts', Reframed (k :: κ) ts ts' →
      Framed (k :: κ) (parseIfStatement n ts) (parseIfStatement n ts')) ∧
    (∀ ts ts', Reframed (k :: κ) ts ts' →
      Framed (k :: κ) (parseForStatement n ts) (parseForStatement n ts')) ∧
    (∀ ts ts', Reframed (k :: κ) ts ts' →
      Framed (k :: κ) (parseWhileStatement n ts) (parseWhileStatement n ts')) ∧
    (∀ ts ts', Reframed (k :: κ) ts ts' →
      Framed (k :: κ) (parseStatement n ts) (parseStatement n ts')) := by
  induction n with
  | zero =>
    refine ⟨?_, ?_, ?_, ?_, ?_, ?_, ?_⟩
    · intro ts ts' _ x r e; rw [parseBlockLoop] at e; cases e
    · intro ts ts' _; rw [parseBlock]; exact framed_of_ne_ok (fun _ e => by cases e)
    · intro ts ts' _; rw [parseElseLoop]; exact framed_of_ne_ok (fun _ e => by cases e)
    · intro ts ts' _; rw [parseIfStatement]; exact framed_of_ne_ok (fun _ e => by cases e)
    · intro ts ts' _; rw [parseForStatement]; exact framed_of_ne_ok (fun _ e => by cases e)
    · intro ts ts' _; rw [parseWhileStatement]; exact framed_of_ne_ok (fun _ e => by cases e)
    · intro ts ts' _; rw [parseStatement]; exact framed_of_ne_ok (fun _ e => by cases e)
  | succ n ih =>
    obtain ⟨ihBL, ihB, ihEL, ihI, ihFo, ihW, ihS⟩ := ih
    refine ⟨?_, ?_, ?_, ?_, ?_, ?_, ?_⟩
    · intro ts ts' h x r e hr
      rcases (reframed_cases h) with ⟨z, hz, rfl, rfl⟩ | ⟨t, r0, r0', rfl, rfl, hr0⟩
      · rw [parseBlockLoop, if_neg (by rw [hz]; simp)] at e
        cases e
        exact absurd hz (hr z rfl)
      · rw [parseBlockLoop] at e
        rw [parseBlockLoop]
        by_cases hc : t.type ≠ CLOSE_BRACE ∧ t.type ≠ END_OF_FILE
        · simp only [if_pos hc] at e ⊢
          obtain ⟨s, hs1, hs2⟩ := Res.bind_eq_ok e
          obtain ⟨b, hb1, hb2⟩ := Res.bind_eq_ok hs2
          cases hb2
          obtain ⟨s1, r1⟩ := s
          obtain ⟨b1, r2⟩ := b
          obtain ⟨r1', h1, hr1⟩ := ihS _ _ h s1 r1 hs1
          obtain ⟨r2', h2, hr2⟩ := ihBL _ _ hr1 b1 r2 hb1 hr
          exact ⟨r2', by rw [h1, Res.bind_ok, h2, Res.bind_ok], hr2⟩
        · simp only [if_neg hc] at e ⊢
          cases e
          exact ⟨_, rfl, h⟩
    · intro ts ts' h
      rw [parseBlock, parseBlock]
      refine framed_consume_bind _ _ _ (by decide) h fun ts1 ts1' h1 => ?_
      intro x r e
      obtain ⟨b, hb1, hb2⟩ := Res.bind_eq_ok e
      obtain ⟨ts2, hc1, hc2⟩ := Res.bind_eq_ok hb2
      cases hc2
      obtain ⟨b1, r2⟩ := b
      have hne : ∀ z, r2 = [z] → z.type ≠ END_OF_FILE := by
        intro z hz hty
        rw [hz] at hc1
        exact consume_eof_ne_ok _ _ z hty (by decide) _ hc1
      obtain ⟨r2', h2, hr2⟩ := ihBL _ _ h1 b1 r2 hb1 hne
      have h3 : Framed (k :: κ)
          ((consume CLOSE_BRACE "'\x7d'".toList r2).bind fun ts2 =>
            (.ok (b1, ts2) : Res (List StatementAST × List Token)))
          ((consume CLOSE_BRACE "'\x7d'".toList r2').bind fun ts2 => .ok (b1, ts2)) :=
        framed_consume_bind _ _ _ (by decide) hr2 fun r4 r4' h4 => framed_ok _ h4
      obtain ⟨r', h4, hr'⟩ := h3 b1 r (by simp only [hc1, Res.bind_ok])
      exact ⟨r', by rw [h2, Res.bind_ok]; exact h4, hr'⟩
    · intro ts ts' h
      rcases (reframed_cases h) with ⟨z, hz, rfl, rfl⟩ | ⟨t, r, r', rfl, rfl, hr⟩
      · rw [parseElseLoop, parseElseLoop, if_neg (by rw [hz]; decide), if_neg he]
        exact framed_ok _ h
      · rw [parseElseLoop, parseElseLoop]
        by_cases hc : t.type = KEYWORD_ELSE
        · simp only [if_pos hc, advance, List.tail_cons]
          rcases (reframed_cases hr) with ⟨z, hz, rfl, rfl⟩ | ⟨i, r1, r1', rfl, rfl, hr1⟩
          · simp only [if_neg (show ¬ z.type = KEYWORD_IF by rw [hz]; decide)]
            exact framed_of_ne_ok (Res.bind_ne_ok (parseBlock_eof_ne_ok n z hz))
          · by_cases hi : i.type = KEYWORD_IF
            · simp only [if_pos hi]
              refine framed_consume_bind _ _ _ (by decide) hr1 fun ts1 ts1' h1 => ?_
              refine framed_bind (framed_parseComparison hk n h1) fun c rc rc' hc2 => ?_
              refine framed_consume_bind CLOSE_PAREN _ _ (by decide) hc2 fun ts2 ts2' h2 => ?_
              refine framed_bind (ihB _ _ h2) fun x r3 r3' h3 => ?_
              exact framed_bind (ihEL _ _ h3) fun y r4 r4' h4 => framed_ok _ h4
            · simp only [if_neg hi]
              exact framed_bind (ihB _ _ hr) fun x r3 r3' h3 => framed_ok _ h3
        · simp only [if_neg hc]
          exact framed_ok _ h
    · intro ts ts' h
      rw [parseIfStatement, parseIfStatement]
      rcases (reframed_cases h) with ⟨z, hz, rfl, rfl⟩ | ⟨t, r, r', rfl, rfl, hr⟩
      · simp only [advance, List.tail_cons]
        exact framed_of_ne_ok (Res.bind_ne_ok (consume_nil_ne_ok _ _))
      · simp only [advance, List.tail_cons]
        refine framed_consume_bind _ _ _ (by decide) hr fun ts1 ts1' h1 => ?_
        refine framed_bind (framed_parseComparison hk n h1) fun c rc rc' hc2 => ?_
        refine framed_consume_bind CLOSE_PAREN _ _ (by decide) hc2 fun ts2 ts2' h2 => ?_
        refine framed_bind (ihB _ _ h2) fun x r3 r3' h3 => ?_
        exact framed_bind (ihEL _ _ h3) fun y r4 r4' h4 => framed_ok _ h4
    · intro ts ts' h
      rw [parseForStatement, parseForStatement]
      rcases (reframed_cases h) with ⟨z, hz, rfl, rfl⟩ | ⟨t, r, r', rfl, rfl, hr⟩
      · simp only [advance, List.tail_cons]
        exact framed_of_ne_ok (Res.bind_ne_ok (consume_nil_ne_ok _ _))
      · simp only [advance, List.tail_cons]
        refine framed_consume_bind _ _ _ (by decide) hr fun ts1 ts1' h1 => ?_
        refine framed_bind (framed_captureUntil _ (by decide) _ _ h1) fun i r1 r1' h2 => ?_
        refine framed_consume_bind _ _ _ (by decide) h2 fun ts2 ts2' h3 => ?_
        refine framed_bind (framed_captureUntil _ (by decide) _ _ h3) fun c r2 r2' h4 => ?_
        refine framed_consume_bind _ _ _ (by decide) h4 fun ts3 ts3' h5 => ?_
        refine framed_bind (framed_captureUntil _ (by decide) _ _ h5) fun c r3 r3' h6 => ?_
        refine framed_consume_bind _ _ _ (by decide) h6 fun ts4 ts4' h7 => ?_
        exact framed_bind (ihB _ _ h7) fun x r4 r4' h8 => framed_ok _ h8
    · intro ts ts' h
      rw [parseWhileStatement, parseWhileStatement]
      rcases (reframed_cases h) with ⟨z, hz, rfl, rfl⟩ | ⟨t, r, r', rfl, rfl, hr⟩
      · simp only [advance, List.tail_cons]
        exact framed_of_ne_ok (Res.bind_ne_ok (consume_nil_ne_ok _ _))
      · simp only [advance, List.tail_cons]
        refine framed_consume_bind _ _ _ (by decide) hr fun ts1 ts1' h1 => ?_
        refine framed_bind (framed_parseComparison hk n h1) fun c rc rc' hc2 => ?_
        refine framed_consume_bind CLOSE_PAREN _ _ (by decide) hc2 fun ts2 ts2' h2 => ?_
        exact framed_bind (ihB _ _ h2) fun x r3 r3' h3 => framed_ok _ h3
    · intro ts ts' h
      rcases (reframed_cases h) with ⟨z, hz, rfl, rfl⟩ | ⟨t, r, r', rfl, rfl, hr⟩
      · rw [parseStatement]
        simp only [hz]
        exact framed_of_ne_ok (fun _ e => by cases e)
      · rw [parseStatement, parseStatement]
        split
        · exact framed_parseVariableDeclaration hk n h
        · exact framed_parseVariableDeclaration hk n h
        · exact framed_parseAssignmentStatement hk n h
        · exact framed_parseCoutStatement hk hs n h
        · exact ihI _ _ h
        · exact ihFo _ _ h
        · exact ihW _ _ h
        · exact framed_of_ne_ok (fun _ e => by cases e)

theorem framed_parseStatement {k : Token} {κ ts ts' : List Token}
    (hk : isOperatorToken k.type = false) (hs : k.type ≠ STREAM_OPERATOR)
    (he : k.type ≠ KEYWORD_ELSE) (n : Nat) (h : Reframed (k :: κ) ts ts') :
    Framed (k :: κ) (parseStatement n ts) (parseStatement n ts') :=
  (parseStmt_frame_all k κ hk hs he n).2.2.2.2.2.2 ts ts' h

theorem Res.bind_ok_id {α : Type} (r : Res α) : (r.bind fun a => .ok a) = r := by
  cases r <;> rfl

theorem Res.bind_assoc {α β γ : Type} (r : Res α) (f : α → Res β) (g : β → Res γ) :
    (r.bind f).bind g = r.bind fun a => (f a).bind g := by
  cases r <;> rfl

/-- The top-level loop on complete statements followed by further tokens: the
statements are parsed as they are before end-of-file, and the loop goes on with the
further tokens. -/
theorem parseLoop_frame (k : Token) (κ : List Token)
    (hk : isOperatorToken k.type = false) (hs : k.type ≠ STREAM_OPERATOR)
    (he : k.type ≠ KEYWORD_ELSE) :
    ∀ (n : Nat) (a : List Token) (z : Token) (program : ProgramAST),
      z.type = END_OF_FILE → (∀ t ∈ a, t.type ≠ END_OF_FILE) →
      parseLoop n (a ++ [z]) = .ok program →
      ∃ m, m + program.length = n ∧ 0 < m ∧
        parseLoop n (a ++ k :: κ) =
          (parseLoop m (k :: κ)).bind fun p => .ok (program ++ p) := by
  intro n
  induction n with
  | zero => intro a z program _ _ e; rw [parseLoop] at e; cases e
  | succ n ih =>
    intro a z program hz ha e
    cases a with
    | nil =>
      rw [List.nil_append, parseLoop, if_neg (by rw [hz]; simp)] at e
      cases e
      refine ⟨n + 1, rfl, by omega, ?_⟩
      simp only [List.nil_append]
      exact (Res.bind_ok_id _).symm
    | cons t a' =>
      have ht : t.type ≠ END_OF_FILE := ha t (by simp)
      rw [List.cons_append, parseLoop, if_pos ht] at e
      obtain ⟨s, hs1, hs2⟩ := Res.bind_eq_ok e
      obtain ⟨p, hp1, hp2⟩ := Res.bind_eq_ok hs2
      cases hp2
      obtain ⟨s1, r1⟩ := s
      obtain ⟨r1', h1, hr1⟩ := framed_parseStatement hk hs he n
        (⟨t :: a', z, hz, rfl, rfl⟩ : Reframed (k :: κ) (t :: (a' ++ [z])) (t :: (a' ++ k :: κ)))
        s1 r1 hs1
      obtain ⟨a1, z1, hz1, e1, e1'⟩ := hr1
      -- the tokens left are a suffix of the tokens the statement was parsed from
      have hsuf : r1 <:+ t :: (a' ++ [z]) := parseStatement_suffix n _ _ hs1
      have ha1 : ∀ x ∈ a1, x.type ≠ END_OF_FILE := by
        intro x hx
        have hx1 : x ∈ t :: (a' ++ [z]) := hsuf.subset (by rw [e1]; simp [hx])
        have hx2 : x ∈ (t :: a') ++ [z] := by simpa using hx1
        rcases List.mem_append.1 hx2 with h | h
        · exact ha x h
        · -- the last token of both vectors is the same
          exfalso
          simp only [List.mem_singleton] at h
          have hl : (t :: (a' ++ [z])).getLast? = some z := by
            rw [← List.cons_append, List.getLast?_append_of_ne_nil _ (by simp)]; rfl
          have hl1 : r1.getLast? = some z1 := by
            rw [e1, List.getLast?_append_of_ne_nil _ (by simp)]; rfl
          obtain ⟨pre, hpre⟩ := hsuf
          have hlen : (pre ++ r1).length = (t :: (a' ++ [z])).length := by rw [hpre]
          have hcount := congrArg (List.count x) hpre
          rw [e1] at hcount
          simp only [List.count_append, List.count_cons, List.count_nil] at hcount
          have hxa : List.count x a1 ≥ 1 := List.count_pos_iff.2 hx
          have hta : List.count x (t :: a') = 0 := by
            apply List.count_eq_zero_of_not_mem
            intro hm
            exact ha x hm (h ▸ hz)
          simp only [List.count_cons] at hta
          have hzz : z1 = z := by
            have : (pre ++ r1).getLast? = some z1 := by
              rw [e1, ← List.append_assoc, List.getLast?_append_of_ne_nil _ (by simp)]; rfl
            rw [hpre, hl] at this
            exact (Option.some.inj this).symm
          subst hzz
          subst h
          simp only [beq_self_eq_true, if_true] at hcount
          omega
      rw [e1] at hp1
      obtain ⟨m, hm, hm0, hloop⟩ := ih a1 z1 p hz1 ha1 hp1
      refine ⟨m, by simp only [List.length_cons]; omega, hm0, ?_⟩
      rw [List.cons_append, parseLoop, if_pos ht, h1, Res.bind_ok, e1']
      simp only [hloop, Res.bind_assoc, Res.bind_ok, List.cons_append]


theorem parseLoop_fuel_mono {n m : Nat} {ts : List Token} {program : ProgramAST}
    (h : parseLoop n ts = .ok program) (hnm : n ≤ m) : parseLoop m ts = .ok program := by
  have := fuel_mono_of_step (fun i => parseLoop i ts) (fun i => parseLoop_mono i ts) hnm
    (by show parseLoop n ts ≠ _; rw [h]; intro e; cases e)
  exact this.trans h

/-- The top-level loop on `int main ...` stops at `main`, which is a keyword and no
identifier. -/
theorem parseLoop_int_main (n : Nat) (κ : List Token) :
    parseLoop (n + 1 + 1)
        (⟨KEYWORD_INT, "int".toList⟩ :: ⟨KEYWORD_MAIN, "main".toList⟩ :: κ) =
      .error "Parser Error: variable name. Got KEYWORD_MAIN".toList := by
  rw [parseLoop, if_pos (by decide), parseStatement]
  rfl

/-- C17 (counterexample): on `int main() {` the parse error is raised at `main`, a
keyword where the name of the variable is expected; the kind that the message reports
is `KEYWORD_MAIN`, and `OPEN_PAREN` does not occur in it. -/
theorem int_main_error_at_main :
    parse (lex "int main() \x7b".toList) =
        .error "Parser Error: variable name. Got KEYWORD_MAIN".toList ∧
      ¬ tokenTypeToString OPEN_PAREN <:+:
        "Parser Error: variable name. Got KEYWORD_MAIN".toList := by
  constructor
  · rfl
  · decide

/-- C17 (amended): when the tokens of a source text are those of a text `P` of
complete top-level statements, followed by the tokens of `int main() {` and by any
further tokens, the parser raises the parse error
`Parser Error: variable name. Got KEYWORD_MAIN`: parsing stops at the keyword `main`,
where an identifier is expected. The translation ends with the same error. -/
theorem parse_int_main_error (P source : Str) (tsP rest : List Token) (program : ProgramAST)
    (hP : tokenize P = some (tsP ++ [eofToken]))
    (hparse : parse (tsP ++ [eofToken]) = .ok program)
    (hsrc : tokenize source = some (tsP ++ intMainTokens ++ rest)) :
    parse (tsP ++ intMainTokens ++ rest) =
        .error "Parser Error: variable name. Got KEYWORD_MAIN".toList ∧
      translate source = .error "Parser Error: variable name. Got KEYWORD_MAIN".toList := by
  have hne : ∀ t ∈ tsP, t.type ≠ END_OF_FILE := by
    obtain ⟨init, hinit, hi⟩ := lex_shape P
    rw [tokenize_eq_some, hinit] at hP
    have := List.append_cancel_right (Option.some.inj hP)
    rw [← this]
    exact hi
  have hk : isOperatorToken (⟨KEYWORD_INT, "int".toList⟩ : Token).type = false := rfl
  have hmain : parse (tsP ++ intMainTokens ++ rest) =
      .error "Parser Error: variable name. Got KEYWORD_MAIN".toList := by
    -- the number of statements of `P` is below the fuel of its own parse
    obtain ⟨m0, hm0, hpos0, _⟩ := parseLoop_frame _
      (⟨KEYWORD_MAIN, "main".toList⟩ :: ⟨OPEN_PAREN, "(".toList⟩ ::
        ⟨CLOSE_PAREN, ")".toList⟩ :: ⟨OPEN_BRACE, "\x7b".toList⟩ :: rest) hk (by decide)
      (by decide) _ tsP eofToken program rfl hne hparse
    have hfuel : parseFuel (tsP ++ [eofToken]) + 1 ≤ parseFuel (tsP ++ intMainTokens ++ rest) := by
      simp only [parseFuel, List.length_append, List.length_cons, List.length_nil, intMainTokens]
      omega
    have hbig := parseLoop_fuel_mono hparse (Nat.le_of_succ_le hfuel)
    obtain ⟨m, hm, hpos, hloop⟩ := parseLoop_frame _
      (⟨KEYWORD_MAIN, "main".toList⟩ :: ⟨OPEN_PAREN, "(".toList⟩ ::
        ⟨CLOSE_PAREN, ")".toList⟩ :: ⟨OPEN_BRACE, "\x7b".toList⟩ :: rest) hk (by decide)
      (by decide) _ tsP eofToken program rfl hne hbig
    obtain ⟨m', rfl⟩ : ∃ m', m = m' + 1 + 1 := ⟨m - 2, by omega⟩
    rw [parseLoop_int_main] at hloop
    rw [parse]
    simp only [intMainTokens, List.append_assoc, List.cons_append, List.nil_append] at hloop ⊢
    rw [hloop]
    rfl
  refine ⟨hmain, ?_⟩
  rw [translate, hsrc]
  simp only [hmain, Res.bind_error]

theorem parse_int_main_error_witness :
    parse (lex "int x = 1; int main() \x7b \x7d".toList) =
        .error "Parser Error: variable name. Got KEYWORD_MAIN".toList ∧
      translate "int x = 1; int main() \x7b \x7d".toList =
        .error "Parser Error: variable name. Got KEYWORD_MAIN".toList :=
  parse_int_main_error "int x = 1; ".toList "int x = 1; int main() \x7b \x7d".toList
    [⟨KEYWORD_INT, "int".toList⟩, ⟨IDENTIFIER, "x".toList⟩, ⟨EQUALS, "=".toList⟩,
      ⟨NUMBER_LITERAL, "1".toList⟩, ⟨SEMICOLON, ";".toList⟩]
    [⟨CLOSE_BRACE, "\x7d".toList⟩, eofToken]
    [.varDecl "int".toList "x".toList (some (.number "1".toList))]
    (by decide) (by rfl) (by decide)

open TokenType

/-! ## String literals and line comments -/

/-- Without a quote the loop of `readStringLiteral` takes the whole text. -/
theorem readStringLoop_noQuote (v : Str) (hv : v.all (fun c => c != '"') = true) :
    readStringLoop v = (v, []) := by
  induction v with
  | nil => rfl
  | cons c cs ih =>
    simp only [List.all_cons, Bool.and_eq_true, bne_iff_ne, ne_eq] at hv
    rw [readStringLoop, if_pos hv.1, ih hv.2]

/-- A quoted text that is not closed is lexed to one string token. -/
theorem lex_stringOpen (v : Str) (hv : v.all (fun c => c != '"') = true) :
    lex ('"' :: v) = [⟨STRING_LITERAL, v⟩, eofToken] := by
  rw [lex_string]
  simp only [readStringLiteral, List.drop_succ_cons, List.drop_zero, readStringLoop_noQuote v hv,
    List.drop_nil, lex_nil]

/-- C21: a double quote starts a string literal; for every text `c` without a
double quote and every text `r`, the tokens of `"c"r` are the string-literal token
with lexeme `c` followed by the tokens of `r`, and the tokens of `"c`, where the
closing quote is missing, are the string-literal token with lexeme `c` and the
end-of-input token. -/
theorem tokenize_string_literal (c r : Str) (hc : c.all (fun x => x != '"') = true) :
    tokenize ('"' :: (c ++ '"' :: r)) =
        (tokenize r).map (fun ts => ⟨STRING_LITERAL, c⟩ :: ts) ∧
      tokenize ('"' :: (c ++ '"' :: r)) = some (⟨STRING_LITERAL, c⟩ :: lex r) ∧
      tokenize ('"' :: c) = some [⟨STRING_LITERAL, c⟩, ⟨END_OF_FILE, []⟩] := by
  refine ⟨?_, ?_, ?_⟩
  · rw [tokenize_eq_some, tokenize_eq_some, lex_stringText c r hc]; rfl
  · rw [tokenize_eq_some, lex_stringText c r hc]
  · rw [tokenize_eq_some, lex_stringOpen c hc]; rfl

theorem tokenize_string_literal_witness :
    tokenize "\"a\\b\nc\" x".toList =
        (tokenize " x".toList).map (fun ts => ⟨STRING_LITERAL, "a\\b\nc".toList⟩ :: ts) ∧
      tokenize "\"a\\b\nc\" x".toList = some (⟨STRING_LITERAL, "a\\b\nc".toList⟩ :: lex " x".toList) ∧
      tokenize "\"a\\b\nc".toList = some [⟨STRING_LITERAL, "a\\b\nc".toList⟩, ⟨END_OF_FILE, []⟩] :=
  tokenize_string_literal "a\\b\nc".toList " x".toList (by decide)

open TokenType

/-- Without a newline the whole text is skipped as a comment. -/
theorem skipComment_noNewline (c : Str) (hc : c.all (fun x => x != '\n') = true) :
    skipComment c = [] := by
  induction c with
  | nil => rfl
  | cons x xs ih =>
    simp only [List.all_cons, Bool.and_eq_true, bne_iff_ne, ne_eq] at hc
    rw [skipComment, if_pos hc.1, ih hc.2]

/-- The comment skipped stops at the first newline, which stays. -/
theorem skipComment_newline (c r : Str) (hc : c.all (fun x => x != '\n') = true) :
    skipComment (c ++ '\n' :: r) = '\n' :: r := by
  induction c with
  | nil => rw [List.nil_append, skipComment, if_neg (by simp)]
  | cons x xs ih =>
    simp only [List.all_cons, Bool.and_eq_true, bne_iff_ne, ne_eq] at hc
    rw [List.cons_append, skipComment, if_pos hc.1, ih hc.2]

theorem lex_slash_slash (u : Str) : lex ('/' :: '/' :: u) = lex (skipComment u) := by
  rw [lex_comment '/' ('/' :: u) (by decide) ⟨rfl, rfl⟩, skipComment_cons_slash,
    skipComment_cons_slash]

theorem lex_divide (r : Str) (hr : ∀ x, r.head? = some x → x ≠ '/') :
    lex ('/' :: r) = ⟨DIVIDE, "/".toList⟩ :: lex r :=
  lex_op1 '/' r _ (by decide) (fun h => peek_ne_of_head '/' '/' r (by decide) hr h.2)
    (by decide) (by decide) (by decide) (by simp [operatorToken, punctuationToken])

/-- C22: `//` starts a line comment; for every text `c` without a newline and every
text `r`, the tokens of `//c`, a newline and `r` are the tokens of `r`, and the
tokens of `//c` alone are the end-of-input token only; a `/` that is not directly
followed by another `/` is lexed to a DIVIDE token. -/
theorem tokenize_line_comment (c r : Str) (hc : c.all (fun x => x != '\n') = true) :
    tokenize ('/' :: '/' :: (c ++ '\n' :: r)) = tokenize r ∧
      tokenize ('/' :: '/' :: c) = some [⟨END_OF_FILE, []⟩] ∧
      ((∀ x, r.head? = some x → x ≠ '/') →
        tokenize ('/' :: r) = (tokenize r).map (fun ts => ⟨DIVIDE, "/".toList⟩ :: ts) ∧
        tokenize ('/' :: r) = some (⟨DIVIDE, "/".toList⟩ :: lex r)) := by
  refine ⟨?_, ?_, fun hr => ⟨?_, ?_⟩⟩
  · rw [tokenize_eq_some, tokenize_eq_some, lex_slash_slash, skipComment_newline c r hc,
      lex_space '\n' r (by decide)]
  · rw [tokenize_eq_some, lex_slash_slash, skipComment_noNewline c hc, lex_nil]; rfl
  · rw [tokenize_eq_some, tokenize_eq_some, lex_divide r hr]; rfl
  · rw [tokenize_eq_some, lex_divide r hr]

theorem tokenize_line_comment_witness :
    tokenize "// a / b \"c\nx / y".toList = tokenize "x / y".toList ∧
      tokenize "// a / b \"c".toList = some [⟨END_OF_FILE, []⟩] ∧
      tokenize "/x / y".toList =
        (tokenize "x / y".toList).map (fun ts => ⟨DIVIDE, "/".toList⟩ :: ts) ∧
      tokenize "/x / y".toList = some (⟨DIVIDE, "/".toList⟩ :: lex "x / y".toList) :=
  ⟨(tokenize_line_comment " a / b \"c".toList "x / y".toList (by decide)).1,
    (tokenize_line_comment " a / b \"c".toList "x / y".toList (by decide)).2.1,
    (tokenize_line_comment " a / b \"c".toList "x / y".toList (by decide)).2.2 (by decide)⟩

open TokenType

/-! ## The inclusive bound of a `for` loop -/

theorem lex_less_equal_blank (u : Str) :
    lex ('<' :: '=' :: ' ' :: u) = ⟨LESS_THAN_EQUAL, "<=".toList⟩ :: lex u := by
  rw [lex_op2 '<' '=' (' ' :: u) _ (by decide) (fun h => absurd h.1 (by decide)) (by decide)
    (by decide) (by decide) rfl, lex_blank]

/-- The end expression of the condition `v <= b`: the text after the `<`. -/
theorem forEndExpr_le (v b : Str) (hv : isIdentifierText v = true) (hb : isDigits b = true) :
    forEndExpr (trim (v ++ ' ' :: '<' :: '=' :: ' ' :: (b ++ [' ']))) = '=' :: ' ' :: b := by
  have hvall := isIdentifierText_all v hv
  have hball := isDigits_all b hb
  have e1 : v ++ ' ' :: '<' :: '=' :: ' ' :: (b ++ [' ']) =
      [] ++ ((v ++ ' ' :: '<' :: '=' :: ' ' :: b) ++ [' ']) := by simp
  have hhead : ∀ c, (v ++ ' ' :: '<' :: '=' :: ' ' :: b).head? = some c →
      isspace c = false := by
    intro c hc
    rw [List.head?_append_of_ne_nil _ hvall.1] at hc
    exact (isIdentChar_plain c (hvall.2 c (List.mem_of_mem_head? hc))).1
  have hblast : ∀ (x : Str) (c : Char), (x ++ b).getLast? = some c → isspace c = false :=
    fun x c hc => (isdigit_class c (hball.2.1 c (getLast?_append_mem x b hball.1 c hc))).1
  have hlast : ∀ c, (v ++ ' ' :: '<' :: '=' :: ' ' :: b).getLast? = some c →
      isspace c = false := by
    intro c hc
    have e3 : v ++ ' ' :: '<' :: '=' :: ' ' :: b = (v ++ [' ', '<', '=', ' ']) ++ b := by simp
    rw [e3] at hc
    exact hblast _ c hc
  have e2 : v ++ ' ' :: '<' :: '=' :: ' ' :: b = (v ++ [' ']) ++ '<' :: ('=' :: ' ' :: b) := by
    simp
  have hnot : '<' ∉ v ++ [' '] := by
    intro hm
    rcases List.mem_append.mp hm with h | h
    · exact (isIdentChar_plain _ (hvall.2 _ h)).2.2.1 rfl
    · simp at h
  rw [e1, trim_pad [] _ [' '] rfl rfl hhead hlast, e2]
  unfold forEndExpr forOpPos
  rw [findChar_append '<' _ _ hnot]
  simp only [drop_succ_append]
  have h := trim_pad [] ('=' :: ' ' :: b) [] rfl rfl (fun c hc => by cases hc; decide)
    (fun c hc => hblast ['=', ' '] c hc)
  simpa using h

theorem forHeaderToPy_inclusive (v a b : Str) (hv : isIdentifierText v = true)
    (ha : isDigits a = true) (hb : isDigits b = true) (n : Nat) :
    forHeaderToPy ('i' :: 'n' :: 't' :: ' ' :: (v ++ ' ' :: '=' :: ' ' :: (a ++ [' '])))
        (v ++ ' ' :: '<' :: '=' :: ' ' :: (b ++ [' '])) (v ++ ' ' :: '+' :: '+' :: [' ']) n =
      indent n ++ "for ".toList ++ v ++ " in range(".toList ++ a ++ ", = ".toList ++ b ++
        "):\n".toList := by
  have hvall := isIdentifierText_all v hv
  have hstep : forStep (trim (v ++ ' ' :: '+' :: '+' :: [' '])) = 1 := by
    apply forStep_of_not_mem
    intro hm
    rcases List.mem_append.mp hm with h | h
    · exact (isIdentChar_plain _ (hvall.2 _ h)).2.2.2.2.1 rfl
    · simp at h
  unfold forHeaderToPy
  rw [forVarStart_int v a hv ha, forEndExpr_le v b hv hb, hstep]
  simp

/-- The tokens of `for (int v = a; v <= b; v++) { }`. -/
theorem lex_inclusiveFor (v a b : Str) (hv : isIdentifierText v = true)
    (hk : keywords v = none) (ha : isDigits a = true) (hb : isDigits b = true) :
    lex ("for (int ".toList ++ v ++ " = ".toList ++ a ++ "; ".toList ++ v ++ " <= ".toList ++
        b ++ "; ".toList ++ v ++ "++) \x7b \x7d".toList) =
      [⟨KEYWORD_FOR, "for".toList⟩, ⟨OPEN_PAREN, "(".toList⟩, ⟨KEYWORD_INT, "int".toList⟩,
        ⟨IDENTIFIER, v⟩, ⟨EQUALS, "=".toList⟩, ⟨NUMBER_LITERAL, a⟩, ⟨SEMICOLON, ";".toList⟩,
        ⟨IDENTIFIER, v⟩, ⟨LESS_THAN_EQUAL, "<=".toList⟩, ⟨NUMBER_LITERAL, b⟩,
        ⟨SEMICOLON, ";".toList⟩, ⟨IDENTIFIER, v⟩, ⟨PLUS_PLUS, "++".toList⟩,
        ⟨CLOSE_PAREN, ")".toList⟩, ⟨OPEN_BRACE, "\x7b".toList⟩, ⟨CLOSE_BRACE, "\x7d".toList⟩,
        ⟨END_OF_FILE, []⟩] := by
  have kfor : ∀ u, lex ('f' :: 'o' :: 'r' :: ' ' :: u) = ⟨KEYWORD_FOR, "for".toList⟩ :: lex u :=
    fun u => lex_keyword_blank "for".toList u rfl
  have kint : ∀ u, lex ('i' :: 'n' :: 't' :: ' ' :: u) = ⟨KEYWORD_INT, "int".toList⟩ :: lex u :=
    fun u => lex_keyword_blank "int".toList u rfl
  have kv : ∀ u, lex (v ++ ' ' :: u) = ⟨IDENTIFIER, v⟩ :: lex u := by
    intro u; rw [lex_keyword_blank v u hv, hk]; rfl
  have kvp : ∀ u, lex (v ++ '+' :: u) = ⟨IDENTIFIER, v⟩ :: lex ('+' :: u) := by
    intro u; rw [lex_word_then v '+' u hv rfl, hk]; rfl
  have kn : ∀ d, isDigits d = true →
      ∀ u, lex (d ++ ';' :: u) = ⟨NUMBER_LITERAL, d⟩ :: lex (';' :: u) :=
    fun d hd u => lex_digits_then d ';' u hd rfl (by decide)
  simp only [String.toList, List.append_assoc, List.cons_append, List.nil_append]
  rw [kfor, lex_open_paren, kint, kv, lex_equals_blank, kn a ha, lex_semicolon, lex_blank, kv,
    lex_less_equal_blank, kn b hb, lex_semicolon, lex_blank, kvp, lex_plus_plus,
    lex_close_paren, lex_blank, lex_open_brace, lex_blank, lex_close_brace, lex_nil]
  rfl

theorem parse_inclusiveFor (v a b : Str) :
    parse [⟨KEYWORD_FOR, "for".toList⟩, ⟨OPEN_PAREN, "(".toList⟩, ⟨KEYWORD_INT, "int".toList⟩,
        ⟨IDENTIFIER, v⟩, ⟨EQUALS, "=".toList⟩, ⟨NUMBER_LITERAL, a⟩, ⟨SEMICOLON, ";".toList⟩,
        ⟨IDENTIFIER, v⟩, ⟨LESS_THAN_EQUAL, "<=".toList⟩, ⟨NUMBER_LITERAL, b⟩,
        ⟨SEMICOLON, ";".toList⟩, ⟨IDENTIFIER, v⟩, ⟨PLUS_PLUS, "++".toList⟩,
        ⟨CLOSE_PAREN, ")".toList⟩, ⟨OPEN_BRACE, "\x7b".toList⟩, ⟨CLOSE_BRACE, "\x7d".toList⟩,
        ⟨END_OF_FILE, []⟩] =
      .ok [.forStatement ('i' :: 'n' :: 't' :: ' ' :: (v ++ ' ' :: '=' :: ' ' :: (a ++ [' '])))
        (v ++ ' ' :: '<' :: '=' :: ' ' :: (b ++ [' '])) (v ++ ' ' :: '+' :: '+' :: [' ']) []] := by
  simp [parse, parseFuel, parseLoop, parseStatement, parseForStatement, captureUntil, consume,
    advance, parseBlock, parseBlockLoop]

/-- C27: an inclusive bound is not translated to a valid end of the range; for every
identifier `v` that is not a keyword and all non-empty digit strings `a` and `b`,
the translation of `for (int v = a; v <= b; v++) { }` is the header line
`for v in range(a, = b):` followed by the newline that ends the statement: the end
expression is the text behind the `<` of the lexeme `<=`. -/
theorem translate_inclusive_for (v a b : Str) (hv : isIdentifierText v = true)
    (hk : keywords v = none) (ha : isDigits a = true) (hb : isDigits b = true) :
    translate ("for (int ".toList ++ v ++ " = ".toList ++ a ++ "; ".toList ++ v ++
        " <= ".toList ++ b ++ "; ".toList ++ v ++ "++) \x7b \x7d".toList) =
      .ok ("for ".toList ++ v ++ " in range(".toList ++ a ++ ", = ".toList ++ b ++
        "):\n".toList ++ "\n".toList) := by
  unfold translate
  rw [tokenize_eq_some, lex_inclusiveFor v a b hv hk ha hb]
  simp only [parse_inclusiveFor, Res.bind_ok, generate, bodyToPy, toPython,
    forHeaderToPy_inclusive v a b hv ha hb, indent]
  simp

theorem translate_inclusive_for_witness :
    translate "for (int i = 0; i <= 10; i++) \x7b \x7d".toList =
      .ok "for i in range(0, = 10):\n\n".toList :=
  translate_inclusive_for "i".toList "0".toList "10".toList (by decide) (by decide) (by decide)
    (by decide)

open TokenType

/-! ## The end expression of a `for` header -/

theorem findLessOrGreater_append (x : Char) (l r : Str) (hx : x = '<' ∨ x = '>')
    (hl : '<' ∉ l) (hg : '>' ∉ l) : findLessOrGreater (l ++ x :: r) = some l.length := by
  induction l with
  | nil => simp [findLessOrGreater, hx]
  | cons y ys ih =>
    simp only [List.mem_cons, not_or] at hl hg
    rw [List.cons_append, findLessOrGreater,
      if_neg (fun h => h.elim (fun e => hl.1 e.symm) (fun e => hg.1 e.symm)), ih hl.2 hg.2]
    rfl

theorem findLessOrGreater_none (s : Str) (hl : '<' ∉ s) (hg : '>' ∉ s) :
    findLessOrGreater s = none := by
  induction s with
  | nil => rfl
  | cons y ys ih =>
    simp only [List.mem_cons, not_or] at hl hg
    rw [findLessOrGreater,
      if_neg (fun h => h.elim (fun e => hl.1 e.symm) (fun e => hg.1 e.symm)), ih hl.2 hg.2]
    rfl

/-- The end expression behind the first `<` of the trimmed condition. -/
theorem forEndExpr_less (pre post : Str) (hpre : '<' ∉ pre) :
    forEndExpr (pre ++ '<' :: post) = trim post := by
  unfold forEndExpr forOpPos
  rw [findChar_append '<' pre post hpre]
  simp only [drop_succ_append]

/-- The end expression behind the first `>` of a trimmed condition without `<`. -/
theorem forEndExpr_greater (pre post : Str) (hl : '<' ∉ pre ++ '>' :: post)
    (hpre : '>' ∉ pre) : forEndExpr (pre ++ '>' :: post) = trim post := by
  unfold forEndExpr forOpPos
  rw [findChar_none '<' _ hl, findChar_append '>' pre post hpre]
  simp only [drop_succ_append]

theorem forEndExpr_neither (c : Str) (hl : '<' ∉ c) (hg : '>' ∉ c) :
    forEndExpr c = "/*cond*/".toList := by
  unfold forEndExpr forOpPos
  rw [findChar_none '<' _ hl, findChar_none '>' _ hg]

/-- The end expression of the spec is that of the code when no `>` stands before the
first `<`. -/
theorem specForEndExpr_less (pre post : Str) (hpre : '<' ∉ pre) (hg : '>' ∉ pre) :
    specForEndExpr (pre ++ '<' :: post) = forEndExpr (pre ++ '<' :: post) := by
  rw [forEndExpr_less pre post hpre]
  unfold specForEndExpr
  rw [findLessOrGreater_append '<' pre post (Or.inl rfl) hpre hg]
  simp only [drop_succ_append]

theorem specForEndExpr_noLess (c : Str) (hl : '<' ∉ c) : specForEndExpr c = forEndExpr c := by
  by_cases hg : '>' ∈ c
  · obtain ⟨pre, post, rfl, hpre⟩ := List.eq_append_cons_of_mem hg
    rw [forEndExpr_greater pre post hl hpre]
    unfold specForEndExpr
    rw [findLessOrGreater_append '>' pre post (Or.inr rfl)
      (fun h => hl (List.mem_append_left _ h)) hpre]
    simp only [drop_succ_append]
  · rw [forEndExpr_neither c hl hg]
    unfold specForEndExpr
    rw [findLessOrGreater_none c hl hg]

/-- A condition with a `>` before its first `<`: the emitted end expression is the
text behind the `<`, the text behind the earliest of the two characters is another
one. -/
theorem forEndExpr_greater_before_less :
    translate "for (i = 0; i > 0 < 5; i++) \x7b \x7d".toList =
        .ok "for i in range(0, 5):\n\n".toList ∧
      parse (lex "for (i = 0; i > 0 < 5; i++) \x7b \x7d".toList) =
        .ok [.forStatement "i = 0 ".toList "i > 0 < 5 ".toList "i ++ ".toList []] ∧
      toPython (.forStatement "i = 0 ".toList "i > 0 < 5 ".toList "i ++ ".toList []) 0 =
        "for i in range(0, 5):\n".toList ∧
      forEndExpr (trim "i > 0 < 5 ".toList) = "5".toList ∧
      specForEndExpr (trim "i > 0 < 5 ".toList) = "0 < 5".toList ∧
      ¬ (∀ init condition increment body k,
          toPython (.forStatement init condition increment body) k =
            indent k ++ "for ".toList ++ (forVarStart (trim init)).1 ++ " in range(".toList ++
              (forVarStart (trim init)).2 ++ ", ".toList ++ specForEndExpr (trim condition) ++
              (if forStep (trim increment) ≠ 1 then
                ", ".toList ++ (Int.repr (forStep (trim increment))).toList
              else []) ++ "):\n".toList ++ bodyToPy body (k + 4)) := by
  refine ⟨by decide, by rfl, by decide, by decide, by decide, fun h => ?_⟩
  exact absurd (h "i = 0 ".toList "i > 0 < 5 ".toList "i ++ ".toList [] 0) (by decide)

/-- C25 (amended): the end expression of a For node. The header line that the
generator emits carries, inside `range(...)`, the end expression computed from the
trimmed condition text: the trimmed text behind the first `<` when the condition
holds a `<`; the trimmed text behind the first `>` when it holds a `>` and no `<`;
the placeholder `/*cond*/` when it holds neither. This is the text behind the
earliest `<` or `>` whenever no `>` stands before the first `<`. -/
theorem forToPy_end_expression (init condition increment : Str) (body : List StatementAST)
    (k : Nat) :
    toPython (.forStatement init condition increment body) k =
        indent k ++ "for ".toList ++ (forVarStart (trim init)).1 ++ " in range(".toList ++
          (forVarStart (trim init)).2 ++ ", ".toList ++ forEndExpr (trim condition) ++
          (if forStep (trim increment) ≠ 1 then
            ", ".toList ++ (Int.repr (forStep (trim increment))).toList
          else []) ++ "):\n".toList ++ bodyToPy body (k + 4) ∧
      (∀ pre post, trim condition = pre ++ '<' :: post → '<' ∉ pre →
        forEndExpr (trim condition) = trim post) ∧
      (∀ pre post, trim condition = pre ++ '>' :: post → '<' ∉ trim condition → '>' ∉ pre →
        forEndExpr (trim condition) = trim post) ∧
      ('<' ∉ trim condition → '>' ∉ trim condition →
        forEndExpr (trim condition) = "/*cond*/".toList) ∧
      (∀ pre post, trim condition = pre ++ '<' :: post → '<' ∉ pre → '>' ∉ pre →
        specForEndExpr (trim condition) = forEndExpr (trim condition)) ∧
      ('<' ∉ trim condition → specForEndExpr (trim condition) = forEndExpr (trim condition)) := by
  refine ⟨?_, ?_, ?_, ?_, ?_, ?_⟩
  · rw [toPython, forHeaderToPy]
  · intro pre post e hpre
    rw [e]; exact forEndExpr_less pre post hpre
  · intro pre post e hl hpre
    rw [e] at hl ⊢; exact forEndExpr_greater pre post hl hpre
  · exact forEndExpr_neither _
  · intro pre post e hpre hg
    rw [e]; exact specForEndExpr_less pre post hpre hg
  · exact specForEndExpr_noLess _

theorem forToPy_end_expression_witness :
    forEndExpr (trim " i < n + 1 ".toList) = trim " n + 1 ".toList ∧
      forEndExpr (trim "i >= 0 ".toList) = trim "= 0".toList ∧
      forEndExpr (trim "i != 3 ".toList) = "/*cond*/".toList ∧
      forEndExpr (trim "i > 0 < 5 ".toList) = trim " 5".toList ∧
      specForEndExpr (trim " i < n > 1 ".toList) = forEndExpr (trim " i < n > 1 ".toList) ∧
      specForEndExpr (trim "i >= 0 ".toList) = forEndExpr (trim "i >= 0 ".toList) :=
  ⟨(forToPy_end_expression [] " i < n + 1 ".toList [] [] 0).2.1 "i ".toList " n + 1".toList
      (by decide) (by decide),
    (forToPy_end_expression [] "i >= 0 ".toList [] [] 0).2.2.1 "i ".toList "= 0".toList
      (by decide) (by decide) (by decide),
    (forToPy_end_expression [] "i != 3 ".toList [] [] 0).2.2.2.1 (by decide) (by decide),
    (forToPy_end_expression [] "i > 0 < 5 ".toList [] [] 0).2.1 "i > 0 ".toList " 5".toList
      (by decide) (by decide),
    (forToPy_end_expression [] " i < n > 1 ".toList [] [] 0).2.2.2.2.1 "i ".toList
      " n > 1".toList (by decide) (by decide) (by decide),
    (forToPy_end_expression [] "i >= 0 ".toList [] [] 0).2.2.2.2.2 (by decide)⟩

open TokenType

/-! ## The operators of the `Binary` nodes -/

theorem binaryOpType_specOperators (op : Str) (h : (binaryOpType op).isSome = true) :
    op ∈ specOperators := by
  unfold binaryOpType at h
  unfold specOperators
  by_cases h1 : op = "+".toList
  · simp [h1]
  by_cases h2 : op = "-".toList
  · simp [h2]
  by_cases h3 : op = "*".toList
  · simp [h3]
  by_cases h4 : op = "/".toList
  · simp [h4]
  by_cases h5 : op = "<".toList
  · simp [h5]
  by_cases h6 : op = ">".toList
  · simp [h6]
  by_cases h7 : op = "<=".toList
  · simp [h7]
  by_cases h8 : op = ">=".toList
  · simp [h8]
  by_cases h9 : op = "==".toList
  · simp [h9]
  by_cases h10 : op = "!=".toList
  · simp [h10]
  rw [if_neg h1, if_neg h2, if_neg h3, if_neg h4, if_neg h5, if_neg h6, if_neg h7, if_neg h8,
    if_neg h9, if_neg h10] at h
  exact absurd h (by decide)

theorem binaryOps_binary (op : Str) (l r : ExprAST) (hop : op ∈ specOperators)
    (hl : ∀ o ∈ binaryOps l, o ∈ specOperators) (hr : ∀ o ∈ binaryOps r, o ∈ specOperators) :
    ∀ o ∈ binaryOps (.binary op l r), o ∈ specOperators := by
  intro o ho
  simp only [binaryOps, List.mem_cons, List.mem_append] at ho
  rcases ho with rfl | ho | ho
  · exact hop
  · exact hl o ho
  · exact hr o ho

/-- The trees that the expression parser builds from tokens with well-shaped lexemes
carry the ten operator symbols only. -/
theorem exprInv_operators :
    ExprInv (fun ts => ∀ t ∈ ts, lexemeOk t = true)
      (fun e => ∀ o ∈ binaryOps e, o ∈ specOperators) where
  tail := fun t ts h x hx => h x (List.mem_cons_of_mem _ hx)
  atom := by
    intro t ts _ hat
    obtain ⟨k, v⟩ := t
    cases k <;> first
      | (exfalso; simp [isAtomType] at hat; done)
      | (simp [atomOf, binaryOps])
  mul := fun l r hl hr => binaryOps_binary _ l r (by decide) hl hr
  div := fun l r hl hr => binaryOps_binary _ l r (by decide) hl hr
  add := fun l r hl hr => binaryOps_binary _ l r (by decide) hl hr
  sub := fun l r hl hr => binaryOps_binary _ l r (by decide) hl hr
  cmp := fun t ts l r h hc hl hr =>
    binaryOps_binary _ l r
      (binaryOpType_specOperators _ (comparison_lexeme t hc (h t (by simp)))) hl hr

theorem bodyBinaryOps_iff (body : List StatementAST) :
    (∀ o ∈ bodyBinaryOps body, o ∈ specOperators) ↔
      ∀ s ∈ body, ∀ o ∈ stmtBinaryOps s, o ∈ specOperators := by
  induction body with
  | nil => simp [bodyBinaryOps]
  | cons s rest ih =>
    simp only [bodyBinaryOps, List.mem_append, List.mem_cons, forall_eq_or_imp, ← ih]
    constructor
    · exact fun h => ⟨fun o ho => h o (Or.inl ho), fun o ho => h o (Or.inr ho)⟩
    · rintro ⟨h1, h2⟩ o (ho | ho)
      · exact h1 o ho
      · exact h2 o ho

theorem elseIfsBinaryOps_of (eifs : List (ExprAST × List StatementAST))
    (h : ∀ p ∈ eifs, (∀ o ∈ binaryOps p.1, o ∈ specOperators) ∧
      ∀ s ∈ p.2, ∀ o ∈ stmtBinaryOps s, o ∈ specOperators) :
    ∀ o ∈ elseIfsBinaryOps eifs, o ∈ specOperators := by
  induction eifs with
  | nil => simp [elseIfsBinaryOps]
  | cons p rest ih =>
    intro o ho
    simp only [elseIfsBinaryOps, List.mem_append] at ho
    have hp := h p (by simp)
    rcases ho with (ho | ho) | ho
    · exact hp.1 o ho
    · exact (bodyBinaryOps_iff p.2).2 hp.2 o ho
    · exact ih (fun q hq => h q (List.mem_cons_of_mem _ hq)) o ho

theorem stmtInv_operators :
    StmtInv (fun ts => ∀ t ∈ ts, lexemeOk t = true)
      (fun e => ∀ o ∈ binaryOps e, o ∈ specOperators)
      (fun s => ∀ o ∈ stmtBinaryOps s, o ∈ specOperators) where
  expr := exprInv_operators
  varDecl := by
    intro n t ts hi _
    refine (parseVariableDeclaration_sat exprInv_operators n t ts hi).mono ?_
    rintro r ⟨i, rest, iv, rfl, hty, hr, hiv⟩
    rw [hr]
    cases iv with
    | none => simp [stmtBinaryOps]
    | some v => simpa [stmtBinaryOps] using hiv v rfl
  assign := by
    intro n t ts hi hty
    refine (parseAssignmentStatement_sat exprInv_operators n t ts hi).mono ?_
    rintro r ⟨e, hr, he⟩
    rw [hr]
    simpa [stmtBinaryOps] using he
  cout := by
    intro n t ts hi _
    refine (parseCoutStatement_sat exprInv_operators n (t :: ts) hi).mono ?_
    rintro r ⟨parts, b, hr, hp⟩
    rw [hr]
    intro o ho
    simp only [stmtBinaryOps, List.mem_flatten, List.mem_map] at ho
    obtain ⟨l, ⟨e, he, rfl⟩, hol⟩ := ho
    exact hp e he o hol
  ifS := by
    intro c t e eifs hc ht he heifs o ho
    simp only [stmtBinaryOps, List.mem_append] at ho
    rcases ho with ((ho | ho) | ho) | ho
    · exact hc o ho
    · exact (bodyBinaryOps_iff t).2 ht o ho
    · exact (bodyBinaryOps_iff e).2 he o ho
    · exact elseIfsBinaryOps_of eifs heifs o ho
  forS := by
    intro ts1 ts2 ts3 i c n body _ _ _ _ _ _ hb o ho
    simp only [stmtBinaryOps] at ho
    exact (bodyBinaryOps_iff body).2 hb o ho
  whileS := by
    intro c body hc hb o ho
    simp only [stmtBinaryOps, List.mem_append] at ho
    rcases ho with ho | ho
    · exact hc o ho
    · exact (bodyBinaryOps_iff body).2 hb o ho

/-- C23: the operator invariant of the tree. For every source text whose tokens the
parser accepts, the operator of every `Binary` node of the program, at any depth of
its statements and expressions, is one of the ten symbols
`+ - * / < > <= >= == !=`. -/
theorem parse_binary_operators (source : Str) (tokens : List Token) (program : ProgramAST)
    (hlex : tokenize source = some tokens) (hparse : parse tokens = .ok program) :
    ∀ op ∈ bodyBinaryOps program, op ∈ specOperators := by
  have htok : tokens = lex source := by
    have e := tokenize_eq_some source
    rw [hlex] at e
    exact Option.some.inj e
  have hinv : ∀ t ∈ tokens, lexemeOk t = true := fun t ht => lex_lexemeOk source t (htok ▸ ht)
  exact (bodyBinaryOps_iff program).2
    (parseLoop_sat stmtInv_operators _ tokens hinv program hparse)

theorem parse_binary_operators_witness :
    bodyBinaryOps
        [.ifStatement (.binary "<=".toList (.variable "a".toList)
            (.binary "*".toList (.variable "b".toList) (.number "2".toList)))
          [.assignment "x".toList (.binary "-".toList (.variable "a".toList)
            (.number "1".toList))] [] []] ⊆ specOperators :=
  fun o ho => parse_binary_operators "if (a <= b * 2) \x7b x = a - 1; \x7d".toList
    [⟨KEYWORD_IF, "if".toList⟩, ⟨OPEN_PAREN, "(".toList⟩, ⟨IDENTIFIER, "a".toList⟩,
      ⟨LESS_THAN_EQUAL, "<=".toList⟩, ⟨IDENTIFIER, "b".toList⟩, ⟨MULTIPLY, "*".toList⟩,
      ⟨NUMBER_LITERAL, "2".toList⟩, ⟨CLOSE_PAREN, ")".toList⟩, ⟨OPEN_BRACE, "\x7b".toList⟩,
      ⟨IDENTIFIER, "x".toList⟩, ⟨EQUALS, "=".toList⟩, ⟨IDENTIFIER, "a".toList⟩,
      ⟨MINUS, "-".toList⟩, ⟨NUMBER_LITERAL, "1".toList⟩, ⟨SEMICOLON, ";".toList⟩,
      ⟨CLOSE_BRACE, "\x7d".toList⟩, ⟨END_OF_FILE, []⟩]
    _ (by decide) (by rfl) o ho

open TokenType

/-! ## Parentheses around an expression -/

theorem parseTerm_mono (n : Nat) (ts : List Token) :
    parseTerm n ts ≠ .outOfFuel → parseTerm (n + 1) ts = parseTerm n ts :=
  (parseExpr_mono_all n).2.2.1 ts

/-- An expression parsed at comparison level before end-of-file is parsed the same
way before a token that is no binary operator. -/
theorem parseComparison_frame (n : Nat) (ts : List Token) (e : ExprAST) (k : Token)
    (κ : List Token) (hk : isOperatorToken k.type = false)
    (h : parseComparison n (ts ++ [eofToken]) = .ok (e, [eofToken])) :
    parseComparison n (ts ++ k :: κ) = .ok (e, k :: κ) := by
  obtain ⟨r', h1, h2⟩ := (parseExpr_frame_all k κ hk n).2.2.2.2.2.2 _ _
    ⟨ts, eofToken, rfl, rfl, rfl⟩ e _ h
  rw [h1, reframed_of_base h2]

/-- The factor `(` ts `)` is the tree of `ts`. -/
theorem parseFactor_parenthesised (n : Nat) (ts κ : List Token) (e : ExprAST) (o c : Token)
    (ho : o.type = OPEN_PAREN) (hc : c.type = CLOSE_PAREN)
    (h : parseComparison n (ts ++ [eofToken]) = .ok (e, [eofToken])) :
    parseFactor (n + 1) (o :: (ts ++ c :: κ)) = .ok (e, κ) := by
  have hk : isOperatorToken c.type = false := by rw [hc]; rfl
  rw [parseFactor, if_pos ho]
  simp only [advance, List.tail_cons, parseComparison_frame n ts e c κ hk h, Res.bind_ok,
    consume, if_pos hc]

/-- The three levels above a factor that is followed by end-of-file return it. -/
theorem parseLevels_of_factor (n : Nat) (ts : List Token) (e : ExprAST)
    (h : parseFactor n ts = .ok (e, [eofToken])) :
    parseTerm (n + 1) ts = .ok (e, [eofToken]) ∧
      parseExpression (n + 1 + 1) ts = .ok (e, [eofToken]) ∧
      parseComparison (n + 1 + 1 + 1) ts = .ok (e, [eofToken]) := by
  cases n with
  | zero => rw [parseFactor] at h; cases h
  | succ n =>
    have h1 : parseTerm (n + 1 + 1) ts = .ok (e, [eofToken]) := by
      rw [parseTerm, h]
      simp [Res.bind_ok, parseTermLoop, eofToken]
    have h2 : parseExpression (n + 1 + 1 + 1) ts = .ok (e, [eofToken]) := by
      rw [parseExpression, h1]
      simp [Res.bind_ok, parseExpressionLoop, eofToken]
    refine ⟨h1, h2, ?_⟩
    rw [parseComparison, h2]
    simp [Res.bind_ok, parseComparisonLoop, eofToken, isComparisonOp]

/-- C26: the parser erases redundant parentheses. When the comparison-level parser
reads the tokens `ts` up to the end-of-file token and builds the tree `e`, the
tokens `(` ts `)` are read up to the end-of-file token as the same tree `e` at
comparison, additive and multiplicative level, with every fuel from four steps
above the one given; so the assignments `x = ((a+b));` and `x = a+b;` are
parsed to the same program and translated to the same text. -/
theorem parse_parenthesised (n : Nat) (ts : List Token) (e : ExprAST) (o c : Token)
    (ho : o.type = OPEN_PAREN) (hc : c.type = CLOSE_PAREN)
    (h : parseComparison n (ts ++ [eofToken]) = .ok (e, [eofToken])) :
    (∀ m, n + 4 ≤ m →
        parseComparison m (o :: (ts ++ [c, eofToken])) = .ok (e, [eofToken]) ∧
        parseExpression m (o :: (ts ++ [c, eofToken])) = .ok (e, [eofToken]) ∧
        parseTerm m (o :: (ts ++ [c, eofToken])) = .ok (e, [eofToken])) ∧
      parse (lex "x = ((a+b));".toList) = .ok [.assignment "x".toList
        (.binary "+".toList (.variable "a".toList) (.variable "b".toList))] ∧
      parse (lex "x = a+b;".toList) = .ok [.assignment "x".toList
        (.binary "+".toList (.variable "a".toList) (.variable "b".toList))] ∧
      translate "x = ((a+b));".toList = translate "x = a+b;".toList := by
  refine ⟨fun m hm => ?_, by rfl, by rfl, by decide⟩
  obtain ⟨h1, h2, h3⟩ := parseLevels_of_factor (n + 1) _ e
    (parseFactor_parenthesised n ts [eofToken] e o c ho hc h)
  refine ⟨?_, ?_, ?_⟩
  · rw [← h3]
    exact fuel_mono_of_step (fun i => parseComparison i _) (fun i => parseComparison_mono i _)
      hm (by show parseComparison (n + 1 + 1 + 1 + 1) _ ≠ _; rw [h3]; intro x; cases x)
  · rw [← h2]
    exact fuel_mono_of_step (fun i => parseExpression i _) (fun i => parseExpression_mono i _)
      (by omega) (by show parseExpression (n + 1 + 1 + 1) _ ≠ _; rw [h2]; intro x; cases x)
  · rw [← h1]
    exact fuel_mono_of_step (fun i => parseTerm i _) (fun i => parseTerm_mono i _)
      (by omega) (by show parseTerm (n + 1 + 1) _ ≠ _; rw [h1]; intro x; cases x)

theorem parse_parenthesised_witness :
    parseComparison 14 [⟨OPEN_PAREN, "(".toList⟩, ⟨OPEN_PAREN, "(".toList⟩,
        ⟨IDENTIFIER, "a".toList⟩, ⟨PLUS, "+".toList⟩, ⟨IDENTIFIER, "b".toList⟩,
        ⟨CLOSE_PAREN, ")".toList⟩, ⟨CLOSE_PAREN, ")".toList⟩, eofToken] =
      .ok (.binary "+".toList (.variable "a".toList) (.variable "b".toList), [eofToken]) :=
  ((parse_parenthesised 10
    [⟨OPEN_PAREN, "(".toList⟩, ⟨IDENTIFIER, "a".toList⟩, ⟨PLUS, "+".toList⟩,
      ⟨IDENTIFIER, "b".toList⟩, ⟨CLOSE_PAREN, ")".toList⟩]
    (.binary "+".toList (.variable "a".toList) (.variable "b".toList))
    ⟨OPEN_PAREN, "(".toList⟩ ⟨CLOSE_PAREN, ")".toList⟩ rfl rfl
    (((parse_parenthesised 6
      [⟨IDENTIFIER, "a".toList⟩, ⟨PLUS, "+".toList⟩, ⟨IDENTIFIER, "b".toList⟩]
      (.binary "+".toList (.variable "a".toList) (.variable "b".toList))
      ⟨OPEN_PAREN, "(".toList⟩ ⟨CLOSE_PAREN, ")".toList⟩ rfl rfl (by decide)).1 10
        (by decide)).1)).1 14 (by decide)).1

open TokenType

/-! ## Declarations and assignments (Scenario F) -/

/-- With enough fuel the result of `parseExpression` does not depend on the fuel. -/
theorem parseExpression_fuel_eq (n m : Nat) (ts : List Token) (hn : 8 * ts.length + 3 ≤ n)
    (hm : 8 * ts.length + 3 ≤ m) : parseExpression n ts = parseExpression m ts := by
  have h1 : parseExpression (max n m) ts = parseExpression n ts :=
    fuel_mono_of_step (fun i => parseExpression i ts) (fun i => parseExpression_mono i ts)
      (le_max_left n m) (parseExpression_ne_outOfFuel n ts hn)
  have h2 : parseExpression (max n m) ts = parseExpression m ts :=
    fuel_mono_of_step (fun i => parseExpression i ts) (fun i => parseExpression_mono i ts)
      (le_max_right n m) (parseExpression_ne_outOfFuel m ts hm)
  rw [← h1, h2]

/-- With enough fuel the result of the top-level loop does not depend on the fuel. -/
theorem parseLoop_fuel_eq (n m : Nat) (ts : List Token) (hn : 8 * ts.length + 6 ≤ n)
    (hm : 8 * ts.length + 6 ≤ m) : parseLoop n ts = parseLoop m ts := by
  have h1 : parseLoop (max n m) ts = parseLoop n ts :=
    fuel_mono_of_step (fun i => parseLoop i ts) (fun i => parseLoop_mono i ts)
      (le_max_left n m) (parseLoop_ne_outOfFuel n ts hn)
  have h2 : parseLoop (max n m) ts = parseLoop m ts :=
    fuel_mono_of_step (fun i => parseLoop i ts) (fun i => parseLoop_mono i ts)
      (le_max_right n m) (parseLoop_ne_outOfFuel m ts hm)
  rw [← h1, h2]

/-- The text of a program that starts with an initialised declaration is that of the
program that starts with the assignment of the same expression to the same name. -/
theorem generate_varDecl_some (ty v : Str) (e : ExprAST) (p : ProgramAST) :
    generate (.varDecl ty v (some e) :: p) = generate (.assignment v e :: p) := by
  simp only [generate, bodyToPy, toPython, varDeclToPy, assignToPy]

/-- A program `ty v = ...` and the program `v = ...` on the same tokens `ts` behind
the `=`: the parser stops or goes on in the same way, and the texts generated are
the same. -/
theorem parseLoop_decl_assign (n m : Nat) (ty v eq : Token) (ts : List Token)
    (hty : ty.type = KEYWORD_INT ∨ ty.type = KEYWORD_FLOAT) (hv : v.type = IDENTIFIER)
    (heq : eq.type = EQUALS) (hn : 8 * ts.length + 6 ≤ n) (hm : 8 * ts.length + 6 ≤ m) :
    ((parseLoop (n + 1 + 1 + 1) (ty :: v :: eq :: ts)).bind fun p => .ok (generate p)) =
      (parseLoop (m + 1 + 1 + 1) (v :: eq :: ts)).bind fun p => .ok (generate p) := by
  have hty1 : ty.type ≠ END_OF_FILE := by rcases hty with h | h <;> rw [h] <;> decide
  have hv1 : v.type ≠ END_OF_FILE := by rw [hv]; decide
  have hstmt : parseStatement (n + 1 + 1) (ty :: v :: eq :: ts) =
      parseVariableDeclaration (n + 1) (ty :: v :: eq :: ts) := by
    rw [parseStatement]
    rcases hty with h | h <;> rw [h]
  have hstmt2 : parseStatement (m + 1 + 1) (v :: eq :: ts) =
      parseAssignmentStatement (m + 1) (v :: eq :: ts) := by
    rw [parseStatement, hv]
  rw [parseLoop, if_pos hty1, hstmt, parseLoop, if_pos hv1, hstmt2]
  simp only [parseVariableDeclaration, parseAssignmentStatement, advance, List.tail_cons,
    consume, if_pos hv, if_pos heq, Res.bind_ok]
  rw [parseExpression_fuel_eq (n + 1) (m + 1) ts (by omega) (by omega)]
  have hsuf := parseExpression_suffix (m + 1) ts
  cases hr : parseExpression (m + 1) ts with
  | ok r =>
    obtain ⟨e, rs⟩ := r
    have hlen : rs.length ≤ ts.length := (hsuf _ hr).length_le
    cases rs with
    | nil => rfl
    | cons s rest =>
      simp only [List.length_cons] at hlen
      by_cases hs : s.type = SEMICOLON
      · simp only [Res.bind_ok, if_pos hs, List.tail_cons]
        rw [parseLoop_fuel_eq (n + 1 + 1) (m + 1 + 1) rest (by omega) (by omega)]
        cases parseLoop (m + 1 + 1) rest with
        | ok p => simp only [Res.bind_ok, generate_varDecl_some]
        | error msg => rfl
        | outOfBounds => rfl
        | outOfFuel => rfl
      · simp only [Res.bind_ok, if_neg hs]
        rfl
  | error msg => rfl
  | outOfBounds => rfl
  | outOfFuel => rfl

theorem lex_declaration (w v : Str) (k : TokenType) (hw : isIdentifierText w = true)
    (hkw : keywords w = some k) (hv : isIdentifierText v = true) (hk : keywords v = none) :
    lex (w ++ " ".toList ++ v ++ ";".toList) =
      [⟨k, w⟩, ⟨IDENTIFIER, v⟩, ⟨SEMICOLON, ";".toList⟩, ⟨END_OF_FILE, []⟩] := by
  simp only [String.toList, List.append_assoc, List.cons_append, List.nil_append]
  rw [lex_keyword_blank w _ hw, hkw, lex_word_then v ';' [] hv rfl, hk, lex_semicolon, lex_nil]
  rfl

theorem lex_assignment (v X : Str) (hv : isIdentifierText v = true) (hk : keywords v = none) :
    lex (v ++ " = ".toList ++ X ++ ";".toList) =
      ⟨IDENTIFIER, v⟩ :: ⟨EQUALS, "=".toList⟩ :: lex (X ++ ";".toList) := by
  simp only [String.toList, List.append_assoc, List.cons_append, List.nil_append]
  rw [lex_keyword_blank v _ hv, hk, lex_equals_blank]
  rfl

theorem lex_initialised (w v X : Str) (k : TokenType) (hw : isIdentifierText w = true)
    (hkw : keywords w = some k) (hv : isIdentifierText v = true) (hk : keywords v = none) :
    lex (w ++ " ".toList ++ v ++ " = ".toList ++ X ++ ";".toList) =
      ⟨k, w⟩ :: ⟨IDENTIFIER, v⟩ :: ⟨EQUALS, "=".toList⟩ :: lex (X ++ ";".toList) := by
  have h := lex_assignment v X hv hk
  simp only [String.toList, List.append_assoc, List.cons_append, List.nil_append] at h ⊢
  rw [lex_keyword_blank w _ hw, hkw, h]
  rfl

theorem translate_uninitialised (w v : Str) (k : TokenType) (hw : isIdentifierText w = true)
    (hkw : keywords w = some k) (hty : k = KEYWORD_INT ∨ k = KEYWORD_FLOAT)
    (hv : isIdentifierText v = true) (hk : keywords v = none) :
    translate (w ++ " ".toList ++ v ++ ";".toList) = .ok (v ++ " = None\n".toList) := by
  unfold translate
  rw [tokenize_eq_some, lex_declaration w v k hw hkw hv hk]
  rcases hty with rfl | rfl <;>
    simp [parse, parseFuel, parseLoop, parseStatement, parseVariableDeclaration, consume,
      advance, generate, bodyToPy, toPython, varDeclToPy, indent]

theorem translate_initialised (w v X : Str) (k : TokenType) (hw : isIdentifierText w = true)
    (hkw : keywords w = some k) (hty : k = KEYWORD_INT ∨ k = KEYWORD_FLOAT)
    (hv : isIdentifierText v = true) (hk : keywords v = none) :
    translate (w ++ " ".toList ++ v ++ " = ".toList ++ X ++ ";".toList) =
      translate (v ++ " = ".toList ++ X ++ ";".toList) := by
  unfold translate
  rw [tokenize_eq_some, tokenize_eq_some, lex_initialised w v X k hw hkw hv hk,
    lex_assignment v X hv hk]
  have e1 : parseFuel (⟨k, w⟩ :: ⟨IDENTIFIER, v⟩ :: ⟨EQUALS, "=".toList⟩ ::
      lex (X ++ ";".toList)) = 8 * (lex (X ++ ";".toList)).length + 37 + 1 + 1 + 1 := by
    simp only [parseFuel, List.length_cons]; omega
  have e2 : parseFuel (⟨IDENTIFIER, v⟩ :: ⟨EQUALS, "=".toList⟩ :: lex (X ++ ";".toList)) =
      8 * (lex (X ++ ";".toList)).length + 29 + 1 + 1 + 1 := by
    simp only [parseFuel, List.length_cons]; omega
  simp only [parse, e1, e2]
  exact parseLoop_decl_assign _ _ ⟨k, w⟩ ⟨IDENTIFIER, v⟩ ⟨EQUALS, "=".toList⟩ _ hty rfl rfl
    (by omega) (by omega)

/-- The translation of `v = X;` when the tokens of `X;` are an expression followed by
the semicolon. -/
theorem translate_assignment_expr (v X : Str) (hv : isIdentifierText v = true)
    (hk : keywords v = none) (e : ExprAST) (n : Nat)
    (h : parseExpression n (lex (X ++ ";".toList)) =
      .ok (e, [⟨SEMICOLON, ";".toList⟩, eofToken])) :
    translate (v ++ " = ".toList ++ X ++ ";".toList) =
      .ok (v ++ " = ".toList ++ e.toPython ++ "\n".toList) := by
  unfold translate
  rw [tokenize_eq_some, lex_assignment v X hv hk]
  have e2 : parseFuel (⟨IDENTIFIER, v⟩ :: ⟨EQUALS, "=".toList⟩ :: lex (X ++ ";".toList)) =
      8 * (lex (X ++ ";".toList)).length + 29 + 1 + 1 + 1 := by
    simp only [parseFuel, List.length_cons]; omega
  have h1 := parseExpression_fuel n (8 * (lex (X ++ ";".toList)).length + 29 + 1) _ _ h
    (by omega)
  simp only [parse, e2]
  rw [parseLoop, if_pos (show TokenType.IDENTIFIER ≠ END_OF_FILE by decide), parseStatement]
  simp only [parseAssignmentStatement, advance, List.tail_cons, consume, if_pos, h1,
    Res.bind_ok, eofToken]
  simp [parseLoop, Res.bind_ok, generate, bodyToPy, toPython, assignToPy, indent]

/-- C24: declarations, Scenario F. For every identifier `v` that is not a keyword,
the translations of `int v;` and of `float v;` are both `v = None` and a newline;
and for every text `X` in the place of the initialiser, `int v = X;` and
`float v = X;` are translated to what the assignment `v = X;` is translated to,
which is `v = ` and the text of `e` when the tokens of `X` are the expression `e`:
the declared type does not reach the output. -/
theorem translate_declaration (v X : Str) (hv : isIdentifierText v = true)
    (hk : keywords v = none) :
    translate ("int ".toList ++ v ++ ";".toList) = .ok (v ++ " = None\n".toList) ∧
      translate ("float ".toList ++ v ++ ";".toList) = .ok (v ++ " = None\n".toList) ∧
      translate ("int ".toList ++ v ++ " = ".toList ++ X ++ ";".toList) =
        translate (v ++ " = ".toList ++ X ++ ";".toList) ∧
      translate ("float ".toList ++ v ++ " = ".toList ++ X ++ ";".toList) =
        translate (v ++ " = ".toList ++ X ++ ";".toList) ∧
      (∀ e n, parseExpression n (lex (X ++ ";".toList)) =
          .ok (e, [⟨SEMICOLON, ";".toList⟩, eofToken]) →
        translate (v ++ " = ".toList ++ X ++ ";".toList) =
          .ok (v ++ " = ".toList ++ e.toPython ++ "\n".toList)) :=
  ⟨translate_uninitialised "int".toList v KEYWORD_INT rfl rfl (Or.inl rfl) hv hk,
    translate_uninitialised "float".toList v KEYWORD_FLOAT rfl rfl (Or.inr rfl) hv hk,
    translate_initialised "int".toList v X KEYWORD_INT rfl rfl (Or.inl rfl) hv hk,
    translate_initialised "float".toList v X KEYWORD_FLOAT rfl rfl (Or.inr rfl) hv hk,
    translate_assignment_expr v X hv hk⟩

theorem translate_declaration_witness :
    translate "int y;".toList = .ok "y = None\n".toList ∧
      translate "float y;".toList = .ok "y = None\n".toList ∧
      translate "int y = a + 2 * b;".toList = translate "y = a + 2 * b;".toList ∧
      translate "float y = a + 2 * b;".toList = translate "y = a + 2 * b;".toList ∧
      translate "y = a + 2 * b;".toList = .ok "y = (a+(2*b))\n".toList :=
  ⟨(translate_declaration "y".toList "a + 2 * b".toList (by decide) (by decide)).1,
    (translate_declaration "y".toList "a + 2 * b".toList (by decide) (by decide)).2.1,
    (translate_declaration "y".toList "a + 2 * b".toList (by decide) (by decide)).2.2.1,
    (translate_declaration "y".toList "a + 2 * b".toList (by decide) (by decide)).2.2.2.1,
    (translate_declaration "y".toList "a + 2 * b".toList (by decide) (by decide)).2.2.2.2
      (.binary "+".toList (.variable "a".toList)
        (.binary "*".toList (.number "2".toList) (.variable "b".toList))) 8 (by decide)⟩

end CppToPython
